import Mathlib

/-!
# rDSN replication core: the mutation log, the learning state machine and the remote copy

A shallow embedding of `src/apps/replication/lib/mutation_log.cpp`, of
`src/apps/replication/lib/replica_learn.cpp` and of the chunking of a remote copy in
`src/tools/common/nfs_client_impl.cpp`.

* Bytes are natural numbers, buffers and file contents are lists of bytes.
* C++ integers are `Int`; conversions that can change a value (`static_cast<int>`,
  arithmetic in `size_t`, `uint32_t`) are written as explicit casts.  Offsets (`int64_t`)
  and segment indices are added without wrap-around: overflowing them is undefined
  behaviour in the source.
* `dassert` aborts the process.  A function that can hit a failing `dassert` returns an
  `Option`, and `none` is the abort.
* Shared pointers to segments (`_current_log_file`, `_last_log_file`) are keys into
  `_log_files`; the disk is the field `fs`.
* Asynchronous writes are taken at issue time: a write that was issued has reached the file.
-/

namespace rDSN

/-! ## Machine integers and little-endian bytes -/

/-- Conversion to a 32-bit `int`, as `static_cast<int>` does. -/
def int_cast (x : Int) : Int := (x + 2147483648) % 4294967296 - 2147483648

/-- Conversion to `int64_t`. -/
def int64_cast (x : Int) : Int :=
  (x + 9223372036854775808) % 18446744073709551616 - 9223372036854775808

/-- Conversion to `uint32_t`. -/
def uint32_cast (x : Int) : Int := x % 4294967296

/-- Conversion to `size_t` (64 bits). -/
def size_t_cast (x : Int) : Int := x % 18446744073709551616

/-- The values of a 32-bit `int`. -/
def is_int32 (x : Int) : Prop := -2147483648 ≤ x ∧ x < 2147483648

/-- The values of an `int64_t`. -/
def is_int64 (x : Int) : Prop := -9223372036854775808 ≤ x ∧ x < 9223372036854775808

/-- The `n` low bytes of `x`, least significant first (`binary_writer::write_pod`). -/
def le_encode : Nat → Nat → List Nat
  | 0, _ => []
  | n + 1, x => (x % 256) :: le_encode n (x / 256)

/-- The number a list of bytes stands for, least significant first. -/
def le_decode : List Nat → Nat
  | [] => 0
  | b :: bs => b + 256 * le_decode bs

def write_uint32 (x : Int) : List Nat := le_encode 4 (uint32_cast x).toNat

def write_int32 (x : Int) : List Nat := le_encode 4 (uint32_cast x).toNat

def write_int64 (x : Int) : List Nat := le_encode 8 (size_t_cast x).toNat

/-- Modelled from the spec: `binary_reader::read` of the rDSN core (a cursor over a byte
buffer, spec section 9).  It hands out the next `n` bytes and the rest; reading past the
end of the buffer is a failed `dassert`, here `none`. -/
def read_bytes (n : Nat) (bs : List Nat) : Option (List Nat × List Nat) :=
  if n ≤ bs.length then some (bs.take n, bs.drop n) else none

def read_uint32 (bs : List Nat) : Option (Int × List Nat) :=
  (read_bytes 4 bs).map fun p => ((le_decode p.1 : Int), p.2)

def read_int32 (bs : List Nat) : Option (Int × List Nat) :=
  (read_bytes 4 bs).map fun p => (int_cast (le_decode p.1), p.2)

def read_int64 (bs : List Nat) : Option (Int × List Nat) :=
  (read_bytes 8 bs).map fun p => (int64_cast (le_decode p.1), p.2)

/-! ## Data model -/

inductive error_code where
  | ERR_OK
  | ERR_FILE_OPERATION_FAILED
  | ERR_OBJECT_NOT_FOUND
  | ERR_WRONG_CHECKSUM
  | ERR_INVALID_DATA
  | ERR_HANDLE_EOF
  | ERR_INVALID_STATE
  | ERR_GET_LEARN_STATE_FALED
  | ERR_LOCAL_APP_FAILURE
  deriving DecidableEq, Repr

open error_code

/-- Modelled from the spec: `global_partition_id`, declared in another file of the repository;
a pair of 32-bit integers written as a POD of 8 bytes. -/
structure global_partition_id where
  app_id : Int
  pidx : Int
  deriving DecidableEq, Repr

/-- Modelled from the spec: the order of `global_partition_id` keys in a `std::map`
(the comparison operator is declared in another file of the repository): lexicographic. -/
def gpid_lt (a b : global_partition_id) : Bool :=
  decide (a.app_id < b.app_id) || (decide (a.app_id = b.app_id) && decide (a.pidx < b.pidx))

def int_lt (a b : Int) : Bool := decide (a < b)

abbrev decree := Int

/-- Modelled from the spec: a mutation (spec section 3): header fields and an opaque body.
The length and checksum of the body belong to its serialized form. -/
structure mutation where
  gpid : global_partition_id
  decree : Int
  ballot : Int
  log_offset : Int
  body : List Nat
  deriving DecidableEq, Repr

/-! ### `std::map` as a list of entries in key order -/

/-- `m[k] = v`: insert, or overwrite the entry of an equal key. -/
def omap_insert {κ β : Type} (lt : κ → κ → Bool) (k : κ) (v : β) :
    List (κ × β) → List (κ × β)
  | [] => [(k, v)]
  | (k', v') :: rest =>
    if lt k k' then (k, v) :: (k', v') :: rest
    else if lt k' k then (k', v') :: omap_insert lt k v rest
    else (k, v) :: rest

/-- `m.find(k)`. -/
def omap_find {κ β : Type} [DecidableEq κ] (k : κ) : List (κ × β) → Option β
  | [] => none
  | (k', v') :: rest => if k' = k then some v' else omap_find k rest

/-- `m.erase(k)`. -/
def omap_erase {κ β : Type} [DecidableEq κ] (k : κ) (m : List (κ × β)) : List (κ × β) :=
  m.filter fun e => decide (e.1 ≠ k)

/-- The order invariant of a `std::map`: keys strictly ascending. -/
def omap_sorted {κ β : Type} (lt : κ → κ → Bool) (m : List (κ × β)) : Prop :=
  m.Pairwise fun a b => lt a.1 b.1 = true

abbrev multi_partition_decrees := List (global_partition_id × Int)

/-- Modelled from the spec: `log_header` (spec sections 3 and 6), a packed POD of 24 bytes:
`magic:u32, version:u32, start_global_offset:i64, log_buffer_size_bytes:i32,
max_staleness_for_commit:i32`. -/
structure log_header where
  magic : Int
  version : Int
  start_global_offset : Int
  log_buffer_size_bytes : Int
  max_staleness_for_commit : Int
  deriving DecidableEq, Repr

/-- The header after `memset(&_header, 0, sizeof(_header))`. -/
def log_header.zero : log_header := ⟨0, 0, 0, 0, 0⟩

def write_log_header (h : log_header) : List Nat :=
  write_uint32 h.magic ++ write_uint32 h.version ++ write_int64 h.start_global_offset
    ++ write_int32 h.log_buffer_size_bytes ++ write_int32 h.max_staleness_for_commit

def read_log_header (bs : List Nat) : Option (log_header × List Nat) :=
  match read_uint32 bs with
  | none => none
  | some (magic, r1) =>
    match read_uint32 r1 with
    | none => none
    | some (version, r2) =>
      match read_int64 r2 with
      | none => none
      | some (start, r3) =>
        match read_int32 r3 with
        | none => none
        | some (lbsb, r4) =>
          match read_int32 r4 with
          | none => none
          | some (stale, r5) => some (⟨magic, version, start, lbsb, stale⟩, r5)

def write_gpid (g : global_partition_id) : List Nat :=
  write_int32 g.app_id ++ write_int32 g.pidx

def read_gpid (bs : List Nat) : Option (global_partition_id × List Nat) :=
  match read_int32 bs with
  | none => none
  | some (a, r1) =>
    match read_int32 r1 with
    | none => none
    | some (p, r2) => some (⟨a, p⟩, r2)

/-- The parts of the rDSN core that `mutation_log.cpp` calls and that are outside the
sources at hand: the message envelope (`message_header`, `seal`, the two CRC checks) and the
serialization of a mutation.  They are parameters of the model.  Decoding a mutation moves
the reader forward. -/
structure core_codec where
  MSG_HDR_SERIALIZED_SIZE : Nat
  hdr_size_pos : 0 < MSG_HDR_SERIALIZED_SIZE
  /-- The envelope header `message::seal` writes in front of a body. -/
  seal_hdr : List Nat → List Nat
  seal_length : ∀ body, (seal_hdr body).length = MSG_HDR_SERIALIZED_SIZE
  /-- Is `message_header::is_right_header` true of these header bytes. -/
  is_right_header : List Nat → Bool
  /-- The `body_length` field of an unmarshalled header. -/
  body_length : List Nat → Nat
  /-- The check `message::is_right_body` of a body against its header. -/
  is_right_body : List Nat → List Nat → Bool
  /-- The bytes `mutation::write_to` appends. -/
  write_to : mutation → List Nat
  /-- The mutation `mutation::read_from` decodes and the number of bytes it consumes;
  `none` when it yields no mutation. -/
  read_from : List Nat → Option (mutation × Nat)
  read_from_pos : ∀ bs mu n, read_from bs = some (mu, n) → 0 < n ∧ n ≤ bs.length

/-- A message: the envelope header bytes, the body, and the unread part of the body. -/
structure message where
  hdr : List Nat
  body : List Nat
  reader : List Nat
  deriving DecidableEq, Repr

/-- The constructor `message(blob)` used when reading: header, then body. -/
def message.of_blob (c : core_codec) (bb : List Nat) : message :=
  ⟨bb.take c.MSG_HDR_SERIALIZED_SIZE, bb.drop c.MSG_HDR_SERIALIZED_SIZE,
    bb.drop c.MSG_HDR_SERIALIZED_SIZE⟩

/-- An empty request as `message::create_request` returns it: room for the header only. -/
def message.create_request (c : core_codec) : message :=
  ⟨List.replicate c.MSG_HDR_SERIALIZED_SIZE 0, [], []⟩

def message.total_size (c : core_codec) (m : message) : Int :=
  (c.MSG_HDR_SERIALIZED_SIZE : Int) + (m.body.length : Int)

/-- One segment of the log (`log_file`).  `rpos` is the position of the read handle;
`mutations` is a history variable: the mutations whose bytes were written to this
segment, in order.  No operation reads it. -/
structure log_file where
  path : List Char
  index : Int
  start_offset : Int
  end_offset : Int
  is_read : Bool
  handle_open : Bool
  header : log_header
  init_prepared_decrees : multi_partition_decrees
  rpos : Nat
  mutations : List mutation
  deriving DecidableEq, Repr

/-- What the environment decides during one operation: whether cancelling the flush timer
succeeds, whether issuing a file write yields a task, whether a file can be created, and
the result the asynchronous write reports to its callbacks. -/
structure io_env where
  cancel_ok : Bool
  issue_ok : Bool
  create_ok : Bool
  aio_err : error_code
  aio_size : Int
  deriving DecidableEq, Repr

/-- The state of a `mutation_log` together with the disk it works on. -/
structure mutation_log where
  log_buffer_size_bytes : Int
  log_pending_max_milliseconds : Int
  max_log_file_size_in_bytes : Int
  batch_write : Bool
  write_task_number : Int
  last_file_number : Int
  global_start_offset : Int
  global_end_offset : Int
  last_log_file : Option Int
  current_log_file : Option Int
  dir : List Char
  max_staleness_for_commit : Int
  log_files : List (Int × log_file)
  init_prepared_decrees : multi_partition_decrees
  pending_write : Option message
  pending_write_callbacks : Option (List Nat)
  pending_write_timer : Bool
  /-- History variable: the mutations serialized into the pending buffer. -/
  pending_mutations : List mutation
  /-- The files on disk: path and content. -/
  fs : List (List Char × List Nat)
  /-- The completions handed to callbacks so far: callback, error, size. -/
  notified : List (Nat × error_code × Int)
  deriving DecidableEq, Repr

/-! ## Strings, file names and the disk -/

/-- Modelled from the spec: `utils::get_last_component`, defined in another file of the
repository: what follows the last splitter character, the whole input when there is none. -/
def get_last_component (input : List Char) (splitters : List Char) : List Char :=
  (input.reverse.takeWhile fun c => !splitters.contains c).reverse

/-- `s.substr(pos, n)`. -/
def substr (s : List Char) (pos n : Nat) : List Char := (s.drop pos).take n

/-- The position of the first `c` in `s`, counted from `i`. -/
def find_from (c : Char) : List Char → Nat → Option Nat
  | [], _ => none
  | x :: xs, i => if x = c then some i else find_from c xs (i + 1)

/-- `s.find_first_of(c, start)`; `none` is `npos`. -/
def find_first_of (s : List Char) (c : Char) (start : Nat) : Option Nat :=
  find_from c (s.drop start) start

/-- The C function `isspace` in the C locale. -/
def is_space (c : Char) : Bool :=
  c.toNat == 32 || (decide (9 ≤ c.toNat) && decide (c.toNat ≤ 13))

def is_digit (c : Char) : Bool := decide (48 ≤ c.toNat) && decide (c.toNat ≤ 57)

/-- The value of the longest run of decimal digits at the head of `s`, after `acc`. -/
def parse_digits : List Char → Nat → Nat
  | [], acc => acc
  | c :: cs, acc => if is_digit c then parse_digits cs (10 * acc + (c.toNat - 48)) else acc

/-- The C function `strtol(s, NULL, 10)`: blanks, an optional sign, digits; out-of-range
values are clamped to the range of `long`. -/
def strtol (s : List Char) : Int :=
  let v : Int :=
    match s.dropWhile is_space with
    | [] => 0
    | c :: r =>
      if c.toNat = 45 then -(parse_digits r 0 : Int)
      else if c.toNat = 43 then (parse_digits r 0 : Int)
      else (parse_digits (c :: r) 0 : Int)
  max (-9223372036854775808) (min 9223372036854775807 v)

/-- The C function `atoi`, which is `(int) strtol(s, NULL, 10)`. -/
def atoi (s : List Char) : Int := int_cast (strtol s)

/-- The C function `atol`. -/
def atol (s : List Char) : Int := strtol s

def digit_char (d : Nat) : Char := Char.ofNat (48 + d)

def decimal_aux : Nat → Nat → List Char → List Char
  | 0, _, acc => acc
  | fuel + 1, n, acc =>
    if n < 10 then digit_char n :: acc
    else decimal_aux fuel (n / 10) (digit_char (n % 10) :: acc)

/-- The decimal digits of `n`, as `%u` prints them. -/
def decimal (n : Nat) : List Char := decimal_aux (n + 1) n []

/-- The text `%lld` prints. -/
def signed_decimal (x : Int) : List Char :=
  if x < 0 then '-' :: decimal (-x).toNat else decimal x.toNat

abbrev disk := List (List Char × List Nat)

def fs_find (fs : disk) (path : List Char) : Option (List Nat) := omap_find path fs

/-- Opening with `O_CREAT`: an existing file keeps its content. -/
def fs_create (fs : disk) (path : List Char) : disk :=
  match fs_find fs path with
  | some _ => fs
  | none => fs ++ [(path, [])]

def fs_remove (fs : disk) (path : List Char) : disk := omap_erase path fs

/-- The content of a file after writing `data` at position `pos`. -/
def write_at (content : List Nat) (pos : Nat) (data : List Nat) : List Nat :=
  content.take pos ++ List.replicate (pos - content.length) 0 ++ data
    ++ content.drop (pos + data.length)

def fs_write (fs : disk) (path : List Char) (pos : Nat) (data : List Nat) : disk :=
  fs.map fun e => if e.1 = path then (e.1, write_at e.2 pos data) else e

/-- The name of `path` inside the directory `dir`, when `path` is an entry of `dir`. -/
def dir_entry_name (dir path : List Char) : Option (List Char) :=
  if (dir ++ ['/']).isPrefixOf path then
    let name := path.drop (dir.length + 1)
    if name ≠ [] ∧ ¬ name.contains '/' then some name else none
  else none

/-- The paths a `directory_iterator` over `dir` yields. -/
def list_dir (fs : disk) (dir : List Char) : List (List Char) :=
  (fs.map Prod.fst).filter fun p => (dir_entry_name dir p).isSome

/-! ## `log_file` -/

/-- The constructor `log_file::log_file`; `file_size` is the size of the file on disk,
which a read segment adds to its end offset. -/
def log_file.ctor (path : List Char) (handle_open : Bool) (index : Int) (startOffset : Int)
    (max_staleness_for_commit : Int) (isRead : Bool) (file_size : Int) : log_file :=
  { path := path
    index := index
    start_offset := startOffset
    end_offset := if isRead then startOffset + file_size else startOffset
    is_read := isRead
    handle_open := handle_open
    header := { log_header.zero with max_staleness_for_commit := max_staleness_for_commit }
    init_prepared_decrees := []
    rpos := 0
    mutations := [] }

/-- `log_file::opend_read`: a read segment for a file named `log.<index>.<start offset>`,
`none` for any other name. -/
def log_file.opend_read (fs : disk) (path : List Char) : Option log_file :=
  let name := get_last_component path ['\\', '/']
  if name.length < 4
      ∨ substr name 0 4 ≠ "log.".toList
      ∨ (name.length > 8 ∧ name.drop (name.length - 8) = ".removed".toList) then none
  else
    match find_first_of name '.' 0 with
    | none => none
    | some pos =>
      match find_first_of name '.' (pos + 1) with
      | none => none
      | some pos2 =>
        match fs_find fs path with
        | none => none
        | some content =>
          let index := atoi (substr name (pos + 1) (pos2 - pos - 1))
          let startOffset := atol (name.drop (pos2 + 1))
          some (log_file.ctor path true index startOffset 0 true content.length)

/-- The path `sprintf(path, "%s/log.%u.%lld", dir, index, startOffset)` builds. -/
def log_path (dir : List Char) (index : Int) (startOffset : Int) : List Char :=
  dir ++ "/log.".toList ++ decimal (uint32_cast index).toNat ++ ['.']
    ++ signed_decimal startOffset

/-- `log_file::create_write`: the new write segment and the disk with its file; `none`
when the file cannot be opened. -/
def log_file.create_write (fs : disk) (io : io_env) (dir : List Char) (index : Int)
    (startOffset : Int) (max_staleness_for_commit : Int) : Option (log_file × disk) :=
  let path := log_path dir index startOffset
  if io.create_ok then
    some (log_file.ctor path true index startOffset max_staleness_for_commit false 0,
      fs_create fs path)
  else none

/-- `log_file::close`. -/
def log_file.close (f : log_file) : log_file := { f with handle_open := false }

/-- The POSIX call `read(fd, buf, n)` on a regular file: the bytes from the position of the
handle, at most `n`; nothing from a closed handle. -/
def posix_read (fs : disk) (f : log_file) (n : Nat) : List Nat :=
  if f.handle_open then
    match fs_find fs f.path with
    | some content => (content.drop f.rpos).take n
    | none => []
  else []

/-- `log_file::read_next_log_entry`: the error code, the blob read and the segment with its
handle moved forward.  The `dassert (_is_read, "")` at its start is checked where `replay`
calls it. -/
def log_file.read_next_log_entry (c : core_codec) (fs : disk) (f : log_file) :
    error_code × List Nat × log_file :=
  let hdrBuffer := posix_read fs f c.MSG_HDR_SERIALIZED_SIZE
  let f1 := { f with rpos := f.rpos + hdrBuffer.length }
  if c.MSG_HDR_SERIALIZED_SIZE ≠ hdrBuffer.length then
    if hdrBuffer.length > 0 then (ERR_INVALID_DATA, [], f1) else (ERR_HANDLE_EOF, [], f1)
  else if ¬ c.is_right_header hdrBuffer then (ERR_INVALID_DATA, [], f1)
  else
    let body := posix_read fs f1 (c.body_length hdrBuffer)
    let f2 := { f1 with rpos := f1.rpos + body.length }
    if c.body_length hdrBuffer ≠ body.length then (ERR_INVALID_DATA, hdrBuffer ++ body, f2)
    else (ERR_OK, hdrBuffer ++ body, f2)

/-- `log_file::write_log_entry`: whether a task was returned, the segment and the disk;
`news` are the mutations serialized in `bb` (history only). -/
def log_file.write_log_entry (fs : disk) (io : io_env) (f : log_file) (bb : List Nat)
    (news : List mutation) (offset : Int) : Option (Bool × log_file × disk) :=
  if f.is_read then none
  else if offset ≠ f.end_offset then none
  else
    let f1 := { f with end_offset := offset + bb.length }
    if io.issue_ok then
      some (true, { f1 with mutations := f.mutations ++ news },
        fs_write fs f.path (offset - f.start_offset).toNat bb)
    else some (false, f1, fs)

/-- The loop of `read_header`: `n` entries read into the map. -/
def read_decrees : Nat → multi_partition_decrees → List Nat →
    Option (multi_partition_decrees × List Nat)
  | 0, m, bs => some (m, bs)
  | n + 1, m, bs =>
    match read_gpid bs with
    | none => none
    | some (g, r1) =>
      match read_int64 r1 with
      | none => none
      | some (d, r2) => read_decrees n (omap_insert gpid_lt g d m) r2

/-- `log_file::read_header`: the segment with its header and decree map filled in, the
message with its reader moved forward, and the returned byte count. -/
def log_file.read_header (f : log_file) (reader : message) :
    Option (log_file × message × Int) :=
  match read_log_header reader.reader with
  | none => none
  | some (h, r1) =>
    match read_int32 r1 with
    | none => none
    | some (count, r2) =>
      match read_decrees count.toNat f.init_prepared_decrees r2 with
      | none => none
      | some (m, r3) =>
        some ({ f with header := h, init_prepared_decrees := m },
          { reader with reader := r3 },
          int_cast (size_t_cast (24 + 4 + (8 + 8) * size_t_cast count)))

/-- The bytes of the decree map entries, in key order. -/
def write_decrees (m : multi_partition_decrees) : List Nat :=
  m.foldl (fun w e => w ++ write_gpid e.1 ++ write_int64 e.2) []

/-- `log_file::write_header`: the segment, the message with the header appended, and the
returned byte count. -/
def log_file.write_header (f : log_file) (writer : message)
    (initMaxDecrees : multi_partition_decrees) (bufferSizeBytes : Int) :
    log_file × message × Int :=
  let h : log_header :=
    { f.header with
      magic := 0xdeadbeef
      version := 0x1
      start_global_offset := f.start_offset
      log_buffer_size_bytes := bufferSizeBytes }
  let count : Int := int_cast initMaxDecrees.length
  let bytes := write_log_header h ++ write_int32 count ++ write_decrees initMaxDecrees
  ({ f with init_prepared_decrees := initMaxDecrees, header := h },
    { writer with body := writer.body ++ bytes },
    int_cast (size_t_cast (24 + 4 + (8 + 8) * size_t_cast count)))

/-! ## `mutation_log` -/

/-- The constructor `mutation_log::mutation_log` on a given disk. -/
def mutation_log.ctor (log_buffer_size_mb log_pending_max_ms max_log_file_mb : Int)
    (batch_write : Bool) (write_task_max_count : Int) (fs : disk) : mutation_log :=
  { log_buffer_size_bytes := uint32_cast (log_buffer_size_mb * 1024 * 1024)
    log_pending_max_milliseconds := log_pending_max_ms
    max_log_file_size_in_bytes := max_log_file_mb * 1024 * 1024
    batch_write := batch_write
    write_task_number := write_task_max_count
    last_file_number := 0
    global_start_offset := 0
    global_end_offset := 0
    last_log_file := none
    current_log_file := none
    dir := []
    max_staleness_for_commit := 0
    log_files := []
    init_prepared_decrees := []
    pending_write := none
    pending_write_callbacks := none
    pending_write_timer := false
    pending_mutations := []
    fs := fs
    notified := [] }

def mutation_log.start_offset (s : mutation_log) : Int := s.global_start_offset

def mutation_log.end_offset (s : mutation_log) : Int := s.global_end_offset

/-- The segment a pointer refers to. -/
def mutation_log.file (s : mutation_log) (k : Int) : Option log_file :=
  omap_find k s.log_files

/-- The segment map after an update of the segment `k` points to. -/
def set_file (k : Int) (f : log_file) (m : List (Int × log_file)) : List (Int × log_file) :=
  m.map fun e => if e.1 = k then (e.1, f) else e

/-- `mutation_log::reset`. -/
def mutation_log.reset (s : mutation_log) : mutation_log :=
  { s with
    last_file_number := 0
    global_start_offset := 0
    global_end_offset := 0
    last_log_file := none
    current_log_file := none
    log_files := [] }

/-- The first loop of `initialize`: every directory entry that opens as a read segment
is entered in the map; two entries with one index fail the `dassert`. -/
def load_log_files (fs : disk) : List (List Char) → List (Int × log_file) →
    Option (List (Int × log_file))
  | [], m => some m
  | fullPath :: rest, m =>
    match log_file.opend_read fs fullPath with
    | none => load_log_files fs rest m
    | some log =>
      if (omap_find log.index m).isSome then none
      else load_log_files fs rest (omap_insert int_lt log.index log m)

/-- The second loop of `initialize`: the indices must go up one by one. -/
def check_log_files : List (Int × log_file) → mutation_log → error_code × mutation_log
  | [], s => (ERR_OK, s)
  | (k, f) :: rest, s =>
    let s1 := { s with last_file_number := s.last_file_number + 1 }
    if s1.last_file_number ≠ k then (ERR_OBJECT_NOT_FOUND, s1)
    else check_log_files rest { s1 with global_end_offset := f.end_offset }

/-- `mutation_log::initialize`; `dir_ok` says whether the directory exists or could be
created. -/
def initialize_log (s : mutation_log) (dir : List Char) (dir_ok : Bool) :
    Option (error_code × mutation_log) :=
  if ¬ dir_ok then some (ERR_FILE_OPERATION_FAILED, s)
  else
    let s1 := { s with dir := dir, last_file_number := 0, log_files := [] }
    match load_log_files s1.fs (list_dir s1.fs dir) [] with
    | none => none
    | some files =>
      let s2 := { s1 with log_files := files }
      let s3 :=
        match files with
        | [] => s2
        | (k, f) :: _ =>
          { s2 with last_file_number := k - 1, global_start_offset := f.start_offset }
      some (check_log_files files s3)

/-- `mutation_log::create_new_pending_buffer`. -/
def mutation_log.create_new_pending_buffer (c : core_codec) (s : mutation_log) :
    Option mutation_log :=
  if s.pending_write.isSome then none
  else if s.pending_write_callbacks.isSome then none
  else if s.pending_write_timer then none
  else
    let pw := message.create_request c
    if pw.total_size c ≠ c.MSG_HDR_SERIALIZED_SIZE then none
    else
      some { s with
        pending_write := some pw
        pending_write_callbacks := some []
        pending_write_timer := s.batch_write
        global_end_offset := s.global_end_offset + c.MSG_HDR_SERIALIZED_SIZE }

/-- `mutation_log::create_new_log_file`.  The index and the start offset handed to
`create_write` are an `int` and an `int64_t`: a value outside these types can only come
from a signed overflow, which is undefined behaviour, and the model stops there. -/
def mutation_log.create_new_log_file (c : core_codec) (io : io_env) (s : mutation_log) :
    Option (error_code × mutation_log) :=
  let checked : Option mutation_log :=
    match s.current_log_file with
    | none => some s
    | some k =>
      match s.file k with
      | none => none
      | some cur =>
        if cur.end_offset = s.global_end_offset then some { s with last_log_file := some k }
        else none
  match checked with
  | none => none
  | some s1 =>
    if ¬ (-2147483648 ≤ s1.last_file_number + 1 ∧ s1.last_file_number + 1 < 2147483648
        ∧ -9223372036854775808 ≤ s1.global_end_offset
        ∧ s1.global_end_offset < 9223372036854775808) then none
    else
    match log_file.create_write s1.fs io s1.dir (s1.last_file_number + 1)
        s1.global_end_offset s1.max_staleness_for_commit with
    | none => some (ERR_FILE_OPERATION_FAILED, s1)
    | some (logFile, fs1) =>
      let n := s1.last_file_number + 1
      if (omap_find n s1.log_files).isSome then none
      else if logFile.end_offset ≠ logFile.start_offset then none
      else if s1.global_end_offset ≠ logFile.end_offset then none
      else
        let s2 := { s1 with
          last_file_number := n
          log_files := omap_insert int_lt n logFile s1.log_files
          fs := fs1
          current_log_file := some n }
        match s2.create_new_pending_buffer c with
        | none => none
        | some s3 =>
          match s3.pending_write with
          | none => none
          | some pw =>
            let r := logFile.write_header pw s3.init_prepared_decrees
              (int_cast s3.log_buffer_size_bytes)
            let s4 := { s3 with
              log_files := set_file n r.1 s3.log_files
              pending_write := some r.2.1
              global_end_offset := s3.global_end_offset + r.2.2 }
            if r.2.1.total_size c ≠ r.2.2 + c.MSG_HDR_SERIALIZED_SIZE then none
            else some (ERR_OK, s4)

/-- The assignment `_pending_write_timer = nullptr`. -/
def mutation_log.clear_timer (s : mutation_log) : mutation_log :=
  { s with pending_write_timer := false }

/-- `mutation_log::internal_write_callback`: every callback of the list is handed the
result. -/
def internal_write_callback (err : error_code) (size : Int) (callbacks : List Nat) :
    List (Nat × error_code × Int) :=
  callbacks.map fun cb => (cb, err, size)

/-- `mutation_log::write_pending_mutations`. -/
def mutation_log.write_pending_mutations (c : core_codec) (io : io_env) (s : mutation_log)
    (create_new_log_when_necessary : Bool) : Option (error_code × mutation_log) :=
  match s.pending_write, s.pending_write_callbacks with
  | some pw, some cbs =>
    if s.pending_write_timer then none
    else
      let bb := c.seal_hdr pw.body ++ pw.body
      let offset := s.end_offset - bb.length
      match s.current_log_file with
      | none => none
      | some k =>
        match s.file k with
        | none => none
        | some cur =>
          match cur.write_log_entry s.fs io bb s.pending_mutations offset with
          | none => none
          | some (aio, cur1, fs1) =>
            let s1 := { s with log_files := set_file k cur1 s.log_files, fs := fs1 }
            if ¬ aio then
              some (ERR_FILE_OPERATION_FAILED,
                { s1 with
                  notified := s1.notified
                    ++ internal_write_callback ERR_FILE_OPERATION_FAILED 0 cbs
                  pending_write := none
                  pending_write_callbacks := none
                  pending_write_timer := false
                  pending_mutations := [] })
            else if s1.global_end_offset ≠ cur1.end_offset then none
            else
              let s2 := { s1 with
                notified := s1.notified ++ internal_write_callback io.aio_err io.aio_size cbs
                pending_write := none
                pending_write_callbacks := none
                pending_write_timer := false
                pending_mutations := [] }
              if create_new_log_when_necessary
                  ∧ cur1.end_offset - cur1.start_offset ≥ s2.max_log_file_size_in_bytes then
                s2.create_new_log_file c io
              else some (ERR_OK, s2)
  | _, _ => none

/-- `mutation_log::internal_pending_write_timer`: the flush timer fires. -/
def mutation_log.internal_pending_write_timer (c : core_codec) (io : io_env)
    (s : mutation_log) : Option (error_code × mutation_log) :=
  if s.pending_write.isNone then none
  else if ¬ s.pending_write_timer then none
  else s.clear_timer.write_pending_mutations c io true

/-- `mutation_log::start_write_service`. -/
def mutation_log.start_write_service (c : core_codec) (io : io_env) (s : mutation_log)
    (initMaxDecrees : multi_partition_decrees) (max_staleness_for_commit : Int) :
    Option (error_code × mutation_log) :=
  let s1 := { s with
    init_prepared_decrees := initMaxDecrees
    max_staleness_for_commit := max_staleness_for_commit }
  if s1.current_log_file.isSome then none
  else s1.create_new_log_file c io

/-- The end of `close`: the current segment is closed and let go. -/
def mutation_log.close_current (s : mutation_log) : mutation_log :=
  match s.current_log_file with
  | none => s
  | some k =>
    match s.file k with
    | none => { s with current_log_file := none }
    | some cur =>
      { s with log_files := set_file k cur.close s.log_files, current_log_file := none }

/-- `mutation_log::close`.  Each element of `ios` is one turn of the loop that finds the
timer armed: the cancellation succeeds and the buffer is flushed, or the timer
callback runs first and the loop turns again.  `none` is an abort, or a schedule that
ends with the timer still armed. -/
def mutation_log.close (c : core_codec) : List io_env → mutation_log → Option mutation_log
  | [], s => if s.pending_write_timer then none else some s.close_current
  | io :: rest, s =>
    if s.pending_write_timer then
      if io.cancel_ok then
        match s.clear_timer.write_pending_mutations c io false with
        | none => none
        | some r => if r.2.pending_write_timer then none else some r.2.close_current
      else
        match s.internal_pending_write_timer c io with
        | none => none
        | some r => mutation_log.close c rest r.2
    else some s.close_current

/-- The first step of `append`: the decree of the mutation raises the entry of its
partition in `_init_prepared_decrees`, or makes one. -/
def bump_decree (m : multi_partition_decrees) (mu : mutation) : multi_partition_decrees :=
  match omap_find mu.gpid m with
  | some d => if d < mu.decree then omap_insert gpid_lt mu.gpid mu.decree m else m
  | none => omap_insert gpid_lt mu.gpid mu.decree m

/-- The end of `append`: flush at once without batching; with batching, flush when the
buffer has reached `total >= _log_buffer_size_bytes` and the timer could be cancelled. -/
def mutation_log.flush_after_append (c : core_codec) (io : io_env) (s3 : mutation_log)
    (mu1 : mutation) (total : Int) : Option (mutation × mutation_log) :=
  if ¬ s3.batch_write then
    Option.map (fun r : error_code × mutation_log => (mu1, r.2))
      (s3.write_pending_mutations c io true)
  else if uint32_cast total ≥ s3.log_buffer_size_bytes then
    if ¬ s3.pending_write_timer then none
    else if io.cancel_ok then
      Option.map (fun r : error_code × mutation_log => (mu1, r.2))
        (s3.clear_timer.write_pending_mutations c io true)
    else some (mu1, s3)
  else some (mu1, s3)

/-- `mutation_log::append`: the mutation with its log offset assigned, and the log. -/
def mutation_log.append (c : core_codec) (io : io_env) (s : mutation_log) (mu : mutation)
    (callback : Nat) : Option (mutation × mutation_log) :=
  if s.current_log_file.isNone then none
  else
    let s1 := { s with init_prepared_decrees := bump_decree s.init_prepared_decrees mu }
    let buffered : Option mutation_log :=
      if s1.pending_write.isNone then s1.create_new_pending_buffer c else some s1
    match buffered with
    | none => none
    | some s2 =>
      match s2.pending_write, s2.pending_write_callbacks with
      | some pw, some cbs =>
        let oldSz := pw.total_size c
        let mu1 := { mu with log_offset := s2.end_offset }
        let pw1 := { pw with body := pw.body ++ c.write_to mu1 }
        let s3 := { s2 with
          pending_write := some pw1
          global_end_offset := s2.global_end_offset + (pw1.total_size c - oldSz)
          pending_write_callbacks := some (cbs ++ [callback])
          pending_mutations := s2.pending_mutations ++ [mu1] }
        s3.flush_after_append c io mu1 (pw1.total_size c)
      | _, _ => none

/-- `mutation_log::on_partition_removed`. -/
def mutation_log.on_partition_removed (s : mutation_log) (gpid : global_partition_id) :
    mutation_log :=
  { s with init_prepared_decrees := omap_erase gpid s.init_prepared_decrees }

/-- The inner loop of `garbage_collection`: may the segments older than `log` go, as far
as the durable decrees tell. -/
def delete_older_files (durable_decrees : multi_partition_decrees) (log : log_file) : Bool :=
  durable_decrees.all fun e =>
    match omap_find e.1 log.init_prepared_decrees with
    | none => true
    | some initPrepareDecree => decide (e.2 ≥ initPrepareDecree)

/-- The first loop of `garbage_collection` over the segments in descending order: the
position of the iterator when the loop ends. -/
def gc_scan (durable_decrees : multi_partition_decrees) :
    List (Int × log_file) → List (Int × log_file)
  | [] => []
  | e :: rest =>
    if delete_older_files durable_decrees e.2 then e :: rest
    else gc_scan durable_decrees rest

/-- The segments the second loop of `garbage_collection` removes, in the order it removes
them. -/
def gc_victims (s : mutation_log) (durable_decrees : multi_partition_decrees) :
    List (Int × log_file) :=
  let files :=
    match s.current_log_file with
    | some k => omap_erase k s.log_files
    | none => s.log_files
  match gc_scan durable_decrees files.reverse with
  | [] => []
  | _ :: older => older

/-- `mutation_log::garbage_collection`: the count returned, and the log. -/
def mutation_log.garbage_collection (s : mutation_log)
    (durable_decrees : multi_partition_decrees) : Int × mutation_log :=
  let victims := gc_victims s durable_decrees
  (victims.length,
    victims.foldl
      (fun st e => { st with fs := fs_remove st.fs e.2.path
                             log_files := omap_erase e.1 st.log_files })
      s)

/-! ### The states between the steps of the write path -/

/-- The segment `create_new_log_file` creates, before its header is written. -/
def fresh_segment (s : mutation_log) : log_file :=
  log_file.ctor (log_path s.dir (s.last_file_number + 1) s.global_end_offset) true
    (s.last_file_number + 1) s.global_end_offset s.max_staleness_for_commit false 0

/-- The log after a successful `create_new_log_file`. -/
def with_new_segment (c : core_codec) (s : mutation_log) : mutation_log :=
  let n := s.last_file_number + 1
  let r := (fresh_segment s).write_header (message.create_request c) s.init_prepared_decrees
    (int_cast s.log_buffer_size_bytes)
  { s with
    last_log_file := match s.current_log_file with
      | some k => some k
      | none => s.last_log_file
    last_file_number := n
    log_files := set_file n r.1 (omap_insert int_lt n (fresh_segment s) s.log_files)
    fs := fs_create s.fs (log_path s.dir n s.global_end_offset)
    current_log_file := some n
    pending_write := some r.2.1
    pending_write_callbacks := some []
    pending_write_timer := s.batch_write
    global_end_offset := s.global_end_offset + c.MSG_HDR_SERIALIZED_SIZE + r.2.2 }

/-- The log after `write_pending_mutations` has handed the pending buffer of `pw` to the
current segment `cur` (under key `k`) and cleared it. -/
def after_flush (c : core_codec) (io : io_env) (s : mutation_log) (k : Int) (cur : log_file)
    (pw : message) (cbs : List Nat) : mutation_log :=
  { s with
    log_files := set_file k
      (if io.issue_ok then
        { cur with end_offset := s.global_end_offset
                   mutations := cur.mutations ++ s.pending_mutations }
       else { cur with end_offset := s.global_end_offset }) s.log_files
    fs := if io.issue_ok then
        fs_write s.fs cur.path (cur.end_offset - cur.start_offset).toNat
          (c.seal_hdr pw.body ++ pw.body)
      else s.fs
    notified := s.notified ++
      (if io.issue_ok then internal_write_callback io.aio_err io.aio_size cbs
       else internal_write_callback ERR_FILE_OPERATION_FAILED 0 cbs)
    pending_write := none
    pending_write_callbacks := none
    pending_write_timer := false
    pending_mutations := [] }

/-- The log when `append` has made sure there is a pending buffer. -/
def with_buffer (c : core_codec) (s : mutation_log) (mu : mutation) : mutation_log :=
  if s.pending_write.isNone then
    { s with
      init_prepared_decrees := bump_decree s.init_prepared_decrees mu
      pending_write := some (message.create_request c)
      pending_write_callbacks := some []
      pending_write_timer := s.batch_write
      global_end_offset := s.global_end_offset + c.MSG_HDR_SERIALIZED_SIZE }
  else { s with init_prepared_decrees := bump_decree s.init_prepared_decrees mu }

/-- The log when `append` has serialized the mutation into the pending buffer `pw`, before
it decides about a flush. -/
def with_appended (c : core_codec) (s : mutation_log) (mu : mutation) (callback : Nat)
    (pw : message) (cbs : List Nat) : mutation_log :=
  let s2 := with_buffer c s mu
  let mu1 := { mu with log_offset := s2.global_end_offset }
  { s2 with
    pending_write := some { pw with body := pw.body ++ c.write_to mu1 }
    global_end_offset := s2.global_end_offset + (c.write_to mu1).length
    pending_write_callbacks := some (cbs ++ [callback])
    pending_mutations := s2.pending_mutations ++ [mu1] }

/-! ### Well-formed segment maps -/

/-- The `n` indices from `lo` on. -/
def index_range (lo : Int) (n : Nat) : List Int :=
  (List.range n).map fun (i : Nat) => lo + (i : Int)

/-- The shape of the segment map in a running log: the keys are consecutive and end at
`_last_file_number`, every segment sits under its own index, and the current segment is
the one of highest index. -/
def segments_wf (s : mutation_log) : Prop :=
  (∃ n : Nat, s.log_files.map Prod.fst = index_range (s.last_file_number + 1 - n) n)
  ∧ (∀ e ∈ s.log_files, e.2.index = e.1)
  ∧ (∀ k, s.current_log_file = some k →
      k = s.last_file_number ∧ k ∈ s.log_files.map Prod.fst)

/-- Two states of one segment that differ at most in what reading changes: the position
and state of the handle, the header and the decree map read from the file. -/
def same_segment (f g : log_file) : Prop :=
  g.path = f.path ∧ g.index = f.index ∧ g.start_offset = f.start_offset
    ∧ g.end_offset = f.end_offset ∧ g.is_read = f.is_read ∧ g.mutations = f.mutations

/-- Two segment maps with the same keys and, under each key, the same segment up to what
reading changes. -/
def same_segments (m m' : List (Int × log_file)) : Prop :=
  List.Forall₂ (fun e e' => e'.1 = e.1 ∧ same_segment e.2 e'.2) m m'

/-- The state `check_log_files` returns when the indices go up one by one. -/
def checked_log (files : List (Int × log_file)) (s : mutation_log) : mutation_log :=
  { s with
    last_file_number := s.last_file_number + files.length
    global_end_offset :=
      match files.getLast? with
      | some e => e.2.end_offset
      | none => s.global_end_offset }

/-- The read segments `initialize` finds in a directory, in the order of the listing. -/
def recognised_segments (fs : disk) (dir : List Char) : List log_file :=
  (list_dir fs dir).filterMap (log_file.opend_read fs)

/-- A set of integers, given as a list, without a gap. -/
def contiguous (l : List Int) : Prop :=
  ∀ a ∈ l, ∀ b ∈ l, ∀ x : Int, a ≤ x → x ≤ b → x ∈ l

/-! ### What the decree maps know about the mutations written -/

/-- The decree map has an entry for the partition of the mutation, at least as high as
the decree of the mutation. -/
def covers (m : multi_partition_decrees) (mu : mutation) : Prop :=
  ∃ d, omap_find mu.gpid m = some d ∧ mu.decree ≤ d

/-- For the partition `g`: `_init_prepared_decrees` covers every mutation of `g` written to
a segment or waiting in the pending buffer, and the decree map in the header of a segment
covers every mutation of `g` written to a segment of lower index. -/
def coverage (g : global_partition_id) (s : mutation_log) : Prop :=
  (∀ e ∈ s.log_files, ∀ mu ∈ e.2.mutations, mu.gpid = g →
      covers s.init_prepared_decrees mu)
  ∧ (∀ mu ∈ s.pending_mutations, mu.gpid = g → covers s.init_prepared_decrees mu)
  ∧ (∀ e ∈ s.log_files, ∀ e' ∈ s.log_files, e.1 < e'.1 →
      ∀ mu ∈ e.2.mutations, mu.gpid = g → covers e'.2.init_prepared_decrees mu)

/-- No mutation has been written or buffered by this log object yet. -/
def no_mutations (s : mutation_log) : Prop :=
  (∀ e ∈ s.log_files, e.2.mutations = []) ∧ s.pending_mutations = []

/-! ### Replay -/

/-- How a loop of `replay` is left: it runs to its end with the error code `err` holds,
the function returns a code from inside the loop, or a `dassert` fails. -/
inductive loop_exit where
  | fallthrough (err : error_code)
  | ret (err : error_code)
  | abort
  deriving DecidableEq, Repr

/-- The progress of `replay`: the local variable `offset`, the mutations the callback was
invoked with, in order, and a history of the mutations `mutation::read_from` returned,
each with the value of `offset` at that moment. -/
structure replay_acc where
  offset : Int
  delivered : List mutation
  decoded : List (mutation × Int)
  deriving DecidableEq, Repr

/-- The loop `while (!msg->reader().is_eof())` of `replay`. -/
def replay_mutations (c : core_codec) :
    Nat → replay_acc → List Nat → loop_exit × replay_acc × List Nat
  | 0, a, reader => (loop_exit.abort, a, reader)
  | fuel + 1, a, reader =>
    if reader.isEmpty then (loop_exit.fallthrough ERR_OK, a, reader)
    else
      let oldSz : Int := reader.length
      match c.read_from reader with
      | none => (loop_exit.abort, a, reader)
      | some (mu, n) =>
        let reader1 := reader.drop n
        let a1 := { a with decoded := a.decoded ++ [(mu, a.offset)] }
        if mu.log_offset ≠ a.offset then
          (loop_exit.ret ERR_FILE_OPERATION_FAILED, a1, reader1)
        else
          replay_mutations c fuel
            { a1 with
              delivered := a.delivered ++ [mu]
              offset := a.offset + (oldSz - (reader1.length : Int)) }
            reader1

/-- The loop `while (true)` of `replay` over the records of one segment; `reader` is the
unread part of the record at hand. -/
def replay_entries (c : core_codec) (fs : disk) :
    Nat → log_file → replay_acc → List Nat → loop_exit × log_file × replay_acc
  | 0, log, a, _ => (loop_exit.abort, log, a)
  | fuel + 1, log, a, reader =>
    match replay_mutations c (reader.length + 1) a reader with
    | (loop_exit.fallthrough _, a1, _) =>
      let r := log.read_next_log_entry c fs
      if ¬ log.is_read then (loop_exit.abort, log, a1)
      else if r.1 ≠ ERR_OK then
        if r.1 = ERR_HANDLE_EOF then (loop_exit.fallthrough ERR_OK, r.2.2, a1)
        else (loop_exit.fallthrough r.1, r.2.2, a1)
      else
        let msg := message.of_blob c r.2.1
        let a2 := { a1 with offset := a1.offset + c.MSG_HDR_SERIALIZED_SIZE }
        if ¬ c.is_right_body msg.hdr msg.body then (loop_exit.ret ERR_WRONG_CHECKSUM, r.2.2, a2)
        else replay_entries c fs fuel r.2.2 a2 msg.reader
    | (e, a1, _) => (e, log, a1)

/-- The size of the file of a segment. -/
def file_size (fs : disk) (log : log_file) : Nat :=
  match fs_find fs log.path with
  | some content => content.length
  | none => 0

/-- The loop of `replay` over the segments in index order.  The result carries the
segments as the loop leaves them, `_last_log_file` and the progress. -/
def replay_files (c : core_codec) (fs : disk) :
    List (Int × log_file) → error_code → Option Int → replay_acc →
      loop_exit × List (Int × log_file) × Option Int × replay_acc
  | [], err, last, a => (loop_exit.fallthrough err, [], last, a)
  | (k, log) :: rest, _, last, a =>
    if log.start_offset ≠ a.offset then
      (loop_exit.ret ERR_FILE_OPERATION_FAILED, (k, log) :: rest, last, a)
    else
      let r := log.read_next_log_entry c fs
      if ¬ log.is_read then (loop_exit.abort, (k, log) :: rest, some k, a)
      else if r.1 ≠ ERR_OK then
        if r.1 = ERR_HANDLE_EOF then
          let t := replay_files c fs rest ERR_OK (some k) a
          (t.1, (k, r.2.2) :: t.2.1, t.2.2)
        else (loop_exit.fallthrough r.1, (k, r.2.2) :: rest, some k, a)
      else
        let msg := message.of_blob c r.2.1
        let a1 := { a with offset := a.offset + c.MSG_HDR_SERIALIZED_SIZE }
        if ¬ c.is_right_body msg.hdr msg.body then
          (loop_exit.ret ERR_WRONG_CHECKSUM, (k, r.2.2) :: rest, some k, a1)
        else
          match r.2.2.read_header msg with
          | none => (loop_exit.abort, (k, r.2.2) :: rest, some k, a1)
          | some (log1, msg1, len) =>
            match replay_entries c fs (file_size fs log + 1) log1
                { a1 with offset := a1.offset + len } msg1.reader with
            | (loop_exit.fallthrough err1, log2, a2) =>
              if err1 ≠ ERR_INVALID_DATA ∧ err1 ≠ ERR_OK then
                (loop_exit.fallthrough err1, (k, log2.close) :: rest, some k, a2)
              else
                let t := replay_files c fs rest err1 (some k) a2
                (t.1, (k, log2.close) :: t.2.1, t.2.2)
            | (e, log2, a2) => (e, (k, log2) :: rest, some k, a2)

/-- What a call of `replay` amounts to: the code returned (`none` when a `dassert`
failed), the mutations the callback was invoked with, in order, the history of the
decoded mutations, the value of `offset` when the loops were left, and the log. -/
structure replay_result where
  ret : Option error_code
  delivered : List mutation
  decoded : List (mutation × Int)
  offset : Int
  log : mutation_log
  deriving Repr

/-- `mutation_log::replay`. -/
def mutation_log.replay (c : core_codec) (s : mutation_log) : replay_result :=
  let t := replay_files c s.fs s.log_files ERR_OK s.last_log_file ⟨s.start_offset, [], []⟩
  let s1 := { s with log_files := t.2.1, last_log_file := t.2.2.1 }
  let a := t.2.2.2
  match t.1 with
  | loop_exit.ret e => ⟨some e, a.delivered, a.decoded, a.offset, s1⟩
  | loop_exit.abort => ⟨none, a.delivered, a.decoded, a.offset, s1⟩
  | loop_exit.fallthrough err =>
    if err = ERR_INVALID_DATA then
      match s1.last_log_file.bind s1.file with
      | none => ⟨none, a.delivered, a.decoded, a.offset, s1⟩
      | some last =>
        if a.offset + last.header.log_buffer_size_bytes ≥ s1.end_offset then
          ⟨some err, a.delivered, a.decoded, a.offset, { s1 with global_end_offset := a.offset }⟩
        else ⟨some err, a.delivered, a.decoded, a.offset, s1⟩
    else if err = ERR_OK then
      if s1.end_offset = a.offset then ⟨some err, a.delivered, a.decoded, a.offset, s1⟩
      else ⟨none, a.delivered, a.decoded, a.offset, s1⟩
    else ⟨some err, a.delivered, a.decoded, a.offset, s1⟩

/-! ### What `replay` decodes and delivers -/

/-- The decoded mutation records the running offset at which it was decoded. -/
def at_running_offset (p : mutation × Int) : Bool :=
  decide (p.1.log_offset = p.2)

/-- Every mutation decoded so far recorded the running offset and was delivered. -/
def acc_good (a : replay_acc) : Prop :=
  a.delivered = a.decoded.map Prod.fst ∧ ∀ p ∈ a.decoded, p.1.log_offset = p.2

/-- The progress when a loop of `replay` is left: all decoded mutations were good, or the
last one decoded was not, the loop returned `ERR_FILE_OPERATION_FAILED`, and the ones
before it were delivered. -/
def acc_inv (ex : loop_exit) (a : replay_acc) : Prop :=
  acc_good a
  ∨ (ex = loop_exit.ret ERR_FILE_OPERATION_FAILED
      ∧ ∃ pre p, a.decoded = pre ++ [p] ∧ (∀ q ∈ pre, q.1.log_offset = q.2)
          ∧ p.1.log_offset ≠ p.2 ∧ a.delivered = pre.map Prod.fst)

/-- The delivered mutations have strictly increasing `log_offset`, all below the running
offset. -/
def acc_increasing (a : replay_acc) : Prop :=
  (∀ mu ∈ a.delivered, mu.log_offset < a.offset)
  ∧ List.Pairwise (fun x y : mutation => x.log_offset < y.log_offset) a.delivered

/-- The byte count `read_header` returns for the first record of the segment, if it
returns one, is not negative. -/
def header_length_nonneg (c : core_codec) (fs : disk) (log : log_file) : Bool :=
  match (log.read_next_log_entry c fs).2.2.read_header
      (message.of_blob c (log.read_next_log_entry c fs).2.1) with
  | some r => decide (0 ≤ r.2.2)
  | none => true

/-- The byte count `read_header` returns for the first record of the segment, if it
returns one, is not larger than the number of bytes it has moved the reader forward. -/
def header_length_honest (c : core_codec) (fs : disk) (log : log_file) : Bool :=
  match (log.read_next_log_entry c fs).2.2.read_header
      (message.of_blob c (log.read_next_log_entry c fs).2.1) with
  | some r =>
    decide (r.2.2 + (r.2.1.reader.length : Int)
      ≤ ((message.of_blob c (log.read_next_log_entry c fs).2.1).reader.length : Int))
  | none => true

/-! ### Runs of the log -/

/-- The operations on a log.  `open_log` is the start of a process on the disk as it is:
a new `mutation_log` object and `initialize` on the directory. -/
inductive log_op where
  | open_log (log_buffer_size_mb log_pending_max_ms max_log_file_mb : Int)
      (batch_write : Bool) (write_task_max_count : Int) (dir : List Char)
  | replay
  | start_write_service (io : io_env) (initMaxDecrees : multi_partition_decrees)
      (max_staleness_for_commit : Int)
  | append (io : io_env) (mu : mutation) (callback : Nat)
  | timer (io : io_env)
  | on_partition_removed (gpid : global_partition_id)
  | garbage_collection (durable_decrees : multi_partition_decrees)
  | close (ios : List io_env)

/-- The log after one operation; `none` when the operation aborts, when `initialize` does
not return `ERR_OK`, or when `open_log` is asked for while the log is still open. -/
def apply_op (c : core_codec) (s : mutation_log) : log_op → Option mutation_log
  | log_op.open_log bmb pms fmb batch wt dir =>
    if s.current_log_file.isSome ∨ s.pending_write_timer then none
    else
      match initialize_log (mutation_log.ctor bmb pms fmb batch wt s.fs) dir true with
      | some (ERR_OK, s1) => some s1
      | _ => none
  | log_op.replay =>
    match (s.replay c).ret with
    | none => none
    | some _ => some (s.replay c).log
  | log_op.start_write_service io initMaxDecrees staleness =>
    (s.start_write_service c io initMaxDecrees staleness).map Prod.snd
  | log_op.append io mu callback => (s.append c io mu callback).map Prod.snd
  | log_op.timer io => (s.internal_pending_write_timer c io).map Prod.snd
  | log_op.on_partition_removed gpid => some (s.on_partition_removed gpid)
  | log_op.garbage_collection durable_decrees => some (s.garbage_collection durable_decrees).2
  | log_op.close ios => s.close c ios

/-- The log after a sequence of operations. -/
def run_ops (c : core_codec) : List log_op → mutation_log → Option mutation_log
  | [], s => some s
  | op :: ops, s =>
    match apply_op c s op with
    | none => none
    | some s1 => run_ops c ops s1

/-- The operations before the write service starts: opening the log and replaying it. -/
def is_read_op : log_op → Prop
  | log_op.open_log _ _ _ _ _ _ => True
  | log_op.replay => True
  | _ => False

/-- The operations of the write service that leave the partition `g` in place: appends,
timer flushes (with the rollovers both bring), garbage collections, and removals of
other partitions. -/
def is_write_op_keeping (g : global_partition_id) : log_op → Prop
  | log_op.append _ _ _ => True
  | log_op.timer _ => True
  | log_op.garbage_collection _ => True
  | log_op.on_partition_removed g' => g' ≠ g
  | _ => False

/-! ### Segments and their files -/

/-- The name of the segment's file parses to the key of the segment and its start offset:
the last component of the path is `log.`, a text without a dot that `atoi` reads as `k`, a
dot, and a rest that `atol` reads as the start offset, and it does not end in `.removed`. -/
def segment_named (k : Int) (f : log_file) : Prop :=
  ∃ a b, get_last_component f.path ['\\', '/'] = "log.".toList ++ a ++ '.' :: b
    ∧ '.' ∉ a ∧ ¬ (".removed".toList <:+ get_last_component f.path ['\\', '/'])
    ∧ atoi a = k ∧ atol b = f.start_offset

/-- Every segment of the map is named after its key and has a file on the disk. -/
def segments_on_disk (s : mutation_log) : Prop :=
  ∀ e ∈ s.log_files, segment_named e.1 e.2 ∧ fs_find s.fs e.2.path ≠ none
    ∧ e.2.start_offset ≤ e.2.end_offset

/-- The serialized form of the mutation is in the file of the segment, at the position
`log_offset - start_offset`, and ends before the end offset of the segment. -/
def placed (c : core_codec) (fs : disk) (f : log_file) (mu : mutation) : Prop :=
  f.start_offset ≤ mu.log_offset
  ∧ mu.log_offset + (c.write_to mu).length ≤ f.end_offset
  ∧ ∃ content, fs_find fs f.path = some content
      ∧ (content.drop (mu.log_offset - f.start_offset).toNat).take (c.write_to mu).length
          = c.write_to mu

/-- The mutations follow one another from the offset `o` on. -/
def laid_out (c : core_codec) : Int → List mutation → Prop
  | _, [] => True
  | o, mu :: rest => mu.log_offset = o ∧ laid_out c (o + (c.write_to mu).length) rest

/-- The pending buffer ends with the serialized pending mutations, and their offsets are
the offsets these bytes have when `_global_end_offset` is the end of the buffer. -/
def pending_layout (c : core_codec) (s : mutation_log) : Prop :=
  match s.pending_write with
  | none => s.pending_mutations = []
  | some pw =>
    ∃ pre, pw.body = pre ++ (s.pending_mutations.map c.write_to).flatten
      ∧ laid_out c
          (s.global_end_offset - ((s.pending_mutations.map c.write_to).flatten.length : Int))
          s.pending_mutations

/-- Every mutation written to a segment is placed in the file of the segment. -/
def mutations_placed (c : core_codec) (s : mutation_log) : Prop :=
  ∀ e ∈ s.log_files, ∀ mu ∈ e.2.mutations, placed c s.fs e.2 mu

/-- The state of the log and the disk that the write path keeps. -/
def disk_inv (c : core_codec) (s : mutation_log) : Prop :=
  segments_wf s ∧ segments_on_disk s ∧ pending_layout c s ∧ mutations_placed c s

/-- In the run every `replay` comes right after an `open_log` or another `replay`, as the
replica stub calls them; `ok` says whether a `replay` may come next. -/
def replays_follow_open : Bool → List log_op → Prop
  | _, [] => True
  | ok, log_op.replay :: ops => ok = true ∧ replays_follow_open true ops
  | _, log_op.open_log _ _ _ _ _ _ :: ops => replays_follow_open true ops
  | _, _ :: ops => replays_follow_open false ops

/-! ### Segments that meet -/

/-- Segments of consecutive indices meet: where the one ends the other starts. -/
def chained (s : mutation_log) : Prop :=
  ∀ e1 ∈ s.log_files, ∀ e2 ∈ s.log_files, e1.2.index + 1 = e2.2.index →
    e1.2.end_offset = e2.2.start_offset

/-- The file of every segment has the length the offsets of the segment give. -/
def files_sized (s : mutation_log) : Prop :=
  ∀ e ∈ s.log_files, ∃ content, fs_find s.fs e.2.path = some content
    ∧ (content.length : Int) = e.2.end_offset - e.2.start_offset

/-- Every file on the disk is the file of a segment of the map. -/
def files_known (s : mutation_log) : Prop :=
  ∀ p, fs_find s.fs p ≠ none → ∃ e ∈ s.log_files, e.2.path = p

/-- The file of every segment is an entry of the directory `d`. -/
def segments_in_dir (d : List Char) (s : mutation_log) : Prop :=
  ∀ e ∈ s.log_files, (dir_entry_name d e.2.path).isSome = true

/-- With no buffer pending, the segment of highest index ends at `_global_end_offset`. -/
def tip_meets (s : mutation_log) : Prop :=
  s.pending_write = none →
    ∀ e ∈ s.log_files, e.1 = s.last_file_number → e.2.end_offset = s.global_end_offset

/-- What holds of a log on a disk only it has written, in the directory `d`, when every
write was issued and no `replay` has rewound `_global_end_offset`. -/
def own_disk (c : core_codec) (d : List Char) (s : mutation_log) : Prop :=
  disk_inv c s ∧ files_sized s ∧ files_known s ∧ segments_in_dir d s ∧ chained s

/-- The same of a log that works on the directory `d`. -/
def chain_inv (c : core_codec) (d : List Char) (s : mutation_log) : Prop :=
  own_disk c d s ∧ tip_meets s ∧ s.dir = d

/-- The operation is one of a log that works on the directory `d`, issues every write and
does not rewind `_global_end_offset` in `replay`. -/
def steady_op (c : core_codec) (d : List Char) (s : mutation_log) : log_op → Bool
  | log_op.open_log _ _ _ _ _ dir => decide (dir = d)
  | log_op.replay => decide ((s.replay c).log.global_end_offset = s.global_end_offset)
  | log_op.append io _ _ => io.issue_ok
  | log_op.timer io => io.issue_ok
  | log_op.close ios => ios.all fun io => io.issue_ok
  | _ => true

/-- Every operation of the run is steady in the state in which it is applied. -/
def steady_run (c : core_codec) (d : List Char) : List log_op → mutation_log → Bool
  | [], _ => true
  | op :: ops, s =>
    steady_op c d s op &&
      match apply_op c s op with
      | none => true
      | some s1 => steady_run c d ops s1

/-! ### The offset bookkeeping of the write path -/

/-- The total size of the pending buffer, 0 when there is none. -/
def pending_size (c : core_codec) (s : mutation_log) : Int :=
  match s.pending_write with
  | some pw => pw.total_size c
  | none => 0

/-- The bookkeeping of a log in write mode: the segment map is well formed, there is a
current segment, opened for writing, and `_global_end_offset` is its end offset plus the
total size of the pending buffer; the callback list exists exactly when the buffer does,
and the timer is armed exactly when the log batches and a buffer exists. -/
def write_inv (c : core_codec) (s : mutation_log) : Prop :=
  segments_wf s
  ∧ (∃ k cur, s.current_log_file = some k ∧ s.file k = some cur ∧ cur.is_read = false
      ∧ s.global_end_offset = cur.end_offset + pending_size c s)
  ∧ s.pending_write.isSome = s.pending_write_callbacks.isSome
  ∧ s.pending_write_timer = (s.batch_write && s.pending_write.isSome)

/-- The numbers a rollover of the log would work with are within their types: the next
file number is an `int`, `_global_end_offset` an `int64_t`, and the byte count of the
header of the new segment, with one entry for each partition of `_init_prepared_decrees`,
an `int`. -/
def rollover_in_range (s : mutation_log) : Bool :=
  decide (-2147483648 ≤ s.last_file_number + 1) && decide (s.last_file_number + 1 < 2147483648)
    && decide (-9223372036854775808 ≤ s.global_end_offset)
    && decide (s.global_end_offset < 9223372036854775808)
    && decide (28 + 16 * (s.init_prepared_decrees.length : Int) < 2147483648)

/-- The operation is one of the write service in the state `s`: an append, or the flush
timer firing while it is armed; and the numbers a rollover at its end would work with are
within their types. -/
def write_op_ok (c : core_codec) (s : mutation_log) : log_op → Bool
  | log_op.append _ mu callback =>
    rollover_in_range (with_appended c s mu callback (message.create_request c) [])
  | log_op.timer _ => s.pending_write_timer && rollover_in_range s
  | _ => false

/-- Every operation of the run is one of the write service in the state in which it is
applied. -/
def write_run (c : core_codec) : List log_op → mutation_log → Bool
  | [], _ => true
  | op :: ops, s =>
    write_op_ok c s op &&
      match apply_op c s op with
      | none => true
      | some s1 => write_run c ops s1

/-! ## A concrete codec

An instance of the parameters, for evaluating the model on examples.  The envelope header
has 12 bytes: the body length, a checksum of the body (the sum of its bytes) and a check
of the two; a mutation is written as its header fields, the length of its body and the
body. -/

def sample_checksum (body : List Nat) : Nat := body.foldl (fun a b => a + b) 0 % 4294967296

def sample_hdr_check (len crc : Nat) : Nat := (len + 2 * crc + 7) % 4294967296

def sample_seal (body : List Nat) : List Nat :=
  le_encode 4 body.length ++ le_encode 4 (sample_checksum body)
    ++ le_encode 4 (sample_hdr_check (body.length % 4294967296) (sample_checksum body))

def sample_is_right_header (hdr : List Nat) : Bool :=
  le_decode ((hdr.drop 8).take 4)
    == sample_hdr_check (le_decode (hdr.take 4)) (le_decode ((hdr.drop 4).take 4))

def sample_body_length (hdr : List Nat) : Nat := le_decode (hdr.take 4)

def sample_is_right_body (hdr body : List Nat) : Bool :=
  le_decode ((hdr.drop 4).take 4) == sample_checksum body

def sample_write_to (mu : mutation) : List Nat :=
  write_gpid mu.gpid ++ write_int64 mu.decree ++ write_int64 mu.ballot
    ++ write_int64 mu.log_offset ++ le_encode 4 mu.body.length ++ mu.body

def sample_read_from (bs : List Nat) : Option (mutation × Nat) :=
  match read_gpid bs with
  | none => none
  | some (g, r1) =>
    match read_int64 r1 with
    | none => none
    | some (d, r2) =>
      match read_int64 r2 with
      | none => none
      | some (b, r3) =>
        match read_int64 r3 with
        | none => none
        | some (off, r4) =>
          match read_uint32 r4 with
          | none => none
          | some (len, r5) =>
            if len.toNat ≤ r5.length then
              some (⟨g, d, b, off, r5.take len.toNat⟩, 36 + len.toNat)
            else none

/-! ## Example runs -/

def sample_io : io_env := ⟨true, true, true, ERR_OK, 0⟩

def sample_mutation (d : Int) : mutation := ⟨⟨1, 0⟩, d, 1, 0, [7, 7]⟩

def no_log : mutation_log := mutation_log.ctor 0 0 0 false 0 []

theorem le_encode_length (n x : Nat) : (le_encode n x).length = n := by
  induction n generalizing x with
  | zero => rfl
  | succ n ih => simp [le_encode, ih]

theorem read_bytes_some {n : Nat} {bs a r : List Nat} (h : read_bytes n bs = some (a, r)) :
    n ≤ bs.length ∧ a = bs.take n ∧ r = bs.drop n := by
  unfold read_bytes at h
  split at h
  · simp only [Option.some.injEq, Prod.mk.injEq] at h
    exact ⟨by assumption, h.1.symm, h.2.symm⟩
  · simp at h

theorem read_uint32_some {bs r : List Nat} {v : Int} (h : read_uint32 bs = some (v, r)) :
    4 ≤ bs.length ∧ r = bs.drop 4 := by
  unfold read_uint32 at h
  cases hb : read_bytes 4 bs with
  | none => simp [hb] at h
  | some p =>
    obtain ⟨a, q⟩ := p
    have := read_bytes_some hb
    simp only [hb, Option.map_some', Option.some.injEq, Prod.mk.injEq] at h
    exact ⟨this.1, by rw [← h.2, this.2.2]⟩

theorem read_int32_some {bs r : List Nat} {v : Int} (h : read_int32 bs = some (v, r)) :
    4 ≤ bs.length ∧ r = bs.drop 4 := by
  unfold read_int32 at h
  cases hb : read_bytes 4 bs with
  | none => simp [hb] at h
  | some p =>
    obtain ⟨a, q⟩ := p
    have := read_bytes_some hb
    simp only [hb, Option.map_some', Option.some.injEq, Prod.mk.injEq] at h
    exact ⟨this.1, by rw [← h.2, this.2.2]⟩

theorem read_int64_some {bs r : List Nat} {v : Int} (h : read_int64 bs = some (v, r)) :
    8 ≤ bs.length ∧ r = bs.drop 8 := by
  unfold read_int64 at h
  cases hb : read_bytes 8 bs with
  | none => simp [hb] at h
  | some p =>
    obtain ⟨a, q⟩ := p
    have := read_bytes_some hb
    simp only [hb, Option.map_some', Option.some.injEq, Prod.mk.injEq] at h
    exact ⟨this.1, by rw [← h.2, this.2.2]⟩

theorem read_gpid_some {bs r : List Nat} {g : global_partition_id}
    (h : read_gpid bs = some (g, r)) : 8 ≤ bs.length ∧ r = bs.drop 8 := by
  unfold read_gpid at h
  cases h1 : read_int32 bs with
  | none => simp [h1] at h
  | some p1 =>
    obtain ⟨a, r1⟩ := p1
    cases h2 : read_int32 r1 with
    | none => simp [h1, h2] at h
    | some p2 =>
      obtain ⟨b, r2⟩ := p2
      simp only [h1, h2, Option.some.injEq, Prod.mk.injEq] at h
      have e1 := read_int32_some h1
      have e2 := read_int32_some h2
      have hl : r1.length = bs.length - 4 := by rw [e1.2]; simp
      refine ⟨by omega, ?_⟩
      rw [← h.2, e2.2, e1.2, List.drop_drop]

theorem sample_read_from_pos (bs : List Nat) (mu : mutation) (n : Nat)
    (h : sample_read_from bs = some (mu, n)) : 0 < n ∧ n ≤ bs.length := by
  unfold sample_read_from at h
  cases h1 : read_gpid bs with
  | none => simp [h1] at h
  | some p1 =>
    obtain ⟨g, r1⟩ := p1
    cases h2 : read_int64 r1 with
    | none => simp [h1, h2] at h
    | some p2 =>
      obtain ⟨d, r2⟩ := p2
      cases h3 : read_int64 r2 with
      | none => simp [h1, h2, h3] at h
      | some p3 =>
        obtain ⟨b, r3⟩ := p3
        cases h4 : read_int64 r3 with
        | none => simp [h1, h2, h3, h4] at h
        | some p4 =>
          obtain ⟨off, r4⟩ := p4
          cases h5 : read_uint32 r4 with
          | none => simp [h1, h2, h3, h4, h5] at h
          | some p5 =>
            obtain ⟨len, r5⟩ := p5
            simp only [h1, h2, h3, h4, h5] at h
            split at h
            · rename_i hle
              simp only [Option.some.injEq, Prod.mk.injEq] at h
              have e1 := read_gpid_some h1
              have e2 := read_int64_some h2
              have e3 := read_int64_some h3
              have e4 := read_int64_some h4
              have e5 := read_uint32_some h5
              have l1 : r1.length = bs.length - 8 := by rw [e1.2]; simp
              have l2 : r2.length = r1.length - 8 := by rw [e2.2]; simp
              have l3 : r3.length = r2.length - 8 := by rw [e3.2]; simp
              have l4 : r4.length = r3.length - 8 := by rw [e4.2]; simp
              have l5 : r5.length = r4.length - 4 := by rw [e5.2]; simp
              omega
            · simp at h

/-- The concrete codec as an instance of the parameters. -/
def sample_codec : core_codec :=
  { MSG_HDR_SERIALIZED_SIZE := 12
    hdr_size_pos := by decide
    seal_hdr := sample_seal
    seal_length := fun body => by simp [sample_seal, le_encode_length]
    is_right_header := sample_is_right_header
    body_length := sample_body_length
    is_right_body := sample_is_right_body
    write_to := sample_write_to
    read_from := sample_read_from
    read_from_pos := sample_read_from_pos }

/-- A run without batching and with `max_log_file_mb = 0`, so that every flush rolls over:
three segments whose `init_prepared_decrees` for the partition (1,0) are 1, 100 and 200,
the third being the current one. -/
def gc_example_ops : List log_op :=
  [log_op.open_log 1 100 0 false 2 "d".toList,
   log_op.start_write_service sample_io [(⟨1, 0⟩, 1)] 0,
   log_op.append sample_io (sample_mutation 100) 1,
   log_op.append sample_io (sample_mutation 200) 2]

def gc_example_log : mutation_log :=
  (run_ops sample_codec gc_example_ops (mutation_log.ctor 1 100 0 false 2 [])).getD no_log

/-- A run without batching and with `max_log_file_mb = 0`: a mutation of the partition
(1,0) with decree 50 goes to segment 1, the partition is removed, and two mutations of the
partition (2,0) go to the segments 2 and 3; segment 4 is the current one. -/
def removed_partition_ops : List log_op :=
  [log_op.open_log 1 100 0 false 2 "d".toList,
   log_op.start_write_service sample_io [] 0,
   log_op.append sample_io (sample_mutation 50) 1,
   log_op.on_partition_removed ⟨1, 0⟩,
   log_op.append sample_io ⟨⟨2, 0⟩, 1, 1, 0, [7]⟩ 2,
   log_op.append sample_io ⟨⟨2, 0⟩, 2, 1, 0, [7]⟩ 3]

def removed_partition_log : mutation_log :=
  (run_ops sample_codec removed_partition_ops (mutation_log.ctor 1 100 0 false 2 [])).getD
    no_log

/-- The run of the round trip up to `close`: a log on the empty directory `d`, the write
service started and the mutations appended. -/
def round_trip_ops (batch : Bool) (max_log_file_mb : Int) (mus : List mutation) :
    List log_op :=
  log_op.open_log 1 100 max_log_file_mb batch 2 "d".toList
    :: log_op.start_write_service sample_io [] 0
    :: mus.map fun mu => log_op.append sample_io mu 0

/-- The log just before `close`. -/
def before_close (batch : Bool) (max_log_file_mb : Int) (mus : List mutation) :
    mutation_log :=
  (run_ops sample_codec (round_trip_ops batch max_log_file_mb mus)
    (mutation_log.ctor 1 100 max_log_file_mb batch 2 [])).getD no_log

/-- The log after `close` and a fresh `initialize` on the same directory. -/
def reopened (batch : Bool) (max_log_file_mb : Int) (mus : List mutation) : mutation_log :=
  (run_ops sample_codec
    [log_op.close [sample_io], log_op.open_log 1 100 max_log_file_mb batch 2 "d".toList]
    (before_close batch max_log_file_mb mus)).getD no_log

/-- The bytes of a record of the sample codec: the sealed header and the body. -/
def sample_record (body : List Nat) : List Nat := sample_seal body ++ body

/-- The body of the first record of a segment: the segment header with the decree count
`count` and no decree entry, then the mutations. -/
def sample_first_body (start count : Int) (mus : List mutation) : List Nat :=
  write_log_header ⟨0xdeadbeef, 1, start, 1048576, 0⟩ ++ write_int32 count
    ++ (mus.map sample_write_to).flatten

/-- A directory with two segments; the header of the second one has the decree count -10,
for which `read_header` returns the byte count -132, and its mutation records the offset
78 + 12 - 132 = -42.  One stray byte ends the second file. -/
def negative_count_disk : disk :=
  [("d/log.1.0".toList,
      sample_record (sample_first_body 0 0 [{ sample_mutation 1 with log_offset := 40 }])),
   ("d/log.2.78".toList,
      sample_record (sample_first_body 78 (-10)
        [{ sample_mutation 2 with log_offset := -42 }]) ++ [0])]

/-- The log `initialize` makes of that directory. -/
def negative_count_log : mutation_log :=
  (apply_op sample_codec (mutation_log.ctor 1 100 1 false 2 negative_count_disk)
    (log_op.open_log 1 100 1 false 2 "d".toList)).getD no_log

/-- A directory with one segment: two good records, the first with the segment header and
a mutation at offset 40, the second with a mutation at offset 90, and three stray bytes
after them. -/
def corrupted_tail_disk : disk :=
  [("d/log.1.0".toList,
      sample_record (sample_first_body 0 0 [{ sample_mutation 1 with log_offset := 40 }])
        ++ sample_record (sample_write_to { sample_mutation 2 with log_offset := 90 })
        ++ [1, 2, 3])]

/-- The log `initialize` makes of that directory. -/
def corrupted_tail_log : mutation_log :=
  (apply_op sample_codec (mutation_log.ctor 1 100 1 false 2 corrupted_tail_disk)
    (log_op.open_log 1 100 1 false 2 "d".toList)).getD no_log

/-- A directory with one segment whose header has the decree count -268435455, for which
`read_header` returns the byte count 44 although the header takes 28 bytes; one stray byte
follows the record. -/
def overlong_count_disk : disk :=
  [("d/log.1.0".toList, sample_record (sample_first_body 0 (-268435455) []) ++ [0])]

/-- The log `initialize` makes of that directory. -/
def overlong_count_log : mutation_log :=
  (apply_op sample_codec (mutation_log.ctor 1 100 1 false 2 overlong_count_disk)
    (log_op.open_log 1 100 1 false 2 "d".toList)).getD no_log

/-- The byte count `write_header` returns for a decree map: `sizeof(_header) +
sizeof(count) + (sizeof(gpid) + sizeof(decree)) * count` as an `int`. -/
def header_byte_count (m : multi_partition_decrees) : Int :=
  int_cast (size_t_cast (24 + 4 + (8 + 8) * size_t_cast (int_cast m.length)))

/-- A run without batching in which the write service starts and one mutation is appended
and flushed: no pending buffer is left. -/
def flushed_log : mutation_log := before_close false 1 [sample_mutation 1]

/-- The log after `close`, in the run of the round trip. -/
def after_close (batch : Bool) (max_log_file_mb : Int) (mus : List mutation) : mutation_log :=
  (run_ops sample_codec [log_op.close [sample_io]]
    (before_close batch max_log_file_mb mus)).getD no_log

/-- The size `_pending_write->total_size()` has in `append` once the mutation is written
to the buffer: the message header, what the buffer held and the mutation. -/
def buffer_size_after_append (c : core_codec) (s : mutation_log) (mu1 : mutation) : Nat :=
  c.MSG_HDR_SERIALIZED_SIZE
    + (match s.pending_write with
        | some pw => pw.body.length
        | none => 0)
    + (c.write_to mu1).length

/-- A batching log whose buffer holds the header of its first segment (40 bytes), with a
buffer size of `n` bytes. -/
def batching_log (n : Int) : mutation_log :=
  { before_close true 1 [] with log_buffer_size_bytes := n }

/-- The result of appending one mutation to that log. -/
def batching_appended (n : Int) : mutation × mutation_log :=
  ((batching_log n).append sample_codec sample_io (sample_mutation 1) 0).getD
    (sample_mutation 0, no_log)

/-- A run in which `replay` rewinds `_global_end_offset` over the stray bytes at the end of
the segment, and the write service starts after it. -/
def rewound_log : mutation_log :=
  (run_ops sample_codec
    [log_op.open_log 1 100 1 false 2 "d".toList, log_op.replay,
     log_op.start_write_service sample_io [] 0]
    (mutation_log.ctor 1 100 1 false 2 corrupted_tail_disk)).getD no_log

/-- A run on the empty directory `d` in which the only write fails to be issued, the log is
closed, the write service starts again, and the directory is opened anew. -/
def failed_write_ops : List log_op :=
  [log_op.open_log 1 100 0 false 2 "d".toList,
   log_op.start_write_service sample_io [] 0,
   log_op.append ⟨true, false, true, ERR_OK, 0⟩ (sample_mutation 1) 0,
   log_op.close [],
   log_op.start_write_service sample_io [] 0,
   log_op.close [],
   log_op.open_log 1 100 0 false 2 "d".toList]

def failed_write_log : mutation_log :=
  (run_ops sample_codec failed_write_ops (mutation_log.ctor 1 100 0 false 2 [])).getD no_log

/-- A run on the empty directory `d` with two rollovers, a `close`, and then `initialize`,
`replay` and `start_write_service` on what was written. -/
def steady_example_ops : List log_op :=
  [log_op.open_log 1 100 0 false 2 "d".toList,
   log_op.start_write_service sample_io [(⟨1, 0⟩, 1)] 0,
   log_op.append sample_io (sample_mutation 100) 1,
   log_op.append sample_io (sample_mutation 200) 2,
   log_op.close [sample_io],
   log_op.open_log 1 100 0 false 2 "d".toList,
   log_op.replay,
   log_op.start_write_service sample_io [] 0]

def steady_example_log : mutation_log :=
  (run_ops sample_codec steady_example_ops (mutation_log.ctor 1 100 0 false 2 [])).getD no_log

/-- A batching log with a buffer limit of 0 bytes and a segment limit of 0 bytes, on an
empty disk: every append tries to flush, and every flush that is issued rolls over. -/
def write_example_start : mutation_log := mutation_log.ctor 0 100 0 true 2 []

/-- The log `write_example_start` after `start_write_service`. -/
def write_example_log : mutation_log :=
  ((write_example_start.start_write_service sample_codec sample_io [] 0).map
    Prod.snd).getD no_log

/-- A run of the write service: an append that flushes and rolls over, two appends that
find the timer already running and leave the buffer, the timer with a write that cannot
be issued, an append whose rollover cannot create the file, and an append that flushes
and rolls over. -/
def write_example_ops : List log_op :=
  [log_op.append sample_io (sample_mutation 1) 1,
   log_op.append ⟨false, true, true, ERR_OK, 0⟩ (sample_mutation 2) 2,
   log_op.append ⟨false, true, true, ERR_OK, 0⟩ (sample_mutation 3) 3,
   log_op.timer ⟨true, false, true, ERR_OK, 0⟩,
   log_op.append ⟨true, true, false, ERR_OK, 0⟩ (sample_mutation 4) 4,
   log_op.append sample_io (sample_mutation 5) 5]

/-- The offsets of a log: `_global_end_offset`, the end offset of the current segment and
the total size of the pending buffer. -/
def offsets_of (c : core_codec) (s : mutation_log) : Int × Option Int × Int :=
  (s.global_end_offset,
    (s.current_log_file.bind s.file).map fun f => f.end_offset,
    pending_size c s)

/-- The offsets before a run and after each of its operations, while the run goes on. -/
def offsets_trace (c : core_codec) : List log_op → mutation_log → List (Int × Option Int × Int)
  | [], s => [offsets_of c s]
  | op :: ops, s =>
    offsets_of c s ::
      match apply_op c s op with
      | none => []
      | some s1 => offsets_trace c ops s1

/-- A batching log with three appends in its pending buffer, registered with the callbacks
7, 8 and 9 in this order, when the flush timer has fired and been cleared. -/
def three_pending_log : mutation_log :=
  ((run_ops sample_codec
    [log_op.start_write_service sample_io [] 0,
     log_op.append sample_io (sample_mutation 1) 7,
     log_op.append sample_io (sample_mutation 2) 8,
     log_op.append sample_io (sample_mutation 3) 9]
    (mutation_log.ctor 1 100 1 true 2 [])).getD no_log).clear_timer

/-- A write segment of the directory `d` with an empty file. -/
def empty_write_segment : log_file :=
  log_file.ctor "d/log.1.0".toList true 1 0 0 false 0

/-! ## The learning state machine (`replica_learn.cpp`)

* A `replica` carries the fields the learning code reads and writes.  What the code hands
  to the runtime (RPC calls, tasks, file copies) and the calls of replica functions of other
  files whose work is outside these fields are recorded, in order, in the field `effects`.
* The functions of other files that do change these fields are the parameters `learn_env`.
* `decree` is a signed 64-bit integer; a sum that leaves its range is undefined behaviour,
  and the model stops there (`none`), as it does at a failing `dassert`.
-/

/-- Modelled from the spec: `partition_status`, declared in another file of the repository
(spec section 4.4: primary, secondary, potential secondary, error, inactive). -/
inductive partition_status where
  | PS_INACTIVE
  | PS_ERROR
  | PS_PRIMARY
  | PS_SECONDARY
  | PS_POTENTIAL_SECONDARY
  | PS_INVALID
  deriving DecidableEq, Repr

/-- Modelled from the spec: the status of a learning session (spec section 3). -/
inductive learner_status where
  | LearningWithoutPrepare
  | LearningWithPrepare
  | LearningSucceeded
  | LearningFailed
  deriving DecidableEq, Repr

open partition_status learner_status

/-- Modelled from the spec: the address of a node. -/
structure end_point where
  name : List Char
  port : Int
  deriving DecidableEq, Repr

/-- Modelled from the spec: `replica_configuration`, the fields the learning code uses. -/
structure replica_configuration where
  ballot : Int
  primary : end_point
  status : partition_status
  deriving DecidableEq, Repr

/-- Modelled from the spec: `learn_state`: the meta data and the files to copy. -/
structure learn_state where
  meta : List Nat
  files : List (List Char)
  deriving DecidableEq, Repr

/-- Modelled from the spec: `learn_request` (spec section 4.4). -/
structure learn_request where
  gpid : global_partition_id
  learner : end_point
  signature : Nat
  last_committed_decree_in_app : Int
  last_committed_decree_in_prepare_list : Int
  app_specific_learn_request : List Nat
  deriving DecidableEq, Repr

/-- Modelled from the spec: `learn_response`. -/
structure learn_response where
  err : error_code
  config : replica_configuration
  commit_decree : Int
  prepare_start_decree : Int
  state : learn_state
  base_local_dir : List Char
  deriving DecidableEq, Repr

/-- Modelled from the spec: `group_check_response`, as `notify_learn_completion` fills it
(spec section 4.4). -/
structure group_check_response where
  gpid : global_partition_id
  err : error_code
  last_committed_decree_in_app : Int
  last_committed_decree_in_prepare_list : Int
  learner_signature : Nat
  learner_status_ : learner_status
  node : end_point
  deriving DecidableEq, Repr

/-- Modelled from the spec: `group_check_request`, the fields `on_add_learner` reads. -/
structure group_check_request where
  config : replica_configuration
  learner_signature : Nat
  deriving DecidableEq, Repr

/-- Modelled from the spec: the primary's record of a learner (spec section 3). -/
structure remote_learner_state where
  signature : Nat
  prepare_start_decree : Int
  deriving DecidableEq, Repr

/-- Modelled from the spec: the learning session of a potential secondary (spec section 3).
The task handles it also holds are in the `effects` of the replica. -/
structure potential_secondary_context where
  learning_signature : Nat
  learning_status : learner_status
  learning_round_is_running : Bool
  deriving DecidableEq, Repr

/-- The class `prepare_list` of `prepare_list.h`: the committed decree, and the mutations
of the `mutation_cache` it derives from. -/
structure prepare_list where
  last_committed_decree : Int
  mutations : List mutation
  deriving DecidableEq, Repr

/-- Modelled from the spec: `prepare_list::reset`, declared in `prepare_list.h` and defined
in another file (spec section 4.3): it drops all entries and sets the committed decree. -/
def prepare_list.reset (_p : prepare_list) (init_decree : Int) : prepare_list :=
  { last_committed_decree := init_decree, mutations := [] }

/-- Modelled from the spec: what the learning code reads of the application (`_app`). -/
structure replication_app where
  last_committed_decree : Int
  last_durable_decree : Int
  data_dir : List Char
  learn_dir : List Char
  deriving DecidableEq, Repr

/-- What the learning code hands to the runtime or to replica functions of other files. -/
inductive effect where
  /-- The call `rpc::call_typed(_config.primary, RPC_LEARN, request, this, on_learn_reply)`. -/
  | rpc_learn (target : end_point) (request : learn_request)
  /-- The call `rpc::call_one_way_typed(_config.primary, RPC_LEARN_COMPLETION_NOTIFY, report)`. -/
  | rpc_learn_completion_notify (target : end_point) (report : group_check_response)
  /-- The call `file::copy_remote_files`, with `on_copy_remote_state_completed` as callback. -/
  | copy_remote_files (remote : end_point) (source_dir : List Char) (files : List (List Char))
      (dest_dir : List Char) (resp : learn_response)
  /-- The task `LPC_LEARN_REMOTE_DELTA_FILES`: `on_copy_remote_state_completed(ERR_OK, 0, resp)`. -/
  | enqueue_copy_completed (resp : learn_response)
  /-- The call `cleanup_preparing_mutations(true)`. -/
  | cleanup_preparing_mutations
  /-- The call `replay_prepare_list()`. -/
  | replay_prepare_list
  /-- The call `_app->apply_learn_state(state)`. -/
  | apply_learn_state (state : learn_state)
  /-- The call `_app->flush(true)`. -/
  | app_flush
  /-- The task `LPC_LEARN_REMOTE_DELTA_FILES_COMPLETED`:
  `on_learn_remote_state_completed(err)`. -/
  | enqueue_learn_completed (err : error_code)
  deriving DecidableEq, Repr

/-- A replica, as far as `replica_learn.cpp` reads and writes it. -/
structure replica where
  gpid : global_partition_id
  /-- The address of this node (`primary_address()`). -/
  address : end_point
  /-- The directory of the replica (`dir()`). -/
  dir : List Char
  config : replica_configuration
  app : replication_app
  prepare_list : prepare_list
  potential_secondary_states : potential_secondary_context
  /-- The map `_primary_states.learners`. -/
  learners : List (end_point × remote_learner_state)
  /-- The option `_options.staleness_for_start_prepare_for_potential_secondary`. -/
  staleness_for_start_prepare_for_potential_secondary : Int
  effects : List effect
  deriving DecidableEq, Repr

/-- The constants and functions of other files of the repository that the learning code
uses and that change or read the fields of `replica`. -/
structure learn_env where
  invalid_decree : Int
  /-- The call `potential_secondary_context::cleanup(true)`. -/
  cleanup : potential_secondary_context → potential_secondary_context
  /-- The payload `_app->prepare_learning_request` writes. -/
  prepare_learning_request : replication_app → List Nat
  /-- The configuration `_primary_states.get_replica_config` writes for a node. -/
  get_replica_config : replica → end_point → replica_configuration
  /-- The result of `_app->get_learn_state(start, request, state)`: the error and the state. -/
  get_learn_state : replication_app → Int → List Nat → learn_state → Int × learn_state
  update_local_configuration : replica → replica_configuration → Bool → replica
  update_local_configuration_with_no_ballot_change : replica → partition_status → replica
  is_same_ballot_status_change_allowed : partition_status → partition_status → Bool

/-- Modelled from the spec: `replica::status`, defined in a header of another directory:
the status of the local configuration. -/
def replica.status (r : replica) : partition_status := r.config.status

/-- Modelled from the spec: `replica::get_ballot`: the ballot of the local configuration. -/
def replica.get_ballot (r : replica) : Int := r.config.ballot

/-- Modelled from the spec: `replica::last_committed_decree`: the committed decree of the
prepare list (spec section 4.3). -/
def replica.last_committed_decree (r : replica) : Int := r.prepare_list.last_committed_decree

/-- `replica::notify_learn_completion`. -/
def replica.notify_learn_completion (r : replica) : replica :=
  let report : group_check_response :=
    { gpid := r.gpid
      err := ERR_OK
      last_committed_decree_in_app := r.app.last_committed_decree
      last_committed_decree_in_prepare_list := r.last_committed_decree
      learner_signature := r.potential_secondary_states.learning_signature
      learner_status_ := r.potential_secondary_states.learning_status
      node := r.address }
  { r with effects := r.effects ++ [effect.rpc_learn_completion_notify r.config.primary report] }

/-- The end of `init_learn`: the round is marked as running and the request goes to the
primary. -/
def replica.send_learn_request (env : learn_env) (r : replica) : replica :=
  let request : learn_request :=
    { gpid := r.gpid
      last_committed_decree_in_app := r.app.last_committed_decree
      last_committed_decree_in_prepare_list := r.prepare_list.last_committed_decree
      learner := r.address
      signature := r.potential_secondary_states.learning_signature
      app_specific_learn_request := env.prepare_learning_request r.app }
  { r with
    potential_secondary_states :=
      { r.potential_secondary_states with learning_round_is_running := true }
    effects := r.effects ++ [effect.rpc_learn r.config.primary request] }

/-- `replica::init_learn`. -/
def replica.init_learn (env : learn_env) (r : replica) (signature : Nat) : Option replica :=
  if r.status ≠ PS_POTENTIAL_SECONDARY then none
  else if r.potential_secondary_states.learning_round_is_running ∨ signature = 0 then some r
  else if signature ≠ r.potential_secondary_states.learning_signature then
    some (replica.send_learn_request env
      { r with
        potential_secondary_states :=
          { env.cleanup r.potential_secondary_states with
            learning_signature := signature
            learning_status := LearningWithoutPrepare }
        prepare_list := r.prepare_list.reset r.app.last_committed_decree })
  else
    match r.potential_secondary_states.learning_status with
    | LearningSucceeded => some r.notify_learn_completion
    | LearningFailed => some (r.send_learn_request env)
    | LearningWithPrepare =>
      if r.app.last_durable_decree ≥ r.last_committed_decree then
        some (replica.notify_learn_completion
          { r with potential_secondary_states :=
              { r.potential_secondary_states with learning_status := LearningSucceeded } })
      else some (r.send_learn_request env)
    | LearningWithoutPrepare => some (r.send_learn_request env)

/-- The update of the learner's record in `on_learn`, for the decree `app_decree` the
request holds: the record, the start decree for the response, and the calls made.  The calls
`cleanup_preparing_mutations(true)` and `replay_prepare_list()` are recorded as effects: the
function goes on using its iterator into the map of learners after them.  `none` when
`app_decree + staleness` or `last_committed_decree() + 1` leaves the range of `decree`. -/
def attach_prepare (env : learn_env) (r : replica) (l : remote_learner_state)
    (app_decree : Int) : Option (remote_learner_state × Int × List effect) :=
  let sum := app_decree + r.staleness_for_start_prepare_for_potential_secondary
  if ¬ (-9223372036854775808 ≤ sum ∧ sum < 9223372036854775808) then none
  else if sum ≥ r.last_committed_decree then
    if l.prepare_start_decree = env.invalid_decree then
      if ¬ (r.last_committed_decree + 1 < 9223372036854775808) then none
      else
        some ({ l with prepare_start_decree := r.last_committed_decree + 1 },
          r.last_committed_decree + 1,
          [effect.cleanup_preparing_mutations, effect.replay_prepare_list])
    else some (l, l.prepare_start_decree, [])
  else some ({ l with prepare_start_decree := env.invalid_decree }, env.invalid_decree, [])

/-- The map of learners with the record of `node` replaced. -/
def set_learner (node : end_point) (l : remote_learner_state)
    (m : List (end_point × remote_learner_state)) : List (end_point × remote_learner_state) :=
  m.map fun e => if e.1 = node then (e.1, l) else e

/-- The last loop of `on_learn`: `*itr = itr->substr(n)` for every file.  `substr` throws
when `n` is beyond the end of the string; nothing catches it, and the result is `none`. -/
def strip_data_dir (n : Nat) (files : List (List Char)) : Option (List (List Char)) :=
  if files.all fun f => decide (n ≤ f.length) then some (files.map fun f => f.drop n)
  else none

/-- The first branch of `on_learn`: a request whose application decree is beyond the
committed decree of the primary has it set to 0 (the function writes to the request
through a cast). -/
def reset_lost_decree (r : replica) (request : learn_request) : learn_request :=
  if request.last_committed_decree_in_app > r.last_committed_decree then
    { request with last_committed_decree_in_app := 0 }
  else request

/-- `replica::on_learn`: the replica, the request (which the function changes through a
cast) and the response (an out parameter: the fields the function does not write keep what
they held), and the start decree handed to `get_learn_state`, if it was called. -/
def replica.on_learn (env : learn_env) (r : replica) (request : learn_request)
    (response : learn_response) :
    Option (replica × learn_request × learn_response × Option Int) :=
  if PS_PRIMARY ≠ r.status then
    some (r, request, { response with err := ERR_INVALID_STATE }, none)
  else
    let request1 := reset_lost_decree r request
    let response1 := { response with config := env.get_replica_config r request1.learner }
    match omap_find request1.learner r.learners with
    | none =>
      some (r, request1,
        { response1 with
          err := if response1.config.status = PS_SECONDARY then ERR_OK
                 else ERR_OBJECT_NOT_FOUND }, none)
    | some l =>
      if l.signature ≠ request1.signature then
        some (r, request1, { response1 with err := ERR_OBJECT_NOT_FOUND }, none)
      else
        match attach_prepare env r l request1.last_committed_decree_in_app with
        | none => none
        | some a =>
          let r1 := { r with
            learners := set_learner request1.learner a.1 r.learners
            effects := r.effects ++ a.2.2 }
          if ¬ (request1.last_committed_decree_in_app + 1 < 9223372036854775808) then none
          else
            let start := request1.last_committed_decree_in_app + 1
            let got := env.get_learn_state r1.app start request1.app_specific_learn_request
              response1.state
            match strip_data_dir r1.app.data_dir.length got.2.files with
            | none => none
            | some files =>
              some (r1, request1,
                { response1 with
                  prepare_start_decree := a.2.1
                  commit_decree := r.last_committed_decree
                  err := if got.1 = 0 then ERR_OK else ERR_GET_LEARN_STATE_FALED
                  state := { got.2 with files := files }
                  base_local_dir := r1.app.data_dir },
                some start)

/-- `replica::handle_learning_error`. -/
def replica.handle_learning_error (env : learn_env) (r : replica) (_err : error_code) :
    replica :=
  env.update_local_configuration_with_no_ballot_change
    { r with potential_secondary_states :=
        { env.cleanup r.potential_secondary_states with learning_status := LearningFailed } }
    PS_ERROR

/-- `replica::on_learn_reply`. -/
def replica.on_learn_reply (env : learn_env) (r : replica) (err : error_code)
    (req : learn_request) (resp : learn_response) : Option replica :=
  if PS_POTENTIAL_SECONDARY ≠ r.status then none
  else if req.signature ≠ r.potential_secondary_states.learning_signature then none
  else if err ≠ ERR_OK then some (r.handle_learning_error env err)
  else if resp.err ≠ ERR_OK then some (r.handle_learning_error env resp.err)
  else
    let r1 :=
      if resp.config.ballot > r.get_ballot then env.update_local_configuration r resp.config false
      else r
    if r1.status ≠ PS_POTENTIAL_SECONDARY then some r1
    else
      let attach := resp.prepare_start_decree ≠ env.invalid_decree
        ∧ r1.potential_secondary_states.learning_status = LearningWithoutPrepare
      if attach ∧ ¬ (-9223372036854775808 ≤ resp.prepare_start_decree - 1) then none
      else
        let r2 :=
          if attach then
            { r1 with
              potential_secondary_states :=
                { r1.potential_secondary_states with learning_status := LearningWithPrepare }
              prepare_list := r1.prepare_list.reset (resp.prepare_start_decree - 1) }
          else r1
        if resp.state.files.length > 0 then
          some { r2 with effects := r2.effects ++
            [effect.copy_remote_files resp.config.primary resp.base_local_dir resp.state.files
              r2.app.learn_dir resp] }
        else some { r2 with effects := r2.effects ++ [effect.enqueue_copy_completed resp] }

/-- `replica::on_learn_remote_state_completed`. -/
def replica.on_learn_remote_state_completed (env : learn_env) (r : replica)
    (err : error_code) : Option replica :=
  if PS_POTENTIAL_SECONDARY ≠ r.status then some r
  else
    let r1 := { r with potential_secondary_states :=
      { r.potential_secondary_states with learning_round_is_running := false } }
    if err ≠ ERR_OK then some (r1.handle_learning_error env err)
    else r1.init_learn env r1.potential_secondary_states.learning_signature

/-- `replica::on_add_learner`. -/
def replica.on_add_learner (env : learn_env) (r : replica) (request : group_check_request) :
    Option replica :=
  if request.config.ballot < r.get_ballot then some r
  else if request.config.ballot > r.get_ballot
      ∨ env.is_same_ballot_status_change_allowed r.status request.config.status then
    let r1 := env.update_local_configuration r request.config true
    if PS_POTENTIAL_SECONDARY ≠ r1.status then none
    else r1.init_learn env request.learner_signature
  else some r

/-- What `on_copy_remote_state_completed` uses of the application beyond its decrees: the
error and the application after `_app->apply_learn_state(state)` and after
`_app->flush(force)`, both defined outside these files. -/
structure app_env where
  apply_learn_state : replication_app → learn_state → Int × replication_app
  flush : replication_app → Bool → Int × replication_app

/-- The path `on_copy_remote_state_completed` makes of the directory of the replica and a
file of the response: the two are put together, with a `/` between them unless the
directory ends in one or the file starts with one.  `dir().back()` on an empty directory
and `itr->front()` on an empty file name are undefined behaviour, and `none`. -/
def local_file (dir file : List Char) : Option (List Char) :=
  match dir.getLast? with
  | none => none
  | some back =>
    if back = '/' then some (dir ++ file)
    else
      match file.head? with
      | none => none
      | some front => if front = '/' then some (dir ++ file) else some (dir ++ '/' :: file)

/-- The loop of `on_copy_remote_state_completed` over the files of the response. -/
def local_files (dir : List Char) : List (List Char) → Option (List (List Char))
  | [] => some []
  | file :: rest =>
    match local_file dir file with
    | none => none
    | some f => (local_files dir rest).map fun fs => f :: fs

/-- `replica::on_copy_remote_state_completed`: the replica, and the local variable
`localState` as it is when the function ends. -/
def replica.on_copy_remote_state_completed (aenv : app_env) (r : replica)
    (err2 : error_code) (_size : Int) (resp : learn_response) :
    Option (replica × learn_state) :=
  if err2 = ERR_OK then
    match local_files r.dir resp.state.files with
    | none => none
    | some files =>
      let localState : learn_state := { meta := resp.state.meta, files := files }
      let applied := aenv.apply_learn_state r.app resp.state
      let r1 := { r with
        app := applied.2
        effects := r.effects ++ [effect.apply_learn_state resp.state] }
      if applied.1 = 0 ∧ r1.app.last_committed_decree ≥ resp.commit_decree then
        let flushed := aenv.flush r1.app true
        let r2 := { r1 with app := flushed.2, effects := r1.effects ++ [effect.app_flush] }
        if flushed.1 = 0 ∧ r2.app.last_committed_decree ≠ r2.app.last_durable_decree then none
        else
          some ({ r2 with effects := r2.effects ++
              [effect.enqueue_learn_completed
                (if flushed.1 ≠ 0 then ERR_LOCAL_APP_FAILURE else err2)] },
            localState)
      else
        some ({ r1 with effects := r1.effects ++
            [effect.enqueue_learn_completed
              (if applied.1 ≠ 0 then ERR_LOCAL_APP_FAILURE else err2)] },
          localState)
  else
    some ({ r with effects := r.effects ++ [effect.enqueue_learn_completed err2] },
      { meta := resp.state.meta, files := [] })

/-! ### Example replicas -/

def node_a : end_point := ⟨"a".toList, 1⟩

def node_b : end_point := ⟨"b".toList, 2⟩

/-- An environment: `invalid_decree` is -1, `cleanup` ends the round, adopting a
configuration replaces the local one, the learn state from a decree on is one file in the
data directory named after the decree. -/
def sample_learn_env : learn_env :=
  { invalid_decree := -1
    cleanup := fun p => { p with learning_round_is_running := false }
    prepare_learning_request := fun _ => []
    get_replica_config := fun r node =>
      { ballot := r.config.ballot
        primary := r.config.primary
        status := if node = r.config.primary then PS_PRIMARY
                  else if (omap_find node r.learners).isSome then PS_POTENTIAL_SECONDARY
                  else PS_INACTIVE }
    get_learn_state := fun app start _ st =>
      (0, { st with files := st.files ++ [app.data_dir ++ '/' :: decimal start.toNat] })
    update_local_configuration := fun r config _ => { r with config := config }
    update_local_configuration_with_no_ballot_change := fun r status =>
      { r with config := { r.config with status := status } }
    is_same_ballot_status_change_allowed := fun _ _ => false }

/-- A primary with committed decree `lcd` and the learner `node_b` registered under the
signature 7 with the start decree `start`. -/
def sample_primary (lcd staleness start : Int) : replica :=
  { gpid := ⟨1, 0⟩
    address := node_a
    dir := "data".toList
    config := ⟨3, node_a, PS_PRIMARY⟩
    app := ⟨lcd, lcd, "data".toList, "learn".toList⟩
    prepare_list := ⟨lcd, []⟩
    potential_secondary_states := ⟨0, LearningWithoutPrepare, false⟩
    learners := [(node_b, ⟨7, start⟩)]
    staleness_for_start_prepare_for_potential_secondary := staleness
    effects := [] }

/-- A potential secondary with the learning session given, whose application has
committed the decree 495 and whose prepare list stands at 490. -/
def sample_learner (session : potential_secondary_context) : replica :=
  { gpid := ⟨1, 0⟩
    address := node_b
    dir := "data".toList
    config := ⟨3, node_a, PS_POTENTIAL_SECONDARY⟩
    app := ⟨495, 480, "data".toList, "learn".toList⟩
    prepare_list := ⟨490, [sample_mutation 491]⟩
    potential_secondary_states := session
    learners := []
    staleness_for_start_prepare_for_potential_secondary := 10
    effects := [] }

/-- The request of the learner `node_b` under the signature `signature`. -/
def sample_learn_request (signature : Nat) (app_decree : Int) : learn_request :=
  { gpid := ⟨1, 0⟩
    learner := node_b
    signature := signature
    last_committed_decree_in_app := app_decree
    last_committed_decree_in_prepare_list := app_decree
    app_specific_learn_request := [] }

/-- A response as the caller of `on_learn` hands it in. -/
def empty_learn_response : learn_response :=
  { err := ERR_OK
    config := ⟨0, ⟨[], 0⟩, PS_INVALID⟩
    commit_decree := 0
    prepare_start_decree := 0
    state := ⟨[], []⟩
    base_local_dir := [] }

/-- The reply of the primary to a request of `node_b`: prepares start at 501, one file. -/
def sample_learn_reply : learn_response :=
  { err := ERR_OK
    config := ⟨3, node_a, PS_POTENTIAL_SECONDARY⟩
    commit_decree := 500
    prepare_start_decree := 501
    state := ⟨[], ["/496".toList]⟩
    base_local_dir := "data".toList }

/-- A learner with a round in flight under the signature 7, after `on_add_learner` with
the signature 8 and the ballot 4. -/
def readded_learner : replica :=
  ((sample_learner ⟨7, LearningWithoutPrepare, true⟩).on_add_learner sample_learn_env
    ⟨⟨4, node_a, PS_POTENTIAL_SECONDARY⟩, 8⟩).getD (sample_learner ⟨0, LearningFailed, false⟩)

/-- An application that takes a learn state up to the decree 500 and flushes all it has
committed. -/
def sample_app_env : app_env :=
  { apply_learn_state := fun app _ => (0, { app with last_committed_decree := 500 })
    flush := fun app _ => (0, { app with last_durable_decree := app.last_committed_decree }) }

/-! ## The chunks of a remote copy (`nfs_client_impl.cpp`)

File sizes and request offsets are `uint64_t`, request sizes `uint32_t`, and the index of a
request is an `int`: the sums of the unsigned numbers wrap around, and the model stops
(`none`) where `idx++` would leave the range of `int`, which is undefined behaviour.  The
endless `for (;;)` runs on fuel, and `none` is also a loop that has not ended when the fuel
is used up. -/

/-- Modelled from the spec: `copy_request_ex`, declared in a header outside these files:
its index, and of its `copy_req` the fields that `end_get_file_size` computes (the others
are copied from the user request). -/
structure copy_request_ex where
  index : Int
  file_name : List Char
  offset : Int
  size : Int
  is_last : Bool
  deriving DecidableEq, Repr

/-- The size of the next request, a `uint32_t`: `_opts.nfs_copy_block_bytes` when more than
that is left of the file, and what is left otherwise.  The option is declared outside these
files and is the parameter `block_bytes`. -/
def next_req_size (block_bytes size : Int) : Int :=
  if size > block_bytes then uint32_cast block_bytes else uint32_cast size

/-- The loop `for (;;)` of `end_get_file_size` for one file: `size` is what is left of the
file, `acc` the requests pushed so far. -/
def copy_loop (block_bytes : Int) (file_name : List Char) :
    Nat → Int → Int → Int → Int → List copy_request_ex → Option (List copy_request_ex)
  | 0, _, _, _, _, _ => none
  | fuel + 1, size, req_offset, req_size, idx, acc =>
    if ¬ (idx + 1 < 2147483648) then none
    else
      let req : copy_request_ex :=
        { index := idx
          file_name := file_name
          offset := req_offset
          size := req_size
          is_last := decide (size ≤ req_size) }
      let req_offset1 := size_t_cast (req_offset + req_size)
      let size1 := size_t_cast (size - req_size)
      if size1 ≤ 0 then
        if size1 = 0 then some (acc ++ [req]) else none
      else
        copy_loop block_bytes file_name fuel size1 req_offset1
          (next_req_size block_bytes size1) (idx + 1) (acc ++ [req])

/-- The requests `end_get_file_size` creates for one file of the size `size`. -/
def file_copy_requests (block_bytes : Int) (fuel : Nat) (file_name : List Char)
    (size : Int) : Option (List copy_request_ex) :=
  copy_loop block_bytes file_name fuel size 0 (next_req_size block_bytes size) 0 []

/-- The loop of `end_get_file_size` over the files of the response: the requests pushed to
`_copy_requests`, in order.  `none` also when `file_list` is shorter than `size_list`. -/
def end_get_file_size (block_bytes : Int) (fuel : Nat) :
    List (List Char) → List Int → Option (List copy_request_ex)
  | _, [] => some []
  | [], _ :: _ => none
  | file_name :: file_list, size :: size_list =>
    match file_copy_requests block_bytes fuel file_name size with
    | none => none
    | some requests =>
      (end_get_file_size block_bytes fuel file_list size_list).map fun rest =>
        requests ++ rest

/-- The requests that cut a file of `n` bytes into `k` blocks of `b` bytes. -/
def chunks (file_name : List Char) (n b : Int) (k : Nat) : List copy_request_ex :=
  (List.range k).map fun (i : Nat) =>
    ({ index := (i : Int)
       file_name := file_name
       offset := (i : Int) * b
       size := min b (n - (i : Int) * b)
       is_last := decide (i + 1 = k) } : copy_request_ex)

/-! ## Little-endian round trips -/

theorem le_decode_encode (n x : Nat) : le_decode (le_encode n x) = x % 256 ^ n := by
  induction n generalizing x with
  | zero => simp [le_encode, le_decode, Nat.mod_one]
  | succ n ih =>
    simp only [le_encode, le_decode, ih]
    rw [pow_succ, Nat.mul_comm (256 ^ n) 256, Nat.mod_mul]

theorem read_bytes_append (n : Nat) (a rest : List Nat) (h : a.length = n) :
    read_bytes n (a ++ rest) = some (a, rest) := by
  subst h
  simp [read_bytes]

theorem read_uint32_write (x : Int) (rest : List Nat) (h0 : 0 ≤ x) (h1 : x < 4294967296) :
    read_uint32 (write_uint32 x ++ rest) = some (x, rest) := by
  unfold read_uint32 write_uint32
  rw [read_bytes_append 4 _ _ (le_encode_length _ _)]
  simp only [Option.map_some', le_decode_encode, Option.some.injEq, Prod.mk.injEq, and_true]
  unfold uint32_cast
  omega

theorem read_int32_write (x : Int) (rest : List Nat) (h0 : -2147483648 ≤ x)
    (h1 : x < 2147483648) : read_int32 (write_int32 x ++ rest) = some (x, rest) := by
  unfold read_int32 write_int32
  rw [read_bytes_append 4 _ _ (le_encode_length _ _)]
  simp only [Option.map_some', le_decode_encode, Option.some.injEq, Prod.mk.injEq, and_true]
  unfold uint32_cast int_cast
  omega

theorem read_int64_write (x : Int) (rest : List Nat) (h0 : -9223372036854775808 ≤ x)
    (h1 : x < 9223372036854775808) : read_int64 (write_int64 x ++ rest) = some (x, rest) := by
  unfold read_int64 write_int64
  rw [read_bytes_append 8 _ _ (le_encode_length _ _)]
  simp only [Option.map_some', le_decode_encode, Option.some.injEq, Prod.mk.injEq, and_true]
  unfold size_t_cast int64_cast
  omega

theorem read_gpid_write (g : global_partition_id) (rest : List Nat)
    (ha : is_int32 g.app_id) (hp : is_int32 g.pidx) :
    read_gpid (write_gpid g ++ rest) = some (g, rest) := by
  unfold read_gpid write_gpid
  rw [List.append_assoc, read_int32_write _ _ ha.1 ha.2]
  simp only
  rw [read_int32_write _ _ hp.1 hp.2]

theorem read_log_header_write (h : log_header) (rest : List Nat)
    (hm : 0 ≤ h.magic ∧ h.magic < 4294967296) (hv : 0 ≤ h.version ∧ h.version < 4294967296)
    (hs : is_int64 h.start_global_offset) (hb : is_int32 h.log_buffer_size_bytes)
    (hc : is_int32 h.max_staleness_for_commit) :
    read_log_header (write_log_header h ++ rest) = some (h, rest) := by
  unfold read_log_header write_log_header
  simp only [List.append_assoc]
  rw [read_uint32_write _ _ hm.1 hm.2]
  simp only
  rw [read_uint32_write _ _ hv.1 hv.2]
  simp only
  rw [read_int64_write _ _ hs.1 hs.2]
  simp only
  rw [read_int32_write _ _ hb.1 hb.2]
  simp only
  rw [read_int32_write _ _ hc.1 hc.2]

theorem write_log_header_length (h : log_header) : (write_log_header h).length = 24 := by
  simp [write_log_header, write_uint32, write_int32, write_int64, le_encode_length]

theorem write_decrees_foldl (m : multi_partition_decrees) (w : List Nat) :
    m.foldl (fun w e => w ++ write_gpid e.1 ++ write_int64 e.2) w
      = w ++ write_decrees m := by
  unfold write_decrees
  induction m generalizing w with
  | nil => simp
  | cons e m ih =>
    simp only [List.foldl_cons, List.nil_append]
    rw [ih, ih (write_gpid e.1 ++ write_int64 e.2)]
    simp [List.append_assoc]

theorem write_decrees_cons (e : global_partition_id × Int) (m : multi_partition_decrees) :
    write_decrees (e :: m) = write_gpid e.1 ++ write_int64 e.2 ++ write_decrees m := by
  have := write_decrees_foldl m (write_gpid e.1 ++ write_int64 e.2)
  simpa [write_decrees] using this

theorem write_decrees_length (m : multi_partition_decrees) :
    (write_decrees m).length = 16 * m.length := by
  induction m with
  | nil => simp [write_decrees]
  | cons e m ih =>
    rw [write_decrees_cons]
    simp [write_gpid, write_int32, write_int64, le_encode_length, ih]
    omega

theorem gpid_lt_asymm (a b : global_partition_id) (h : gpid_lt a b = true) :
    gpid_lt b a = false := by
  unfold gpid_lt at *
  simp only [Bool.or_eq_true, decide_eq_true_eq, Bool.and_eq_true] at h
  simp only [Bool.or_eq_false_iff, decide_eq_false_iff_not, Bool.and_eq_false_imp,
    decide_eq_true_eq]
  omega

theorem omap_insert_last {κ β : Type} (lt : κ → κ → Bool)
    (hasymm : ∀ a b, lt a b = true → lt b a = false) (k : κ) (v : β) (m : List (κ × β))
    (h : ∀ e ∈ m, lt e.1 k = true) : omap_insert lt k v m = m ++ [(k, v)] := by
  induction m with
  | nil => rfl
  | cons e m ih =>
    obtain ⟨k', v'⟩ := e
    have hk : lt k' k = true := h (k', v') (List.mem_cons_self _ _)
    have hk' : lt k k' = false := hasymm _ _ hk
    simp only [omap_insert, hk', hk, Bool.false_eq_true, if_false, if_true, List.cons_append]
    rw [ih (fun e he => h e (List.mem_cons_of_mem _ he))]

theorem read_decrees_write (m acc : multi_partition_decrees) (rest : List Nat)
    (hsorted : omap_sorted gpid_lt (acc ++ m))
    (hr : ∀ e ∈ m, is_int32 e.1.app_id ∧ is_int32 e.1.pidx ∧ is_int64 e.2) :
    read_decrees m.length acc (write_decrees m ++ rest) = some (acc ++ m, rest) := by
  induction m generalizing acc with
  | nil => simp [read_decrees, write_decrees]
  | cons e m ih =>
    have he := hr e (List.mem_cons_self _ _)
    rw [write_decrees_cons]
    simp only [List.length_cons, read_decrees, List.append_assoc]
    rw [read_gpid_write _ _ he.1 he.2.1]
    simp only
    rw [read_int64_write _ _ he.2.2.1 he.2.2.2]
    simp only
    have hlast : omap_insert gpid_lt e.1 e.2 acc = acc ++ [e] := by
      apply omap_insert_last gpid_lt gpid_lt_asymm
      intro x hx
      unfold omap_sorted at hsorted
      rw [List.pairwise_append] at hsorted
      exact hsorted.2.2 x hx e (List.mem_cons_self _ _)
    rw [hlast, ih (acc ++ [e]) (by simpa using hsorted)
      (fun x hx => hr x (List.mem_cons_of_mem _ hx))]
    simp

/-- C9: `read_header` on a fresh read segment, applied to the bytes `write_header` appended
to the buffer, rebuilds the header `write_header` stored (magic 0xDEADBEEF, version 1, the
start offset of the segment, the buffer size and the staleness) and the same decree map;
both return the number of bytes appended. -/
theorem write_header_read_header_roundtrip (f : log_file) (writer : message)
    (D : multi_partition_decrees) (bufferSizeBytes : Int) (path : List Char)
    (index startOffset fsize : Int) (hdr body rest : List Nat)
    (hD : omap_sorted gpid_lt D)
    (hr : ∀ e ∈ D, is_int32 e.1.app_id ∧ is_int32 e.1.pidx ∧ is_int64 e.2)
    (hn : 28 + 16 * (D.length : Int) < 2147483648)
    (hs : is_int64 f.start_offset) (hb : is_int32 bufferSizeBytes)
    (hc : is_int32 f.header.max_staleness_for_commit) :
    ∃ bytes : List Nat,
      (f.write_header writer D bufferSizeBytes).2.1.body = writer.body ++ bytes
      ∧ (f.write_header writer D bufferSizeBytes).2.2 = bytes.length
      ∧ (f.write_header writer D bufferSizeBytes).1.header
          = log_header.mk 0xdeadbeef 1 f.start_offset bufferSizeBytes
              f.header.max_staleness_for_commit
      ∧ (f.write_header writer D bufferSizeBytes).1.init_prepared_decrees = D
      ∧ ∃ r : log_file,
          (log_file.ctor path true index startOffset 0 true fsize).read_header
              (message.mk hdr body (bytes ++ rest))
            = some (r, message.mk hdr body rest, (bytes.length : Int))
          ∧ r.header = (f.write_header writer D bufferSizeBytes).1.header
          ∧ r.init_prepared_decrees = D := by
  have hcount : int_cast (D.length : Int) = (D.length : Int) := by
    unfold int_cast; omega
  have hret : int_cast (size_t_cast (24 + 4 + (8 + 8) * size_t_cast (D.length : Int)))
      = 28 + 16 * (D.length : Int) := by
    unfold int_cast size_t_cast; omega
  have hci : is_int32 (D.length : Int) := by
    unfold is_int32; omega
  refine ⟨write_log_header
      ⟨0xdeadbeef, 1, f.start_offset, bufferSizeBytes, f.header.max_staleness_for_commit⟩
        ++ write_int32 (D.length : Int) ++ write_decrees D, ?_, ?_, ?_, ?_, ?_⟩
  · simp [log_file.write_header, hcount]
  · simp only [log_file.write_header, hcount, hret, List.length_append,
      write_log_header_length, write_decrees_length, write_int32, le_encode_length]
    push_cast
    ring
  · simp [log_file.write_header]
  · simp [log_file.write_header]
  · refine ⟨{ (log_file.ctor path true index startOffset 0 true fsize) with
        header := ⟨0xdeadbeef, 1, f.start_offset, bufferSizeBytes,
          f.header.max_staleness_for_commit⟩
        init_prepared_decrees := D }, ?_, ?_, ?_⟩
    · unfold log_file.read_header
      simp only [List.append_assoc]
      rw [read_log_header_write (log_header.mk 0xdeadbeef 1 f.start_offset bufferSizeBytes
        f.header.max_staleness_for_commit) _ (by norm_num) (by norm_num) hs hb hc]
      simp only
      rw [read_int32_write _ _ hci.1 hci.2]
      simp only [Int.toNat_ofNat]
      have := read_decrees_write D [] rest (by simpa using hD) hr
      simp only [List.nil_append] at this
      simp only [log_file.ctor, this, hret, List.length_append, write_log_header_length,
        write_decrees_length, write_int32, le_encode_length]
      simp only [Option.some.injEq, Prod.mk.injEq, true_and]
      push_cast
      ring
    · simp [log_file.write_header]
    · rfl

theorem write_header_read_header_roundtrip_witness :
    ∃ bytes : List Nat,
      ((log_file.ctor [] true 1 0 0 false 0).write_header (message.create_request sample_codec)
          [(⟨1, 0⟩, 5), (⟨1, 1⟩, 9)] 1048576).2.1.body
        = (message.create_request sample_codec).body ++ bytes
      ∧ ((log_file.ctor [] true 1 0 0 false 0).write_header
          (message.create_request sample_codec) [(⟨1, 0⟩, 5), (⟨1, 1⟩, 9)] 1048576).2.2
        = bytes.length
      ∧ ((log_file.ctor [] true 1 0 0 false 0).write_header
          (message.create_request sample_codec) [(⟨1, 0⟩, 5), (⟨1, 1⟩, 9)] 1048576).1.header
        = log_header.mk 0xdeadbeef 1 (log_file.ctor [] true 1 0 0 false 0).start_offset 1048576
            (log_file.ctor [] true 1 0 0 false 0).header.max_staleness_for_commit
      ∧ ((log_file.ctor [] true 1 0 0 false 0).write_header
          (message.create_request sample_codec)
          [(⟨1, 0⟩, 5), (⟨1, 1⟩, 9)] 1048576).1.init_prepared_decrees
        = [(⟨1, 0⟩, 5), (⟨1, 1⟩, 9)]
      ∧ ∃ r : log_file,
          (log_file.ctor [] true 1 0 0 true 60).read_header (message.mk [] [] (bytes ++ [1, 2]))
            = some (r, message.mk [] [] [1, 2], (bytes.length : Int))
          ∧ r.header = ((log_file.ctor [] true 1 0 0 false 0).write_header
              (message.create_request sample_codec) [(⟨1, 0⟩, 5), (⟨1, 1⟩, 9)] 1048576).1.header
          ∧ r.init_prepared_decrees = [(⟨1, 0⟩, 5), (⟨1, 1⟩, 9)] :=
  write_header_read_header_roundtrip (log_file.ctor [] true 1 0 0 false 0)
    (message.create_request sample_codec) [(⟨1, 0⟩, 5), (⟨1, 1⟩, 9)] 1048576 [] 1 0 60 [] []
    [1, 2] (by simp [omap_sorted, gpid_lt])
    (by simp [is_int32, is_int64]) (by norm_num)
    (by simp [is_int64, log_file.ctor]) (by simp [is_int32])
    (by simp [is_int32, log_file.ctor, log_header.zero])

/-! ## Garbage collection -/

theorem gc_scan_split (D : multi_partition_decrees) (r : List (Int × log_file)) :
    (gc_scan D r = [] ∧ ∀ x ∈ r, delete_older_files D x.2 = false)
    ∨ ∃ B S A, r = B ++ S :: A ∧ delete_older_files D S.2 = true
        ∧ (∀ b ∈ B, delete_older_files D b.2 = false) ∧ gc_scan D r = S :: A := by
  induction r with
  | nil => exact Or.inl ⟨rfl, by simp⟩
  | cons e r ih =>
    by_cases hq : delete_older_files D e.2 = true
    · exact Or.inr ⟨[], e, r, rfl, hq, by simp, by simp [gc_scan, hq]⟩
    · have hq' : delete_older_files D e.2 = false := by simpa using hq
      rcases ih with ⟨h1, h2⟩ | ⟨B, S, A, h1, h2, h3, h4⟩
      · refine Or.inl ⟨by simp [gc_scan, hq', h1], ?_⟩
        intro x hx
        rcases List.mem_cons.1 hx with rfl | hx
        · exact hq'
        · exact h2 x hx
      · refine Or.inr ⟨e :: B, S, A, by simp [h1], h2, ?_, by simp [gc_scan, hq', h4]⟩
        intro b hb
        rcases List.mem_cons.1 hb with rfl | hb
        · exact hq'
        · exact h3 b hb

/-- The second loop of `garbage_collection` touches the disk and the segment map only. -/
theorem gc_fold_eq (victims : List (Int × log_file)) (s : mutation_log) :
    victims.foldl
        (fun st e => { st with fs := fs_remove st.fs e.2.path
                               log_files := omap_erase e.1 st.log_files }) s
      = { s with
          fs := victims.foldl (fun fs e => fs_remove fs e.2.path) s.fs
          log_files := s.log_files.filter fun e => decide (e.1 ∉ victims.map Prod.fst) } := by
  induction victims generalizing s with
  | nil => simp
  | cons v victims ih =>
    simp only [List.foldl_cons]
    rw [ih]
    simp only [omap_erase, List.filter_filter, List.map_cons, List.mem_cons, not_or]
    congr 1
    apply List.filter_congr
    intro x _
    by_cases h1 : x.1 = v.1 <;> by_cases h2 : x.1 ∈ List.map Prod.fst victims <;> simp [h1, h2]

theorem garbage_collection_log_files (s : mutation_log) (D : multi_partition_decrees) :
    (s.garbage_collection D).2.log_files
      = s.log_files.filter fun e => decide (e.1 ∉ (gc_victims s D).map Prod.fst) := by
  simp [mutation_log.garbage_collection, gc_fold_eq]

theorem garbage_collection_count (s : mutation_log) (D : multi_partition_decrees) :
    (s.garbage_collection D).1 = (gc_victims s D).length := by
  simp [mutation_log.garbage_collection]

theorem omap_sorted_lt {β : Type} {m : List (Int × β)} (h : omap_sorted int_lt m) :
    m.Pairwise fun a b => a.1 < b.1 := by
  unfold omap_sorted at h
  exact h.imp (by intro a b hab; simpa [int_lt] using hab)

theorem omap_sorted_key_inj {β : Type} {m : List (Int × β)} (h : omap_sorted int_lt m)
    {x y : Int × β} (hx : x ∈ m) (hy : y ∈ m) (hxy : x.1 = y.1) : x = y := by
  have hp := omap_sorted_lt h
  have hn : (m.map Prod.fst).Nodup := by
    rw [List.Nodup, List.pairwise_map]
    exact hp.imp (by intro a b hab; omega)
  exact List.inj_on_of_nodup_map hn hx hy hxy

/-- The segments `garbage_collection` looks at: all but the current one. -/
theorem gc_files_eq (s : mutation_log) :
    (match s.current_log_file with
      | some k => omap_erase k s.log_files
      | none => s.log_files)
      = s.log_files.filter fun e => decide (s.current_log_file ≠ some e.1) := by
  cases h : s.current_log_file with
  | none => simp
  | some k =>
    simp only [omap_erase, ne_eq, Option.some.injEq]
    apply List.filter_congr
    intro x _
    by_cases hk : x.1 = k
    · simp [hk]
    · have : ¬ k = x.1 := fun e => hk e.symm
      simp [hk, this]

/-- What the scan of `garbage_collection` finds in a sorted segment map: nothing when no
segment other than the current one qualifies, and otherwise the qualifying segment `S` of
highest index, the victims being the other segments below it. -/
theorem gc_victims_spec (s : mutation_log) (D : multi_partition_decrees)
    (hs : omap_sorted int_lt s.log_files) :
    (gc_victims s D = []
      ∧ ∀ x ∈ s.log_files, s.current_log_file ≠ some x.1 → delete_older_files D x.2 = false)
    ∨ ∃ S ∈ s.log_files, s.current_log_file ≠ some S.1 ∧ delete_older_files D S.2 = true
        ∧ (∀ x ∈ s.log_files, s.current_log_file ≠ some x.1 →
            delete_older_files D x.2 = true → x.1 ≤ S.1)
        ∧ ∀ x, x ∈ gc_victims s D ↔
            (x ∈ s.log_files ∧ s.current_log_file ≠ some x.1 ∧ x.1 < S.1) := by
  unfold gc_victims
  rw [gc_files_eq]
  set files := s.log_files.filter fun e => decide (s.current_log_file ≠ some e.1) with hfiles
  have hmem : ∀ x, x ∈ files ↔ (x ∈ s.log_files ∧ s.current_log_file ≠ some x.1) := by
    intro x; simp [hfiles]
  have hsorted : files.Pairwise fun a b => a.1 < b.1 :=
    (omap_sorted_lt hs).sublist (List.filter_sublist _)
  rcases gc_scan_split D files.reverse with ⟨h1, h2⟩ | ⟨B, S, A, h1, h2, h3, h4⟩
  · left
    refine ⟨by simp [h1], ?_⟩
    intro x hx hc
    exact h2 x (by simp [(hmem x).2 ⟨hx, hc⟩])
  · right
    have hf : files = A.reverse ++ S :: B.reverse := by
      have := congrArg List.reverse h1
      simpa using this
    rw [hf, List.pairwise_append] at hsorted
    obtain ⟨_, hSB, hAS⟩ := hsorted
    rw [List.pairwise_cons] at hSB
    have hSmem : S ∈ files := by rw [hf]; simp
    refine ⟨S, ((hmem S).1 hSmem).1, ((hmem S).1 hSmem).2, h2, ?_, ?_⟩
    · intro x hx hc hq
      have hxf : x ∈ files := (hmem x).2 ⟨hx, hc⟩
      rw [hf] at hxf
      rcases List.mem_append.1 hxf with hxa | hxs
      · exact le_of_lt (hAS x hxa S (List.mem_cons_self _ _))
      · rcases List.mem_cons.1 hxs with rfl | hxb
        · exact le_refl _
        · have := h3 x (by simpa using hxb)
          rw [this] at hq
          exact absurd hq (by simp)
    · intro x
      simp only [h4]
      constructor
      · intro hx
        have hxa : x ∈ A.reverse := by simpa using hx
        have hxf : x ∈ files := by rw [hf]; exact List.mem_append_left _ hxa
        exact ⟨((hmem x).1 hxf).1, ((hmem x).1 hxf).2, hAS x hxa S (List.mem_cons_self _ _)⟩
      · rintro ⟨hx, hc, hlt⟩
        have hxf : x ∈ files := (hmem x).2 ⟨hx, hc⟩
        rw [hf] at hxf
        rcases List.mem_append.1 hxf with hxa | hxs
        · simpa using hxa
        · rcases List.mem_cons.1 hxs with rfl | hxb
          · exact absurd hlt (lt_irrefl _)
          · exact absurd (hSB.1 x hxb) (by omega)

theorem gc_victims_subset (s : mutation_log) (D : multi_partition_decrees)
    (hs : omap_sorted int_lt s.log_files) :
    ∀ x ∈ gc_victims s D, x ∈ s.log_files ∧ s.current_log_file ≠ some x.1 := by
  intro x hx
  rcases gc_victims_spec s D hs with ⟨h1, _⟩ | ⟨S, _, _, _, _, h5⟩
  · rw [h1] at hx; exact absurd hx (List.not_mem_nil _)
  · exact ⟨((h5 x).1 hx).1, ((h5 x).1 hx).2.1⟩

theorem garbage_collection_removed_iff (s : mutation_log) (D : multi_partition_decrees)
    (hs : omap_sorted int_lt s.log_files) (e : Int × log_file) (he : e ∈ s.log_files) :
    e ∉ (s.garbage_collection D).2.log_files ↔ e ∈ gc_victims s D := by
  rw [garbage_collection_log_files]
  simp only [List.mem_filter, he, true_and, decide_eq_true_eq, not_not, List.mem_map]
  constructor
  · rintro ⟨v, hv, hve⟩
    have := omap_sorted_key_inj hs (gc_victims_subset s D hs v hv).1 he hve
    exact this ▸ hv
  · intro h
    exact ⟨e, h, rfl⟩
set_option maxRecDepth 100000 in
theorem gc_example_log_reached :
    run_ops sample_codec gc_example_ops (mutation_log.ctor 1 100 0 false 2 [])
      = some gc_example_log := by
  decide

set_option maxRecDepth 100000 in
theorem gc_example_log_shape :
    gc_example_log.current_log_file = some 3
    ∧ gc_example_log.log_files.map
        (fun e => (e.1, e.2.init_prepared_decrees))
      = [(1, [(⟨1, 0⟩, 1)]), (2, [(⟨1, 0⟩, 100)]), (3, [(⟨1, 0⟩, 200)])] := by
  decide

set_option maxRecDepth 100000 in
theorem garbage_collection_all_segments_counterexample :
    run_ops sample_codec gc_example_ops (mutation_log.ctor 1 100 0 false 2 [])
      = some gc_example_log
    ∧ ¬ ∀ e ∈ gc_example_log.log_files,
        (e ∉ (gc_example_log.garbage_collection [(⟨1, 0⟩, 250)]).2.log_files ↔
          ∃ S ∈ gc_example_log.log_files,
            delete_older_files [(⟨1, 0⟩, 250)] S.2 = true
            ∧ (∀ T ∈ gc_example_log.log_files,
                delete_older_files [(⟨1, 0⟩, 250)] T.2 = true → T.1 ≤ S.1)
            ∧ e.1 < S.1) := by
  decide

theorem gc_scan_suffix (D : multi_partition_decrees) (r : List (Int × log_file)) :
    gc_scan D r <:+ r := by
  induction r with
  | nil => simp [gc_scan]
  | cons e r ih =>
    unfold gc_scan
    split
    · exact List.suffix_refl _
    · exact ih.trans (List.suffix_cons _ _)

theorem gc_victims_nodup (s : mutation_log) (D : multi_partition_decrees)
    (hs : omap_sorted int_lt s.log_files) : (gc_victims s D).Nodup := by
  unfold gc_victims
  rw [gc_files_eq]
  have hm : s.log_files.Nodup := (omap_sorted_lt hs).imp (by
    intro a b hab heq
    rw [heq] at hab
    exact lt_irrefl _ hab)
  have hf : ((s.log_files.filter
      fun e => decide (s.current_log_file ≠ some e.1)).reverse).Nodup :=
    List.nodup_reverse.2 (hm.sublist (List.filter_sublist _))
  have hsub := (gc_scan_suffix D ((s.log_files.filter
      fun e => decide (s.current_log_file ≠ some e.1)).reverse)).sublist
  simp only
  split
  · exact List.nodup_nil
  · rename_i hd older heq
    rw [heq] at hsub
    exact (hf.sublist hsub).of_cons

theorem omap_find_filter_none {κ β : Type} [DecidableEq κ] (k : κ) (q : κ × β → Bool)
    (m : List (κ × β)) (h : omap_find k m = none) : omap_find k (m.filter q) = none := by
  induction m with
  | nil => rfl
  | cons e m ih =>
    obtain ⟨k', v'⟩ := e
    unfold omap_find at h
    split at h
    · simp at h
    · rename_i hk
      by_cases hq : q (k', v') = true
      · simp [List.filter_cons, hq, omap_find, hk, ih h]
      · simp [List.filter_cons, hq, ih h]

theorem fs_find_remove (fs : disk) (p : List Char) : fs_find (fs_remove fs p) p = none := by
  unfold fs_find fs_remove omap_erase
  induction fs with
  | nil => rfl
  | cons e fs ih =>
    by_cases h : e.1 = p
    · simpa [List.filter_cons, h] using ih
    · simpa [List.filter_cons, h, omap_find] using ih

theorem fs_find_gc_fold (V : List (Int × log_file)) (fs : disk) (p : List Char)
    (h : fs_find fs p = none ∨ ∃ v ∈ V, v.2.path = p) :
    fs_find (V.foldl (fun fs e => fs_remove fs e.2.path) fs) p = none := by
  induction V generalizing fs with
  | nil =>
    rcases h with h | ⟨v, hv, _⟩
    · simpa using h
    · exact absurd hv (List.not_mem_nil _)
  | cons v V ih =>
    simp only [List.foldl_cons]
    apply ih
    rcases h with h | ⟨w, hw, hwp⟩
    · exact Or.inl (omap_find_filter_none p _ fs h)
    · rcases List.mem_cons.1 hw with rfl | hw
      · exact Or.inl (hwp ▸ fs_find_remove fs _)
      · exact Or.inr ⟨w, hw, hwp⟩

theorem garbage_collection_fs (s : mutation_log) (D : multi_partition_decrees) :
    (s.garbage_collection D).2.fs
      = (gc_victims s D).foldl (fun fs e => fs_remove fs e.2.path) s.fs := by
  simp [mutation_log.garbage_collection, gc_fold_eq]

theorem garbage_collection_count_removed (s : mutation_log) (D : multi_partition_decrees)
    (hs : omap_sorted int_lt s.log_files) :
    (s.garbage_collection D).1
      = (s.log_files.filter
          fun e => decide (e ∉ (s.garbage_collection D).2.log_files)).length := by
  rw [garbage_collection_count]
  congr 1
  apply List.Perm.length_eq
  have hm : s.log_files.Nodup := (omap_sorted_lt hs).imp (by
    intro a b hab heq
    rw [heq] at hab
    exact lt_irrefl _ hab)
  rw [List.perm_ext_iff_of_nodup (gc_victims_nodup s D hs) (hm.filter _)]
  intro x
  simp only [List.mem_filter, decide_eq_true_eq]
  constructor
  · intro hx
    have hxm := (gc_victims_subset s D hs x hx).1
    exact ⟨hxm, (garbage_collection_removed_iff s D hs x hxm).2 hx⟩
  · rintro ⟨hxm, hx⟩
    exact (garbage_collection_removed_iff s D hs x hxm).1 hx

set_option maxRecDepth 100000 in
/-- C3 (amended): in a segment map kept in index order, `garbage_collection(D)` looks at the
segments other than the current writable one.  With `S` the one of highest index among
them such that every partition listed in `D` is absent from `S.init_prepared_decrees` or
has `D[g] >= S.init_prepared_decrees[g]`, it removes exactly the segments other than the
current one whose index is below the index of `S`, from the map and from the disk; it
returns the number of segments removed, and changes nothing when no such segment
qualifies.  On the log with three segments whose decrees for (1,0) are 1, 100, 200,
`D = {(1,0) -> 99}` removes none and `D = {(1,0) -> 150}` removes segment 1 only. -/
theorem garbage_collection_removes_below_highest (s : mutation_log)
    (D : multi_partition_decrees) (hs : omap_sorted int_lt s.log_files) :
    (∀ e ∈ s.log_files,
        (e ∉ (s.garbage_collection D).2.log_files ↔
          (s.current_log_file ≠ some e.1
            ∧ ∃ S ∈ s.log_files, s.current_log_file ≠ some S.1
                ∧ delete_older_files D S.2 = true
                ∧ (∀ T ∈ s.log_files, s.current_log_file ≠ some T.1 →
                    delete_older_files D T.2 = true → T.1 ≤ S.1)
                ∧ e.1 < S.1)))
    ∧ (∀ e ∈ (s.garbage_collection D).2.log_files, e ∈ s.log_files)
    ∧ (∀ e ∈ s.log_files, e ∉ (s.garbage_collection D).2.log_files →
        fs_find (s.garbage_collection D).2.fs e.2.path = none)
    ∧ (s.garbage_collection D).1
        = (s.log_files.filter
            fun e => decide (e ∉ (s.garbage_collection D).2.log_files)).length
    ∧ ((∀ S ∈ s.log_files, s.current_log_file ≠ some S.1 →
          delete_older_files D S.2 = false) → s.garbage_collection D = (0, s))
    ∧ (gc_example_log.garbage_collection [(⟨1, 0⟩, 99)]).1 = 0
    ∧ (gc_example_log.garbage_collection [(⟨1, 0⟩, 99)]).2.log_files = gc_example_log.log_files
    ∧ (gc_example_log.garbage_collection [(⟨1, 0⟩, 150)]).1 = 1
    ∧ (gc_example_log.garbage_collection [(⟨1, 0⟩, 150)]).2.log_files
        = gc_example_log.log_files.filter fun e => decide (e.1 ≠ 1) := by
  refine ⟨?_, ?_, ?_, garbage_collection_count_removed s D hs, ?_, by decide, by decide,
    by decide, by decide⟩
  · intro e he
    rw [garbage_collection_removed_iff s D hs e he]
    rcases gc_victims_spec s D hs with ⟨h1, h2⟩ | ⟨S, hS, hSc, hSq, hSmax, hV⟩
    · rw [h1]
      constructor
      · intro h; exact absurd h (List.not_mem_nil _)
      · rintro ⟨_, T, hT, hTc, hTq, _⟩
        rw [h2 T hT hTc] at hTq
        exact absurd hTq (by simp)
    · rw [hV e]
      constructor
      · rintro ⟨_, hc, hlt⟩
        exact ⟨hc, S, hS, hSc, hSq, hSmax, hlt⟩
      · rintro ⟨hc, T, hT, hTc, hTq, _, hlt⟩
        exact ⟨he, hc, lt_of_lt_of_le hlt (hSmax T hT hTc hTq)⟩
  · intro e he
    rw [garbage_collection_log_files] at he
    exact (List.mem_filter.1 he).1
  · intro e he hne
    rw [garbage_collection_fs]
    exact fs_find_gc_fold _ _ _
      (Or.inr ⟨e, (garbage_collection_removed_iff s D hs e he).1 hne, rfl⟩)
  · intro hnone
    have hv : gc_victims s D = [] := by
      rcases gc_victims_spec s D hs with ⟨h1, _⟩ | ⟨S, hS, hSc, hSq, _, _⟩
      · exact h1
      · rw [hnone S hS hSc] at hSq
        exact absurd hSq (by simp)
    simp [mutation_log.garbage_collection, hv]

set_option maxRecDepth 100000 in
theorem garbage_collection_removes_below_highest_witness :
    omap_sorted int_lt gc_example_log.log_files
    ∧ (gc_example_log.garbage_collection [(⟨1, 0⟩, 150)]).1
        = (gc_example_log.log_files.filter fun e =>
            decide (e ∉ (gc_example_log.garbage_collection [(⟨1, 0⟩, 150)]).2.log_files)).length :=
  have h : omap_sorted int_lt gc_example_log.log_files := by
    unfold omap_sorted
    decide
  ⟨h, (garbage_collection_removes_below_highest gc_example_log [(⟨1, 0⟩, 150)] h).2.2.2.1⟩

/-! ## The write path, step by step -/

theorem create_new_pending_buffer_some {c : core_codec} {s s' : mutation_log}
    (h : s.create_new_pending_buffer c = some s') :
    s.pending_write = none ∧ s.pending_write_callbacks = none ∧ s.pending_write_timer = false
    ∧ s' = { s with
        pending_write := some (message.create_request c)
        pending_write_callbacks := some []
        pending_write_timer := s.batch_write
        global_end_offset := s.global_end_offset + c.MSG_HDR_SERIALIZED_SIZE } := by
  unfold mutation_log.create_new_pending_buffer at h
  split at h
  · simp at h
  · split at h
    · simp at h
    · split at h
      · simp at h
      · rename_i h1 h2 h3
        simp only [message.total_size, message.create_request, List.length_nil, Nat.cast_zero,
          add_zero, ne_eq, not_true_eq_false, ↓reduceIte, Option.some.injEq] at h
        refine ⟨by simpa using h1, by simpa using h2, by simpa using h3, h.symm⟩

theorem check_current_some {s s1 : mutation_log}
    (h : (match s.current_log_file with
      | none => some s
      | some k =>
        match s.file k with
        | none => none
        | some cur =>
          if cur.end_offset = s.global_end_offset then some { s with last_log_file := some k }
          else none) = some s1) :
    s1 = { s with last_log_file := match s.current_log_file with
                            | some k => some k
                            | none => s.last_log_file }
    ∧ (∀ k, s.current_log_file = some k →
        ∃ cur, s.file k = some cur ∧ cur.end_offset = s.global_end_offset) := by
  cases hc : s.current_log_file with
  | none =>
    rw [hc] at h
    simp only [Option.some.injEq] at h
    subst h
    refine ⟨?_, by simp⟩
    cases s
    simp only at hc
    subst hc
    rfl
  | some k =>
    rw [hc] at h
    simp only at h
    cases hf : s.file k with
    | none => simp [hf] at h
    | some cur =>
      simp only [hf] at h
      by_cases he : cur.end_offset = s.global_end_offset
      · simp only [he, if_true, Option.some.injEq] at h
        refine ⟨h.symm, ?_⟩
        intro k' hk'
        simp only [Option.some.injEq] at hk'
        subst hk'
        exact ⟨cur, hf, he⟩
      · simp [he] at h

theorem create_new_log_file_some {c : core_codec} {io : io_env} {s s' : mutation_log}
    {e : error_code} (h : s.create_new_log_file c io = some (e, s')) :
    (∀ k, s.current_log_file = some k →
        ∃ cur, s.file k = some cur ∧ cur.end_offset = s.global_end_offset)
    ∧ is_int32 (s.last_file_number + 1) ∧ is_int64 s.global_end_offset
    ∧ ((io.create_ok = false ∧ e = ERR_FILE_OPERATION_FAILED
          ∧ s' = { s with last_log_file := match s.current_log_file with
                            | some k => some k
                            | none => s.last_log_file })
      ∨ (io.create_ok = true ∧ e = ERR_OK
          ∧ omap_find (s.last_file_number + 1) s.log_files = none
          ∧ s.pending_write = none ∧ s.pending_write_callbacks = none
          ∧ s.pending_write_timer = false
          ∧ s' = with_new_segment c s)) := by
  unfold mutation_log.create_new_log_file at h
  simp only at h
  split at h
  · simp at h
  rename_i s1 hs1
  obtain ⟨hs1eq, hcurp⟩ := check_current_some hs1
  have f1 : s1.last_file_number = s.last_file_number := by rw [hs1eq]
  have f2 : s1.global_end_offset = s.global_end_offset := by rw [hs1eq]
  have f3 : s1.log_files = s.log_files := by rw [hs1eq]
  have f4 : s1.pending_write = s.pending_write := by rw [hs1eq]
  have f5 : s1.pending_write_callbacks = s.pending_write_callbacks := by rw [hs1eq]
  have f6 : s1.pending_write_timer = s.pending_write_timer := by rw [hs1eq]
  split at h
  · simp at h
  · rename_i hrange
    simp only [not_not] at hrange
    refine ⟨hcurp, ⟨by rw [← f1]; exact hrange.1, by rw [← f1]; exact hrange.2.1⟩,
      ⟨by rw [← f2]; exact hrange.2.2.1, by rw [← f2]; exact hrange.2.2.2⟩, ?_⟩
    unfold log_file.create_write at h
    by_cases hio : io.create_ok = true
    · right
      simp only [hio, if_true] at h
      split at h
      · simp at h
      · rename_i hfind
        split at h
        · simp at h
        · split at h
          · simp at h
          · cases hb : mutation_log.create_new_pending_buffer c
                { s1 with
                  last_file_number := s1.last_file_number + 1
                  log_files := omap_insert int_lt (s1.last_file_number + 1)
                    (log_file.ctor (log_path s1.dir (s1.last_file_number + 1)
                      s1.global_end_offset) true (s1.last_file_number + 1)
                      s1.global_end_offset s1.max_staleness_for_commit false 0) s1.log_files
                  fs := fs_create s1.fs (log_path s1.dir (s1.last_file_number + 1)
                      s1.global_end_offset)
                  current_log_file := some (s1.last_file_number + 1) } with
            | none => simp [hb] at h
            | some s3 =>
              simp only [hb] at h
              obtain ⟨p1, p2, p3, p4⟩ := create_new_pending_buffer_some hb
              simp only at p1 p2 p3
              subst p4
              simp only at h
              split at h
              · simp at h
              · simp only [Option.some.injEq, Prod.mk.injEq] at h
                refine ⟨hio, h.1.symm, ?_, by rw [← f4]; exact p1, by rw [← f5]; exact p2,
                  by rw [← f6]; exact p3, ?_⟩
                · rw [← f1, ← f3]
                  simpa using hfind
                · rw [← h.2, hs1eq]
                  simp only [with_new_segment, fresh_segment]
    · left
      have hio' : io.create_ok = false := by simpa using hio
      simp only [hio', Bool.false_eq_true, if_false, Option.some.injEq, Prod.mk.injEq] at h
      exact ⟨hio', h.1.symm, by rw [← h.2, hs1eq]⟩

theorem write_pending_mutations_some {c : core_codec} {io : io_env} {s s' : mutation_log}
    {e : error_code} {b : Bool} (h : s.write_pending_mutations c io b = some (e, s')) :
    ∃ pw cbs k cur, s.pending_write = some pw ∧ s.pending_write_callbacks = some cbs
      ∧ s.pending_write_timer = false ∧ s.current_log_file = some k ∧ s.file k = some cur
      ∧ cur.is_read = false
      ∧ cur.end_offset + (c.MSG_HDR_SERIALIZED_SIZE + pw.body.length : Nat)
          = s.global_end_offset
      ∧ ((io.issue_ok = false ∧ e = ERR_FILE_OPERATION_FAILED
            ∧ s' = after_flush c io s k cur pw cbs)
        ∨ (io.issue_ok = true
            ∧ ¬ (b = true
                ∧ s.global_end_offset - cur.start_offset ≥ s.max_log_file_size_in_bytes)
            ∧ e = ERR_OK ∧ s' = after_flush c io s k cur pw cbs)
        ∨ (io.issue_ok = true ∧ b = true
            ∧ s.global_end_offset - cur.start_offset ≥ s.max_log_file_size_in_bytes
            ∧ (after_flush c io s k cur pw cbs).create_new_log_file c io = some (e, s'))) := by
  unfold mutation_log.write_pending_mutations at h
  split at h
  swap
  · simp at h
  rename_i pw cbs hpw hcbs
  split at h
  · simp at h
  rename_i htimer
  simp only at h
  split at h
  · simp at h
  rename_i k hk
  split at h
  · simp at h
  rename_i cur hcur
  unfold log_file.write_log_entry at h
  by_cases hread : cur.is_read = true
  · simp [hread] at h
  simp only [hread, Bool.false_eq_true, if_false] at h
  have hread' : cur.is_read = false := by simpa using hread
  have hlen : ((c.seal_hdr pw.body ++ pw.body).length : Int)
      = (c.MSG_HDR_SERIALIZED_SIZE + pw.body.length : Nat) := by
    simp [c.seal_length]
  by_cases hoff : s.end_offset - ((c.seal_hdr pw.body ++ pw.body).length : Int) = cur.end_offset
  swap
  · simp only [ne_eq, hoff, not_false_eq_true, if_true] at h
    exact absurd h (by simp)
  have hoff' : cur.end_offset + (c.MSG_HDR_SERIALIZED_SIZE + pw.body.length : Nat)
      = s.global_end_offset := by
    rw [← hlen, ← hoff]
    simp [mutation_log.end_offset]
  have hend : s.end_offset - ((c.seal_hdr pw.body ++ pw.body).length : Int)
      + ((c.seal_hdr pw.body ++ pw.body).length : Int) = s.global_end_offset := by
    simp [mutation_log.end_offset]
  have hend2 : cur.end_offset + ((c.seal_hdr pw.body ++ pw.body).length : Int)
      = s.global_end_offset := by rw [hlen]; exact hoff'
  refine ⟨pw, cbs, k, cur, hpw, hcbs, by simpa using htimer, hk, hcur, by simpa using hread,
    hoff', ?_⟩
  simp only [hoff, ne_eq, not_true_eq_false, if_false] at h
  by_cases hio : io.issue_ok = true
  · simp only [hio, if_true, not_true_eq_false, if_false] at h
    rw [← hoff, hend] at h
    simp only [ne_eq, not_true_eq_false, if_false, ge_iff_le] at h
    by_cases hroll : b = true
        ∧ s.global_end_offset - cur.start_offset ≥ s.max_log_file_size_in_bytes
    · right; right
      simp only [hroll.1, true_and] at h
      rw [if_pos (by simpa using hroll.2)] at h
      refine ⟨hio, hroll.1, hroll.2, ?_⟩
      rw [← h]
      simp only [after_flush, hio, if_true, hoff, hread']
    · right; left
      rw [if_neg (by simpa using hroll)] at h
      simp only [Option.some.injEq, Prod.mk.injEq] at h
      refine ⟨hio, hroll, h.1.symm, ?_⟩
      rw [← h.2]
      simp only [after_flush, hio, if_true, hoff, hread']
  · left
    have hio' : io.issue_ok = false := by simpa using hio
    simp only [hio', Bool.false_eq_true, if_false, not_false_eq_true, if_true,
      Option.some.injEq, Prod.mk.injEq] at h
    refine ⟨hio', h.1.symm, ?_⟩
    rw [← h.2]
    simp only [after_flush, hio', Bool.false_eq_true, if_false, hend, hend2, hread']

theorem flush_after_append_some {c : core_codec} {io : io_env} {s3 s' : mutation_log}
    {mu1 mu' : mutation} {total : Int}
    (h : s3.flush_after_append c io mu1 total = some (mu', s')) :
    mu' = mu1
    ∧ ((s3.batch_write = false ∧ ∃ e, s3.write_pending_mutations c io true = some (e, s'))
      ∨ (s3.batch_write = true ∧ s3.pending_write_timer = true ∧ io.cancel_ok = true
          ∧ uint32_cast total ≥ s3.log_buffer_size_bytes
          ∧ ∃ e, s3.clear_timer.write_pending_mutations c io true = some (e, s'))
      ∨ (s3.batch_write = true ∧ s' = s3
          ∧ (uint32_cast total < s3.log_buffer_size_bytes
            ∨ (s3.pending_write_timer = true ∧ io.cancel_ok = false)))) := by
  unfold mutation_log.flush_after_append at h
  by_cases hb : s3.batch_write = true
  · simp only [hb, not_true_eq_false, if_false] at h
    split at h
    · rename_i hsize
      split at h
      · simp at h
      · rename_i htimer
        split at h
        · rename_i hcancel
          obtain ⟨r, hr, hmap⟩ := Option.map_eq_some'.1 h
          simp only [Prod.mk.injEq] at hmap
          exact ⟨hmap.1.symm, Or.inr (Or.inl ⟨hb, by simpa using htimer, hcancel, hsize, r.1,
            by rw [← hmap.2]; exact hr⟩)⟩
        · rename_i hcancel
          simp only [Option.some.injEq, Prod.mk.injEq] at h
          exact ⟨h.1.symm, Or.inr (Or.inr ⟨hb, h.2.symm,
            Or.inr ⟨by simpa using htimer, by simpa using hcancel⟩⟩)⟩
    · rename_i hsize
      simp only [Option.some.injEq, Prod.mk.injEq] at h
      exact ⟨h.1.symm, Or.inr (Or.inr ⟨hb, h.2.symm, Or.inl (by simpa using hsize)⟩)⟩
  · have hb' : s3.batch_write = false := by simpa using hb
    simp only [hb', Bool.false_eq_true, not_false_eq_true, if_true] at h
    obtain ⟨r, hr, hmap⟩ := Option.map_eq_some'.1 h
    simp only [Prod.mk.injEq] at hmap
    exact ⟨hmap.1.symm, Or.inl ⟨hb', r.1, by rw [← hmap.2]; exact hr⟩⟩

theorem append_some {c : core_codec} {io : io_env} {s s' : mutation_log} {mu mu' : mutation}
    {cb : Nat} (h : s.append c io mu cb = some (mu', s')) :
    (∃ k, s.current_log_file = some k)
    ∧ ∃ pw cbs, (with_buffer c s mu).pending_write = some pw
      ∧ (with_buffer c s mu).pending_write_callbacks = some cbs
      ∧ (s.pending_write = none →
          s.pending_write_callbacks = none ∧ s.pending_write_timer = false)
      ∧ (with_appended c s mu cb pw cbs).flush_after_append c io
          { mu with log_offset := (with_buffer c s mu).global_end_offset }
          (c.MSG_HDR_SERIALIZED_SIZE + pw.body.length
            + (c.write_to { mu with log_offset := (with_buffer c s mu).global_end_offset }).length
            : Nat) = some (mu', s') := by
  unfold mutation_log.append at h
  split at h
  · simp at h
  rename_i hcur
  simp only at h
  have hk : ∃ k, s.current_log_file = some k := by
    cases hc : s.current_log_file with
    | none => simp [hc] at hcur
    | some k => exact ⟨k, rfl⟩
  refine ⟨hk, ?_⟩
  split at h
  · simp at h
  rename_i s2 hs2
  have hs2eq : s2 = with_buffer c s mu
      ∧ (s.pending_write = none →
          s.pending_write_callbacks = none ∧ s.pending_write_timer = false) := by
    by_cases hp : s.pending_write.isNone = true
    · simp only [hp, if_true] at hs2
      obtain ⟨_, p2, p3, p4⟩ := create_new_pending_buffer_some hs2
      simp only at p2 p3
      refine ⟨?_, fun _ => ⟨p2, p3⟩⟩
      rw [p4]
      simp [with_buffer, hp]
    · simp only [hp, Bool.false_eq_true, if_false, Option.some.injEq] at hs2
      refine ⟨?_, fun hn => absurd (by simp [hn]) hp⟩
      rw [← hs2]
      simp [with_buffer, hp]
  obtain ⟨hs2eq, hnone⟩ := hs2eq
  subst hs2eq
  split at h
  swap
  · simp at h
  rename_i pw cbs hpw hcbs
  refine ⟨pw, cbs, hpw, hcbs, hnone, ?_⟩
  rw [← h]
  simp only [with_appended, mutation_log.end_offset, message.total_size, List.length_append]
  congr 2
  all_goals first
    | rfl
    | (push_cast; ring)

/-! ## Well-formed segment maps are kept -/

theorem mem_index_range (lo : Int) (n : Nat) (x : Int) :
    x ∈ index_range lo n ↔ lo ≤ x ∧ x < lo + n := by
  unfold index_range
  simp only [List.mem_map, List.mem_range]
  constructor
  · rintro ⟨i, hi, rfl⟩
    omega
  · rintro ⟨h1, h2⟩
    exact ⟨(x - lo).toNat, by omega, by omega⟩

theorem index_range_succ (lo : Int) (n : Nat) :
    index_range lo (n + 1) = index_range lo n ++ [lo + n] := by
  simp [index_range, List.range_succ]

theorem index_range_cons (lo : Int) (n : Nat) :
    index_range lo (n + 1) = lo :: index_range (lo + 1) n := by
  unfold index_range
  rw [List.range_succ_eq_map]
  simp only [List.map_cons, Nat.cast_zero, add_zero, List.map_map, List.cons.injEq, true_and]
  apply List.map_congr_left
  intro i _
  simp only [Function.comp_apply, Nat.cast_succ]
  ring

theorem index_range_sorted (lo : Int) (n : Nat) : (index_range lo n).Pairwise (· < ·) := by
  induction n generalizing lo with
  | zero => simp [index_range]
  | succ n ih =>
    rw [index_range_cons, List.pairwise_cons]
    refine ⟨?_, ih _⟩
    intro x hx
    have := (mem_index_range _ _ _).1 hx
    omega

theorem index_range_length (lo : Int) (n : Nat) : (index_range lo n).length = n := by
  simp [index_range]

theorem index_range_drop (lo : Int) (n k : Nat) :
    (index_range lo n).drop k = index_range (lo + k) (n - k) := by
  induction k generalizing lo n with
  | zero => simp
  | succ k ih =>
    cases n with
    | zero => simp [index_range]
    | succ n =>
      rw [index_range_cons, List.drop_succ_cons, ih]
      congr 1
      · push_cast; ring
      · omega

theorem segments_wf_sorted {s : mutation_log} (h : segments_wf s) :
    omap_sorted int_lt s.log_files := by
  obtain ⟨⟨n, hn⟩, _⟩ := h
  have hp := index_range_sorted (s.last_file_number + 1 - n) n
  rw [← hn, List.pairwise_map] at hp
  unfold omap_sorted
  exact hp.imp (by intro a b hab; simpa [int_lt] using hab)

theorem segments_wf_key_le {s : mutation_log} (h : segments_wf s) :
    ∀ e ∈ s.log_files, e.1 ≤ s.last_file_number := by
  obtain ⟨⟨n, hn⟩, _⟩ := h
  intro e he
  have : e.1 ∈ index_range (s.last_file_number + 1 - n) n := by
    rw [← hn]; exact List.mem_map_of_mem _ he
  have := (mem_index_range _ _ _).1 this
  omega

theorem set_file_keys (k : Int) (f : log_file) (m : List (Int × log_file)) :
    (set_file k f m).map Prod.fst = m.map Prod.fst := by
  unfold set_file
  rw [List.map_map]
  apply List.map_congr_left
  intro e _
  simp only [Function.comp_apply]
  split <;> rfl

theorem mem_set_file {k : Int} {f : log_file} {m : List (Int × log_file)}
    {e : Int × log_file} (h : e ∈ set_file k f m) :
    (e ∈ m ∧ e.1 ≠ k) ∨ (e = (k, f) ∧ k ∈ m.map Prod.fst) := by
  unfold set_file at h
  obtain ⟨x, hx, hxe⟩ := List.mem_map.1 h
  by_cases hk : x.1 = k
  · right
    simp only [hk, if_true] at hxe
    exact ⟨hxe.symm, List.mem_map.2 ⟨x, hx, hk⟩⟩
  · left
    simp only [hk, if_false] at hxe
    subst hxe
    exact ⟨hx, hk⟩

theorem int_lt_asymm (a b : Int) (h : int_lt a b = true) : int_lt b a = false := by
  unfold int_lt at *
  simp only [decide_eq_true_eq, decide_eq_false_iff_not] at *
  omega

theorem omap_find_mem {κ β : Type} [DecidableEq κ] {k : κ} {v : β} {m : List (κ × β)}
    (h : omap_find k m = some v) : (k, v) ∈ m := by
  induction m with
  | nil => simp [omap_find] at h
  | cons e m ih =>
    obtain ⟨k', v'⟩ := e
    unfold omap_find at h
    split at h
    · rename_i hk
      simp only [Option.some.injEq] at h
      subst hk h
      exact List.mem_cons_self _ _
    · exact List.mem_cons_of_mem _ (ih h)

theorem omap_find_some_of_mem {κ β : Type} [DecidableEq κ] {k : κ} {m : List (κ × β)}
    (h : k ∈ m.map Prod.fst) : ∃ v, omap_find k m = some v := by
  induction m with
  | nil => simp at h
  | cons e m ih =>
    obtain ⟨k', v'⟩ := e
    unfold omap_find
    by_cases hk : k' = k
    · exact ⟨v', by simp [hk]⟩
    · simp only [hk, if_false]
      apply ih
      simp only [List.map_cons, List.mem_cons] at h
      rcases h with h | h
      · exact absurd h.symm hk
      · exact h

theorem segments_wf_ctor (a b d : Int) (batch : Bool) (w : Int) (fs : disk) :
    segments_wf (mutation_log.ctor a b d batch w fs) := by
  refine ⟨⟨0, by simp [mutation_log.ctor, index_range]⟩, ?_, ?_⟩
  · simp [mutation_log.ctor]
  · simp [mutation_log.ctor]

theorem segments_wf_with_new_segment (c : core_codec) {s : mutation_log}
    (h : segments_wf s) : segments_wf (with_new_segment c s) := by
  obtain ⟨⟨n, hn⟩, hidx, _⟩ := h
  have hlt : ∀ e ∈ s.log_files, int_lt e.1 (s.last_file_number + 1) = true := by
    intro e he
    have := segments_wf_key_le ⟨⟨n, hn⟩, hidx, by assumption⟩ e he
    simp only [int_lt, decide_eq_true_eq]
    omega
  have hins := omap_insert_last int_lt int_lt_asymm (s.last_file_number + 1)
    (fresh_segment s) s.log_files hlt
  have hset : ∀ f, set_file (s.last_file_number + 1) f
      (s.log_files ++ [(s.last_file_number + 1, fresh_segment s)])
      = s.log_files ++ [(s.last_file_number + 1, f)] := by
    intro f
    unfold set_file
    rw [List.map_append]
    congr 1
    · conv_rhs => rw [← List.map_id s.log_files]
      apply List.map_congr_left
      intro e he
      have := hlt e he
      simp only [int_lt, decide_eq_true_eq] at this
      have hne : ¬ e.1 = s.last_file_number + 1 := by omega
      simp [hne]
    · simp
  refine ⟨⟨n + 1, ?_⟩, ?_, ?_⟩
  · simp only [with_new_segment, hins, hset, List.map_append, hn, List.map_cons, List.map_nil]
    rw [index_range_succ]
    congr 1
    · congr 1
      push_cast
      ring
    · congr 1
      push_cast
      ring
  · intro e he
    simp only [with_new_segment, hins, hset, List.mem_append, List.mem_singleton] at he
    rcases he with he | he
    · exact hidx e he
    · subst he
      simp [log_file.write_header, fresh_segment, log_file.ctor]
  · intro k hk
    simp only [with_new_segment, Option.some.injEq] at hk
    subst hk
    refine ⟨rfl, ?_⟩
    simp only [with_new_segment, hins, hset, List.map_append, List.map_cons, List.map_nil,
      List.mem_append, List.mem_singleton, or_true]

theorem same_segment_refl (f : log_file) : same_segment f f :=
  ⟨rfl, rfl, rfl, rfl, rfl, rfl⟩

theorem same_segment_trans {f g h : log_file} (h1 : same_segment f g)
    (h2 : same_segment g h) : same_segment f h :=
  ⟨h2.1.trans h1.1, h2.2.1.trans h1.2.1, h2.2.2.1.trans h1.2.2.1,
    h2.2.2.2.1.trans h1.2.2.2.1, h2.2.2.2.2.1.trans h1.2.2.2.2.1,
    h2.2.2.2.2.2.trans h1.2.2.2.2.2⟩

theorem same_segments_refl (m : List (Int × log_file)) : same_segments m m := by
  unfold same_segments
  induction m with
  | nil => exact List.Forall₂.nil
  | cons e m ih => exact List.Forall₂.cons ⟨rfl, same_segment_refl _⟩ ih

theorem read_next_log_entry_same (c : core_codec) (fs : disk) (f : log_file) :
    same_segment f (f.read_next_log_entry c fs).2.2 := by
  unfold log_file.read_next_log_entry
  simp only
  split
  · split <;> exact same_segment_refl _
  · split
    · exact same_segment_refl _
    · split <;> exact same_segment_refl _

theorem read_header_same {f g : log_file} {m m' : message} {len : Int}
    (h : f.read_header m = some (g, m', len)) : same_segment f g := by
  unfold log_file.read_header at h
  split at h
  · simp at h
  · split at h
    · simp at h
    · split at h
      · simp at h
      · simp only [Option.some.injEq, Prod.mk.injEq] at h
        rw [← h.1]
        exact same_segment_refl _

theorem replay_entries_same (c : core_codec) (fs : disk) (fuel : Nat) (log : log_file)
    (a : replay_acc) (reader : List Nat) :
    same_segment log (replay_entries c fs fuel log a reader).2.1 := by
  induction fuel generalizing log a reader with
  | zero => exact same_segment_refl _
  | succ fuel ih =>
    unfold replay_entries
    split
    · simp only
      split
      · exact same_segment_refl _
      · split
        · split <;> exact read_next_log_entry_same c fs log
        · split
          · exact read_next_log_entry_same c fs log
          · exact same_segment_trans (read_next_log_entry_same c fs log) (ih _ _ _)
    · exact same_segment_refl _

theorem replay_files_same (c : core_codec) (fs : disk) (files : List (Int × log_file))
    (err : error_code) (last : Option Int) (a : replay_acc) :
    same_segments files (replay_files c fs files err last a).2.1 := by
  induction files generalizing err last a with
  | nil => exact List.Forall₂.nil
  | cons e files ih =>
    obtain ⟨k, log⟩ := e
    unfold replay_files
    split
    · exact same_segments_refl _
    · simp only
      split
      · exact same_segments_refl _
      · split
        · split
          · exact List.Forall₂.cons ⟨rfl, read_next_log_entry_same c fs log⟩ (ih _ _ _)
          · exact List.Forall₂.cons ⟨rfl, read_next_log_entry_same c fs log⟩
              (same_segments_refl _)
        · split
          · exact List.Forall₂.cons ⟨rfl, read_next_log_entry_same c fs log⟩
              (same_segments_refl _)
          · split
            · exact List.Forall₂.cons ⟨rfl, read_next_log_entry_same c fs log⟩
                (same_segments_refl _)
            · rename_i log1 msg1 len hrh
              have h1 := same_segment_trans (read_next_log_entry_same c fs log)
                (read_header_same hrh)
              split
              · rename_i err1 log2 a2 hre
                have h2 : same_segment log1 log2 := by
                  have := replay_entries_same c fs (file_size fs log + 1) log1
                    { a with offset := a.offset + c.MSG_HDR_SERIALIZED_SIZE + len } msg1.reader
                  rw [hre] at this
                  exact this
                have h3 : same_segment log log2.close :=
                  same_segment_trans (same_segment_trans h1 h2) ⟨rfl, rfl, rfl, rfl, rfl, rfl⟩
                split
                · exact List.Forall₂.cons ⟨rfl, h3⟩ (same_segments_refl _)
                · exact List.Forall₂.cons ⟨rfl, h3⟩ (ih _ _ _)
              · rename_i e log2 a2 hne hre
                have h2 : same_segment log1 log2 := by
                  have := replay_entries_same c fs (file_size fs log + 1) log1
                    { a with offset := a.offset + c.MSG_HDR_SERIALIZED_SIZE + len } msg1.reader
                  rw [hre] at this
                  exact this
                exact List.Forall₂.cons ⟨rfl, same_segment_trans h1 h2⟩ (same_segments_refl _)

theorem same_segments_keys {m m' : List (Int × log_file)} (h : same_segments m m') :
    m'.map Prod.fst = m.map Prod.fst := by
  unfold same_segments at h
  induction h with
  | nil => rfl
  | cons hab _ ih => simp [hab.1, ih]

theorem same_segments_index {m m' : List (Int × log_file)} (h : same_segments m m')
    (hm : ∀ e ∈ m, e.2.index = e.1) : ∀ e ∈ m', e.2.index = e.1 := by
  unfold same_segments at h
  induction h with
  | nil => simp
  | @cons a b l l' hab _ ih =>
    intro e he
    rcases List.mem_cons.1 he with rfl | he
    · rw [hab.2.2.1, hab.1]
      exact hm a (List.mem_cons_self _ _)
    · exact ih (fun x hx => hm x (List.mem_cons_of_mem _ hx)) e he

theorem segments_wf_congr {s s' : mutation_log}
    (h1 : s'.log_files.map Prod.fst = s.log_files.map Prod.fst)
    (h2 : ∀ e ∈ s'.log_files, e.2.index = e.1)
    (h3 : s'.last_file_number = s.last_file_number)
    (h4 : s'.current_log_file = s.current_log_file ∨ s'.current_log_file = none)
    (h : segments_wf s) : segments_wf s' := by
  obtain ⟨⟨n, hn⟩, _, hcur⟩ := h
  refine ⟨⟨n, by rw [h1, h3, hn]⟩, h2, ?_⟩
  intro k hk
  rcases h4 with h4 | h4
  · rw [h4] at hk
    rw [h1, h3]
    exact hcur k hk
  · rw [h4] at hk
    exact absurd hk (by simp)

theorem segments_wf_file {s : mutation_log} (h : segments_wf s) {k : Int} {f : log_file}
    (hf : s.file k = some f) : f.index = k :=
  h.2.1 (k, f) (omap_find_mem hf)

theorem segments_wf_set_file {s s' : mutation_log} {k : Int} {cur f : log_file}
    (h : segments_wf s) (hcur : s.file k = some cur) (hf : f.index = cur.index)
    (h1 : s'.log_files = set_file k f s.log_files)
    (h3 : s'.last_file_number = s.last_file_number)
    (h4 : s'.current_log_file = s.current_log_file ∨ s'.current_log_file = none) :
    segments_wf s' := by
  apply segments_wf_congr (by rw [h1, set_file_keys]) _ h3 h4 h
  intro e he
  rw [h1] at he
  rcases mem_set_file he with ⟨he, _⟩ | ⟨he, _⟩
  · exact h.2.1 e he
  · subst he
    simp only
    rw [hf]
    exact segments_wf_file h hcur

theorem segments_wf_after_flush (c : core_codec) (io : io_env) {s : mutation_log} {k : Int}
    {cur : log_file} (pw : message) (cbs : List Nat) (h : segments_wf s)
    (hcur : s.file k = some cur) : segments_wf (after_flush c io s k cur pw cbs) := by
  apply segments_wf_set_file h hcur (f := if io.issue_ok then
        { cur with end_offset := s.global_end_offset
                   mutations := cur.mutations ++ s.pending_mutations }
       else { cur with end_offset := s.global_end_offset })
  · split <;> rfl
  · rfl
  · rfl
  · exact Or.inl rfl

theorem segments_wf_create_new_log_file {c : core_codec} {io : io_env} {s s' : mutation_log}
    {e : error_code} (h : segments_wf s)
    (hc : s.create_new_log_file c io = some (e, s')) : segments_wf s' := by
  obtain ⟨_, _, _, ⟨_, _, hs'⟩ | ⟨_, _, _, _, _, _, hs'⟩⟩ := create_new_log_file_some hc
  · rw [hs']
    exact segments_wf_congr rfl h.2.1 rfl (Or.inl rfl) h
  · rw [hs']
    exact segments_wf_with_new_segment c h

theorem segments_wf_write_pending_mutations {c : core_codec} {io : io_env}
    {s s' : mutation_log} {e : error_code} {b : Bool} (h : segments_wf s)
    (hw : s.write_pending_mutations c io b = some (e, s')) : segments_wf s' := by
  obtain ⟨pw, cbs, k, cur, _, _, _, _, hcur, _, _, hcase⟩ := write_pending_mutations_some hw
  have hf := segments_wf_after_flush c io pw cbs h hcur
  rcases hcase with ⟨_, _, hs'⟩ | ⟨_, _, _, hs'⟩ | ⟨_, _, _, hs'⟩
  · rw [hs']; exact hf
  · rw [hs']; exact hf
  · exact segments_wf_create_new_log_file hf hs'

theorem segments_wf_clear_timer {s : mutation_log} (h : segments_wf s) :
    segments_wf s.clear_timer :=
  segments_wf_congr rfl h.2.1 rfl (Or.inl rfl) h

theorem with_buffer_fields (c : core_codec) (s : mutation_log) (mu : mutation) :
    (with_buffer c s mu).log_files = s.log_files
    ∧ (with_buffer c s mu).last_file_number = s.last_file_number
    ∧ (with_buffer c s mu).current_log_file = s.current_log_file
    ∧ (with_buffer c s mu).fs = s.fs
    ∧ (with_buffer c s mu).dir = s.dir
    ∧ (with_buffer c s mu).pending_mutations = s.pending_mutations
    ∧ (with_buffer c s mu).init_prepared_decrees = bump_decree s.init_prepared_decrees mu
    ∧ (with_buffer c s mu).max_log_file_size_in_bytes = s.max_log_file_size_in_bytes := by
  unfold with_buffer
  split <;> simp

theorem segments_wf_with_appended (c : core_codec) {s : mutation_log} (mu : mutation)
    (cb : Nat) (pw : message) (cbs : List Nat) (h : segments_wf s) :
    segments_wf (with_appended c s mu cb pw cbs) := by
  have hb := with_buffer_fields c s mu
  apply segments_wf_congr _ _ _ _ h
  · simp only [with_appended]; rw [hb.1]
  · simp only [with_appended]; rw [hb.1]; exact h.2.1
  · simp only [with_appended]; exact hb.2.1
  · simp only [with_appended]; exact Or.inl hb.2.2.1

theorem segments_wf_append {c : core_codec} {io : io_env} {s s' : mutation_log}
    {mu mu' : mutation} {cb : Nat} (h : segments_wf s)
    (ha : s.append c io mu cb = some (mu', s')) : segments_wf s' := by
  obtain ⟨_, pw, cbs, _, _, _, hfl⟩ := append_some ha
  have h3 := segments_wf_with_appended c mu cb pw cbs h
  obtain ⟨_, ⟨_, e, hw⟩ | ⟨_, _, _, _, e, hw⟩ | ⟨_, hs', _⟩⟩ := flush_after_append_some hfl
  · exact segments_wf_write_pending_mutations h3 hw
  · exact segments_wf_write_pending_mutations (segments_wf_clear_timer h3) hw
  · rw [hs']; exact h3

theorem segments_wf_timer {c : core_codec} {io : io_env} {s s' : mutation_log}
    {e : error_code} (h : segments_wf s)
    (ht : s.internal_pending_write_timer c io = some (e, s')) : segments_wf s' := by
  unfold mutation_log.internal_pending_write_timer at ht
  split at ht
  · simp at ht
  · split at ht
    · simp at ht
    · exact segments_wf_write_pending_mutations (segments_wf_clear_timer h) ht

theorem segments_wf_start_write_service {c : core_codec} {io : io_env}
    {s s' : mutation_log} {e : error_code} {init : multi_partition_decrees} {st : Int}
    (h : segments_wf s) (hs : s.start_write_service c io init st = some (e, s')) :
    segments_wf s' := by
  unfold mutation_log.start_write_service at hs
  simp only at hs
  split at hs
  · simp at hs
  · refine segments_wf_create_new_log_file ?_ hs
    exact segments_wf_congr (s := s) rfl h.2.1 rfl (Or.inl rfl) h

theorem segments_wf_close_current {s : mutation_log} (h : segments_wf s) :
    segments_wf s.close_current := by
  unfold mutation_log.close_current
  split
  · exact h
  · split
    · exact segments_wf_congr (s := s) rfl h.2.1 rfl (Or.inr rfl) h
    · rename_i k _ cur hcur
      exact segments_wf_set_file h hcur (f := cur.close) rfl rfl rfl (Or.inr rfl)

theorem segments_wf_close {c : core_codec} (ios : List io_env) {s s' : mutation_log}
    (h : segments_wf s) (hc : s.close c ios = some s') : segments_wf s' := by
  induction ios generalizing s with
  | nil =>
    unfold mutation_log.close at hc
    split at hc
    · simp at hc
    · simp only [Option.some.injEq] at hc
      rw [← hc]
      exact segments_wf_close_current h
  | cons io rest ih =>
    unfold mutation_log.close at hc
    split at hc
    · split at hc
      · split at hc
        · simp at hc
        · rename_i r hr
          split at hc
          · simp at hc
          · simp only [Option.some.injEq] at hc
            rw [← hc]
            exact segments_wf_close_current
              (segments_wf_write_pending_mutations (segments_wf_clear_timer h) hr)
      · split at hc
        · simp at hc
        · rename_i r hr
          exact ih (segments_wf_timer h hr) hc
    · simp only [Option.some.injEq] at hc
      rw [← hc]
      exact segments_wf_close_current h

theorem segments_wf_replay (c : core_codec) {s : mutation_log} (h : segments_wf s) :
    segments_wf (s.replay c).log := by
  have hsame := replay_files_same c s.fs s.log_files ERR_OK s.last_log_file
    ⟨s.start_offset, [], []⟩
  have hk := same_segments_keys hsame
  have hi := same_segments_index hsame h.2.1
  unfold mutation_log.replay
  simp only
  split
  · exact segments_wf_congr hk hi rfl (Or.inl rfl) h
  · exact segments_wf_congr hk hi rfl (Or.inl rfl) h
  · split
    · split
      · exact segments_wf_congr hk hi rfl (Or.inl rfl) h
      · split
        · exact segments_wf_congr hk hi rfl (Or.inl rfl) h
        · exact segments_wf_congr hk hi rfl (Or.inl rfl) h
    · split
      · split
        · exact segments_wf_congr hk hi rfl (Or.inl rfl) h
        · exact segments_wf_congr hk hi rfl (Or.inl rfl) h
      · exact segments_wf_congr hk hi rfl (Or.inl rfl) h

/-! ## `initialize` -/

theorem mem_omap_insert {κ β : Type} {lt : κ → κ → Bool} {k : κ} {v : β}
    {m : List (κ × β)} {e : κ × β} (h : e ∈ omap_insert lt k v m) : e = (k, v) ∨ e ∈ m := by
  induction m with
  | nil =>
    simp only [omap_insert, List.mem_singleton] at h
    exact Or.inl h
  | cons x m ih =>
    obtain ⟨k', v'⟩ := x
    unfold omap_insert at h
    split at h
    · rcases List.mem_cons.1 h with h | h
      · exact Or.inl h
      · exact Or.inr h
    · split at h
      · rcases List.mem_cons.1 h with h | h
        · exact Or.inr (h ▸ List.mem_cons_self _ _)
        · rcases ih h with h | h
          · exact Or.inl h
          · exact Or.inr (List.mem_cons_of_mem _ h)
      · rcases List.mem_cons.1 h with h | h
        · exact Or.inl h
        · exact Or.inr (List.mem_cons_of_mem _ h)

theorem opend_read_index_path {fs : disk} {path : List Char} {log : log_file}
    (h : log_file.opend_read fs path = some log) :
    log.path = path ∧ log.is_read = true ∧ log.mutations = []
      ∧ log.end_offset = log.start_offset + file_size fs log := by
  unfold log_file.opend_read at h
  simp only at h
  split at h
  · simp at h
  · split at h
    · simp at h
    · split at h
      · simp at h
      · split at h
        · simp at h
        · rename_i content hcontent
          simp only [Option.some.injEq] at h
          rw [← h]
          simp [log_file.ctor, file_size, hcontent]

theorem check_log_files_spec (files : List (Int × log_file)) (s : mutation_log) :
    (files.map Prod.fst = index_range (s.last_file_number + 1) files.length
      ∧ check_log_files files s = (ERR_OK, checked_log files s))
    ∨ (files.map Prod.fst ≠ index_range (s.last_file_number + 1) files.length
      ∧ (check_log_files files s).1 = ERR_OBJECT_NOT_FOUND) := by
  induction files generalizing s with
  | nil =>
    left
    refine ⟨by simp [index_range], ?_⟩
    cases s
    simp [check_log_files, checked_log]
  | cons e files ih =>
    obtain ⟨k, f⟩ := e
    unfold check_log_files
    simp only
    by_cases hk : s.last_file_number + 1 = k
    · subst hk
      simp only [ne_eq, not_true_eq_false, if_false]
      rcases ih { s with last_file_number := s.last_file_number + 1
                         global_end_offset := f.end_offset } with ⟨h1, h2⟩ | ⟨h1, h2⟩
      · left
        simp only at h1 h2
        refine ⟨?_, ?_⟩
        · rw [List.length_cons, index_range_cons, List.map_cons, h1]
        · rw [h2]
          simp only [checked_log, List.length_cons, Prod.mk.injEq, true_and]
          cases files with
          | nil => simp
          | cons x xs =>
            simp only [List.getLast?_cons_cons, List.length_cons]
            congr 1
            push_cast
            ring
      · right
        simp only at h1 h2
        refine ⟨?_, h2⟩
        rw [List.length_cons, index_range_cons, List.map_cons]
        intro heq
        exact h1 (List.cons.inj heq).2
    · right
      simp only [ne_eq, hk, not_false_eq_true, if_true, and_true]
      rw [List.length_cons, index_range_cons, List.map_cons]
      intro heq
      exact hk (List.cons.inj heq).1.symm


theorem omap_find_none_iff {κ β : Type} [DecidableEq κ] (k : κ) (m : List (κ × β)) :
    omap_find k m = none ↔ k ∉ m.map Prod.fst := by
  induction m with
  | nil => simp [omap_find]
  | cons e m ih =>
    obtain ⟨k', v'⟩ := e
    unfold omap_find
    by_cases hk : k' = k
    · simp [hk]
    · simp only [hk, if_false, ih, List.map_cons, List.mem_cons, not_or]
      constructor
      · intro h; exact ⟨fun e => hk e.symm, h⟩
      · intro h; exact h.2

theorem omap_insert_sorted {β : Type} (k : Int) (v : β) (m : List (Int × β))
    (hm : omap_sorted int_lt m) : omap_sorted int_lt (omap_insert int_lt k v m) := by
  unfold omap_sorted at *
  induction m with
  | nil => simp [omap_insert]
  | cons e m ih =>
    obtain ⟨k', v'⟩ := e
    rw [List.pairwise_cons] at hm
    unfold omap_insert
    split
    · rename_i hlt
      rw [List.pairwise_cons]
      refine ⟨?_, List.pairwise_cons.2 hm⟩
      intro x hx
      simp only [int_lt, decide_eq_true_eq] at hlt ⊢
      rcases List.mem_cons.1 hx with rfl | hx
      · exact hlt
      · have := hm.1 x hx
        simp only [int_lt, decide_eq_true_eq] at this
        omega
    · split
      · rename_i _ hlt
        rw [List.pairwise_cons]
        refine ⟨?_, ih hm.2⟩
        intro x hx
        rcases mem_omap_insert hx with rfl | hx
        · exact hlt
        · exact hm.1 x hx
      · rename_i h1 h2
        rw [List.pairwise_cons]
        refine ⟨?_, hm.2⟩
        intro x hx
        have := hm.1 x hx
        simp only [int_lt, decide_eq_true_eq] at h1 h2 this ⊢
        omega

theorem mem_omap_insert_of_not_mem {β : Type} {k : Int} {v : β} {m : List (Int × β)}
    (hk : k ∉ m.map Prod.fst) (e : Int × β) :
    e ∈ omap_insert int_lt k v m ↔ e = (k, v) ∨ e ∈ m := by
  constructor
  · exact mem_omap_insert
  · intro h
    induction m with
    | nil =>
      rcases h with h | h
      · simp [omap_insert, h]
      · exact absurd h (List.not_mem_nil _)
    | cons x m ih =>
      obtain ⟨k', v'⟩ := x
      simp only [List.map_cons, List.mem_cons, not_or] at hk
      unfold omap_insert
      split
      · rcases h with h | h
        · exact h ▸ List.mem_cons_self _ _
        · exact List.mem_cons_of_mem _ h
      · split
        · rcases h with h | h
          · exact List.mem_cons_of_mem _ (ih hk.2 (Or.inl h))
          · rcases List.mem_cons.1 h with h | h
            · exact h ▸ List.mem_cons_self _ _
            · exact List.mem_cons_of_mem _ (ih hk.2 (Or.inr h))
        · rename_i h1 h2
          simp only [int_lt, decide_eq_true_eq] at h1 h2
          exact absurd (show k = k' by omega) hk.1

theorem load_log_files_spec (fs : disk) (paths : List (List Char))
    (m : List (Int × log_file)) (hm : omap_sorted int_lt m) :
    (∃ files, load_log_files fs paths m = some files
        ∧ omap_sorted int_lt files
        ∧ (∀ e, e ∈ files ↔
            (e ∈ m ∨ ∃ log ∈ paths.filterMap (log_file.opend_read fs), e = (log.index, log)))
        ∧ (m.map Prod.fst
            ++ (paths.filterMap (log_file.opend_read fs)).map log_file.index).Nodup)
    ∨ (load_log_files fs paths m = none
        ∧ ¬ (m.map Prod.fst
            ++ (paths.filterMap (log_file.opend_read fs)).map log_file.index).Nodup) := by
  have hnodup : ∀ m : List (Int × log_file), omap_sorted int_lt m →
      (m.map Prod.fst).Nodup := by
    intro m hm
    have hp := omap_sorted_lt hm
    rw [List.Nodup, List.pairwise_map]
    exact hp.imp (by intro a b hab; omega)
  induction paths generalizing m with
  | nil =>
    left
    exact ⟨m, rfl, hm, by simp, by simpa using hnodup m hm⟩
  | cons p paths ih =>
    unfold load_log_files
    cases hp : log_file.opend_read fs p with
    | none =>
      simp only [List.filterMap_cons, hp]
      exact ih m hm
    | some log =>
      simp only [List.filterMap_cons, hp]
      by_cases hf : (omap_find log.index m).isSome = true
      · right
        simp only [hf, if_true, true_and]
        intro hn
        have hmem : log.index ∈ m.map Prod.fst := by
          by_contra hc
          rw [(omap_find_none_iff _ _).2 hc] at hf
          simp at hf
        rw [List.nodup_append] at hn
        exact hn.2.2 hmem (by simp)
      · have hnot : log.index ∉ m.map Prod.fst := by
          apply (omap_find_none_iff _ _).1
          cases h : omap_find log.index m with
          | none => rfl
          | some v => simp [h] at hf
        simp only [hf, Bool.false_eq_true, if_false]
        rcases ih (omap_insert int_lt log.index log m) (omap_insert_sorted _ _ _ hm) with
          ⟨files, h1, h2, h3, h4⟩ | ⟨h1, h4⟩
        · left
          refine ⟨files, h1, h2, ?_, ?_⟩
          · intro e
            rw [h3 e, mem_omap_insert_of_not_mem hnot]
            simp only [List.mem_cons, exists_eq_or_imp]
            tauto
          · have hperm : (List.map Prod.fst (omap_insert int_lt log.index log m)).Perm
                (log.index :: m.map Prod.fst) := by
              rw [List.perm_ext_iff_of_nodup (hnodup _ (omap_insert_sorted _ _ _ hm))
                (List.nodup_cons.2 ⟨hnot, hnodup m hm⟩)]
              intro a
              simp only [List.mem_map, List.mem_cons, Prod.exists, exists_and_right,
                exists_eq_right]
              constructor
              · rintro ⟨b, hb⟩
                rcases (mem_omap_insert_of_not_mem hnot _).1 hb with hb | hb
                · left; exact (Prod.mk.inj hb).1
                · right; exact ⟨b, hb⟩
              · rintro (ha | ⟨b, hb⟩)
                · exact ⟨log, (mem_omap_insert_of_not_mem hnot _).2 (Or.inl (by rw [ha]))⟩
                · exact ⟨b, (mem_omap_insert_of_not_mem hnot _).2 (Or.inr hb)⟩
            have := (List.Perm.append_right
              ((paths.filterMap (log_file.opend_read fs)).map log_file.index) hperm).nodup_iff.1
              h4
            simp only [List.map_cons]
            exact (List.perm_middle.nodup_iff).2 (by simpa using this)
        · right
          refine ⟨h1, ?_⟩
          intro hn
          apply h4
          have hperm : (List.map Prod.fst (omap_insert int_lt log.index log m)).Perm
              (log.index :: m.map Prod.fst) := by
            rw [List.perm_ext_iff_of_nodup (hnodup _ (omap_insert_sorted _ _ _ hm))
              (List.nodup_cons.2 ⟨hnot, hnodup m hm⟩)]
            intro a
            simp only [List.mem_map, List.mem_cons, Prod.exists, exists_and_right,
              exists_eq_right]
            constructor
            · rintro ⟨b, hb⟩
              rcases (mem_omap_insert_of_not_mem hnot _).1 hb with hb | hb
              · left; exact (Prod.mk.inj hb).1
              · right; exact ⟨b, hb⟩
            · rintro (ha | ⟨b, hb⟩)
              · exact ⟨log, (mem_omap_insert_of_not_mem hnot _).2 (Or.inl (by rw [ha]))⟩
              · exact ⟨b, (mem_omap_insert_of_not_mem hnot _).2 (Or.inr hb)⟩
          apply (List.Perm.append_right
            ((paths.filterMap (log_file.opend_read fs)).map log_file.index) hperm).nodup_iff.2
          simp only [List.map_cons] at hn
          have := (List.perm_middle.nodup_iff).1 hn
          simpa using this


theorem contiguous_index_range (lo : Int) (n : Nat) : contiguous (index_range lo n) := by
  intro a ha b hb x hax hxb
  have h1 := (mem_index_range _ _ _).1 ha
  have h2 := (mem_index_range _ _ _).1 hb
  exact (mem_index_range _ _ _).2 ⟨by omega, by omega⟩

theorem sorted_contiguous_eq_range (l : List Int) (hs : l.Pairwise (· < ·))
    (hc : contiguous l) : ∀ a ∈ l.head?, l = index_range a l.length := by
  induction l with
  | nil => simp
  | cons a l ih =>
    intro a' ha'
    simp only [List.head?_cons, Option.mem_def, Option.some.injEq] at ha'
    subst ha'
    rw [List.pairwise_cons] at hs
    rw [List.length_cons, index_range_cons]
    congr 1
    have hc' : contiguous l := by
      intro x hx y hy z hxz hzy
      have := hc x (List.mem_cons_of_mem _ hx) y (List.mem_cons_of_mem _ hy) z hxz hzy
      rcases List.mem_cons.1 this with h | h
      · have := hs.1 x hx
        omega
      · exact h
    cases l with
    | nil => simp [index_range]
    | cons b l' =>
      have hb : b = a + 1 := by
        have hab := hs.1 b (List.mem_cons_self _ _)
        have := hc a (List.mem_cons_self _ _) b
          (List.mem_cons_of_mem _ (List.mem_cons_self _ _)) (a + 1) (by omega) (by omega)
        rcases List.mem_cons.1 this with h | h
        · omega
        · rcases List.mem_cons.1 h with h | h
          · exact h.symm
          · have h2 := hs.2
            rw [List.pairwise_cons] at h2
            have := h2.1 (a + 1) h
            omega
      have := ih hs.2 hc' b (by simp)
      rw [hb] at this
      rw [hb]
      exact this

theorem contiguous_congr {l l' : List Int} (h : ∀ x, x ∈ l ↔ x ∈ l') (hc : contiguous l) :
    contiguous l' := by
  intro a ha b hb x hax hxb
  exact (h x).1 (hc a ((h a).2 ha) b ((h b).2 hb) x hax hxb)

theorem index_range_getLast (lo : Int) (n : Nat) :
    (index_range lo (n + 1)).getLast? = some (lo + n) := by
  rw [index_range_succ]
  simp

theorem initialize_log_load {s : mutation_log} {dir : List Char}
    {r : error_code × mutation_log} (h : initialize_log s dir true = some r) :
    ∃ files, load_log_files s.fs (list_dir s.fs dir) [] = some files
      ∧ r = check_log_files files
          (match files with
            | [] => { s with dir := dir, last_file_number := 0, log_files := files }
            | (k, f) :: _ =>
              { s with dir := dir, log_files := files, last_file_number := k - 1,
                       global_start_offset := f.start_offset }) := by
  unfold initialize_log at h
  simp only [not_true_eq_false, if_false] at h
  split at h
  · simp at h
  · rename_i files hfiles
    simp only [Option.some.injEq] at h
    refine ⟨files, hfiles, ?_⟩
    rw [← h]

theorem initialize_log_none_iff (s : mutation_log) (dir : List Char) :
    initialize_log s dir true = none
      ↔ ¬ ((recognised_segments s.fs dir).map log_file.index).Nodup := by
  unfold initialize_log recognised_segments
  simp only [not_true_eq_false, if_false]
  rcases load_log_files_spec s.fs (list_dir s.fs dir) [] (by simp [omap_sorted]) with
    ⟨files, h1, _, _, h4⟩ | ⟨h1, h4⟩
  · simp only [List.map_nil, List.nil_append] at h4
    simp [h1, h4]
  · simp only [List.map_nil, List.nil_append] at h4
    simp [h1, h4]

/-- C5 (amended): on a directory in which no two recognised segment files share an index,
`initialize` returns `ERR_OK` if and only if the indices form a contiguous range (or there
are none) and `ERR_OBJECT_NOT_FOUND` otherwise; when it returns `ERR_OK`, the start offset
of the log is that of the segment of lowest index, the end offset of the log is the end
offset (start offset plus file size) of the segment of highest index, and
`_last_file_number` is the highest index.  With two recognised files of one index
`initialize` fails its `dassert`. -/
theorem initialize_log_contiguous (s : mutation_log) (dir : List Char) :
    (¬ ((recognised_segments s.fs dir).map log_file.index).Nodup →
      initialize_log s dir true = none)
    ∧ (((recognised_segments s.fs dir).map log_file.index).Nodup →
      ∃ r, initialize_log s dir true = some r
        ∧ (r.1 = ERR_OK ↔ contiguous ((recognised_segments s.fs dir).map log_file.index))
        ∧ (r.1 ≠ ERR_OK → r.1 = ERR_OBJECT_NOT_FOUND)
        ∧ (r.1 = ERR_OK →
            ∀ lo ∈ recognised_segments s.fs dir, ∀ hi ∈ recognised_segments s.fs dir,
              (∀ x ∈ recognised_segments s.fs dir, lo.index ≤ x.index ∧ x.index ≤ hi.index) →
              r.2.global_start_offset = lo.start_offset
              ∧ r.2.global_end_offset = hi.end_offset
              ∧ hi.end_offset = hi.start_offset + file_size s.fs hi
              ∧ r.2.last_file_number = hi.index)) := by
  refine ⟨(initialize_log_none_iff s dir).2, ?_⟩
  intro hnodup
  cases hinit : initialize_log s dir true with
  | none => exact absurd hnodup ((initialize_log_none_iff s dir).1 hinit)
  | some r =>
    refine ⟨r, rfl, ?_⟩
    obtain ⟨files0, hload, hr⟩ := initialize_log_load hinit
    rcases load_log_files_spec s.fs (list_dir s.fs dir) [] (by simp [omap_sorted]) with
      ⟨files, h1, hsorted, hmem, _⟩ | ⟨h1, _⟩
    swap
    · rw [h1] at hload; simp at hload
    rw [h1] at hload
    simp only [Option.some.injEq] at hload
    subst hload
    simp only [List.not_mem_nil, false_or] at hmem
    replace hmem : ∀ e, e ∈ files
        ↔ ∃ log ∈ recognised_segments s.fs dir, e = (log.index, log) := by
      unfold recognised_segments
      exact hmem
    have hkeys : ∀ x, x ∈ files.map Prod.fst
        ↔ x ∈ (recognised_segments s.fs dir).map log_file.index := by
      intro x
      simp only [List.mem_map]
      constructor
      · rintro ⟨e, he, rfl⟩
        obtain ⟨log, hlog, rfl⟩ := (hmem e).1 he
        exact ⟨log, hlog, rfl⟩
      · rintro ⟨log, hlog, rfl⟩
        exact ⟨(log.index, log), (hmem _).2 ⟨log, hlog, rfl⟩, rfl⟩
    have hlt : (files.map Prod.fst).Pairwise (· < ·) := by
      rw [List.pairwise_map]
      exact omap_sorted_lt hsorted
    cases files with
    | nil =>
      simp only at hr
      have hr' : r = (ERR_OK, { s with dir := dir, last_file_number := 0, log_files := [] }) := by
        rw [hr]; rfl
      have hempty : recognised_segments s.fs dir = [] := by
        cases hseg : recognised_segments s.fs dir with
        | nil => rfl
        | cons log _ =>
          have := (hmem (log.index, log)).2 ⟨log, by rw [hseg]; simp, rfl⟩
          exact absurd this (List.not_mem_nil _)
      rw [hr', hempty]
      refine ⟨by simp [contiguous], by simp, ?_⟩
      intro _ lo hlo
      exact absurd hlo (List.not_mem_nil _)
    | cons e files =>
      obtain ⟨k, f⟩ := e
      simp only at hr
      rcases check_log_files_spec ((k, f) :: files)
          { s with dir := dir, log_files := (k, f) :: files, last_file_number := k - 1,
                   global_start_offset := f.start_offset } with ⟨hrange, hck⟩ | ⟨hrange, hck⟩
      · simp only [sub_add_cancel] at hrange
        rw [hck] at hr
        have hcont : contiguous ((recognised_segments s.fs dir).map log_file.index) :=
          contiguous_congr hkeys (hrange ▸ contiguous_index_range _ _)
        refine ⟨by simp [hr, hcont], by simp [hr], ?_⟩
        intro _ lo hlo hi hhi hbounds
        have hlof := (hmem (lo.index, lo)).2 ⟨lo, hlo, rfl⟩
        have hhif := (hmem (hi.index, hi)).2 ⟨hi, hhi, rfl⟩
        have hhead : (k, f) = (lo.index, lo) := by
          apply omap_sorted_key_inj hsorted (List.mem_cons_self _ _) hlof
          simp only
          have h1 : lo.index ≤ k := by
            obtain ⟨log, hlog, he⟩ := (hmem (k, f)).1 (List.mem_cons_self _ _)
            have := (hbounds log hlog).1
            rw [(Prod.mk.inj he).1]
            exact this
          have h2 : k ≤ lo.index := by
            have : lo.index ∈ ((k, f) :: files).map Prod.fst :=
              List.mem_map.2 ⟨_, hlof, rfl⟩
            rw [hrange] at this
            exact ((mem_index_range _ _ _).1 this).1
          omega
        obtain ⟨elast, hgl⟩ : ∃ elast, ((k, f) :: files).getLast? = some elast := by
          cases hx : ((k, f) :: files).getLast? with
          | none => simp at hx
          | some x => exact ⟨x, rfl⟩
        have helast_mem : elast ∈ (k, f) :: files := List.mem_of_getLast?_eq_some hgl
        have helast_key : elast.1 = k + files.length := by
          have := congrArg List.getLast? hrange
          rw [List.getLast?_map, hgl, List.length_cons, index_range_getLast] at this
          simpa using this
        have hlast' : elast = (hi.index, hi) := by
          apply omap_sorted_key_inj hsorted helast_mem hhif
          simp only
          have h1 : elast.1 ≤ hi.index := by
            obtain ⟨log, hlog, he⟩ := (hmem elast).1 helast_mem
            have := (hbounds log hlog).2
            rw [he]
            exact this
          have h2 : hi.index ≤ elast.1 := by
            have : hi.index ∈ ((k, f) :: files).map Prod.fst :=
              List.mem_map.2 ⟨_, hhif, rfl⟩
            rw [hrange] at this
            have := ((mem_index_range _ _ _).1 this).2
            rw [List.length_cons] at this
            push_cast at this
            omega
          omega
        have hopen : hi.end_offset = hi.start_offset + file_size s.fs hi := by
          unfold recognised_segments at hhi
          obtain ⟨p, _, hp⟩ := List.mem_filterMap.1 hhi
          exact (opend_read_index_path hp).2.2.2
        rw [hr]
        simp only [checked_log, hgl, hlast']
        refine ⟨?_, trivial, hopen, ?_⟩
        · rw [(Prod.mk.inj hhead).2]
        · have := congrArg Prod.fst hlast'
          simp only at this
          rw [← this, helast_key, List.length_cons]
          push_cast
          ring
      · simp only [sub_add_cancel] at hrange
        have hne : r.1 = ERR_OBJECT_NOT_FOUND := by rw [hr]; exact hck
        refine ⟨?_, fun _ => hne, ?_⟩
        · constructor
          · intro h; rw [hne] at h; exact absurd h (by decide)
          · intro hcont
            exfalso
            apply hrange
            have := sorted_contiguous_eq_range _ hlt
              (contiguous_congr (fun x => (hkeys x).symm) hcont) k (by simp)
            rw [List.length_map] at this
            exact this
        · intro h; rw [hne] at h; exact absurd h (by decide)

set_option maxRecDepth 100000 in
theorem initialize_log_duplicate_index_counterexample :
    (recognised_segments [("d/log.1.0".toList, [1, 2]), ("d/log.1.0.bak".toList, [1, 2])]
        "d".toList).map log_file.index = [1, 1]
    ∧ contiguous ((recognised_segments
        [("d/log.1.0".toList, [1, 2]), ("d/log.1.0.bak".toList, [1, 2])]
        "d".toList).map log_file.index)
    ∧ initialize_log
        (mutation_log.ctor 1 100 1 false 2
          [("d/log.1.0".toList, [1, 2]), ("d/log.1.0.bak".toList, [1, 2])])
        "d".toList true = none := by
  have h : (recognised_segments
      [("d/log.1.0".toList, [1, 2]), ("d/log.1.0.bak".toList, [1, 2])]
      "d".toList).map log_file.index = [1, 1] := by decide
  refine ⟨h, ?_, by decide⟩
  rw [h]
  intro a ha b hb x hax hxb
  simp only [List.mem_cons, List.mem_singleton, List.not_mem_nil, or_false, or_self] at ha hb ⊢
  omega

set_option maxRecDepth 100000 in
theorem initialize_log_contiguous_witness :
    ((recognised_segments
        [("d/log.2.7".toList, [1, 2]), ("d/log.1.0".toList, [1, 2, 3, 4, 5, 6, 7])]
        "d".toList).map log_file.index).Nodup
    ∧ initialize_log
        (mutation_log.ctor 1 100 1 false 2
          [("d/log.2.7".toList, [1, 2]), ("d/log.1.0".toList, [1, 2, 3, 4, 5, 6, 7])])
        "d".toList true
      = some (ERR_OK, checked_log
          [(1, log_file.ctor "d/log.1.0".toList true 1 0 0 true 7),
           (2, log_file.ctor "d/log.2.7".toList true 2 7 0 true 2)]
          { mutation_log.ctor 1 100 1 false 2
              [("d/log.2.7".toList, [1, 2]), ("d/log.1.0".toList, [1, 2, 3, 4, 5, 6, 7])] with
            dir := "d".toList
            log_files := [(1, log_file.ctor "d/log.1.0".toList true 1 0 0 true 7),
              (2, log_file.ctor "d/log.2.7".toList true 2 7 0 true 2)]
            last_file_number := 0
            global_start_offset := 0 })
    ∧ ∃ r, initialize_log
        (mutation_log.ctor 1 100 1 false 2
          [("d/log.2.7".toList, [1, 2]), ("d/log.1.0".toList, [1, 2, 3, 4, 5, 6, 7])])
        "d".toList true = some r
      ∧ (r.1 = ERR_OK ↔ contiguous ((recognised_segments
          (mutation_log.ctor 1 100 1 false 2
            [("d/log.2.7".toList, [1, 2]), ("d/log.1.0".toList, [1, 2, 3, 4, 5, 6, 7])]).fs
          "d".toList).map log_file.index)) :=
  have hn : ((recognised_segments
      (mutation_log.ctor 1 100 1 false 2
        [("d/log.2.7".toList, [1, 2]), ("d/log.1.0".toList, [1, 2, 3, 4, 5, 6, 7])]).fs
      "d".toList).map log_file.index).Nodup := by decide
  ⟨hn, by decide,
    ((initialize_log_contiguous (mutation_log.ctor 1 100 1 false 2
      [("d/log.2.7".toList, [1, 2]), ("d/log.1.0".toList, [1, 2, 3, 4, 5, 6, 7])])
      "d".toList).2 hn).imp fun _ h => ⟨h.1, h.2.1⟩⟩


theorem filter_ge_eq_drop {β : Type} (m : List (Int × β)) (lo : Int) (n : Nat) (t : Int)
    (hk : m.map Prod.fst = index_range lo n) (h1 : lo ≤ t) :
    m.filter (fun e => decide (t ≤ e.1)) = m.drop (t - lo).toNat := by
  induction m generalizing lo n with
  | nil => simp
  | cons e m ih =>
    cases n with
    | zero => simp [index_range] at hk
    | succ n =>
      rw [index_range_cons, List.map_cons] at hk
      have hk1 := (List.cons.inj hk).1
      have hk2 := (List.cons.inj hk).2
      by_cases ht : t ≤ e.1
      · have hlo : t = lo := by omega
        subst hlo
        simp only [sub_self, Int.toNat_zero, List.drop_zero]
        rw [List.filter_eq_self]
        intro x hx
        have : x.1 ∈ index_range t (n + 1) := by
          rw [index_range_cons, ← hk]
          exact List.mem_map_of_mem _ hx
        have := (mem_index_range _ _ _).1 this
        simp only [decide_eq_true_eq]
        omega
      · rw [List.filter_cons_of_neg (by simpa using ht), ih (lo + 1) n hk2 (by omega)]
        have : (t - lo).toNat = (t - (lo + 1)).toNat + 1 := by omega
        rw [this, List.drop_succ_cons]

theorem segments_wf_garbage_collection {s : mutation_log} (D : multi_partition_decrees)
    (h : segments_wf s) :
    segments_wf (s.garbage_collection D).2
    ∧ ∃ j : Nat, (s.garbage_collection D).2.log_files = s.log_files.drop j
        ∧ j ≤ s.log_files.length ∧ (s.log_files ≠ [] → j < s.log_files.length) := by
  have hsorted := segments_wf_sorted h
  have hlast : (s.garbage_collection D).2.last_file_number = s.last_file_number := by
    simp [mutation_log.garbage_collection, gc_fold_eq]
  have hcurf : (s.garbage_collection D).2.current_log_file = s.current_log_file := by
    simp [mutation_log.garbage_collection, gc_fold_eq]
  obtain ⟨⟨n, hn⟩, hidx, hcur⟩ := h
  have hdrop : ∃ j : Nat, (s.garbage_collection D).2.log_files = s.log_files.drop j
      ∧ j ≤ s.log_files.length ∧ (s.log_files ≠ [] → j < s.log_files.length) := by
    rcases gc_victims_spec s D hsorted with ⟨h1, _⟩ | ⟨S, hS, hSc, _, _, hV⟩
    · refine ⟨0, ?_, Nat.zero_le _, fun hne => List.length_pos.2 hne⟩
      rw [garbage_collection_log_files, h1]
      simp
    · have hSk : S.1 ∈ index_range (s.last_file_number + 1 - n) n := by
        rw [← hn]; exact List.mem_map_of_mem _ hS
      have hSr := (mem_index_range _ _ _).1 hSk
      have hl : s.log_files.length = n := by
        have := congrArg List.length hn
        simpa [index_range_length] using this
      refine ⟨(S.1 - (s.last_file_number + 1 - n)).toNat, ?_, by omega, fun _ => by omega⟩
      · rw [garbage_collection_log_files,
          ← filter_ge_eq_drop s.log_files _ n S.1 hn hSr.1]
        apply List.filter_congr
        intro x hx
        have hiff : x.1 ∈ (gc_victims s D).map Prod.fst ↔ x ∈ gc_victims s D := by
          constructor
          · intro hm
            obtain ⟨v, hv, hve⟩ := List.mem_map.1 hm
            have := omap_sorted_key_inj hsorted ((hV v).1 hv).1 hx hve
            exact this ▸ hv
          · intro hm
            exact List.mem_map_of_mem _ hm
        have hxk : x.1 ∈ index_range (s.last_file_number + 1 - n) n := by
          rw [← hn]; exact List.mem_map_of_mem _ hx
        have hxr := (mem_index_range _ _ _).1 hxk
        by_cases hlt : x.1 < S.1
        · have hnc : s.current_log_file ≠ some x.1 := by
            intro hc
            have := (hcur x.1 hc).1
            omega
          have : x ∈ gc_victims s D := (hV x).2 ⟨hx, hnc, hlt⟩
          simp [hiff, this, hlt]
        · have : x ∉ gc_victims s D := fun hv => hlt ((hV x).1 hv).2.2
          simp only [hiff, this, not_false_eq_true, decide_True, true_eq_decide_iff]
          omega
  refine ⟨⟨?_, ?_, ?_⟩, hdrop⟩
  · obtain ⟨j, hj, _, hjl⟩ := hdrop
    refine ⟨n - j, ?_⟩
    rw [hj, hlast, List.map_drop, hn, index_range_drop]
    have hl : s.log_files.length = n := by
      have := congrArg List.length hn
      simpa [index_range_length] using this
    by_cases hne : s.log_files = []
    · have : n = 0 := by rw [← hl, hne]; rfl
      subst this
      simp [index_range]
    · have := hjl hne
      congr 1
      omega
  · intro e he
    obtain ⟨j, hj, _, _⟩ := hdrop
    rw [hj] at he
    exact hidx e (List.mem_of_mem_drop he)
  · intro k hk
    rw [hcurf] at hk
    rw [hlast]
    refine ⟨(hcur k hk).1, ?_⟩
    obtain ⟨e, he, hek⟩ := List.mem_map.1 (hcur k hk).2
    apply List.mem_map.2
    refine ⟨e, ?_, hek⟩
    by_contra hne
    have hv := (garbage_collection_removed_iff s D hsorted e he).1 hne
    have := (gc_victims_subset s D hsorted e hv).2
    rw [hek] at this
    exact this hk

theorem garbage_collection_count_add (s : mutation_log) (D : multi_partition_decrees)
    (hs : omap_sorted int_lt s.log_files) :
    (s.garbage_collection D).1 + ((s.garbage_collection D).2.log_files.length : Int)
      = s.log_files.length := by
  rw [garbage_collection_count_removed s D hs]
  have h1 := List.length_eq_length_filter_add (l := s.log_files)
    (fun e => decide (e.1 ∉ (gc_victims s D).map Prod.fst))
  have h2 : s.log_files.filter
      (fun e => decide (e ∉ (s.garbage_collection D).2.log_files))
      = s.log_files.filter
        (fun e => !decide (e.1 ∉ (gc_victims s D).map Prod.fst)) := by
    apply List.filter_congr
    intro x hx
    rw [garbage_collection_log_files]
    by_cases hv : x.1 ∈ (gc_victims s D).map Prod.fst
    · simp [List.mem_filter, hx, hv]
    · simp [List.mem_filter, hx, hv]
  rw [h2, garbage_collection_log_files]
  rw [h1]
  push_cast
  ring

theorem segments_wf_initialize_log {s s1 : mutation_log} {dir : List Char}
    (hc : s.current_log_file = none)
    (h : initialize_log s dir true = some (ERR_OK, s1)) : segments_wf s1 := by
  obtain ⟨files0, hload, hr⟩ := initialize_log_load h
  rcases load_log_files_spec s.fs (list_dir s.fs dir) [] (by simp [omap_sorted]) with
    ⟨files, h1, _, hmem, _⟩ | ⟨h1, _⟩
  swap
  · rw [h1] at hload; simp at hload
  rw [h1] at hload
  simp only [Option.some.injEq] at hload
  subst hload
  simp only [List.not_mem_nil, false_or] at hmem
  have hidx : ∀ e ∈ files, e.2.index = e.1 := by
    intro e he
    obtain ⟨log, _, rfl⟩ := (hmem e).1 he
    rfl
  cases files with
  | nil =>
    simp only [check_log_files, Prod.mk.injEq, true_and] at hr
    rw [hr]
    exact ⟨⟨0, by simp [index_range]⟩, by simp, by simp [hc]⟩
  | cons e files =>
    obtain ⟨k, f⟩ := e
    simp only at hr
    rcases check_log_files_spec ((k, f) :: files)
        { s with dir := dir, log_files := (k, f) :: files, last_file_number := k - 1,
                 global_start_offset := f.start_offset } with ⟨hrange, hck⟩ | ⟨_, hck⟩
    · simp only [sub_add_cancel] at hrange
      rw [hck] at hr
      simp only [Prod.mk.injEq, true_and] at hr
      rw [hr]
      refine ⟨⟨((k, f) :: files).length, ?_⟩, ?_, ?_⟩
      · simp only [checked_log]
        rw [hrange]
        congr 1
        ring
      · simpa [checked_log] using hidx
      · simp [checked_log, hc]
    · rw [← hr] at hck
      simp at hck

theorem on_partition_removed_fields (s : mutation_log) (g : global_partition_id) :
    (s.on_partition_removed g).log_files = s.log_files
    ∧ (s.on_partition_removed g).last_file_number = s.last_file_number
    ∧ (s.on_partition_removed g).current_log_file = s.current_log_file := by
  simp [mutation_log.on_partition_removed]

theorem segments_wf_apply_op {c : core_codec} {s s' : mutation_log} {op : log_op}
    (h : segments_wf s) (ho : apply_op c s op = some s') : segments_wf s' := by
  cases op with
  | open_log bmb pms fmb batch wt dir =>
    simp only [apply_op] at ho
    split at ho
    · simp at ho
    · split at ho
      · rename_i s1 hinit
        simp only [Option.some.injEq] at ho
        rw [← ho]
        exact segments_wf_initialize_log (by simp [mutation_log.ctor]) hinit
      · simp at ho
  | replay =>
    simp only [apply_op] at ho
    split at ho
    · simp at ho
    · simp only [Option.some.injEq] at ho
      rw [← ho]
      exact segments_wf_replay c h
  | start_write_service io init st =>
    simp only [apply_op] at ho
    obtain ⟨r, hr, hs'⟩ := Option.map_eq_some'.1 ho
    rw [← hs']
    exact segments_wf_start_write_service h (e := r.1) (by rw [hr])
  | append io mu cb =>
    simp only [apply_op] at ho
    obtain ⟨r, hr, hs'⟩ := Option.map_eq_some'.1 ho
    rw [← hs']
    have hr' : s.append c io mu cb = some (r.1, r.2) := by rw [hr]
    exact segments_wf_append h hr'
  | timer io =>
    simp only [apply_op] at ho
    obtain ⟨r, hr, hs'⟩ := Option.map_eq_some'.1 ho
    rw [← hs']
    exact segments_wf_timer h (e := r.1) (by rw [hr])
  | on_partition_removed g =>
    simp only [apply_op, Option.some.injEq] at ho
    rw [← ho]
    have hf := on_partition_removed_fields s g
    exact segments_wf_congr (by rw [hf.1]) (by rw [hf.1]; exact h.2.1) hf.2.1 (Or.inl hf.2.2) h
  | garbage_collection D =>
    simp only [apply_op, Option.some.injEq] at ho
    rw [← ho]
    exact (segments_wf_garbage_collection D h).1
  | close ios =>
    simp only [apply_op] at ho
    exact segments_wf_close ios h ho

theorem segments_wf_run_ops {c : core_codec} (ops : List log_op) {s s' : mutation_log}
    (h : segments_wf s) (hr : run_ops c ops s = some s') : segments_wf s' := by
  induction ops generalizing s with
  | nil =>
    simp only [run_ops, Option.some.injEq] at hr
    exact hr ▸ h
  | cons op ops ih =>
    simp only [run_ops] at hr
    split at hr
    · simp at hr
    · rename_i s1 hs1
      exact ih (segments_wf_apply_op h hs1) hr

theorem omap_find_of_mem {β : Type} {m : List (Int × β)} (hs : omap_sorted int_lt m)
    {k : Int} {v : β} (h : (k, v) ∈ m) : omap_find k m = some v := by
  obtain ⟨w, hw⟩ := omap_find_some_of_mem (List.mem_map_of_mem Prod.fst h)
  have := omap_sorted_key_inj hs (omap_find_mem hw) h rfl
  rw [hw, (Prod.mk.inj this).2]

/-- C4: in every state a run of the log reaches, `garbage_collection(D)` leaves the current
writable segment in place, removes a prefix of the segment map (the segments of lowest
index, as many as it returns), and the surviving indices form a contiguous range that ends
at the highest index present before the call. -/
theorem garbage_collection_keeps_current_and_suffix (c : core_codec) (a b d : Int)
    (batch : Bool) (w : Int) (fs : disk) (ops : List log_op) (s : mutation_log)
    (D : multi_partition_decrees)
    (hr : run_ops c ops (mutation_log.ctor a b d batch w fs) = some s) :
    (∀ k f, s.current_log_file = some k → s.file k = some f →
        (s.garbage_collection D).2.current_log_file = some k
        ∧ (s.garbage_collection D).2.file k = some f)
    ∧ (∃ j : Nat, (s.garbage_collection D).2.log_files = s.log_files.drop j
        ∧ (s.garbage_collection D).1 = j)
    ∧ (∃ lo n, (s.garbage_collection D).2.log_files.map Prod.fst = index_range lo n)
    ∧ (s.log_files ≠ [] →
        (s.garbage_collection D).2.log_files ≠ []
        ∧ (s.garbage_collection D).2.log_files.getLast? = s.log_files.getLast?) := by
  have hwf := segments_wf_run_ops ops (segments_wf_ctor a b d batch w fs) hr
  have hsorted := segments_wf_sorted hwf
  obtain ⟨hwf', j, hj, hjle, hjl⟩ := segments_wf_garbage_collection D hwf
  refine ⟨?_, ⟨j, hj, ?_⟩, ?_, ?_⟩
  · intro k f hk hf
    have hcurf : (s.garbage_collection D).2.current_log_file = s.current_log_file := by
      simp [mutation_log.garbage_collection, gc_fold_eq]
    refine ⟨by rw [hcurf, hk], ?_⟩
    have hmem : (k, f) ∈ s.log_files := omap_find_mem hf
    have hkeep : (k, f) ∈ (s.garbage_collection D).2.log_files := by
      by_contra hne
      have hv := (garbage_collection_removed_iff s D hsorted _ hmem).1 hne
      exact (gc_victims_subset s D hsorted _ hv).2 hk
    exact omap_find_of_mem (segments_wf_sorted hwf') hkeep
  · have hadd := garbage_collection_count_add s D hsorted
    rw [hj, List.length_drop] at hadd
    omega
  · obtain ⟨⟨n, hn⟩, _⟩ := hwf'
    exact ⟨_, n, hn⟩
  · intro hne
    have hlt := hjl hne
    rw [hj]
    refine ⟨?_, ?_⟩
    · intro h0
      have := congrArg List.length h0
      simp only [List.length_drop, List.length_nil] at this
      omega
    · rw [List.getLast?_drop, if_neg (by omega)]

set_option maxRecDepth 100000 in
theorem garbage_collection_keeps_current_and_suffix_witness :
    run_ops sample_codec gc_example_ops (mutation_log.ctor 1 100 0 false 2 [])
      = some gc_example_log
    ∧ ∃ j : Nat, (gc_example_log.garbage_collection [(⟨1, 0⟩, 150)]).2.log_files
          = gc_example_log.log_files.drop j
        ∧ (gc_example_log.garbage_collection [(⟨1, 0⟩, 150)]).1 = j :=
  have h : run_ops sample_codec gc_example_ops (mutation_log.ctor 1 100 0 false 2 [])
      = some gc_example_log := by decide
  ⟨h, (garbage_collection_keeps_current_and_suffix sample_codec 1 100 0 false 2 []
    gc_example_ops gc_example_log [(⟨1, 0⟩, 150)] h).2.1⟩

/-! ## Garbage collection keeps what is not durable -/

theorem gpid_lt_irrefl (a : global_partition_id) : gpid_lt a a = false := by
  simp [gpid_lt]

theorem gpid_lt_total (a b : global_partition_id) (h1 : gpid_lt a b = false)
    (h2 : gpid_lt b a = false) : a = b := by
  unfold gpid_lt at h1 h2
  simp only [Bool.or_eq_false_iff, decide_eq_false_iff_not, Bool.and_eq_false_imp,
    decide_eq_true_eq] at h1 h2
  cases a; cases b
  simp only at h1 h2
  simp only [global_partition_id.mk.injEq]
  have h3 : ¬ (_ : Int) < _ := h1.1
  have h4 : ¬ (_ : Int) < _ := h2.1
  refine ⟨by omega, ?_⟩
  have h5 := h1.2 (by omega)
  have h6 := h2.2 (by omega)
  omega

theorem omap_find_insert (k k' : global_partition_id) (v : Int)
    (m : multi_partition_decrees) :
    omap_find k' (omap_insert gpid_lt k v m) = if k = k' then some v else omap_find k' m := by
  induction m with
  | nil => simp [omap_insert, omap_find]
  | cons e m ih =>
    obtain ⟨x, y⟩ := e
    unfold omap_insert
    split
    · rename_i hlt
      simp only [omap_find]
    · split
      · rename_i h1 h2
        have hne : x ≠ k := by
          intro he
          subst he
          rw [gpid_lt_irrefl] at h2
          exact absurd h2 (by simp)
        by_cases hx : x = k'
        · have : ¬ k = k' := fun hk => hne (hk ▸ hx)
          simp [omap_find, hx, this]
        · simp only [omap_find, hx, if_false]
          exact ih
      · rename_i h1 h2
        have hxk : k = x := gpid_lt_total _ _ (by simpa using h1) (by simpa using h2)
        subst hxk
        by_cases hx : k = k'
        · simp [omap_find, hx]
        · simp [omap_find, hx]

theorem omap_find_erase_ne {κ β : Type} [DecidableEq κ] (k k' : κ) (m : List (κ × β))
    (h : k' ≠ k) : omap_find k' (omap_erase k m) = omap_find k' m := by
  unfold omap_erase
  induction m with
  | nil => rfl
  | cons e m ih =>
    obtain ⟨x, y⟩ := e
    by_cases hx : x = k
    · have : ¬ x = k' := fun he => h (he.symm.trans hx)
      simp only [List.filter_cons, hx, ne_eq, not_true_eq_false, decide_False,
        Bool.false_eq_true, if_false]
      rw [ih]
      simp [omap_find, hx ▸ this]
    · simp only [List.filter_cons, ne_eq, hx, not_false_eq_true, decide_True, if_true,
        omap_find]
      rw [ih]

theorem covers_bump {m : multi_partition_decrees} {mu x : mutation} (h : covers m x) :
    covers (bump_decree m mu) x := by
  obtain ⟨d, hd, hle⟩ := h
  unfold bump_decree
  by_cases hg : mu.gpid = x.gpid
  · rw [hg, hd]
    simp only
    split
    · rename_i hlt
      exact ⟨mu.decree, by rw [omap_find_insert]; simp, by omega⟩
    · exact ⟨d, hd, hle⟩
  · split
    · split
      · exact ⟨d, by rw [omap_find_insert]; simp [hg, hd], hle⟩
      · exact ⟨d, hd, hle⟩
    · exact ⟨d, by rw [omap_find_insert]; simp [hg, hd], hle⟩

theorem covers_bump_self (m : multi_partition_decrees) (mu : mutation) (off : Int) :
    covers (bump_decree m mu) { mu with log_offset := off } := by
  unfold bump_decree covers
  simp only
  cases hf : omap_find mu.gpid m with
  | none =>
    simp only
    exact ⟨mu.decree, by rw [omap_find_insert]; simp, le_refl _⟩
  | some d =>
    simp only
    split
    · exact ⟨mu.decree, by rw [omap_find_insert]; simp, le_refl _⟩
    · exact ⟨d, hf, by omega⟩

theorem with_new_segment_log_files (c : core_codec) {s : mutation_log} (h : segments_wf s) :
    (with_new_segment c s).log_files
      = s.log_files ++ [(s.last_file_number + 1,
          ((fresh_segment s).write_header (message.create_request c) s.init_prepared_decrees
            (int_cast s.log_buffer_size_bytes)).1)] := by
  have hlt : ∀ e ∈ s.log_files, int_lt e.1 (s.last_file_number + 1) = true := by
    intro e he
    have := segments_wf_key_le h e he
    simp only [int_lt, decide_eq_true_eq]
    omega
  have hins := omap_insert_last int_lt int_lt_asymm (s.last_file_number + 1)
    (fresh_segment s) s.log_files hlt
  have hset : ∀ f, set_file (s.last_file_number + 1) f
      (s.log_files ++ [(s.last_file_number + 1, fresh_segment s)])
      = s.log_files ++ [(s.last_file_number + 1, f)] := by
    intro f
    unfold set_file
    rw [List.map_append]
    congr 1
    · conv_rhs => rw [← List.map_id s.log_files]
      apply List.map_congr_left
      intro e he
      have := hlt e he
      simp only [int_lt, decide_eq_true_eq] at this
      have hne : ¬ e.1 = s.last_file_number + 1 := by omega
      simp [hne]
    · simp
  simp only [with_new_segment, hins, hset]

theorem no_mutations_coverage (g : global_partition_id) {s : mutation_log}
    (h : no_mutations s) : coverage g s := by
  refine ⟨?_, ?_, ?_⟩
  · intro e he mu hmu
    rw [h.1 e he] at hmu
    simp at hmu
  · intro mu hmu
    rw [h.2] at hmu
    simp at hmu
  · intro e he e' _ _ mu hmu
    rw [h.1 e he] at hmu
    simp at hmu

theorem no_mutations_with_new_segment (c : core_codec) {s : mutation_log}
    (hw : segments_wf s) (h : no_mutations s) : no_mutations (with_new_segment c s) := by
  refine ⟨?_, ?_⟩
  · intro e he
    rw [with_new_segment_log_files c hw] at he
    simp only [List.mem_append, List.mem_singleton] at he
    rcases he with he | he
    · exact h.1 e he
    · subst he
      simp [log_file.write_header, fresh_segment, log_file.ctor]
  · simpa [with_new_segment] using h.2

theorem coverage_with_new_segment (c : core_codec) (g : global_partition_id)
    {s : mutation_log} (hw : segments_wf s) (h : coverage g s) :
    coverage g (with_new_segment c s) := by
  have hfile := with_new_segment_log_files c hw
  have hipd : (with_new_segment c s).init_prepared_decrees = s.init_prepared_decrees := rfl
  have hpm : (with_new_segment c s).pending_mutations = s.pending_mutations := rfl
  have hnew : ∀ e, e = (s.last_file_number + 1,
      ((fresh_segment s).write_header (message.create_request c) s.init_prepared_decrees
        (int_cast s.log_buffer_size_bytes)).1) →
      e.2.mutations = [] ∧ e.2.init_prepared_decrees = s.init_prepared_decrees := by
    intro e he
    subst he
    simp [log_file.write_header, fresh_segment, log_file.ctor]
  refine ⟨?_, ?_, ?_⟩
  · intro e he mu hmu hg
    rw [hfile] at he
    rw [hipd]
    simp only [List.mem_append, List.mem_singleton] at he
    rcases he with he | he
    · exact h.1 e he mu hmu hg
    · rw [(hnew e he).1] at hmu
      simp at hmu
  · intro mu hmu hg
    rw [hipd]
    exact h.2.1 mu hmu hg
  · intro e he e' he' hlt mu hmu hg
    rw [hfile] at he he'
    simp only [List.mem_append, List.mem_singleton] at he he'
    rcases he with he | he
    · rcases he' with he' | he'
      · exact h.2.2 e he e' he' hlt mu hmu hg
      · rw [(hnew e' he').2]
        exact h.1 e he mu hmu hg
    · rw [(hnew e he).1] at hmu
      simp at hmu

theorem coverage_after_flush (c : core_codec) (io : io_env) (g : global_partition_id)
    {s : mutation_log} {k : Int} {cur : log_file} (pw : message) (cbs : List Nat)
    (hw : segments_wf s) (hk : s.current_log_file = some k) (hcur : s.file k = some cur)
    (h : coverage g s) : coverage g (after_flush c io s k cur pw cbs) := by
  have hkm : (k, cur) ∈ s.log_files := omap_find_mem hcur
  have hklast : k = s.last_file_number := (hw.2.2 k hk).1
  have hipd : (after_flush c io s k cur pw cbs).init_prepared_decrees
      = s.init_prepared_decrees := rfl
  have hmem : ∀ e ∈ (after_flush c io s k cur pw cbs).log_files,
      (e ∈ s.log_files ∧ e.1 ≠ k)
      ∨ (e.1 = k ∧ e.2.init_prepared_decrees = cur.init_prepared_decrees
          ∧ ∀ mu ∈ e.2.mutations, mu ∈ cur.mutations ∨ mu ∈ s.pending_mutations) := by
    intro e he
    simp only [after_flush] at he
    rcases mem_set_file he with h1 | ⟨h1, _⟩
    · exact Or.inl h1
    · right
      subst h1
      by_cases hio : io.issue_ok = true
      · simp only [hio, if_true]
        refine ⟨trivial, trivial, ?_⟩
        intro mu hmu
        exact List.mem_append.1 hmu
      · simp only [hio, Bool.false_eq_true, if_false]
        exact ⟨trivial, trivial, fun mu hmu => Or.inl hmu⟩
  have hkey : ∀ e ∈ (after_flush c io s k cur pw cbs).log_files, e.1 ≤ k := by
    intro e he
    rcases hmem e he with ⟨h1, _⟩ | ⟨h1, _⟩
    · rw [hklast]
      exact segments_wf_key_le hw e h1
    · omega
  have hcov : ∀ mu, (mu ∈ cur.mutations ∨ mu ∈ s.pending_mutations) → mu.gpid = g →
      covers s.init_prepared_decrees mu := by
    intro mu hmu hg
    rcases hmu with hmu | hmu
    · exact h.1 (k, cur) hkm mu hmu hg
    · exact h.2.1 mu hmu hg
  refine ⟨?_, ?_, ?_⟩
  · intro e he mu hmu hg
    rw [hipd]
    rcases hmem e he with ⟨h1, _⟩ | ⟨_, _, h3⟩
    · exact h.1 e h1 mu hmu hg
    · exact hcov mu (h3 mu hmu) hg
  · intro mu hmu
    simp [after_flush] at hmu
  · intro e he e' he' hlt mu hmu hg
    rcases hmem e he with ⟨h1, h1k⟩ | ⟨h1, _, _⟩
    · rcases hmem e' he' with ⟨h2, _⟩ | ⟨h2, h2i, _⟩
      · exact h.2.2 e h1 e' h2 hlt mu hmu hg
      · rw [h2i]
        exact h.2.2 e h1 (k, cur) hkm (by simpa [h2] using hlt) mu hmu hg
    · have := hkey e' he'
      omega

theorem coverage_with_appended (c : core_codec) (g : global_partition_id)
    {s : mutation_log} (mu : mutation) (cb : Nat) (pw : message) (cbs : List Nat)
    (h : coverage g s) : coverage g (with_appended c s mu cb pw cbs) := by
  have hf := with_buffer_fields c s mu
  have hipd : (with_appended c s mu cb pw cbs).init_prepared_decrees
      = bump_decree s.init_prepared_decrees mu := hf.2.2.2.2.2.2.1
  have hfiles : (with_appended c s mu cb pw cbs).log_files = s.log_files := hf.1
  have hpm : (with_appended c s mu cb pw cbs).pending_mutations
      = s.pending_mutations ++ [{ mu with log_offset := (with_buffer c s mu).global_end_offset }] := by
    simp only [with_appended]
    rw [hf.2.2.2.2.2.1]
  refine ⟨?_, ?_, ?_⟩
  · intro e he x hx hg
    rw [hipd]
    rw [hfiles] at he
    exact covers_bump (h.1 e he x hx hg)
  · intro x hx hg
    rw [hipd]
    rw [hpm] at hx
    simp only [List.mem_append, List.mem_singleton] at hx
    rcases hx with hx | hx
    · exact covers_bump (h.2.1 x hx hg)
    · rw [hx]
      exact covers_bump_self _ _ _
  · intro e he e' he' hlt x hx hg
    rw [hfiles] at he he'
    exact h.2.2 e he e' he' hlt x hx hg

theorem coverage_clear_timer (g : global_partition_id) {s : mutation_log}
    (h : coverage g s) : coverage g s.clear_timer := h

theorem coverage_write_pending_mutations {c : core_codec} {io : io_env}
    {s s' : mutation_log} {e : error_code} {b : Bool} (g : global_partition_id)
    (hw : segments_wf s) (h : coverage g s)
    (hwr : s.write_pending_mutations c io b = some (e, s')) : coverage g s' := by
  obtain ⟨pw, cbs, k, cur, _, _, _, hk, hcur, _, _, hcase⟩ := write_pending_mutations_some hwr
  have hwf := segments_wf_after_flush c io pw cbs hw hcur
  have hcv := coverage_after_flush c io g pw cbs hw hk hcur h
  rcases hcase with ⟨_, _, hs'⟩ | ⟨_, _, _, hs'⟩ | ⟨_, _, _, hnew⟩
  · rw [hs']; exact hcv
  · rw [hs']; exact hcv
  · obtain ⟨_, _, _, hc⟩ := create_new_log_file_some hnew
    rcases hc with ⟨_, _, hs'⟩ | ⟨_, _, _, _, _, _, hs'⟩
    · rw [hs']; exact hcv
    · rw [hs']
      exact coverage_with_new_segment c g hwf hcv

theorem coverage_append {c : core_codec} {io : io_env} {s s' : mutation_log}
    {mu mu' : mutation} {cb : Nat} (g : global_partition_id) (hw : segments_wf s)
    (h : coverage g s) (ha : s.append c io mu cb = some (mu', s')) : coverage g s' := by
  obtain ⟨_, pw, cbs, _, _, _, hfl⟩ := append_some ha
  have hw3 := segments_wf_with_appended c mu cb pw cbs hw
  have hc3 := coverage_with_appended c g mu cb pw cbs h
  obtain ⟨_, hcase⟩ := flush_after_append_some hfl
  rcases hcase with ⟨_, e, hwr⟩ | ⟨_, _, _, _, e, hwr⟩ | ⟨_, hs', _⟩
  · exact coverage_write_pending_mutations g hw3 hc3 hwr
  · exact coverage_write_pending_mutations g (segments_wf_clear_timer hw3)
      (coverage_clear_timer g hc3) hwr
  · rw [hs']; exact hc3

theorem coverage_timer {c : core_codec} {io : io_env} {s s' : mutation_log}
    {e : error_code} (g : global_partition_id) (hw : segments_wf s) (h : coverage g s)
    (ht : s.internal_pending_write_timer c io = some (e, s')) : coverage g s' := by
  unfold mutation_log.internal_pending_write_timer at ht
  split at ht
  · simp at ht
  · split at ht
    · simp at ht
    · exact coverage_write_pending_mutations g (segments_wf_clear_timer hw)
        (coverage_clear_timer g h) ht

theorem coverage_on_partition_removed (g g' : global_partition_id) {s : mutation_log}
    (hne : g' ≠ g) (h : coverage g s) : coverage g (s.on_partition_removed g') := by
  have hcov : ∀ mu : mutation, mu.gpid = g → covers s.init_prepared_decrees mu →
      covers (s.on_partition_removed g').init_prepared_decrees mu := by
    intro mu hg ⟨d, hd, hle⟩
    refine ⟨d, ?_, hle⟩
    simp only [mutation_log.on_partition_removed]
    rw [omap_find_erase_ne g' mu.gpid _ (by rw [hg]; exact hne.symm)]
    exact hd
  refine ⟨?_, ?_, ?_⟩
  · intro e he mu hmu hg
    exact hcov mu hg (h.1 e he mu hmu hg)
  · intro mu hmu hg
    exact hcov mu hg (h.2.1 mu hmu hg)
  · exact h.2.2

theorem coverage_garbage_collection (g : global_partition_id) (D : multi_partition_decrees)
    {s : mutation_log} (h : coverage g s) : coverage g (s.garbage_collection D).2 := by
  have hsub : ∀ e ∈ (s.garbage_collection D).2.log_files, e ∈ s.log_files := by
    intro e he
    rw [garbage_collection_log_files] at he
    exact (List.mem_filter.1 he).1
  have hipd : (s.garbage_collection D).2.init_prepared_decrees = s.init_prepared_decrees := by
    simp [mutation_log.garbage_collection, gc_fold_eq]
  have hpm : (s.garbage_collection D).2.pending_mutations = s.pending_mutations := by
    simp [mutation_log.garbage_collection, gc_fold_eq]
  refine ⟨?_, ?_, ?_⟩
  · intro e he mu hmu hg
    rw [hipd]
    exact h.1 e (hsub e he) mu hmu hg
  · intro mu hmu hg
    rw [hipd]
    rw [hpm] at hmu
    exact h.2.1 mu hmu hg
  · intro e he e' he' hlt mu hmu hg
    exact h.2.2 e (hsub e he) e' (hsub e' he') hlt mu hmu hg

theorem coverage_apply_op {c : core_codec} {s s' : mutation_log} {op : log_op}
    (g : global_partition_id) (hop : is_write_op_keeping g op) (hw : segments_wf s)
    (h : coverage g s) (ho : apply_op c s op = some s') : coverage g s' := by
  cases op with
  | open_log bmb pms fmb batch wt dir => exact absurd hop (by simp [is_write_op_keeping])
  | replay => exact absurd hop (by simp [is_write_op_keeping])
  | start_write_service io init st => exact absurd hop (by simp [is_write_op_keeping])
  | close ios => exact absurd hop (by simp [is_write_op_keeping])
  | append io mu cb =>
    simp only [apply_op] at ho
    obtain ⟨r, hr, hs'⟩ := Option.map_eq_some'.1 ho
    rw [← hs']
    have hr' : s.append c io mu cb = some (r.1, r.2) := by rw [hr]
    exact coverage_append g hw h hr'
  | timer io =>
    simp only [apply_op] at ho
    obtain ⟨r, hr, hs'⟩ := Option.map_eq_some'.1 ho
    rw [← hs']
    exact coverage_timer g hw h (e := r.1) (by rw [hr])
  | on_partition_removed g' =>
    simp only [apply_op, Option.some.injEq] at ho
    rw [← ho]
    exact coverage_on_partition_removed g g' hop h
  | garbage_collection D =>
    simp only [apply_op, Option.some.injEq] at ho
    rw [← ho]
    exact coverage_garbage_collection g D h

theorem coverage_run_ops {c : core_codec} (g : global_partition_id) (ops : List log_op)
    {s s' : mutation_log} (hops : ∀ op ∈ ops, is_write_op_keeping g op)
    (hw : segments_wf s) (h : coverage g s) (hr : run_ops c ops s = some s') :
    segments_wf s' ∧ coverage g s' := by
  induction ops generalizing s with
  | nil =>
    simp only [run_ops, Option.some.injEq] at hr
    exact hr ▸ ⟨hw, h⟩
  | cons op ops ih =>
    simp only [run_ops] at hr
    split at hr
    · simp at hr
    · rename_i s1 hs1
      exact ih (fun o ho => hops o (List.mem_cons_of_mem _ ho))
        (segments_wf_apply_op hw hs1)
        (coverage_apply_op g (hops op (List.mem_cons_self _ _)) hw h hs1) hr

theorem no_mutations_initialize_log {s s1 : mutation_log} {dir : List Char}
    (hp : s.pending_mutations = [])
    (h : initialize_log s dir true = some (ERR_OK, s1)) : no_mutations s1 := by
  obtain ⟨files0, hload, hr⟩ := initialize_log_load h
  rcases load_log_files_spec s.fs (list_dir s.fs dir) [] (by simp [omap_sorted]) with
    ⟨files, h1, _, hmem, _⟩ | ⟨h1, _⟩
  swap
  · rw [h1] at hload; simp at hload
  rw [h1] at hload
  simp only [Option.some.injEq] at hload
  subst hload
  simp only [List.not_mem_nil, false_or] at hmem
  have hmut : ∀ e ∈ files, e.2.mutations = [] := by
    intro e he
    obtain ⟨log, hlog, rfl⟩ := (hmem e).1 he
    obtain ⟨p, _, hp⟩ := List.mem_filterMap.1 hlog
    exact (opend_read_index_path hp).2.2.1
  cases files with
  | nil =>
    simp only [check_log_files, Prod.mk.injEq, true_and] at hr
    rw [hr]
    exact ⟨by simp, hp⟩
  | cons e files =>
    obtain ⟨k, f⟩ := e
    simp only at hr
    rcases check_log_files_spec ((k, f) :: files)
        { s with dir := dir, log_files := (k, f) :: files, last_file_number := k - 1,
                 global_start_offset := f.start_offset } with ⟨_, hck⟩ | ⟨_, hck⟩
    · rw [hck] at hr
      simp only [Prod.mk.injEq, true_and] at hr
      rw [hr]
      exact ⟨by simpa [checked_log] using hmut, by simpa [checked_log] using hp⟩
    · rw [← hr] at hck
      simp at hck

theorem no_mutations_replay (c : core_codec) {s : mutation_log} (h : no_mutations s) :
    no_mutations (s.replay c).log := by
  have hsame := replay_files_same c s.fs s.log_files ERR_OK s.last_log_file
    ⟨s.start_offset, [], []⟩
  have hmut : ∀ e ∈ (replay_files c s.fs s.log_files ERR_OK s.last_log_file
      ⟨s.start_offset, [], []⟩).2.1, e.2.mutations = [] := by
    have hall := h.1
    revert hall
    generalize (replay_files c s.fs s.log_files ERR_OK s.last_log_file
      ⟨s.start_offset, [], []⟩).2.1 = m' at hsame
    generalize s.log_files = m at hsame
    unfold same_segments at hsame
    induction hsame with
    | nil => intro _ e he; simp at he
    | @cons a b l l' hab _ ih =>
      intro hall e he
      rcases List.mem_cons.1 he with he | he
      · subst he
        rw [hab.2.2.2.2.2.2]
        exact hall a (List.mem_cons_self _ _)
      · exact ih (fun x hx => hall x (List.mem_cons_of_mem _ hx)) e he
  have hlog : (s.replay c).log.log_files = (replay_files c s.fs s.log_files ERR_OK
      s.last_log_file ⟨s.start_offset, [], []⟩).2.1
      ∧ (s.replay c).log.pending_mutations = s.pending_mutations := by
    unfold mutation_log.replay
    simp only
    split
    · exact ⟨rfl, rfl⟩
    · exact ⟨rfl, rfl⟩
    · split
      · split
        · exact ⟨rfl, rfl⟩
        · split <;> exact ⟨rfl, rfl⟩
      · split
        · split <;> exact ⟨rfl, rfl⟩
        · exact ⟨rfl, rfl⟩
  exact ⟨by rw [hlog.1]; exact hmut, by rw [hlog.2]; exact h.2⟩

theorem no_mutations_read_ops {c : core_codec} (ops : List log_op) {s s' : mutation_log}
    (hops : ∀ op ∈ ops, is_read_op op) (h : no_mutations s)
    (hr : run_ops c ops s = some s') : no_mutations s' := by
  induction ops generalizing s with
  | nil =>
    simp only [run_ops, Option.some.injEq] at hr
    exact hr ▸ h
  | cons op ops ih =>
    simp only [run_ops] at hr
    split at hr
    · simp at hr
    · rename_i s1 hs1
      refine ih (fun o ho => hops o (List.mem_cons_of_mem _ ho)) ?_ hr
      have hop := hops op (List.mem_cons_self _ _)
      cases op with
      | open_log bmb pms fmb batch wt dir =>
        simp only [apply_op] at hs1
        split at hs1
        · simp at hs1
        · split at hs1
          · rename_i s2 hinit
            simp only [Option.some.injEq] at hs1
            rw [← hs1]
            exact no_mutations_initialize_log (by simp [mutation_log.ctor]) hinit
          · simp at hs1
      | replay =>
        simp only [apply_op] at hs1
        split at hs1
        · simp at hs1
        · simp only [Option.some.injEq] at hs1
          rw [← hs1]
          exact no_mutations_replay c h
      | start_write_service io init st => exact absurd hop (by simp [is_read_op])
      | close ios => exact absurd hop (by simp [is_read_op])
      | append io mu cb => exact absurd hop (by simp [is_read_op])
      | timer io => exact absurd hop (by simp [is_read_op])
      | on_partition_removed g => exact absurd hop (by simp [is_read_op])
      | garbage_collection D => exact absurd hop (by simp [is_read_op])

theorem no_mutations_start_write_service {c : core_codec} {io : io_env}
    {s s' : mutation_log} {e : error_code} {init : multi_partition_decrees} {st : Int}
    (hw : segments_wf s) (h : no_mutations s)
    (hs : s.start_write_service c io init st = some (e, s')) : no_mutations s' := by
  unfold mutation_log.start_write_service at hs
  simp only at hs
  split at hs
  · simp at hs
  · obtain ⟨_, _, _, hc⟩ := create_new_log_file_some hs
    rcases hc with ⟨_, _, hs'⟩ | ⟨_, _, _, _, _, _, hs'⟩
    · rw [hs']
      exact h
    · rw [hs']
      exact no_mutations_with_new_segment c (s := { s with
        init_prepared_decrees := init
        max_staleness_for_commit := st }) hw h

theorem run_ops_append {c : core_codec} (ops1 ops2 : List log_op) {s s' : mutation_log}
    (h : run_ops c (ops1 ++ ops2) s = some s') :
    ∃ s1, run_ops c ops1 s = some s1 ∧ run_ops c ops2 s1 = some s' := by
  induction ops1 generalizing s with
  | nil => exact ⟨s, rfl, h⟩
  | cons op ops ih =>
    simp only [List.cons_append, run_ops] at h ⊢
    split at h
    · simp at h
    · exact ih h

set_option maxRecDepth 100000 in
/-- C2, counterexample: after `on_partition_removed` for the partition (1,0) the headers of
the later segments have no entry for it; `garbage_collection` with the durable decree 10
for (1,0) removes segment 1, which holds the mutation of (1,0) with decree 50, and no
surviving segment holds a mutation of that partition. -/
theorem garbage_collection_after_partition_removed_counterexample :
    run_ops sample_codec removed_partition_ops (mutation_log.ctor 1 100 0 false 2 [])
      = some removed_partition_log
    ∧ ∃ e ∈ removed_partition_log.log_files, ∃ mu ∈ e.2.mutations,
        mu.gpid = ⟨1, 0⟩ ∧ mu.decree = 50
        ∧ omap_find mu.gpid [((⟨1, 0⟩ : global_partition_id), (10 : Int)), (⟨2, 0⟩, 5)]
            = some 10
        ∧ e ∉ (removed_partition_log.garbage_collection
                  [(⟨1, 0⟩, 10), (⟨2, 0⟩, 5)]).2.log_files
        ∧ ∀ e' ∈ (removed_partition_log.garbage_collection
                  [(⟨1, 0⟩, 10), (⟨2, 0⟩, 5)]).2.log_files,
            ∀ mu' ∈ e'.2.mutations, mu'.gpid ≠ ⟨1, 0⟩ := by
  decide

/-- C2 (amended): in a run that opens and replays the log, starts the write service and then
appends, flushes on the timer, collects garbage and removes partitions other than that of
the mutation `mu`, a segment to which `mu` was written survives `garbage_collection(D)`
whenever `D` lists the partition of `mu` with a decree below that of `mu`. -/
theorem garbage_collection_keeps_undurable_mutations (c : core_codec) (a b d : Int)
    (batch : Bool) (w : Int) (fs : disk) (pre post : List log_op) (io : io_env)
    (init : multi_partition_decrees) (st : Int) (s : mutation_log)
    (D : multi_partition_decrees) (e : Int × log_file) (mu : mutation) (dd : Int)
    (hpre : ∀ op ∈ pre, is_read_op op)
    (hpost : ∀ op ∈ post, is_write_op_keeping mu.gpid op)
    (hr : run_ops c (pre ++ log_op.start_write_service io init st :: post)
      (mutation_log.ctor a b d batch w fs) = some s)
    (he : e ∈ s.log_files) (hmu : mu ∈ e.2.mutations)
    (hD : omap_find mu.gpid D = some dd) (hgt : mu.decree > dd) :
    e ∈ (s.garbage_collection D).2.log_files := by
  obtain ⟨s1, hs1, hrest⟩ := run_ops_append pre _ hr
  have hw1 := segments_wf_run_ops pre (segments_wf_ctor a b d batch w fs) hs1
  have hn1 : no_mutations s1 :=
    no_mutations_read_ops pre hpre (by simp [no_mutations, mutation_log.ctor]) hs1
  simp only [run_ops] at hrest
  split at hrest
  · simp at hrest
  rename_i s2 hs2
  have hw2 := segments_wf_apply_op hw1 hs2
  simp only [apply_op] at hs2
  obtain ⟨r, hr2, hr2'⟩ := Option.map_eq_some'.1 hs2
  have hn2 : no_mutations s2 := by
    rw [← hr2']
    exact no_mutations_start_write_service hw1 hn1 (e := r.1) (by rw [hr2])
  obtain ⟨hw, hcov⟩ := coverage_run_ops mu.gpid post hpost hw2
    (no_mutations_coverage mu.gpid hn2) hrest
  by_contra hnot
  have hsorted := segments_wf_sorted hw
  have hv := (garbage_collection_removed_iff s D hsorted e he).1 hnot
  rcases gc_victims_spec s D hsorted with ⟨hnil, _⟩ | ⟨S, hS, _, hdel, _, hiff⟩
  · rw [hnil] at hv
    simp at hv
  · have hlt := ((hiff e).1 hv).2.2
    obtain ⟨d', hd', hle⟩ := hcov.2.2 e he S hS hlt mu hmu rfl
    unfold delete_older_files at hdel
    have := List.all_eq_true.1 hdel (mu.gpid, dd) (omap_find_mem hD)
    simp only [hd', decide_eq_true_eq] at this
    omega

set_option maxRecDepth 100000 in
theorem garbage_collection_keeps_undurable_mutations_witness :
    (∀ op ∈ [log_op.open_log 1 100 0 false 2 "d".toList], is_read_op op)
    ∧ (∀ op ∈ [log_op.append sample_io (sample_mutation 100) 1,
          log_op.append sample_io (sample_mutation 200) 2],
        is_write_op_keeping (sample_mutation 100).gpid op)
    ∧ run_ops sample_codec gc_example_ops (mutation_log.ctor 1 100 0 false 2 [])
        = some gc_example_log
    ∧ (2, (gc_example_log.log_files.map Prod.snd).getD 1 (fresh_segment no_log))
        ∈ gc_example_log.log_files
    ∧ (2, (gc_example_log.log_files.map Prod.snd).getD 1 (fresh_segment no_log))
        ∈ (gc_example_log.garbage_collection [(⟨1, 0⟩, 150)]).2.log_files := by
  have h1 : ∀ op ∈ [log_op.open_log 1 100 0 false 2 "d".toList], is_read_op op := by
    simp [is_read_op]
  have h2 : ∀ op ∈ [log_op.append sample_io (sample_mutation 100) 1,
      log_op.append sample_io (sample_mutation 200) 2],
      is_write_op_keeping (sample_mutation 100).gpid op := by
    simp [is_write_op_keeping]
  have h3 : run_ops sample_codec gc_example_ops (mutation_log.ctor 1 100 0 false 2 [])
      = some gc_example_log := by decide
  have h4 : (2, (gc_example_log.log_files.map Prod.snd).getD 1 (fresh_segment no_log))
      ∈ gc_example_log.log_files := by decide
  exact ⟨h1, h2, h3, h4,
    garbage_collection_keeps_undurable_mutations sample_codec 1 100 0 false 2 []
      [log_op.open_log 1 100 0 false 2 "d".toList]
      [log_op.append sample_io (sample_mutation 100) 1,
        log_op.append sample_io (sample_mutation 200) 2]
      sample_io [(⟨1, 0⟩, 1)] 0 gc_example_log [(⟨1, 0⟩, 150)]
      (2, (gc_example_log.log_files.map Prod.snd).getD 1 (fresh_segment no_log))
      { sample_mutation 200 with log_offset := 150 } 150 h1 h2 h3 h4 (by decide) (by decide)
      (by decide)⟩

/-! ## The round trip through `close` -/

set_option maxRecDepth 1000000 in
/-- C1: without batching, `close` does not write a pending buffer that holds only the header
of a fresh segment, so the round trip does not give back `global_end_offset`.  With no
append at all it is 40 before `close` and 0 after `initialize` and `replay`; with two
appends that each roll the segment over it is 228 before and 172 after, although `replay`
returns `ERR_OK` and delivers both mutations.  With batching, where `close` flushes, the
run without an append gives 40 and 40. -/
theorem close_without_batching_drops_segment_header :
    (run_ops sample_codec (round_trip_ops false 1 []) (mutation_log.ctor 1 100 1 false 2 [])
        = some (before_close false 1 [])
      ∧ run_ops sample_codec
          [log_op.close [sample_io], log_op.open_log 1 100 1 false 2 "d".toList]
          (before_close false 1 []) = some (reopened false 1 [])
      ∧ (before_close false 1 []).global_end_offset = 40
      ∧ ((reopened false 1 []).replay sample_codec).ret = some ERR_OK
      ∧ ((reopened false 1 []).replay sample_codec).delivered = []
      ∧ ((reopened false 1 []).replay sample_codec).log.global_end_offset = 0)
    ∧ (run_ops sample_codec (round_trip_ops false 0 [sample_mutation 1, sample_mutation 2])
          (mutation_log.ctor 1 100 0 false 2 [])
        = some (before_close false 0 [sample_mutation 1, sample_mutation 2])
      ∧ run_ops sample_codec
          [log_op.close [sample_io], log_op.open_log 1 100 0 false 2 "d".toList]
          (before_close false 0 [sample_mutation 1, sample_mutation 2])
        = some (reopened false 0 [sample_mutation 1, sample_mutation 2])
      ∧ (before_close false 0 [sample_mutation 1, sample_mutation 2]).global_end_offset = 228
      ∧ ((reopened false 0 [sample_mutation 1, sample_mutation 2]).replay sample_codec).ret
          = some ERR_OK
      ∧ ((reopened false 0 [sample_mutation 1, sample_mutation 2]).replay
            sample_codec).delivered
          = [{ sample_mutation 1 with log_offset := 40 },
             { sample_mutation 2 with log_offset := 134 }]
      ∧ ((reopened false 0 [sample_mutation 1, sample_mutation 2]).replay
            sample_codec).log.global_end_offset = 172)
    ∧ (run_ops sample_codec (round_trip_ops true 1 []) (mutation_log.ctor 1 100 1 true 2 [])
        = some (before_close true 1 [])
      ∧ run_ops sample_codec
          [log_op.close [sample_io], log_op.open_log 1 100 1 true 2 "d".toList]
          (before_close true 1 []) = some (reopened true 1 [])
      ∧ (before_close true 1 []).global_end_offset = 40
      ∧ ((reopened true 1 []).replay sample_codec).ret = some ERR_OK
      ∧ ((reopened true 1 []).replay sample_codec).delivered = []
      ∧ ((reopened true 1 []).replay sample_codec).log.global_end_offset = 40) := by
  refine ⟨⟨?_, ?_, ?_, ?_, ?_, ?_⟩, ⟨?_, ?_, ?_, ?_, ?_, ?_⟩, ⟨?_, ?_, ?_, ?_, ?_, ?_⟩⟩ <;> decide

/-! ## What `replay` delivers -/

theorem replay_mutations_inv (c : core_codec) (fuel : Nat) (a : replay_acc)
    (reader : List Nat) (h : acc_good a) :
    acc_inv (replay_mutations c fuel a reader).1 (replay_mutations c fuel a reader).2.1 := by
  induction fuel generalizing a reader with
  | zero => exact Or.inl h
  | succ fuel ih =>
    unfold replay_mutations
    split
    · exact Or.inl h
    · simp only
      split
      · exact Or.inl h
      · rename_i mu n _
        split
        · rename_i hne
          exact Or.inr ⟨rfl, a.decoded, (mu, a.offset), rfl, h.2, hne, h.1⟩
        · rename_i heq
          apply ih
          refine ⟨by simp [h.1], ?_⟩
          intro p hp
          simp only [List.mem_append, List.mem_singleton] at hp
          rcases hp with hp | hp
          · exact h.2 p hp
          · subst hp
            simpa using heq

theorem replay_mutations_increasing (c : core_codec) (fuel : Nat) (a : replay_acc)
    (reader : List Nat) (h : acc_increasing a) :
    acc_increasing (replay_mutations c fuel a reader).2.1 := by
  induction fuel generalizing a reader with
  | zero => exact h
  | succ fuel ih =>
    unfold replay_mutations
    split
    · exact h
    · simp only
      split
      · exact h
      · rename_i mu n hrf
        split
        · exact h
        · rename_i heq
          have heq' : mu.log_offset = a.offset := by simpa using heq
          have hn := c.read_from_pos reader mu n hrf
          apply ih
          refine ⟨?_, ?_⟩
          · intro x hx
            simp only [List.length_drop] at *
            have hlen : ((reader.length - n : Nat) : Int) = (reader.length : Int) - n := by
              omega
            simp only [List.mem_append, List.mem_singleton] at hx
            rcases hx with hx | hx
            · have := h.1 x hx
              omega
            · subst hx
              omega
          · rw [List.pairwise_append]
            refine ⟨h.2, List.pairwise_singleton _ _, ?_⟩
            intro x hx y hy
            simp only [List.mem_singleton] at hy
            subst hy
            rw [heq']
            exact h.1 x hx

theorem acc_inv_fallthrough {e : error_code} {a : replay_acc}
    (h : acc_inv (loop_exit.fallthrough e) a) : acc_good a := by
  rcases h with h | ⟨h, _⟩
  · exact h
  · cases h

theorem replay_entries_inv (c : core_codec) (fs : disk) (fuel : Nat) (log : log_file)
    (a : replay_acc) (reader : List Nat) (h : acc_good a) :
    acc_inv (replay_entries c fs fuel log a reader).1
      (replay_entries c fs fuel log a reader).2.2 := by
  induction fuel generalizing log a reader with
  | zero => exact Or.inl h
  | succ fuel ih =>
    unfold replay_entries
    have hm := replay_mutations_inv c (reader.length + 1) a reader h
    split
    · rename_i e1 a1 r1 hrm
      rw [hrm] at hm
      have hg := acc_inv_fallthrough hm
      simp only
      split
      · exact Or.inl hg
      · split
        · split <;> exact Or.inl hg
        · split
          · exact Or.inl hg
          · exact ih _ _ _ hg
    · rename_i e a1 r1 _ hrm
      rw [hrm] at hm
      exact hm

theorem replay_entries_increasing (c : core_codec) (fs : disk) (fuel : Nat) (log : log_file)
    (a : replay_acc) (reader : List Nat) (h : acc_increasing a) :
    acc_increasing (replay_entries c fs fuel log a reader).2.2 := by
  induction fuel generalizing log a reader with
  | zero => exact h
  | succ fuel ih =>
    unfold replay_entries
    have hm := replay_mutations_increasing c (reader.length + 1) a reader h
    split
    · rename_i e1 a1 r1 hrm
      rw [hrm] at hm
      dsimp only at hm
      have hm2 : acc_increasing { a1 with offset := a1.offset + c.MSG_HDR_SERIALIZED_SIZE } :=
        ⟨fun x hx => by have := hm.1 x hx; simp only; omega, hm.2⟩
      simp only
      split
      · exact hm
      · split
        · split <;> exact hm
        · split
          · exact hm2
          · exact ih _ _ _ hm2
    · rename_i e a1 r1 _ hrm
      rw [hrm] at hm
      exact hm

theorem replay_files_inv (c : core_codec) (fs : disk) (files : List (Int × log_file))
    (err : error_code) (last : Option Int) (a : replay_acc) (h : acc_good a) :
    acc_inv (replay_files c fs files err last a).1
      (replay_files c fs files err last a).2.2.2 := by
  induction files generalizing err last a with
  | nil => exact Or.inl h
  | cons e files ih =>
    obtain ⟨k, log⟩ := e
    unfold replay_files
    split
    · exact Or.inl h
    · simp only
      split
      · exact Or.inl h
      · split
        · split
          · exact ih _ _ _ h
          · exact Or.inl h
        · split
          · exact Or.inl h
          · split
            · exact Or.inl h
            · rename_i log1 msg1 len hrh
              have he := replay_entries_inv c fs (file_size fs log + 1) log1
                { a with offset := a.offset + c.MSG_HDR_SERIALIZED_SIZE + len } msg1.reader h
              split
              · rename_i err1 log2 a2 hre
                rw [hre] at he
                have hg := acc_inv_fallthrough he
                split
                · exact Or.inl hg
                · exact ih _ _ _ hg
              · rename_i e log2 a2 hne hre
                rw [hre] at he
                exact he

theorem replay_files_increasing (c : core_codec) (fs : disk)
    (files : List (Int × log_file)) (err : error_code) (last : Option Int) (a : replay_acc)
    (hlen : ∀ e ∈ files, header_length_nonneg c fs e.2 = true) (h : acc_increasing a) :
    acc_increasing (replay_files c fs files err last a).2.2.2 := by
  induction files generalizing err last a with
  | nil => exact h
  | cons e files ih =>
    obtain ⟨k, log⟩ := e
    have hrest : ∀ e ∈ files, header_length_nonneg c fs e.2 = true :=
      fun e he => hlen e (List.mem_cons_of_mem _ he)
    have hlog := hlen (k, log) (List.mem_cons_self _ _)
    unfold replay_files
    split
    · exact h
    · simp only
      split
      · exact h
      · split
        · split
          · exact ih _ _ _ hrest h
          · exact h
        · have h1 : acc_increasing { a with offset := a.offset + c.MSG_HDR_SERIALIZED_SIZE } :=
            ⟨fun x hx => by have := h.1 x hx; simp only; omega, h.2⟩
          split
          · exact h1
          · split
            · exact h1
            · rename_i log1 msg1 len hrh
              have hnn : 0 ≤ len := by
                unfold header_length_nonneg at hlog
                simp only at hlog
                rw [hrh] at hlog
                simpa using hlog
              have h2 : acc_increasing
                  { a with offset := a.offset + c.MSG_HDR_SERIALIZED_SIZE + len } :=
                ⟨fun x hx => by have := h.1 x hx; simp only; omega, h.2⟩
              have he := replay_entries_increasing c fs (file_size fs log + 1) log1
                { a with offset := a.offset + c.MSG_HDR_SERIALIZED_SIZE + len } msg1.reader h2
              split
              · rename_i err1 log2 a2 hre
                rw [hre] at he
                split
                · exact he
                · exact ih _ _ _ hrest he
              · rename_i e log2 a2 hne hre
                rw [hre] at he
                exact he

theorem replay_fields (c : core_codec) (s : mutation_log) :
    (s.replay c).delivered
        = (replay_files c s.fs s.log_files ERR_OK s.last_log_file
            ⟨s.start_offset, [], []⟩).2.2.2.delivered
    ∧ (s.replay c).decoded
        = (replay_files c s.fs s.log_files ERR_OK s.last_log_file
            ⟨s.start_offset, [], []⟩).2.2.2.decoded
    ∧ (s.replay c).offset
        = (replay_files c s.fs s.log_files ERR_OK s.last_log_file
            ⟨s.start_offset, [], []⟩).2.2.2.offset
    ∧ (s.replay c).log.log_files
        = (replay_files c s.fs s.log_files ERR_OK s.last_log_file
            ⟨s.start_offset, [], []⟩).2.1
    ∧ (s.replay c).log.last_log_file
        = (replay_files c s.fs s.log_files ERR_OK s.last_log_file
            ⟨s.start_offset, [], []⟩).2.2.1
    ∧ (s.replay c).log.fs = s.fs
    ∧ (s.replay c).log.dir = s.dir
    ∧ (s.replay c).log.global_start_offset = s.global_start_offset
    ∧ (s.replay c).log.last_file_number = s.last_file_number
    ∧ (s.replay c).log.current_log_file = s.current_log_file
    ∧ (s.replay c).log.pending_write = s.pending_write
    ∧ (s.replay c).log.pending_write_timer = s.pending_write_timer := by
  unfold mutation_log.replay
  simp only
  split
  · simp
  · simp
  · split
    · split
      · simp
      · split <;> simp
    · split
      · split <;> simp
      · simp

theorem replay_ret_of_exit (c : core_codec) (s : mutation_log) (e : error_code)
    (h : (replay_files c s.fs s.log_files ERR_OK s.last_log_file
      ⟨s.start_offset, [], []⟩).1 = loop_exit.ret e) : (s.replay c).ret = some e := by
  unfold mutation_log.replay
  simp only
  split
  · rename_i e' he
    rw [h] at he
    cases he
    rfl
  · rename_i he
    rw [h] at he
    cases he
  · rename_i e' he
    rw [h] at he
    cases he

set_option maxRecDepth 100000 in
/-- C6, counterexample: in a directory whose second segment has a header with a negative
decree count, `read_header` returns a negative byte count, the running offset goes back,
and `replay` delivers a mutation recorded at offset 40 and then one recorded at -42. -/
theorem replay_decreasing_log_offset_counterexample :
    apply_op sample_codec (mutation_log.ctor 1 100 1 false 2 negative_count_disk)
        (log_op.open_log 1 100 1 false 2 "d".toList) = some negative_count_log
    ∧ (negative_count_log.replay sample_codec).ret = some ERR_INVALID_DATA
    ∧ (negative_count_log.replay sample_codec).decoded.map
        (fun p => (p.1.log_offset, p.2)) = [(40, 40), (-42, -42)]
    ∧ (negative_count_log.replay sample_codec).delivered.map mutation.log_offset
        = [40, -42] := by
  decide

/-- C6 (amended): for every log and disk, all mutations `replay` decodes except possibly the
last one record the running offset at which they were decoded; `replay` delivers exactly
the decoded mutations that do; if the last one decoded does not, `replay` returns
`ERR_FILE_OPERATION_FAILED` (so that mutation and everything after it is not delivered);
and when the byte count `read_header` returns is not negative for any segment, the
delivered mutations have strictly increasing `log_offset`. -/
theorem replay_delivers_at_running_offset (c : core_codec) (s : mutation_log) :
    (∀ p ∈ (s.replay c).decoded.dropLast, p.1.log_offset = p.2)
    ∧ (s.replay c).delivered
        = ((s.replay c).decoded.filter at_running_offset).map Prod.fst
    ∧ (∀ p, (s.replay c).decoded.getLast? = some p → p.1.log_offset ≠ p.2 →
        (s.replay c).ret = some ERR_FILE_OPERATION_FAILED
        ∧ (s.replay c).delivered = (s.replay c).decoded.dropLast.map Prod.fst)
    ∧ ((∀ e ∈ s.log_files, header_length_nonneg c s.fs e.2 = true) →
        List.Pairwise (fun x y : mutation => x.log_offset < y.log_offset)
          (s.replay c).delivered) := by
  have hf := replay_fields c s
  have hinv := replay_files_inv c s.fs s.log_files ERR_OK s.last_log_file
    ⟨s.start_offset, [], []⟩ ⟨rfl, by simp⟩
  refine ⟨?_, ?_, ?_, ?_⟩
  · rw [hf.2.1]
    rcases hinv with hg | ⟨_, pre, p, hdec, hpre, _, _⟩
    · intro p hp
      exact hg.2 p (List.mem_of_mem_dropLast hp)
    · rw [hdec, List.dropLast_concat]
      exact hpre
  · rw [hf.1, hf.2.1]
    rcases hinv with hg | ⟨_, pre, p, hdec, hpre, hp, hdel⟩
    · rw [hg.1]
      congr 1
      symm
      rw [List.filter_eq_self]
      intro q hq
      simpa [at_running_offset] using hg.2 q hq
    · rw [hdel, hdec, List.filter_append]
      have h1 : pre.filter at_running_offset = pre := by
        rw [List.filter_eq_self]
        intro q hq
        simpa [at_running_offset] using hpre q hq
      have h2 : [p].filter at_running_offset = [] := by
        simp [at_running_offset, hp]
      rw [h1, h2, List.append_nil]
  · intro p hlast hne
    rw [hf.1, hf.2.1]
    rw [hf.2.1] at hlast
    rcases hinv with hg | ⟨hex, pre, q, hdec, _, _, hdel⟩
    · exact absurd (hg.2 p (List.mem_of_getLast?_eq_some hlast)) hne
    · exact ⟨replay_ret_of_exit c s _ hex, by rw [hdel, hdec, List.dropLast_concat]⟩
  · intro hlen
    rw [hf.1]
    exact (replay_files_increasing c s.fs s.log_files ERR_OK s.last_log_file
      ⟨s.start_offset, [], []⟩ hlen ⟨by simp, by simp⟩).2

set_option maxRecDepth 1000000 in
theorem replay_delivers_at_running_offset_witness :
    (∀ e ∈ (reopened false 0 [sample_mutation 1, sample_mutation 2]).log_files,
        header_length_nonneg sample_codec
          (reopened false 0 [sample_mutation 1, sample_mutation 2]).fs e.2 = true)
    ∧ ((reopened false 0 [sample_mutation 1, sample_mutation 2]).replay
          sample_codec).delivered.map mutation.log_offset = [40, 134]
    ∧ List.Pairwise (fun x y : mutation => x.log_offset < y.log_offset)
        ((reopened false 0 [sample_mutation 1, sample_mutation 2]).replay
          sample_codec).delivered :=
  have h : ∀ e ∈ (reopened false 0 [sample_mutation 1, sample_mutation 2]).log_files,
      header_length_nonneg sample_codec
        (reopened false 0 [sample_mutation 1, sample_mutation 2]).fs e.2 = true := by
    decide
  ⟨h, by decide,
    (replay_delivers_at_running_offset sample_codec
      (reopened false 0 [sample_mutation 1, sample_mutation 2])).2.2.2 h⟩

/-! ## Replaying twice -/

theorem replay_congr (c : core_codec) {s s2 : mutation_log} (h1 : s2.fs = s.fs)
    (h2 : s2.log_files = s.log_files) (h3 : s2.last_log_file = s.last_log_file)
    (h4 : s2.global_start_offset = s.global_start_offset)
    (h5 : s2.global_end_offset = s.global_end_offset) :
    (s2.replay c).ret = (s.replay c).ret
    ∧ (s2.replay c).delivered = (s.replay c).delivered
    ∧ (s2.replay c).decoded = (s.replay c).decoded
    ∧ (s2.replay c).offset = (s.replay c).offset
    ∧ (s2.replay c).log.global_end_offset = (s.replay c).log.global_end_offset
    ∧ (s2.replay c).log.log_files = (s.replay c).log.log_files
    ∧ (s2.replay c).log.last_log_file = (s.replay c).log.last_log_file := by
  unfold mutation_log.replay
  simp only [mutation_log.start_offset, mutation_log.end_offset, mutation_log.file, h1, h2,
    h3, h4, h5]
  split
  · simp
  · simp
  · split
    · split
      · simp
      · split <;> simp [h5]
    · split
      · split <;> simp [h5]
      · simp [h5]
theorem check_log_files_congr (files : List (Int × log_file)) {s t : mutation_log}
    (h1 : t.last_file_number = s.last_file_number) :
    (check_log_files files t).1 = (check_log_files files s).1
    ∧ ((check_log_files files s).1 = ERR_OK →
        check_log_files files s = (ERR_OK, checked_log files s)
        ∧ check_log_files files t = (ERR_OK, checked_log files t)) := by
  rcases check_log_files_spec files s with ⟨hr, hc⟩ | ⟨hr, hc⟩
  · rcases check_log_files_spec files t with ⟨hrt, hct⟩ | ⟨hrt, _⟩
    · rw [hc, hct]
      exact ⟨rfl, fun _ => ⟨rfl, rfl⟩⟩
    · rw [h1] at hrt
      exact absurd hr hrt
  · rcases check_log_files_spec files t with ⟨hrt, _⟩ | ⟨_, hct⟩
    · rw [h1] at hrt
      exact absurd hrt hr
    · rw [hc, hct]
      refine ⟨rfl, fun h => ?_⟩
      simp at h

theorem initialize_log_fs {s s1 : mutation_log} {dir : List Char}
    (h : initialize_log s dir true = some (ERR_OK, s1)) : s1.fs = s.fs := by
  obtain ⟨files, _, hr⟩ := initialize_log_load h
  cases files with
  | nil =>
    simp only [check_log_files, Prod.mk.injEq, true_and] at hr
    rw [hr]
  | cons e files =>
    obtain ⟨k, f⟩ := e
    simp only at hr
    rcases check_log_files_spec ((k, f) :: files)
        { s with dir := dir, log_files := (k, f) :: files, last_file_number := k - 1,
                 global_start_offset := f.start_offset } with ⟨_, hck⟩ | ⟨_, hck⟩
    · rw [hck] at hr
      simp only [Prod.mk.injEq, true_and] at hr
      rw [hr]
      rfl
    · rw [← hr] at hck
      simp at hck

theorem initialize_log_config {a b d : Int} {batch : Bool} {w : Int} (a' b' d' : Int)
    (batch' : Bool) (w' : Int) {fs : disk} {dir : List Char} {s : mutation_log}
    (h : initialize_log (mutation_log.ctor a b d batch w fs) dir true = some (ERR_OK, s)) :
    ∃ s2, initialize_log (mutation_log.ctor a' b' d' batch' w' fs) dir true
        = some (ERR_OK, s2)
      ∧ s2.fs = s.fs ∧ s2.log_files = s.log_files ∧ s2.last_log_file = s.last_log_file
      ∧ s2.global_start_offset = s.global_start_offset
      ∧ s2.global_end_offset = s.global_end_offset := by
  obtain ⟨files, hload, hr⟩ := initialize_log_load h
  have hload2 : load_log_files (mutation_log.ctor a' b' d' batch' w' fs).fs
      (list_dir (mutation_log.ctor a' b' d' batch' w' fs).fs dir) [] = some files := hload
  unfold initialize_log
  simp only [not_true_eq_false, if_false]
  rw [hload2]
  simp only
  cases files with
  | nil =>
    simp only [check_log_files, Prod.mk.injEq, true_and] at hr
    simp only [check_log_files]
    refine ⟨_, rfl, ?_⟩
    rw [hr]
    exact ⟨rfl, rfl, rfl, rfl, rfl⟩
  | cons e files =>
    obtain ⟨k, f⟩ := e
    simp only at hr
    have hc := check_log_files_congr ((k, f) :: files)
      (s := { mutation_log.ctor a b d batch w fs with
        dir := dir, log_files := (k, f) :: files, last_file_number := k - 1,
        global_start_offset := f.start_offset })
      (t := { mutation_log.ctor a' b' d' batch' w' fs with
        dir := dir, last_file_number := k - 1, log_files := (k, f) :: files,
        global_start_offset := f.start_offset }) rfl
    have hok := hc.2 (by rw [← hr])
    rw [hok.1] at hr
    simp only [Prod.mk.injEq, true_and] at hr
    refine ⟨_, congrArg some hok.2, ?_⟩
    rw [hr]
    exact ⟨rfl, rfl, rfl, rfl, rfl⟩

set_option maxRecDepth 1000000 in
/-- C8, counterexample: on a segment with two good records and three stray bytes `replay`
returns `ERR_INVALID_DATA`, delivers the two mutations and moves `_global_end_offset` from
131 back to 128, but leaves the file as it is: a fresh `initialize` on the directory gives
the same log again, and `replay` on it returns `ERR_INVALID_DATA` again, not `ERR_OK`. -/
theorem replay_after_truncation_counterexample :
    apply_op sample_codec (mutation_log.ctor 1 100 1 false 2 corrupted_tail_disk)
        (log_op.open_log 1 100 1 false 2 "d".toList) = some corrupted_tail_log
    ∧ corrupted_tail_log.global_end_offset = 131
    ∧ (corrupted_tail_log.replay sample_codec).ret = some ERR_INVALID_DATA
    ∧ (corrupted_tail_log.replay sample_codec).delivered.map mutation.log_offset = [40, 90]
    ∧ (corrupted_tail_log.replay sample_codec).log.global_end_offset = 128
    ∧ run_ops sample_codec
        [log_op.open_log 1 100 1 false 2 "d".toList, log_op.replay,
          log_op.open_log 1 100 1 false 2 "d".toList]
        (mutation_log.ctor 1 100 1 false 2 corrupted_tail_disk) = some corrupted_tail_log
    ∧ (corrupted_tail_log.replay sample_codec).ret ≠ some ERR_OK := by
  refine ⟨?_, ?_, ?_, ?_, ?_, ?_, ?_⟩ <;> decide

/-- C8 (amended): `replay` does not change the files, so after a replay on the log that
`initialize` made of a directory, a fresh `initialize` on the same directory (with any
configuration) succeeds again, and `replay` on its log returns the same code as the first
replay (`ERR_INVALID_DATA` again after a truncating one), delivers the same mutations and
leaves the same `_global_end_offset`. -/
theorem replay_again_same_result (c : core_codec) (a b d : Int) (batch : Bool) (w : Int)
    (a' b' d' : Int) (batch' : Bool) (w' : Int) (fs : disk) (dir : List Char)
    (s : mutation_log)
    (h : initialize_log (mutation_log.ctor a b d batch w fs) dir true = some (ERR_OK, s)) :
    (s.replay c).log.fs = fs
    ∧ ∃ s2, initialize_log (mutation_log.ctor a' b' d' batch' w' (s.replay c).log.fs) dir
          true = some (ERR_OK, s2)
        ∧ (s2.replay c).ret = (s.replay c).ret
        ∧ (s2.replay c).delivered = (s.replay c).delivered
        ∧ (s2.replay c).log.global_end_offset = (s.replay c).log.global_end_offset := by
  have hfs : (s.replay c).log.fs = fs := by
    rw [(replay_fields c s).2.2.2.2.2.1, initialize_log_fs h]
    rfl
  refine ⟨hfs, ?_⟩
  rw [hfs]
  obtain ⟨s2, h2, g1, g2, g3, g4, g5⟩ := initialize_log_config a' b' d' batch' w' h
  have hc := replay_congr c g1 g2 g3 g4 g5
  exact ⟨s2, h2, hc.1, hc.2.1, hc.2.2.2.2.1⟩

set_option maxRecDepth 1000000 in
theorem replay_again_same_result_witness :
    initialize_log (mutation_log.ctor 1 100 1 false 2 corrupted_tail_disk) "d".toList true
      = some (ERR_OK, corrupted_tail_log)
    ∧ (corrupted_tail_log.replay sample_codec).ret = some ERR_INVALID_DATA
    ∧ ∃ s2, initialize_log (mutation_log.ctor 4 50 8 true 1
          (corrupted_tail_log.replay sample_codec).log.fs) "d".toList true = some (ERR_OK, s2)
        ∧ (s2.replay sample_codec).ret = (corrupted_tail_log.replay sample_codec).ret
        ∧ (s2.replay sample_codec).delivered
            = (corrupted_tail_log.replay sample_codec).delivered
        ∧ (s2.replay sample_codec).log.global_end_offset
            = (corrupted_tail_log.replay sample_codec).log.global_end_offset :=
  have h : initialize_log (mutation_log.ctor 1 100 1 false 2 corrupted_tail_disk)
      "d".toList true = some (ERR_OK, corrupted_tail_log) := by decide
  ⟨h, by decide,
    (replay_again_same_result sample_codec 1 100 1 false 2 4 50 8 true 1
      corrupted_tail_disk "d".toList corrupted_tail_log h).2⟩

/-! ## Truncation of a corrupted tail -/

theorem file_size_congr (fs : disk) {f g : log_file} (h : g.path = f.path) :
    file_size fs g = file_size fs f := by
  unfold file_size
  rw [h]

theorem posix_read_length (fs : disk) (f : log_file) (n : Nat)
    (h : f.rpos ≤ file_size fs f) : f.rpos + (posix_read fs f n).length ≤ file_size fs f := by
  unfold posix_read
  unfold file_size at h ⊢
  cases hfind : fs_find fs f.path with
  | none =>
    rw [hfind] at h
    simp only at h ⊢
    split <;> simpa using h
  | some content =>
    rw [hfind] at h
    simp only at h ⊢
    split
    · simp only [List.length_take, List.length_drop]
      omega
    · simpa using h

theorem read_next_log_entry_rpos (c : core_codec) (fs : disk) (f : log_file) :
    (f.read_next_log_entry c fs).2.2.path = f.path
    ∧ (f.read_next_log_entry c fs).2.2.start_offset = f.start_offset
    ∧ f.rpos ≤ (f.read_next_log_entry c fs).2.2.rpos
    ∧ (f.rpos ≤ file_size fs f → (f.read_next_log_entry c fs).2.2.rpos ≤ file_size fs f)
    ∧ ((f.read_next_log_entry c fs).1 = ERR_OK →
        (f.read_next_log_entry c fs).2.2.rpos
            = f.rpos + (f.read_next_log_entry c fs).2.1.length
        ∧ c.MSG_HDR_SERIALIZED_SIZE ≤ (f.read_next_log_entry c fs).2.1.length) := by
  have h1 := posix_read_length fs f c.MSG_HDR_SERIALIZED_SIZE
  have h2 : f.rpos + (posix_read fs f c.MSG_HDR_SERIALIZED_SIZE).length ≤ file_size fs f →
      f.rpos + (posix_read fs f c.MSG_HDR_SERIALIZED_SIZE).length
        + (posix_read fs
            { f with rpos := f.rpos + (posix_read fs f c.MSG_HDR_SERIALIZED_SIZE).length }
            (c.body_length (posix_read fs f c.MSG_HDR_SERIALIZED_SIZE))).length
        ≤ file_size fs f :=
    posix_read_length fs
      { f with rpos := f.rpos + (posix_read fs f c.MSG_HDR_SERIALIZED_SIZE).length }
      (c.body_length (posix_read fs f c.MSG_HDR_SERIALIZED_SIZE))
  unfold log_file.read_next_log_entry
  simp only
  split
  · split
    · refine ⟨rfl, rfl, by simp, fun h => h1 h, fun h => by simp at h⟩
    · refine ⟨rfl, rfl, by simp, fun h => h1 h, fun h => by simp at h⟩
  · rename_i hlen
    split
    · refine ⟨rfl, rfl, by simp, fun h => h1 h, fun h => by simp at h⟩
    · split
      · refine ⟨rfl, rfl, by simp only; omega, fun h => by simp only; exact h2 (h1 h),
          fun h => by simp at h⟩
      · refine ⟨rfl, rfl, by simp only; omega, fun h => by simp only; exact h2 (h1 h),
          fun _ => ⟨by simp only [List.length_append]; omega, ?_⟩⟩
        simp only [List.length_append]
        have : c.MSG_HDR_SERIALIZED_SIZE
            = (posix_read fs f c.MSG_HDR_SERIALIZED_SIZE).length := by
          simpa using hlen
        omega

theorem read_header_rpos {f g : log_file} {m m' : message} {len : Int}
    (h : f.read_header m = some (g, m', len)) :
    g.rpos = f.rpos ∧ g.path = f.path ∧ g.start_offset = f.start_offset := by
  unfold log_file.read_header at h
  split at h
  · simp at h
  · split at h
    · simp at h
    · split at h
      · simp at h
      · simp only [Option.some.injEq, Prod.mk.injEq] at h
        rw [← h.1]
        exact ⟨rfl, rfl, rfl⟩

theorem replay_mutations_bound (c : core_codec) (fuel : Nat) (a : replay_acc)
    (reader : List Nat) :
    (replay_mutations c fuel a reader).2.1.offset
        + ((replay_mutations c fuel a reader).2.2.length : Int)
      ≤ a.offset + (reader.length : Int) := by
  induction fuel generalizing a reader with
  | zero => exact le_refl _
  | succ fuel ih =>
    unfold replay_mutations
    split
    · exact le_refl _
    · simp only
      split
      · exact le_refl _
      · rename_i mu n hrf
        split
        · simp only [List.length_drop]
          omega
        · refine le_trans (ih _ _) ?_
          simp only [List.length_drop]
          omega

theorem replay_entries_bound (c : core_codec) (fs : disk) (fuel : Nat) (log : log_file)
    (a : replay_acc) (reader : List Nat)
    (h1 : a.offset + (reader.length : Int) ≤ log.start_offset + (log.rpos : Int))
    (h2 : log.rpos ≤ file_size fs log) :
    (replay_entries c fs fuel log a reader).2.2.offset
      ≤ log.start_offset + (file_size fs log : Int) := by
  induction fuel generalizing log a reader with
  | zero =>
    simp only [replay_entries]
    omega
  | succ fuel ih =>
    unfold replay_entries
    have hm := replay_mutations_bound c (reader.length + 1) a reader
    have hr := read_next_log_entry_rpos c fs log
    split
    · rename_i e1 a1 r1 hrm
      rw [hrm] at hm
      dsimp only at hm
      simp only
      split
      · simp only
        omega
      · split
        · have := hr.2.2.2.1 h2
          split <;> (simp only; omega)
        · rename_i hok
          have hok' : (log.read_next_log_entry c fs).1 = ERR_OK := by simpa using hok
          obtain ⟨hrp, hlen⟩ := hr.2.2.2.2 hok'
          have hsz := hr.2.2.2.1 h2
          split
          · simp only
            omega
          · have hfs := file_size_congr fs hr.1
            have := ih (log.read_next_log_entry c fs).2.2
              { a1 with offset := a1.offset + c.MSG_HDR_SERIALIZED_SIZE }
              (message.of_blob c (log.read_next_log_entry c fs).2.1).reader
              (by
                simp only [message.of_blob, List.length_drop]
                rw [hr.2.1, hrp]
                push_cast
                omega)
              (by rw [hfs]; exact hsz)
            rw [hr.2.1, hfs] at this
            exact this
    · rename_i e a1 r1 _ hrm
      rw [hrm] at hm
      dsimp only at hm
      simp only
      omega

theorem replay_mutations_ret (c : core_codec) (fuel : Nat) (a : replay_acc)
    (reader : List Nat) (e : error_code)
    (h : (replay_mutations c fuel a reader).1 = loop_exit.ret e) :
    e = ERR_FILE_OPERATION_FAILED ∨ e = ERR_WRONG_CHECKSUM := by
  induction fuel generalizing a reader with
  | zero => simp [replay_mutations] at h
  | succ fuel ih =>
    unfold replay_mutations at h
    split at h
    · simp at h
    · simp only at h
      split at h
      · simp at h
      · split at h
        · simp only [loop_exit.ret.injEq] at h
          exact Or.inl h.symm
        · exact ih _ _ h

theorem replay_entries_ret (c : core_codec) (fs : disk) (fuel : Nat) (log : log_file)
    (a : replay_acc) (reader : List Nat) (e : error_code)
    (h : (replay_entries c fs fuel log a reader).1 = loop_exit.ret e) :
    e = ERR_FILE_OPERATION_FAILED ∨ e = ERR_WRONG_CHECKSUM := by
  induction fuel generalizing log a reader with
  | zero => simp [replay_entries] at h
  | succ fuel ih =>
    unfold replay_entries at h
    have hm := replay_mutations_ret c (reader.length + 1) a reader e
    split at h
    · simp only at h
      split at h
      · simp at h
      · split at h
        · split at h <;> simp at h
        · split at h
          · simp only [loop_exit.ret.injEq] at h
            exact Or.inr h.symm
          · exact ih _ _ _ h
    · rename_i e1 a1 r1 _ hrm
      rw [hrm] at hm
      exact hm h

theorem replay_files_ret (c : core_codec) (fs : disk) (files : List (Int × log_file))
    (err : error_code) (last : Option Int) (a : replay_acc) (e : error_code)
    (h : (replay_files c fs files err last a).1 = loop_exit.ret e) :
    e = ERR_FILE_OPERATION_FAILED ∨ e = ERR_WRONG_CHECKSUM := by
  induction files generalizing err last a with
  | nil => simp [replay_files] at h
  | cons x files ih =>
    obtain ⟨k, log⟩ := x
    unfold replay_files at h
    split at h
    · simp only [loop_exit.ret.injEq] at h
      exact Or.inl h.symm
    · simp only at h
      split at h
      · simp at h
      · split at h
        · split at h
          · exact ih _ _ _ h
          · simp at h
        · split at h
          · simp only [loop_exit.ret.injEq] at h
            exact Or.inr h.symm
          · split at h
            · simp at h
            · rename_i log1 msg1 len hrh
              have he := replay_entries_ret c fs (file_size fs log + 1) log1
                { a with offset := a.offset + c.MSG_HDR_SERIALIZED_SIZE + len } msg1.reader e
              split at h
              · split at h
                · simp at h
                · exact ih _ _ _ h
              · rename_i e1 log2 a2 _ hre
                rw [hre] at he
                exact he h

theorem replay_files_bound (c : core_codec) (fs : disk) (E : Int × log_file)
    (hrpos : E.2.rpos ≤ file_size fs E.2) (hhon : header_length_honest c fs E.2 = true)
    (files : List (Int × log_file)) (err : error_code) (last : Option Int) (a : replay_acc)
    (hnodup : (files.map Prod.fst).Nodup)
    (hE : files ≠ [] → files.getLast? = some E)
    (hin : files = [] → err = ERR_INVALID_DATA → last = some E.1 →
        a.offset ≤ E.2.start_offset + (file_size fs E.2 : Int))
    (h1 : (replay_files c fs files err last a).1 = loop_exit.fallthrough ERR_INVALID_DATA)
    (h2 : (replay_files c fs files err last a).2.2.1 = some E.1) :
    (replay_files c fs files err last a).2.2.2.offset
      ≤ E.2.start_offset + (file_size fs E.2 : Int) := by
  induction files generalizing err last a with
  | nil =>
    simp only [replay_files, loop_exit.fallthrough.injEq] at h1 h2 ⊢
    exact hin rfl h1 h2
  | cons x files ih =>
    obtain ⟨k, log⟩ := x
    have hlast := hE (by simp)
    have hkn : k ∉ files.map Prod.fst := (List.nodup_cons.1 hnodup).1
    have hEeq : (files = [] ∨ k = E.1) → E = (k, log) := by
      intro hk
      rcases hk with hk | hk
      · subst hk
        simpa using hlast.symm
      · have hmem := List.mem_of_getLast?_eq_some hlast
        rcases List.mem_cons.1 hmem with hm | hm
        · exact hm
        · exact absurd (hk ▸ List.mem_map_of_mem Prod.fst hm) hkn
    have hrest : files ≠ [] → files.getLast? = some E := by
      intro hne
      cases files with
      | nil => exact absurd rfl hne
      | cons y ys => simpa [List.getLast?_cons_cons] using hlast
    have hnd := (List.nodup_cons.1 hnodup).2
    unfold replay_files at h1 h2 ⊢
    split at h1
    · simp at h1
    rename_i hstart
    have hstart' : log.start_offset = a.offset := by simpa using hstart
    rw [if_neg hstart] at h2 ⊢
    simp only at h1 h2 ⊢
    split at h1
    · simp at h1
    rename_i hread
    rw [if_neg hread] at h2 ⊢
    split at h1
    · rename_i hnok
      rw [if_pos hnok] at h2 ⊢
      split at h1
      · rename_i heof
        rw [if_pos heof] at h2 ⊢
        exact ih _ _ _ hnd hrest (fun _ h => by simp at h) h1 h2
      · rename_i heof
        rw [if_neg heof] at h2 ⊢
        simp only [Option.some.injEq] at h2
        have hEq := hEeq (Or.inr h2)
        rw [hEq]
        simp only
        omega
    · rename_i hok
      rw [if_neg hok] at h2 ⊢
      have hok' : (log.read_next_log_entry c fs).1 = ERR_OK := by simpa using hok
      split at h1
      · simp at h1
      rename_i hbody
      rw [if_neg hbody] at h2 ⊢
      split at h1
      · simp at h1
      rename_i log1 msg1 len hrh
      try rw [hrh] at h2
      try rw [hrh]
      simp only at h2 ⊢
      have hr := read_next_log_entry_rpos c fs log
      obtain ⟨hrp, hlen⟩ := hr.2.2.2.2 hok'
      have hh := read_header_rpos hrh
      have hbound : E = (k, log) →
          (replay_entries c fs (file_size fs log + 1) log1
            { a with offset := a.offset + c.MSG_HDR_SERIALIZED_SIZE + len }
            msg1.reader).2.2.offset ≤ E.2.start_offset + (file_size fs E.2 : Int) := by
        intro hEq
        rw [hEq] at hrpos hhon ⊢
        simp only at hrpos hhon ⊢
        have hfs1 : file_size fs log1 = file_size fs log := by
          rw [file_size_congr fs hh.2.1, file_size_congr fs hr.1]
        have hl : len + (msg1.reader.length : Int)
            ≤ ((message.of_blob c (log.read_next_log_entry c fs).2.1).reader.length : Int) := by
          unfold header_length_honest at hhon
          rw [hrh] at hhon
          simpa using hhon
        have := replay_entries_bound c fs (file_size fs log + 1) log1
          { a with offset := a.offset + c.MSG_HDR_SERIALIZED_SIZE + len } msg1.reader
          (by
            simp only [message.of_blob, List.length_drop] at hl
            rw [hh.2.2, hr.2.1, hh.1, hrp]
            simp only
            push_cast
            omega)
          (by rw [hfs1, hh.1]; exact hr.2.2.2.1 hrpos)
        rw [hh.2.2, hr.2.1, hfs1] at this
        exact this
      split at h1
      · rename_i err1 log2 a2 hre
        rw [hre] at hbound
        try rw [hre] at h2
        try rw [hre]
        simp only at h2 hbound ⊢
        split at h1
        · rename_i herr
          simp only [loop_exit.fallthrough.injEq] at h1
          exact absurd h1 herr.1
        · rename_i herr
          rw [if_neg herr] at h2 ⊢
          exact ih _ _ _ hnd hrest
            (fun hnil _ hk => hbound (hEeq (Or.inl hnil))) h1 h2
      · rename_i e1 log2 a2 hne hre
        exact absurd (by simpa using h1) (hne ERR_INVALID_DATA)

theorem replay_invalid_data (c : core_codec) (s : mutation_log)
    (h : (s.replay c).ret = some ERR_INVALID_DATA) :
    (replay_files c s.fs s.log_files ERR_OK s.last_log_file
        ⟨s.start_offset, [], []⟩).1 = loop_exit.fallthrough ERR_INVALID_DATA
    ∧ ∃ k last, (s.replay c).log.last_log_file = some k
      ∧ (s.replay c).log.file k = some last
      ∧ ((s.replay c).offset + last.header.log_buffer_size_bytes ≥ s.global_end_offset →
          (s.replay c).log.global_end_offset = (s.replay c).offset)
      ∧ ((s.replay c).offset + last.header.log_buffer_size_bytes < s.global_end_offset →
          (s.replay c).log.global_end_offset = s.global_end_offset) := by
  have hret := replay_files_ret c s.fs s.log_files ERR_OK s.last_log_file
    ⟨s.start_offset, [], []⟩
  unfold mutation_log.replay at h ⊢
  generalize replay_files c s.fs s.log_files ERR_OK s.last_log_file
    ⟨s.start_offset, [], []⟩ = t at h hret ⊢
  obtain ⟨ex, fl, la, ac⟩ := t
  cases ex with
  | ret e =>
    simp only [Option.some.injEq] at h
    subst h
    have := hret ERR_INVALID_DATA rfl
    simp at this
  | abort => simp at h
  | fallthrough err =>
    simp only at h ⊢
    by_cases herr : err = ERR_INVALID_DATA
    · subst herr
      simp only [if_true] at h ⊢
      refine ⟨by trivial, ?_⟩
      cases la with
      | none => simp at h
      | some k =>
        simp only [Option.some_bind, mutation_log.file] at h ⊢
        cases hf : omap_find k fl with
        | none => rw [hf] at h; simp at h
        | some last =>
          simp only [mutation_log.end_offset]
          by_cases hw : ac.offset + last.header.log_buffer_size_bytes ≥ s.global_end_offset
          · simp only [hw, if_true]
            exact ⟨k, last, by trivial, hf, fun _ => by trivial, fun hlt => absurd hw (by omega)⟩
          · simp only [hw, if_false]
            exact ⟨k, last, by trivial, hf, fun hge => absurd hge hw, fun _ => by trivial⟩
    · simp only [herr, if_false] at h
      split at h
      · split at h
        · simp only [Option.some.injEq] at h
          exact absurd h herr
        · simp at h
      · simp only [Option.some.injEq] at h
        exact absurd h herr

theorem opend_read_rpos {fs : disk} {path : List Char} {log : log_file}
    (h : log_file.opend_read fs path = some log) : log.rpos = 0 := by
  unfold log_file.opend_read at h
  simp only at h
  split at h
  · simp at h
  · split at h
    · simp at h
    · split at h
      · simp at h
      · split at h
        · simp at h
        · simp only [Option.some.injEq] at h
          rw [← h]
          rfl

theorem initialize_log_segments {s s1 : mutation_log} {dir : List Char}
    (h : initialize_log s dir true = some (ERR_OK, s1)) :
    (∀ e ∈ s1.log_files,
        e.2.rpos = 0 ∧ e.2.end_offset = e.2.start_offset + file_size s.fs e.2)
    ∧ (∀ e, s1.log_files.getLast? = some e → s1.global_end_offset = e.2.end_offset) := by
  obtain ⟨files0, hload, hr⟩ := initialize_log_load h
  rcases load_log_files_spec s.fs (list_dir s.fs dir) [] (by simp [omap_sorted]) with
    ⟨files, h1, _, hmem, _⟩ | ⟨h1, _⟩
  swap
  · rw [h1] at hload; simp at hload
  rw [h1] at hload
  simp only [Option.some.injEq] at hload
  subst hload
  simp only [List.not_mem_nil, false_or] at hmem
  have hseg : ∀ e ∈ files,
      e.2.rpos = 0 ∧ e.2.end_offset = e.2.start_offset + file_size s.fs e.2 := by
    intro e he
    obtain ⟨log, hlog, rfl⟩ := (hmem e).1 he
    obtain ⟨p, _, hp⟩ := List.mem_filterMap.1 hlog
    exact ⟨opend_read_rpos hp, (opend_read_index_path hp).2.2.2⟩
  cases files with
  | nil =>
    simp only [check_log_files, Prod.mk.injEq, true_and] at hr
    rw [hr]
    exact ⟨by simp, by simp⟩
  | cons e files =>
    obtain ⟨k, f⟩ := e
    simp only at hr
    rcases check_log_files_spec ((k, f) :: files)
        { s with dir := dir, log_files := (k, f) :: files, last_file_number := k - 1,
                 global_start_offset := f.start_offset } with ⟨_, hck⟩ | ⟨_, hck⟩
    · rw [hck] at hr
      simp only [Prod.mk.injEq, true_and] at hr
      rw [hr]
      refine ⟨by simpa [checked_log] using hseg, ?_⟩
      intro e he
      simp only [checked_log] at he ⊢
      rw [he]
    · rw [← hr] at hck
      simp at hck

/-- C7, counterexample: with a segment header whose decree count is -268435455,
`read_header` returns 44 for a header of 28 bytes, so the running offset is 56 when `replay`
meets the stray byte that ends the file of 41 bytes, and the truncation moves
`_global_end_offset` forward from 41 to 56. -/
theorem replay_truncation_forward_counterexample :
    apply_op sample_codec (mutation_log.ctor 1 100 1 false 2 overlong_count_disk)
        (log_op.open_log 1 100 1 false 2 "d".toList) = some overlong_count_log
    ∧ overlong_count_log.global_end_offset = 41
    ∧ (overlong_count_log.replay sample_codec).ret = some ERR_INVALID_DATA
    ∧ (overlong_count_log.replay sample_codec).log.last_log_file
        = some overlong_count_log.last_file_number
    ∧ (overlong_count_log.replay sample_codec).offset = 56
    ∧ (overlong_count_log.replay sample_codec).log.global_end_offset = 56 := by
  refine ⟨?_, ?_, ?_, ?_, ?_, ?_⟩ <;> decide

/-- C7 (amended): when `replay` returns `ERR_INVALID_DATA`, `_last_log_file` is the segment
at which it stopped, every mutation decoded before has been delivered, and
`_global_end_offset` becomes the running offset if the running offset plus the
`log_buffer_size_bytes` of that segment's header reaches the previous `_global_end_offset`
and is left unchanged otherwise.  The running offset is not larger than the previous
`_global_end_offset` when the log came from `initialize`, the segment is the one of highest
index and the byte count `read_header` returned for it is not larger than the bytes the
header takes. -/
theorem replay_truncates_tail (c : core_codec) (s : mutation_log)
    (hret : (s.replay c).ret = some ERR_INVALID_DATA) :
    ∃ k last, (s.replay c).log.last_log_file = some k
      ∧ (s.replay c).log.file k = some last
      ∧ ((s.replay c).offset + last.header.log_buffer_size_bytes ≥ s.global_end_offset →
          (s.replay c).log.global_end_offset = (s.replay c).offset)
      ∧ ((s.replay c).offset + last.header.log_buffer_size_bytes < s.global_end_offset →
          (s.replay c).log.global_end_offset = s.global_end_offset)
      ∧ (s.replay c).delivered = (s.replay c).decoded.map Prod.fst
      ∧ (∀ (a b d : Int) (batch : Bool) (w : Int) (dir : List Char) (f : log_file),
          initialize_log (mutation_log.ctor a b d batch w s.fs) dir true = some (ERR_OK, s) →
          k = s.last_file_number → s.file k = some f →
          header_length_honest c s.fs f = true →
          (s.replay c).offset ≤ s.global_end_offset) := by
  obtain ⟨hex, k, last, hk, hlast, hw1, hw2⟩ := replay_invalid_data c s hret
  have hf := replay_fields c s
  refine ⟨k, last, hk, hlast, hw1, hw2, ?_, ?_⟩
  · have hinv := replay_files_inv c s.fs s.log_files ERR_OK s.last_log_file
      ⟨s.start_offset, [], []⟩ ⟨rfl, by simp⟩
    rw [hex] at hinv
    rw [hf.1, hf.2.1]
    exact (acc_inv_fallthrough hinv).1
  · intro a b d batch w dir f hinit hkl hfile hhon
    have hwf : segments_wf s := segments_wf_initialize_log (by simp [mutation_log.ctor]) hinit
    have hseg := initialize_log_segments hinit
    simp only [mutation_log.ctor] at hseg
    have hsorted := segments_wf_sorted hwf
    have hmem : (k, f) ∈ s.log_files := omap_find_mem hfile
    have hnodup : (s.log_files.map Prod.fst).Nodup := by
      rw [List.Nodup, List.pairwise_map]
      exact (omap_sorted_lt hsorted).imp (fun hab => ne_of_lt hab)
    have hne : s.log_files ≠ [] := List.ne_nil_of_mem hmem
    obtain ⟨e, he⟩ : ∃ e, s.log_files.getLast? = some e := by
      cases hl : s.log_files.getLast? with
      | none => exact absurd (List.getLast?_eq_none_iff.1 hl) hne
      | some e => exact ⟨e, rfl⟩
    have hek : e.1 = s.last_file_number := by
      obtain ⟨⟨n, hn⟩, _, _⟩ := hwf
      have hlen : n = s.log_files.length := by
        have := congrArg List.length hn
        rw [index_range_length, List.length_map] at this
        exact this.symm
      have hpos : 0 < s.log_files.length := List.length_pos.2 hne
      obtain ⟨m, hm⟩ : ∃ m, n = m + 1 := ⟨n - 1, by omega⟩
      have hkeys : (s.log_files.map Prod.fst).getLast? = some e.1 := by
        rw [List.getLast?_map, he]
        rfl
      rw [hn, hm, index_range_getLast] at hkeys
      simp only [Option.some.injEq] at hkeys
      rw [← hkeys]
      push_cast
      ring
    have hE : e = (k, f) :=
      omap_sorted_key_inj hsorted (List.mem_of_getLast?_eq_some he) hmem
        (by rw [hek, hkl])
    subst hE
    have hs := hseg.1 (k, f) hmem
    have hend := hseg.2 (k, f) he
    simp only at hs hend
    have hb := replay_files_bound c s.fs (k, f) (by simp [hs.1]) hhon s.log_files ERR_OK
      s.last_log_file ⟨s.start_offset, [], []⟩ hnodup (fun _ => he)
      (fun hnil => absurd hnil hne) hex (by rw [← hf.2.2.2.2.1]; exact hk)
    rw [hf.2.2.1, hend, hs.2]
    exact hb

set_option maxRecDepth 1000000 in
theorem replay_truncates_tail_witness :
    (corrupted_tail_log.replay sample_codec).ret = some ERR_INVALID_DATA
    ∧ (corrupted_tail_log.replay sample_codec).offset = 128
    ∧ ∃ k last, (corrupted_tail_log.replay sample_codec).log.last_log_file = some k
      ∧ (corrupted_tail_log.replay sample_codec).log.file k = some last
      ∧ ((corrupted_tail_log.replay sample_codec).offset
            + last.header.log_buffer_size_bytes ≥ corrupted_tail_log.global_end_offset →
          (corrupted_tail_log.replay sample_codec).log.global_end_offset
            = (corrupted_tail_log.replay sample_codec).offset)
      ∧ ((corrupted_tail_log.replay sample_codec).offset
            + last.header.log_buffer_size_bytes < corrupted_tail_log.global_end_offset →
          (corrupted_tail_log.replay sample_codec).log.global_end_offset
            = corrupted_tail_log.global_end_offset)
      ∧ (corrupted_tail_log.replay sample_codec).delivered
          = (corrupted_tail_log.replay sample_codec).decoded.map Prod.fst
      ∧ (∀ (a b d : Int) (batch : Bool) (w : Int) (dir : List Char) (f : log_file),
          initialize_log (mutation_log.ctor a b d batch w corrupted_tail_log.fs) dir true
            = some (ERR_OK, corrupted_tail_log) →
          k = corrupted_tail_log.last_file_number → corrupted_tail_log.file k = some f →
          header_length_honest sample_codec corrupted_tail_log.fs f = true →
          (corrupted_tail_log.replay sample_codec).offset
            ≤ corrupted_tail_log.global_end_offset) :=
  have h : (corrupted_tail_log.replay sample_codec).ret = some ERR_INVALID_DATA := by decide
  ⟨h, by decide, replay_truncates_tail sample_codec corrupted_tail_log h⟩

/-! ## The offsets `append` assigns -/

theorem with_buffer_offset (c : core_codec) (s : mutation_log) (mu : mutation) :
    (with_buffer c s mu).global_end_offset
      = s.global_end_offset
        + (if s.pending_write.isNone then (c.MSG_HDR_SERIALIZED_SIZE : Int) else 0) := by
  unfold with_buffer
  split <;> simp

theorem with_appended_fields (c : core_codec) (s : mutation_log) (mu : mutation) (cb : Nat)
    (pw : message) (cbs : List Nat) :
    (with_appended c s mu cb pw cbs).global_end_offset
      = (with_buffer c s mu).global_end_offset
        + (c.write_to { mu with log_offset := (with_buffer c s mu).global_end_offset }).length
    ∧ (with_appended c s mu cb pw cbs).pending_mutations
      = s.pending_mutations ++ [{ mu with log_offset := (with_buffer c s mu).global_end_offset }]
    ∧ (with_appended c s mu cb pw cbs).pending_write
      = some { pw with body := pw.body
          ++ c.write_to { mu with log_offset := (with_buffer c s mu).global_end_offset } }
    ∧ (with_appended c s mu cb pw cbs).last_file_number = s.last_file_number
    ∧ (with_appended c s mu cb pw cbs).init_prepared_decrees
      = bump_decree s.init_prepared_decrees mu
    ∧ (with_appended c s mu cb pw cbs).fs = s.fs
    ∧ (with_appended c s mu cb pw cbs).log_files = s.log_files
    ∧ (with_appended c s mu cb pw cbs).current_log_file = s.current_log_file
    ∧ (with_appended c s mu cb pw cbs).batch_write = s.batch_write
    ∧ (with_appended c s mu cb pw cbs).log_buffer_size_bytes = s.log_buffer_size_bytes := by
  have hf := with_buffer_fields c s mu
  have hb : (with_buffer c s mu).batch_write = s.batch_write
      ∧ (with_buffer c s mu).log_buffer_size_bytes = s.log_buffer_size_bytes := by
    unfold with_buffer
    split <;> exact ⟨rfl, rfl⟩
  refine ⟨rfl, ?_, rfl, hf.2.1, hf.2.2.2.2.2.2.1, hf.2.2.2.1, hf.1, hf.2.2.1, hb.1, hb.2⟩
  simp only [with_appended]
  rw [hf.2.2.2.2.2.1]

/-- What a flush leaves of the log `s3`: the buffer is gone and the end offset stays, or a new
segment was made and the end offset has moved over its header. -/
theorem write_pending_mutations_offsets {c : core_codec} {io : io_env}
    {s3 s' : mutation_log} {e : error_code} {b : Bool}
    (h : s3.write_pending_mutations c io b = some (e, s')) :
    s'.pending_mutations = []
    ∧ ((s'.pending_write = none ∧ s'.global_end_offset = s3.global_end_offset
          ∧ s'.last_file_number = s3.last_file_number)
      ∨ (s'.pending_write.isSome = true ∧ b = true
          ∧ s'.last_file_number = s3.last_file_number + 1
          ∧ s'.init_prepared_decrees = s3.init_prepared_decrees
          ∧ s'.global_end_offset = s3.global_end_offset + c.MSG_HDR_SERIALIZED_SIZE
              + header_byte_count s3.init_prepared_decrees)) := by
  obtain ⟨pw, cbs, k, cur, _, _, _, _, _, _, _, hcase⟩ := write_pending_mutations_some h
  rcases hcase with ⟨_, _, hs'⟩ | ⟨_, _, _, hs'⟩ | ⟨_, hb, _, hnew⟩
  · rw [hs']
    exact ⟨rfl, Or.inl ⟨rfl, rfl, rfl⟩⟩
  · rw [hs']
    exact ⟨rfl, Or.inl ⟨rfl, rfl, rfl⟩⟩
  · obtain ⟨_, _, _, hc⟩ := create_new_log_file_some hnew
    rcases hc with ⟨_, _, hs'⟩ | ⟨_, _, _, _, _, _, hs'⟩
    · rw [hs']
      exact ⟨rfl, Or.inl ⟨rfl, rfl, rfl⟩⟩
    · rw [hs']
      exact ⟨rfl, Or.inr ⟨rfl, hb, rfl, rfl, rfl⟩⟩

theorem append_offsets {c : core_codec} {io : io_env} {s s' : mutation_log}
    {mu mu' : mutation} {cb : Nat} (h : s.append c io mu cb = some (mu', s')) :
    mu' = { mu with log_offset := s.global_end_offset
        + (if s.pending_write.isNone then (c.MSG_HDR_SERIALIZED_SIZE : Int) else 0) }
    ∧ ((s'.pending_mutations = s.pending_mutations ++ [mu'] ∧ s'.pending_write.isSome = true
          ∧ s'.global_end_offset = mu'.log_offset + (c.write_to mu').length
          ∧ s'.last_file_number = s.last_file_number ∧ s'.fs = s.fs)
      ∨ (s'.pending_mutations = [] ∧ s'.pending_write = none
          ∧ s'.global_end_offset = mu'.log_offset + (c.write_to mu').length
          ∧ s'.last_file_number = s.last_file_number)
      ∨ (s'.pending_mutations = [] ∧ s'.pending_write.isSome = true
          ∧ s'.last_file_number = s.last_file_number + 1
          ∧ s'.global_end_offset = mu'.log_offset + (c.write_to mu').length
              + c.MSG_HDR_SERIALIZED_SIZE + header_byte_count s'.init_prepared_decrees)) := by
  obtain ⟨_, pw, cbs, _, _, _, hfl⟩ := append_some h
  obtain ⟨hmu, hcase⟩ := flush_after_append_some hfl
  have hf := with_appended_fields c s mu cb pw cbs
  have hoff := with_buffer_offset c s mu
  have hmu' : mu' = { mu with log_offset := s.global_end_offset
      + (if s.pending_write.isNone then (c.MSG_HDR_SERIALIZED_SIZE : Int) else 0) } := by
    rw [hmu, hoff]
  have hgeo : (with_appended c s mu cb pw cbs).global_end_offset
      = mu'.log_offset + (c.write_to mu').length := by
    rw [hf.1, hmu]
  refine ⟨hmu', ?_⟩
  have hflush : ∀ (s3 : mutation_log) (e : error_code),
      s3.global_end_offset = (with_appended c s mu cb pw cbs).global_end_offset →
      s3.last_file_number = s.last_file_number →
      s3.write_pending_mutations c io true = some (e, s') →
      (s'.pending_mutations = [] ∧ s'.pending_write = none
          ∧ s'.global_end_offset = mu'.log_offset + (c.write_to mu').length
          ∧ s'.last_file_number = s.last_file_number)
      ∨ (s'.pending_mutations = [] ∧ s'.pending_write.isSome = true
          ∧ s'.last_file_number = s.last_file_number + 1
          ∧ s'.global_end_offset = mu'.log_offset + (c.write_to mu').length
              + c.MSG_HDR_SERIALIZED_SIZE + header_byte_count s'.init_prepared_decrees) := by
    intro s3 e h1 h2 hw
    obtain ⟨hp, hc⟩ := write_pending_mutations_offsets hw
    rcases hc with ⟨a1, a2, a3⟩ | ⟨a1, _, a3, a4, a5⟩
    · exact Or.inl ⟨hp, a1, by rw [a2, h1, hgeo], by rw [a3, h2]⟩
    · exact Or.inr ⟨hp, a1, by rw [a3, h2], by rw [a5, a4, h1, hgeo]⟩
  rcases hcase with ⟨_, e, hwr⟩ | ⟨_, _, _, _, e, hwr⟩ | ⟨_, hs', _⟩
  · exact Or.inr (hflush _ e rfl hf.2.2.2.1 hwr)
  · exact Or.inr (hflush (with_appended c s mu cb pw cbs).clear_timer e rfl hf.2.2.2.1 hwr)
  · rw [hs']
    exact Or.inl ⟨by rw [hf.2.1, hmu], by rw [hf.2.2.1]; rfl, hgeo, hf.2.2.2.1,
      hf.2.2.2.2.2.1⟩

set_option maxRecDepth 1000000 in
/-- C11, counterexample: without batching, after one mutation has been appended and flushed,
`_global_end_offset` is 78 when the next `append` is called, but the mutation gets the
offset 90: `append` first makes a new pending buffer and counts its 12 header bytes.  The
first mutation has the offset 40 and takes 38 bytes, so the second offset is not
40 + 38 either. -/
theorem append_log_offset_counterexample :
    run_ops sample_codec (round_trip_ops false 1 [sample_mutation 1])
        (mutation_log.ctor 1 100 1 false 2 []) = some flushed_log
    ∧ flushed_log.global_end_offset = 78
    ∧ (flushed_log.log_files.map fun e => e.2.mutations.map fun m => (m.log_offset,
        (sample_codec.write_to m).length)) = [[(40, 38)]]
    ∧ (flushed_log.append sample_codec sample_io (sample_mutation 2) 0).map
        (fun r => r.1.log_offset) = some 90 := by
  refine ⟨?_, ?_, ?_, ?_⟩ <;> decide

/-- C11 (amended): `append` sets the mutation's `log_offset` to `_global_end_offset` as it is
at the call if a pending buffer exists, and to that value plus the size of a message header
if `append` has to make the buffer.  After the append `_global_end_offset` is `log_offset`
plus the serialized size of the mutation, unless the append has flushed and rolled the
segment over, which adds a message header and the new segment header.  So the next
mutation appended gets `log_offset + size` when the buffer is still pending, that plus a
message header after a flush, and that plus the new segment header after a rollover. -/
theorem append_assigns_log_offset (c : core_codec) (io io2 : io_env) (s s1 s2 : mutation_log)
    (m1 m1' m2 m2' : mutation) (cb cb2 : Nat)
    (h1 : s.append c io m1 cb = some (m1', s1))
    (h2 : s1.append c io2 m2 cb2 = some (m2', s2)) :
    m1' = { m1 with log_offset := s.global_end_offset
        + (if s.pending_write.isNone then (c.MSG_HDR_SERIALIZED_SIZE : Int) else 0) }
    ∧ ((s1.pending_mutations = s.pending_mutations ++ [m1']
          ∧ s1.global_end_offset = m1'.log_offset + (c.write_to m1').length
          ∧ m2'.log_offset = m1'.log_offset + (c.write_to m1').length)
      ∨ (s1.pending_mutations = [] ∧ s1.pending_write = none
          ∧ s1.global_end_offset = m1'.log_offset + (c.write_to m1').length
          ∧ m2'.log_offset = m1'.log_offset + (c.write_to m1').length
              + c.MSG_HDR_SERIALIZED_SIZE)
      ∨ (s1.pending_mutations = [] ∧ s1.last_file_number = s.last_file_number + 1
          ∧ s1.global_end_offset = m1'.log_offset + (c.write_to m1').length
              + c.MSG_HDR_SERIALIZED_SIZE + header_byte_count s1.init_prepared_decrees
          ∧ m2'.log_offset = m1'.log_offset + (c.write_to m1').length
              + c.MSG_HDR_SERIALIZED_SIZE + header_byte_count s1.init_prepared_decrees)) := by
  obtain ⟨hm1, hc1⟩ := append_offsets h1
  obtain ⟨hm2, _⟩ := append_offsets h2
  have hoff2 : m2'.log_offset = s1.global_end_offset
      + (if s1.pending_write.isNone then (c.MSG_HDR_SERIALIZED_SIZE : Int) else 0) := by
    rw [hm2]
  refine ⟨hm1, ?_⟩
  rcases hc1 with ⟨a1, a2, a3, _, _⟩ | ⟨a1, a2, a3, _⟩ | ⟨a1, a2, a3, a4⟩
  · refine Or.inl ⟨a1, a3, ?_⟩
    rw [hoff2, a3]
    cases hp : s1.pending_write with
    | none => rw [hp] at a2; simp at a2
    | some pw => simp
  · refine Or.inr (Or.inl ⟨a1, a2, a3, ?_⟩)
    rw [hoff2, a3, a2]
    simp
  · refine Or.inr (Or.inr ⟨a1, a3, a4, ?_⟩)
    rw [hoff2, a4]
    cases hp : s1.pending_write with
    | none => rw [hp] at a2; simp at a2
    | some pw => simp

set_option maxRecDepth 1000000 in
theorem append_assigns_log_offset_witness :
    flushed_log.append sample_codec sample_io (sample_mutation 2) 0
      = some ({ sample_mutation 2 with log_offset := 90 },
          before_close false 1 [sample_mutation 1, sample_mutation 2])
    ∧ (before_close false 1 [sample_mutation 1, sample_mutation 2]).append sample_codec
        sample_io (sample_mutation 3) 0
      = some ({ sample_mutation 3 with log_offset := 140 },
          before_close false 1 [sample_mutation 1, sample_mutation 2, sample_mutation 3])
    ∧ ({ sample_mutation 2 with log_offset := 90 } : mutation)
      = { sample_mutation 2 with log_offset := flushed_log.global_end_offset
          + (if flushed_log.pending_write.isNone then
              (sample_codec.MSG_HDR_SERIALIZED_SIZE : Int) else 0) } :=
  have h1 : flushed_log.append sample_codec sample_io (sample_mutation 2) 0
      = some ({ sample_mutation 2 with log_offset := 90 },
          before_close false 1 [sample_mutation 1, sample_mutation 2]) := by decide
  have h2 : (before_close false 1 [sample_mutation 1, sample_mutation 2]).append sample_codec
        sample_io (sample_mutation 3) 0
      = some ({ sample_mutation 3 with log_offset := 140 },
          before_close false 1 [sample_mutation 1, sample_mutation 2, sample_mutation 3]) := by
    decide
  ⟨h1, h2, (append_assigns_log_offset sample_codec sample_io sample_io flushed_log _ _
    (sample_mutation 2) _ (sample_mutation 3) _ 0 0 h1 h2).1⟩

/-! ## `close` and the pending buffer -/

set_option maxRecDepth 1000000 in
/-- C13: `close` looks at the timer only, so when no timer is armed it leaves the pending
buffer and the disk as they are.  Without batching no timer is ever armed: after
`start_write_service` and `close` the buffer with the header of the new segment is still
pending, `_global_end_offset` is 40 and the file of the segment is empty.  With batching
the same run leaves no buffer and a file of 40 bytes. -/
theorem close_leaves_pending_buffer_without_batching :
    (∀ (c : core_codec) (ios : List io_env) (s : mutation_log),
        s.pending_write_timer = false →
        s.close c ios = some s.close_current
        ∧ s.close_current.pending_write = s.pending_write
        ∧ s.close_current.fs = s.fs)
    ∧ (run_ops sample_codec [log_op.close [sample_io]] (before_close false 1 [])
          = some (after_close false 1 [])
        ∧ (before_close false 1 []).pending_write.isSome = true
        ∧ (after_close false 1 []).pending_write.isSome = true
        ∧ (after_close false 1 []).current_log_file = none
        ∧ (after_close false 1 []).global_end_offset = 40
        ∧ (after_close false 1 []).fs = [("d/log.1.0".toList, [])])
    ∧ (run_ops sample_codec [log_op.close [sample_io]] (before_close true 1 [])
          = some (after_close true 1 [])
        ∧ (before_close true 1 []).pending_write.isSome = true
        ∧ (after_close true 1 []).pending_write = none
        ∧ (after_close true 1 []).current_log_file = none
        ∧ (after_close true 1 []).global_end_offset = 40
        ∧ (after_close true 1 []).fs.map (fun e => (e.1, e.2.length))
            = [("d/log.1.0".toList, 40)]) := by
  refine ⟨?_, ⟨?_, ?_, ?_, ?_, ?_, ?_⟩, ⟨?_, ?_, ?_, ?_, ?_, ?_⟩⟩
  · intro c ios s ht
    refine ⟨?_, ?_, ?_⟩
    · cases ios with
      | nil => simp [mutation_log.close, ht]
      | cons io rest => simp [mutation_log.close, ht]
    · unfold mutation_log.close_current
      split
      · rfl
      · split <;> rfl
    · unfold mutation_log.close_current
      split
      · rfl
      · split <;> rfl
  all_goals decide

/-! ## The buffer size at which `append` flushes -/

set_option maxRecDepth 1000000 in
/-- C15: with batching, an `append` that brings the pending buffer to at least
`_log_buffer_size_bytes` (a size within `uint32_t`) and can cancel the timer hands the
buffer to `write_pending_mutations` within the append and leaves no mutation pending; an
`append` that leaves the buffer smaller writes nothing, notifies nobody and leaves the
buffer with the mutation pending. -/
theorem append_flushes_at_buffer_size (c : core_codec) (io : io_env) (s s' : mutation_log)
    (mu mu' : mutation) (cb : Nat) (hb : s.batch_write = true)
    (h : s.append c io mu cb = some (mu', s'))
    (hrange : buffer_size_after_append c s mu' < 4294967296) :
    (s.log_buffer_size_bytes ≤ buffer_size_after_append c s mu' → io.cancel_ok = true →
        s'.pending_mutations = []
        ∧ (s'.pending_write = none ∨ s'.last_file_number = s.last_file_number + 1)
        ∧ ∃ pw cbs e, (with_appended c s mu cb pw cbs).pending_mutations
              = s.pending_mutations ++ [mu']
            ∧ (with_appended c s mu cb pw cbs).clear_timer.write_pending_mutations c io true
              = some (e, s'))
    ∧ (buffer_size_after_append c s mu' < s.log_buffer_size_bytes →
        s'.pending_mutations = s.pending_mutations ++ [mu']
        ∧ s'.pending_write.isSome = true
        ∧ s'.fs = s.fs ∧ s'.log_files = s.log_files ∧ s'.notified = s.notified
        ∧ s'.global_end_offset = mu'.log_offset + (c.write_to mu').length) := by
  obtain ⟨_, pw, cbs, hpw, _, _, hfl⟩ := append_some h
  obtain ⟨hmu, hcase⟩ := flush_after_append_some hfl
  have hf := with_appended_fields c s mu cb pw cbs
  have hoffs := append_offsets h
  have hbody : buffer_size_after_append c s mu'
      = c.MSG_HDR_SERIALIZED_SIZE + pw.body.length + (c.write_to mu').length := by
    unfold buffer_size_after_append
    unfold with_buffer at hpw
    cases hp : s.pending_write with
    | none =>
      simp only [hp, Option.isNone_none, if_true, Option.some.injEq] at hpw
      rw [← hpw]
      simp [message.create_request]
    | some pw0 =>
      simp only [hp, Option.isNone_some, Bool.false_eq_true, if_false, Option.some.injEq] at hpw
      rw [hpw]
  have hcast : uint32_cast ((c.MSG_HDR_SERIALIZED_SIZE + pw.body.length
      + (c.write_to { mu with log_offset := (with_buffer c s mu).global_end_offset }).length
        : Nat) : Int) = (buffer_size_after_append c s mu' : Int) := by
    rw [hbody, hmu]
    unfold uint32_cast
    rw [hbody, hmu] at hrange
    omega
  have hb3 : (with_appended c s mu cb pw cbs).batch_write = true := by
    rw [hf.2.2.2.2.2.2.2.2.1, hb]
  have hn3 : (with_appended c s mu cb pw cbs).notified = s.notified := by
    unfold with_appended with_buffer
    split <;> rfl
  rw [hcast, hf.2.2.2.2.2.2.2.2.2] at hcase
  refine ⟨?_, ?_⟩
  · intro hge hcancel
    rcases hcase with ⟨hnb, _⟩ | ⟨_, _, _, _, e, hwr⟩ | ⟨_, _, hlt | ⟨_, hc⟩⟩
    · rw [hb3] at hnb
      simp at hnb
    · obtain ⟨hp, hc⟩ := write_pending_mutations_offsets hwr
      refine ⟨hp, ?_, pw, cbs, e, by rw [hf.2.1, hmu], hwr⟩
      rcases hc with ⟨a1, _, _⟩ | ⟨_, _, a3, _, _⟩
      · exact Or.inl a1
      · exact Or.inr (by rw [a3]; exact congrArg (· + 1) hf.2.2.2.1)
    · omega
    · rw [hcancel] at hc
      simp at hc
  · intro hlt
    rcases hcase with ⟨hnb, _⟩ | ⟨_, _, _, hge, _⟩ | ⟨_, hs', _⟩
    · rw [hb3] at hnb
      simp at hnb
    · omega
    · rw [hs']
      refine ⟨by rw [hf.2.1, hmu], by rw [hf.2.2.1]; rfl, hf.2.2.2.2.2.1, hf.2.2.2.2.2.2.1,
        hn3, ?_⟩
      rw [hf.1, hmu]

set_option maxRecDepth 1000000 in
theorem append_flushes_at_buffer_size_witness :
    (batching_log 78).batch_write = true
    ∧ (batching_log 78).append sample_codec sample_io (sample_mutation 1) 0
        = some (batching_appended 78)
    ∧ buffer_size_after_append sample_codec (batching_log 78) (batching_appended 78).1 = 78
    ∧ (batching_appended 78).2.pending_mutations = []
    ∧ (batching_log 79).append sample_codec sample_io (sample_mutation 1) 0
        = some (batching_appended 79)
    ∧ buffer_size_after_append sample_codec (batching_log 79) (batching_appended 79).1 = 78
    ∧ (batching_appended 79).2.pending_mutations
        = (batching_log 79).pending_mutations ++ [(batching_appended 79).1]
    ∧ (batching_appended 79).2.fs = (batching_log 79).fs :=
  have hb : (batching_log 78).batch_write = true := by decide
  have h : (batching_log 78).append sample_codec sample_io (sample_mutation 1) 0
      = some (batching_appended 78) := by decide
  have hsz : buffer_size_after_append sample_codec (batching_log 78)
      (batching_appended 78).1 = 78 := by decide
  have hb' : (batching_log 79).batch_write = true := by decide
  have h' : (batching_log 79).append sample_codec sample_io (sample_mutation 1) 0
      = some (batching_appended 79) := by decide
  have hsz' : buffer_size_after_append sample_codec (batching_log 79)
      (batching_appended 79).1 = 78 := by decide
  have r1 := (append_flushes_at_buffer_size sample_codec sample_io (batching_log 78)
    (batching_appended 78).2 (sample_mutation 1) (batching_appended 78).1 0 hb h
    (by rw [hsz]; decide)).1 (by rw [hsz]; decide) (by decide)
  have r2 := (append_flushes_at_buffer_size sample_codec sample_io (batching_log 79)
    (batching_appended 79).2 (sample_mutation 1) (batching_appended 79).1 0 hb' h'
    (by rw [hsz']; decide)).2 (by rw [hsz']; decide)
  ⟨hb, h, hsz, r1.1, h', hsz', r2.1, r2.2.2.1⟩

/-! ## File names -/

theorem digit_char_spec (d : Nat) (h : d < 10) :
    is_digit (digit_char d) = true ∧ (digit_char d).toNat - 48 = d
    ∧ is_space (digit_char d) = false ∧ (digit_char d).toNat ≠ 45
    ∧ (digit_char d).toNat ≠ 43 ∧ digit_char d ≠ '.' ∧ digit_char d ≠ '/'
    ∧ digit_char d ≠ '\\' ∧ digit_char d ≠ 'd' := by
  interval_cases d <;> decide

theorem parse_digits_decimal_aux (fuel n : Nat) (h : n < fuel) :
    ∃ k, ∀ acc a, parse_digits (decimal_aux fuel n acc) a = parse_digits acc (a * k + n) := by
  induction fuel generalizing n with
  | zero => omega
  | succ fuel ih =>
    by_cases hn : n < 10
    · refine ⟨10, fun acc a => ?_⟩
      have hd := digit_char_spec n hn
      simp only [decimal_aux, hn, if_true, parse_digits, hd.1, hd.2.1]
      congr 1
      ring
    · obtain ⟨k, hk⟩ := ih (n / 10) (by omega)
      refine ⟨10 * k, fun acc a => ?_⟩
      have hd := digit_char_spec (n % 10) (Nat.mod_lt _ (by norm_num))
      simp only [decimal_aux, hn, if_false]
      rw [hk]
      simp only [parse_digits, hd.1, if_true, hd.2.1]
      congr 1
      have := Nat.div_add_mod n 10
      nlinarith

theorem parse_digits_decimal (n : Nat) : parse_digits (decimal n) 0 = n := by
  obtain ⟨k, hk⟩ := parse_digits_decimal_aux (n + 1) n (by omega)
  unfold decimal
  rw [hk]
  simp [parse_digits]

theorem decimal_aux_spec (fuel n : Nat) (acc : List Char) (h : n < fuel) :
    ∃ d ds, d < 10 ∧ decimal_aux fuel n acc = digit_char d :: ds ++ acc
      ∧ ∀ ch ∈ ds, ∃ e, e < 10 ∧ ch = digit_char e := by
  induction fuel generalizing n acc with
  | zero => omega
  | succ fuel ih =>
    by_cases hn : n < 10
    · exact ⟨n, [], hn, by simp [decimal_aux, hn], by simp⟩
    · obtain ⟨d, ds, hd, heq, hds⟩ := ih (n / 10) (digit_char (n % 10) :: acc) (by omega)
      refine ⟨d, ds ++ [digit_char (n % 10)], hd, ?_, ?_⟩
      · simp only [decimal_aux, hn, if_false]
        rw [heq]
        simp
      · intro ch hch
        rcases List.mem_append.1 hch with h1 | h1
        · exact hds ch h1
        · simp only [List.mem_singleton] at h1
          exact ⟨n % 10, Nat.mod_lt _ (by norm_num), h1⟩

theorem decimal_spec (n : Nat) :
    ∃ d ds, d < 10 ∧ decimal n = digit_char d :: ds
      ∧ ∀ ch ∈ ds, ∃ e, e < 10 ∧ ch = digit_char e := by
  obtain ⟨d, ds, hd, heq, hds⟩ := decimal_aux_spec (n + 1) n [] (by omega)
  exact ⟨d, ds, hd, by rw [decimal, heq]; simp, hds⟩

theorem decimal_digits (n : Nat) : ∀ ch ∈ decimal n, ∃ e, e < 10 ∧ ch = digit_char e := by
  obtain ⟨d, ds, hd, heq, hds⟩ := decimal_spec n
  intro ch hch
  rw [heq] at hch
  rcases List.mem_cons.1 hch with h1 | h1
  · exact ⟨d, hd, h1⟩
  · exact hds ch h1

theorem strtol_decimal (n : Nat) (h : (n : Int) ≤ 9223372036854775807) :
    strtol (decimal n) = n := by
  obtain ⟨d, ds, hd, heq, _⟩ := decimal_spec n
  have hp := parse_digits_decimal n
  have hc := digit_char_spec d hd
  unfold strtol
  rw [heq] at hp ⊢
  simp only [List.dropWhile_cons, hc.2.2.1, Bool.false_eq_true, if_false, hc.2.2.2.1,
    hc.2.2.2.2.1, hp]
  omega

theorem strtol_neg_decimal (n : Nat) (h : (n : Int) ≤ 9223372036854775808) :
    strtol ('-' :: decimal n) = -(n : Int) := by
  have hp := parse_digits_decimal n
  unfold strtol
  have h1 : is_space '-' = false := by decide
  have h2 : ('-' : Char).toNat = 45 := by decide
  simp only [List.dropWhile_cons, h1, Bool.false_eq_true, if_false, h2, if_true, hp]
  omega

theorem atol_signed_decimal (x : Int) (h : is_int64 x) : atol (signed_decimal x) = x := by
  unfold is_int64 at h
  unfold atol signed_decimal
  split
  · rw [strtol_neg_decimal _ (by omega)]
    omega
  · rw [strtol_decimal _ (by omega)]
    omega

theorem atoi_decimal_uint32 (k : Int) (h : is_int32 k) :
    atoi (decimal (uint32_cast k).toNat) = k := by
  unfold is_int32 at h
  unfold atoi
  rw [strtol_decimal _ (by unfold uint32_cast; omega)]
  unfold int_cast uint32_cast
  omega
theorem find_from_append (c : Char) (a b : List Char) (i : Nat) (h : c ∉ a) :
    find_from c (a ++ c :: b) i = some (i + a.length) := by
  induction a generalizing i with
  | nil => simp [find_from]
  | cons x a ih =>
    have hx : x ≠ c := fun he => h (he ▸ List.mem_cons_self _ _)
    rw [List.cons_append, find_from, if_neg hx,
      ih (i + 1) (fun hm => h (List.mem_cons_of_mem _ hm))]
    simp only [List.length_cons]
    congr 1
    omega

theorem find_from_none (c : Char) (a : List Char) (i : Nat) (h : c ∉ a) :
    find_from c a i = none := by
  induction a generalizing i with
  | nil => rfl
  | cons x a ih =>
    have hx : x ≠ c := fun he => h (he ▸ List.mem_cons_self _ _)
    simp only [find_from, hx, if_false]
    exact ih (i + 1) (fun hm => h (List.mem_cons_of_mem _ hm))

theorem find_from_some {c : Char} {l : List Char} {i p : Nat} (h : find_from c l i = some p) :
    ∃ a b, l = a ++ c :: b ∧ c ∉ a ∧ p = i + a.length := by
  induction l generalizing i with
  | nil => simp [find_from] at h
  | cons x l ih =>
    simp only [find_from] at h
    split at h
    · rename_i hx
      simp only [Option.some.injEq] at h
      exact ⟨[], l, by simp [hx], by simp, by simp [h]⟩
    · rename_i hx
      obtain ⟨a, b, hl, ha, hp⟩ := ih h
      refine ⟨x :: a, b, by simp [hl], ?_, by simp only [List.length_cons]; omega⟩
      intro hm
      rcases List.mem_cons.1 hm with h1 | h1
      · exact hx h1.symm
      · exact ha h1

theorem get_last_component_append (pre rest : List Char) (spl : List Char) (sep : Char)
    (hsep : sep ∈ spl) (h : ∀ ch ∈ rest, ch ∉ spl) :
    get_last_component (pre ++ sep :: rest) spl = rest := by
  unfold get_last_component
  have hrev : (pre ++ sep :: rest).reverse = rest.reverse ++ sep :: pre.reverse := by simp
  rw [hrev, List.takeWhile_append_of_pos]
  · have : List.takeWhile (fun c => !spl.contains c) (sep :: pre.reverse) = [] := by
      simp [List.takeWhile, hsep]
    rw [this]
    simp
  · intro ch hch
    have := h ch (List.mem_reverse.1 hch)
    simpa using this

theorem get_last_component_suffix (input spl : List Char) :
    get_last_component input spl <:+ input := by
  unfold get_last_component
  have h := List.takeWhile_prefix (fun c => !spl.contains c) (l := input.reverse)
  have := List.reverse_suffix.2 h
  simpa using this
theorem removed_suffix_iff (rest : List Char) :
    (("log.".toList ++ rest).length > 8
      ∧ ("log.".toList ++ rest).drop (("log.".toList ++ rest).length - 8) = ".removed".toList)
    ↔ ".removed".toList <:+ "log.".toList ++ rest := by
  constructor
  · rintro ⟨_, hd⟩
    rw [← hd]
    exact List.drop_suffix _ _
  · rintro ⟨pre, hpre⟩
    have hlen := congrArg List.length hpre
    simp only [List.length_append] at hlen
    have h8 : ".removed".toList.length = 8 := by decide
    have h4 : "log.".toList.length = 4 := by decide
    refine ⟨?_, ?_⟩
    · simp only [List.length_append]
      by_contra hle
      have hp : pre.length = 0 := by omega
      have hnil : pre = [] := List.length_eq_zero.1 hp
      rw [hnil] at hpre
      have hhead := congrArg List.head? hpre
      simp at hhead
    · rw [← hpre]
      simp only [List.length_append, h8, Nat.add_sub_cancel]
      exact List.drop_left' rfl

theorem opend_read_of_name {fs : disk} {path a b : List Char} {content : List Nat}
    (hname : get_last_component path ['\\', '/'] = "log.".toList ++ a ++ '.' :: b)
    (ha : '.' ∉ a)
    (hrem : ¬ (".removed".toList <:+ get_last_component path ['\\', '/']))
    (hfile : fs_find fs path = some content) :
    log_file.opend_read fs path
      = some (log_file.ctor path true (atoi a) (atol b) 0 true content.length) := by
  unfold log_file.opend_read
  simp only
  have hname' : get_last_component path ['\\', '/'] = "log.".toList ++ (a ++ '.' :: b) := by
    rw [hname, List.append_assoc]
  have hrem' := hrem
  rw [hname', ← removed_suffix_iff] at hrem'
  rw [hname'] 
  have h4 : "log.".toList.length = 4 := by decide
  have hc1 : ¬ (("log.".toList ++ (a ++ '.' :: b)).length < 4
      ∨ substr ("log.".toList ++ (a ++ '.' :: b)) 0 4 ≠ "log.".toList
      ∨ (("log.".toList ++ (a ++ '.' :: b)).length > 8
        ∧ ("log.".toList ++ (a ++ '.' :: b)).drop
            (("log.".toList ++ (a ++ '.' :: b)).length - 8) = ".removed".toList)) := by
    rintro (h | h | h)
    · simp only [List.length_append, h4] at h
      omega
    · apply h
      unfold substr
      rw [List.drop_zero]
      exact List.take_left' h4
    · exact hrem' h
  rw [if_neg hc1]
  have hp1 : find_first_of ("log.".toList ++ (a ++ '.' :: b)) '.' 0 = some 3 := by
    unfold find_first_of
    rw [List.drop_zero]
    have : "log.".toList ++ (a ++ '.' :: b) = "log".toList ++ '.' :: (a ++ '.' :: b) := by
      rfl
    rw [this, find_from_append '.' _ _ 0 (by decide)]
    rfl
  have hp2 : find_first_of ("log.".toList ++ (a ++ '.' :: b)) '.' (3 + 1)
      = some (4 + a.length) := by
    unfold find_first_of
    rw [List.drop_left' h4, find_from_append '.' _ _ _ ha]
  rw [hp1]
  simp only
  rw [hp2]
  simp only
  rw [hfile]
  simp only
  have hs : substr ("log.".toList ++ (a ++ '.' :: b)) (3 + 1) (4 + a.length - 3 - 1) = a := by
    unfold substr
    rw [List.drop_left' h4]
    have : 4 + a.length - 3 - 1 = a.length := by omega
    rw [this]
    exact List.take_left' rfl
  have hd : ("log.".toList ++ (a ++ '.' :: b)).drop (4 + a.length + 1) = b := by
    have : "log.".toList ++ (a ++ '.' :: b) = ("log.".toList ++ a ++ ['.']) ++ b := by simp
    rw [this]
    exact List.drop_left' (by simp only [List.length_append, h4, List.length_singleton])
  rw [hs, hd]

theorem opend_read_name {fs : disk} {path : List Char} {log : log_file}
    (h : log_file.opend_read fs path = some log) :
    ∃ a b content, get_last_component path ['\\', '/'] = "log.".toList ++ a ++ '.' :: b
      ∧ '.' ∉ a ∧ ¬ (".removed".toList <:+ get_last_component path ['\\', '/'])
      ∧ fs_find fs path = some content
      ∧ log = log_file.ctor path true (atoi a) (atol b) 0 true content.length := by
  have h0 := h
  unfold log_file.opend_read at h
  simp only at h
  split at h
  · simp at h
  rename_i hcond
  simp only [not_or, not_lt, ne_eq, not_not] at hcond
  obtain ⟨hlen, hpre, hrem⟩ := hcond
  have h4 : "log.".toList.length = 4 := by decide
  have hname : get_last_component path ['\\', '/']
      = "log.".toList ++ (get_last_component path ['\\', '/']).drop 4 := by
    unfold substr at hpre
    rw [List.drop_zero] at hpre
    conv_lhs => rw [← List.take_append_drop 4 (get_last_component path ['\\', '/'])]
    rw [hpre]
  split at h
  · simp at h
  rename_i pos hpos
  split at h
  · simp at h
  rename_i pos2 hpos2
  split at h
  · simp at h
  rename_i content hcontent
  have hp1 : pos = 3 := by
    rw [hname] at hpos
    unfold find_first_of at hpos
    rw [List.drop_zero] at hpos
    have : "log.".toList ++ (get_last_component path ['\\', '/']).drop 4
        = "log".toList ++ '.' :: (get_last_component path ['\\', '/']).drop 4 := by rfl
    rw [this, find_from_append '.' _ _ 0 (by decide)] at hpos
    simp only [Option.some.injEq] at hpos
    rw [← hpos]
    rfl
  subst hp1
  unfold find_first_of at hpos2
  obtain ⟨a, b, hrest, ha, _⟩ := find_from_some hpos2
  have hname2 : get_last_component path ['\\', '/'] = "log.".toList ++ a ++ '.' :: b := by
    rw [hname, List.append_assoc]
    congr 1
  have hrem2 : ¬ (".removed".toList <:+ get_last_component path ['\\', '/']) := by
    intro hs
    rw [hname] at hs
    have := (removed_suffix_iff _).2 hs
    rw [← hname] at this
    exact hrem this
  refine ⟨a, b, content, hname2, ha, hrem2, hcontent, ?_⟩
  have := opend_read_of_name hname2 ha hrem2 hcontent
  rw [h0] at this
  exact Option.some.inj this
theorem decimal_concat (n : Nat) :
    ∃ pre e, e < 10 ∧ decimal n = pre ++ [digit_char e] := by
  obtain ⟨d, ds, _, heq, _⟩ := decimal_spec n
  have hne : decimal n ≠ [] := by rw [heq]; simp
  obtain ⟨e, he, hl⟩ := decimal_digits n _ (List.getLast_mem hne)
  exact ⟨(decimal n).dropLast, e, he, by
    conv_lhs => rw [← List.dropLast_append_getLast hne]
    rw [hl]⟩

theorem signed_decimal_concat (x : Int) :
    ∃ pre e, e < 10 ∧ signed_decimal x = pre ++ [digit_char e] := by
  unfold signed_decimal
  split
  · obtain ⟨pre, e, he, h⟩ := decimal_concat (-x).toNat
    exact ⟨'-' :: pre, e, he, by rw [h]; rfl⟩
  · exact decimal_concat x.toNat

theorem signed_decimal_chars (x : Int) :
    ∀ ch ∈ signed_decimal x, ch = '-' ∨ ∃ e, e < 10 ∧ ch = digit_char e := by
  intro ch hch
  unfold signed_decimal at hch
  split at hch
  · rcases List.mem_cons.1 hch with h | h
    · exact Or.inl h
    · exact Or.inr (decimal_digits _ ch h)
  · exact Or.inr (decimal_digits _ ch hch)

theorem log_path_name (dir : List Char) (k start : Int) :
    get_last_component (log_path dir k start) ['\\', '/']
      = "log.".toList ++ decimal (uint32_cast k).toNat ++ '.' :: signed_decimal start := by
  have hp : log_path dir k start
      = dir ++ '/' :: ("log.".toList ++ decimal (uint32_cast k).toNat
          ++ '.' :: signed_decimal start) := by
    unfold log_path
    simp
  rw [hp]
  apply get_last_component_append _ _ _ '/' (by decide)
  intro ch hch
  simp only [List.mem_append, List.mem_cons] at hch
  rcases hch with (h | h) | h | h
  · have : ch = 'l' ∨ ch = 'o' ∨ ch = 'g' ∨ ch = '.' := by simpa using h
    rcases this with h | h | h | h <;> (subst h; decide)
  · obtain ⟨e, he, hd⟩ := decimal_digits _ ch h
    have := digit_char_spec e he
    subst hd
    simp only [List.mem_cons, List.mem_singleton, List.not_mem_nil, or_false, not_or]
    exact ⟨this.2.2.2.2.2.2.2.1, this.2.2.2.2.2.2.1⟩
  · subst h
    decide
  · rcases signed_decimal_chars start ch h with h | ⟨e, he, hd⟩
    · subst h
      decide
    · have := digit_char_spec e he
      subst hd
      simp only [List.mem_cons, List.mem_singleton, List.not_mem_nil, or_false, not_or]
      exact ⟨this.2.2.2.2.2.2.2.1, this.2.2.2.2.2.2.1⟩

theorem log_path_not_removed (dir : List Char) (k start : Int) :
    ¬ (".removed".toList <:+ get_last_component (log_path dir k start) ['\\', '/']) := by
  rw [log_path_name]
  rintro ⟨pre, hpre⟩
  obtain ⟨p2, e, he, hs⟩ := signed_decimal_concat start
  rw [hs] at hpre
  have h1 := congrArg List.getLast? hpre
  have hl : (pre ++ ".removed".toList).getLast? = some 'd' := by
    have : pre ++ ".removed".toList = (pre ++ ".remove".toList) ++ ['d'] := by
      rw [List.append_assoc]
      rfl
    rw [this, List.getLast?_append]
    rfl
  have hr : ("log.".toList ++ decimal (uint32_cast k).toNat
      ++ '.' :: (p2 ++ [digit_char e])).getLast? = some (digit_char e) := by
    have : "log.".toList ++ decimal (uint32_cast k).toNat ++ '.' :: (p2 ++ [digit_char e])
        = ("log.".toList ++ decimal (uint32_cast k).toNat ++ '.' :: p2) ++ [digit_char e] := by
      simp
    rw [this, List.getLast?_append]
    rfl
  rw [hl, hr] at h1
  simp only [Option.some.injEq] at h1
  exact (digit_char_spec e he).2.2.2.2.2.2.2.2 h1.symm

theorem fs_find_fs_write (fs : disk) (p q : List Char) (pos : Nat) (data : List Nat) :
    fs_find (fs_write fs p pos data) q
      = if q = p then (fs_find fs p).map (fun content => write_at content pos data)
        else fs_find fs q := by
  unfold fs_find fs_write
  induction fs with
  | nil => simp [omap_find]
  | cons e fs ih =>
    obtain ⟨x, y⟩ := e
    show omap_find q ((if x = p then (x, write_at y pos data) else (x, y)) :: _) = _
    by_cases hx : x = p
    · rw [if_pos hx, omap_find, omap_find]
      by_cases hq : q = p
      · rw [if_pos (hx.trans hq.symm), if_pos hq, if_pos hx]
        rfl
      · rw [if_neg (fun h => hq (h.symm.trans hx)), if_neg hq, ih, if_neg hq]
        conv_rhs => rw [omap_find, if_neg (fun h => hq (h.symm.trans hx))]
    · rw [if_neg hx, omap_find, omap_find]
      by_cases hq : q = p
      · rw [if_neg (fun h => hx (h.trans hq)), if_pos hq, if_neg hx, ih, if_pos hq]
      · rw [if_neg hq, ih, if_neg hq]
        conv_rhs => rw [omap_find]

theorem omap_find_append_single {κ β : Type} [DecidableEq κ] (m : List (κ × β)) (p q : κ)
    (v : β) :
    omap_find q (m ++ [(p, v)])
      = match omap_find q m with
        | some x => some x
        | none => if p = q then some v else none := by
  induction m with
  | nil => simp [omap_find]
  | cons e m ih =>
    obtain ⟨x, y⟩ := e
    rw [List.cons_append, omap_find, omap_find]
    by_cases hx : x = q
    · rw [if_pos hx, if_pos hx]
    · rw [if_neg hx, if_neg hx, ih]

theorem fs_find_fs_create (fs : disk) (p q : List Char) :
    fs_find (fs_create fs p) q
      = if q = p then some ((fs_find fs p).getD []) else fs_find fs q := by
  unfold fs_create
  cases hp : fs_find fs p with
  | some content =>
    simp only
    by_cases hq : q = p
    · subst hq
      simp [hp]
    · simp [hq]
  | none =>
    simp only
    unfold fs_find at hp ⊢
    rw [omap_find_append_single]
    by_cases hq : q = p
    · subst hq
      rw [hp]
      simp
    · have hq' : ¬ p = q := fun h => hq h.symm
      rw [if_neg hq]
      cases omap_find q fs with
      | none => simp [hq']
      | some x => rfl

theorem fs_find_fs_remove_ne (fs : disk) {p q : List Char} (h : q ≠ p) :
    fs_find (fs_remove fs p) q = fs_find fs q :=
  omap_find_erase_ne p q fs h

theorem fs_find_fold_remove_ne (V : List (Int × log_file)) (fs : disk) (q : List Char)
    (h : ∀ v ∈ V, v.2.path ≠ q) :
    fs_find (V.foldl (fun fs e => fs_remove fs e.2.path) fs) q = fs_find fs q := by
  induction V generalizing fs with
  | nil => rfl
  | cons v V ih =>
    simp only [List.foldl_cons]
    rw [ih _ (fun x hx => h x (List.mem_cons_of_mem _ hx))]
    exact fs_find_fs_remove_ne fs (fun he => h v (List.mem_cons_self _ _) he.symm)

theorem write_at_drop (content : List Nat) (pos : Nat) (data : List Nat) :
    (write_at content pos data).drop pos = data ++ content.drop (pos + data.length) := by
  unfold write_at
  have hlen : (content.take pos ++ List.replicate (pos - content.length) 0).length = pos := by
    simp only [List.length_append, List.length_take, List.length_replicate]
    omega
  rw [List.append_assoc (content.take pos ++ List.replicate (pos - content.length) 0)]
  exact List.drop_left' hlen

theorem write_at_keeps (content : List Nat) (pos : Nat) (data : List Nat) (a n : Nat)
    (w : List Nat) (hw : (content.drop a).take n = w) (hn : w.length = n)
    (hpos : a + n ≤ pos) :
    ((write_at content pos data).drop a).take n = w := by
  by_cases h0 : n = 0
  · subst h0
    rw [← hw]
    simp
  have hlen : a + n ≤ content.length := by
    have := congrArg List.length hw
    rw [hn, List.length_take, List.length_drop] at this
    omega
  unfold write_at
  rw [List.append_assoc, List.append_assoc, List.drop_append_of_le_length
    (by rw [List.length_take]; omega), List.take_append_of_le_length
    (by rw [List.length_drop, List.length_take]; omega)]
  rw [← hw, List.drop_take, List.take_take]
  congr 1
  omega

theorem write_at_length (content : List Nat) (pos : Nat) (data : List Nat)
    (h : content.length = pos) : (write_at content pos data).length = pos + data.length := by
  unfold write_at
  simp only [List.length_append, List.length_take, List.length_replicate, List.length_drop]
  omega
theorem append_dot_inj {a b a' b' : List Char} (h : a ++ '.' :: b = a' ++ '.' :: b')
    (ha : '.' ∉ a) (ha' : '.' ∉ a') : a = a' ∧ b = b' := by
  induction a generalizing a' with
  | nil =>
    cases a' with
    | nil => simpa using h
    | cons y a' =>
      simp only [List.nil_append, List.cons_append, List.cons.injEq] at h
      exact absurd (h.1 ▸ List.mem_cons_self _ _) ha'
  | cons x a ih =>
    cases a' with
    | nil =>
      simp only [List.nil_append, List.cons_append, List.cons.injEq] at h
      exact absurd (h.1 ▸ List.mem_cons_self _ _) ha
    | cons y a' =>
      simp only [List.cons_append, List.cons.injEq] at h
      obtain ⟨h1, h2⟩ := ih h.2 (fun hm => ha (List.mem_cons_of_mem _ hm))
        (fun hm => ha' (List.mem_cons_of_mem _ hm))
      exact ⟨by rw [h.1, h1], h2⟩

theorem segment_named_inj {k k' : Int} {f f' : log_file} (h : segment_named k f)
    (h' : segment_named k' f') (hp : f.path = f'.path) : k = k' := by
  obtain ⟨a, b, hn, ha, _, hk, _⟩ := h
  obtain ⟨a', b', hn', ha', _, hk', _⟩ := h'
  rw [hp, hn', List.append_assoc, List.append_assoc] at hn
  have := append_dot_inj (List.append_cancel_left hn) ha' ha
  rw [← hk, ← hk', this.1]

theorem segment_named_congr {k : Int} {f g : log_file} (h : segment_named k f)
    (hp : g.path = f.path) (hs : g.start_offset = f.start_offset) : segment_named k g := by
  obtain ⟨a, b, hn, ha, hr, hk, hst⟩ := h
  exact ⟨a, b, by rw [hp]; exact hn, ha, by rw [hp]; exact hr, hk, by rw [hs]; exact hst⟩

theorem opend_read_named {fs : disk} {path : List Char} {log : log_file}
    (h : log_file.opend_read fs path = some log) :
    segment_named log.index log ∧ fs_find fs log.path ≠ none
      ∧ log.start_offset ≤ log.end_offset := by
  obtain ⟨a, b, content, hn, ha, hr, hf, hlog⟩ := opend_read_name h
  subst hlog
  refine ⟨⟨a, b, hn, ha, hr, rfl, rfl⟩, ?_, ?_⟩
  · simp only [log_file.ctor]
    rw [hf]
    simp
  · simp only [log_file.ctor, if_true]
    omega

theorem log_path_named (dir : List Char) {k start : Int} (hk : is_int32 k)
    (hs : is_int64 start) {f : log_file} (hp : f.path = log_path dir k start)
    (hst : f.start_offset = start) : segment_named k f := by
  have hdot : '.' ∉ decimal (uint32_cast k).toNat := by
    intro hm
    obtain ⟨e, he, hd⟩ := decimal_digits _ _ hm
    exact (digit_char_spec e he).2.2.2.2.2.1 hd.symm
  refine ⟨decimal (uint32_cast k).toNat, signed_decimal start, ?_, hdot, ?_,
    atoi_decimal_uint32 k hk, ?_⟩
  · rw [hp]
    exact log_path_name dir k start
  · rw [hp]
    exact log_path_not_removed dir k start
  · rw [hst]
    exact atol_signed_decimal start hs

theorem same_segments_mem {m m' : List (Int × log_file)} (h : same_segments m m') :
    (∀ e' ∈ m', ∃ e ∈ m, e'.1 = e.1 ∧ same_segment e.2 e'.2)
    ∧ (∀ e ∈ m, ∃ e' ∈ m', e'.1 = e.1 ∧ same_segment e.2 e'.2) := by
  unfold same_segments at h
  induction h with
  | nil => simp
  | @cons a b l l' hab _ ih =>
    refine ⟨?_, ?_⟩
    · intro e' he'
      rcases List.mem_cons.1 he' with h1 | h1
      · exact ⟨a, List.mem_cons_self _ _, by rw [h1]; exact hab.1, by rw [h1]; exact hab.2⟩
      · obtain ⟨e, he, h2⟩ := ih.1 e' h1
        exact ⟨e, List.mem_cons_of_mem _ he, h2⟩
    · intro e he
      rcases List.mem_cons.1 he with h1 | h1
      · exact ⟨b, List.mem_cons_self _ _, by rw [h1]; exact hab.1, by rw [h1]; exact hab.2⟩
      · obtain ⟨e', he', h2⟩ := ih.2 e h1
        exact ⟨e', List.mem_cons_of_mem _ he', h2⟩

theorem laid_out_spec (c : core_codec) (o : Int) (mus : List mutation)
    (h : laid_out c o mus) :
    ∀ mu ∈ mus, o ≤ mu.log_offset
      ∧ mu.log_offset + (c.write_to mu).length ≤ o + ((mus.map c.write_to).flatten.length : Int)
      ∧ ∀ rest : List Nat,
          (((mus.map c.write_to).flatten ++ rest).drop (mu.log_offset - o).toNat).take
            (c.write_to mu).length = c.write_to mu := by
  induction mus generalizing o with
  | nil => simp
  | cons m mus ih =>
    obtain ⟨hm, hrest⟩ := h
    intro mu hmu
    simp only [List.map_cons, List.flatten_cons, List.length_append]
    rcases List.mem_cons.1 hmu with h1 | h1
    · subst h1
      refine ⟨by omega, by push_cast; omega, fun rest => ?_⟩
      rw [hm]
      simp only [sub_self, Int.toNat_zero, List.drop_zero, List.append_assoc]
      exact List.take_left' rfl
    · obtain ⟨a1, a2, a3⟩ := ih _ hrest mu h1
      refine ⟨by omega, by push_cast; omega, fun rest => ?_⟩
      have hsplit : (mu.log_offset - o).toNat
          = (c.write_to m).length + (mu.log_offset - (o + (c.write_to m).length)).toNat := by
        omega
      rw [hsplit, List.append_assoc, ← List.drop_drop, List.drop_left' rfl]
      exact a3 rest

theorem laid_out_append (c : core_codec) (o : Int) (mus : List mutation) (mu : mutation)
    (h : laid_out c o mus)
    (hmu : mu.log_offset = o + ((mus.map c.write_to).flatten.length : Int)) :
    laid_out c o (mus ++ [mu]) := by
  induction mus generalizing o with
  | nil =>
    simp only [List.map_nil, List.flatten_nil, List.length_nil, Int.ofNat_zero, add_zero,
      CharP.cast_eq_zero] at hmu
    exact ⟨hmu, trivial⟩
  | cons m mus ih =>
    obtain ⟨hm, hrest⟩ := h
    refine ⟨hm, ih _ hrest ?_⟩
    simp only [List.map_cons, List.flatten_cons, List.length_append] at hmu
    rw [hmu]
    push_cast
    ring
theorem disk_inv_congr {c : core_codec} {s s' : mutation_log}
    (h1 : s'.log_files = s.log_files) (h2 : s'.fs = s.fs)
    (h3 : s'.pending_write = s.pending_write)
    (h4 : s'.pending_mutations = s.pending_mutations)
    (h5 : s'.global_end_offset = s.global_end_offset)
    (h6 : s'.last_file_number = s.last_file_number)
    (h7 : s'.current_log_file = s.current_log_file ∨ s'.current_log_file = none)
    (h : disk_inv c s) : disk_inv c s' := by
  obtain ⟨hw, hd, hl, hp⟩ := h
  refine ⟨segments_wf_congr (by rw [h1]) (by rw [h1]; exact hw.2.1) h6 h7 hw, ?_, ?_, ?_⟩
  · intro e he
    rw [h1] at he
    rw [h2]
    exact hd e he
  · unfold pending_layout at hl ⊢
    rw [h3, h4, h5]
    exact hl
  · intro e he mu hmu
    rw [h1] at he
    unfold placed
    rw [h2]
    exact hp e he mu hmu

theorem placed_of_find {c : core_codec} {fs fs' : disk} {f g : log_file} {mu : mutation}
    (h : placed c fs f mu) (hp : g.path = f.path) (hs : g.start_offset = f.start_offset)
    (he : f.end_offset ≤ g.end_offset) (hf : fs_find fs' f.path = fs_find fs f.path) :
    placed c fs' g mu := by
  obtain ⟨a1, a2, content, a3, a4⟩ := h
  exact ⟨by rw [hs]; exact a1, by omega, content, by rw [hp, hf]; exact a3,
    by rw [hs]; exact a4⟩

theorem disk_inv_with_new_segment (c : core_codec) {s : mutation_log} (h : disk_inv c s)
    (hpw : s.pending_write = none) (h32 : is_int32 (s.last_file_number + 1))
    (h64 : is_int64 s.global_end_offset) : disk_inv c (with_new_segment c s) := by
  obtain ⟨hw, hd, hl, hp⟩ := h
  have hfiles := with_new_segment_log_files c hw
  have hfs : (with_new_segment c s).fs
      = fs_create s.fs (log_path s.dir (s.last_file_number + 1) s.global_end_offset) := rfl
  have hkeep : ∀ q, fs_find s.fs q ≠ none →
      fs_find (with_new_segment c s).fs q = fs_find s.fs q := by
    intro q hq
    rw [hfs, fs_find_fs_create]
    split
    · rename_i h1
      subst h1
      cases hf : fs_find s.fs (log_path s.dir (s.last_file_number + 1) s.global_end_offset) with
      | none => exact absurd hf hq
      | some x => rfl
    · rfl
  have hnew : ∀ e, e = (s.last_file_number + 1,
      ((fresh_segment s).write_header (message.create_request c) s.init_prepared_decrees
        (int_cast s.log_buffer_size_bytes)).1) →
      e.2.path = log_path s.dir (s.last_file_number + 1) s.global_end_offset
      ∧ e.2.start_offset = s.global_end_offset ∧ e.2.end_offset = s.global_end_offset
      ∧ e.2.mutations = [] := by
    intro e he
    subst he
    simp [log_file.write_header, fresh_segment, log_file.ctor]
  have hpm : s.pending_mutations = [] := by
    unfold pending_layout at hl
    rw [hpw] at hl
    exact hl
  refine ⟨segments_wf_with_new_segment c hw, ?_, ?_, ?_⟩
  · intro e he
    rw [hfiles] at he
    simp only [List.mem_append, List.mem_singleton] at he
    rcases he with he | he
    · obtain ⟨a1, a2, a3⟩ := hd e he
      exact ⟨a1, by rw [hkeep _ a2]; exact a2, a3⟩
    · obtain ⟨b1, b2, b3, _⟩ := hnew e he
      refine ⟨?_, ?_, by rw [b2, b3]⟩
      · have hk : e.1 = s.last_file_number + 1 := by rw [he]
        rw [hk]
        exact log_path_named s.dir h32 h64 b1 b2
      · rw [hfs, fs_find_fs_create, b1]
        simp
  · unfold pending_layout
    have hpw' : (with_new_segment c s).pending_write
        = some ((fresh_segment s).write_header (message.create_request c)
            s.init_prepared_decrees (int_cast s.log_buffer_size_bytes)).2.1 := rfl
    have hpm' : (with_new_segment c s).pending_mutations = [] := hpm
    rw [hpw', hpm']
    refine ⟨((fresh_segment s).write_header (message.create_request c)
      s.init_prepared_decrees (int_cast s.log_buffer_size_bytes)).2.1.body, by simp, ?_⟩
    simp [laid_out]
  · intro e he mu hmu
    rw [hfiles] at he
    simp only [List.mem_append, List.mem_singleton] at he
    rcases he with he | he
    · exact placed_of_find (hp e he mu hmu) rfl rfl (le_refl _) (hkeep _ (hd e he).2.1)
    · rw [(hnew e he).2.2.2] at hmu
      simp at hmu
theorem disk_inv_after_flush (c : core_codec) (io : io_env) {s : mutation_log} {k : Int}
    {cur : log_file} {pw : message} (cbs : List Nat) (h : disk_inv c s)
    (hcur : s.file k = some cur) (hpw : s.pending_write = some pw)
    (hgeo : cur.end_offset + (c.MSG_HDR_SERIALIZED_SIZE + pw.body.length : Nat)
      = s.global_end_offset) :
    disk_inv c (after_flush c io s k cur pw cbs) := by
  obtain ⟨hw, hd, hl, hp⟩ := h
  have hkm : (k, cur) ∈ s.log_files := omap_find_mem hcur
  obtain ⟨hcn, hcf, hcs⟩ := hd (k, cur) hkm
  simp only at hcn hcf hcs
  have hne : ∀ e ∈ s.log_files, e.1 ≠ k → e.2.path ≠ cur.path := by
    intro e he hek hpath
    exact hek (segment_named_inj (hd e he).1 hcn hpath)
  obtain ⟨content, hcontent⟩ : ∃ content, fs_find s.fs cur.path = some content := by
    cases hf : fs_find s.fs cur.path with
    | none => exact absurd hf hcf
    | some x => exact ⟨x, rfl⟩
  unfold pending_layout at hl
  rw [hpw] at hl
  obtain ⟨pre, hbody, hlaid⟩ := hl
  have hlen : (pw.body.length : Int)
      = pre.length + ((s.pending_mutations.map c.write_to).flatten.length : Int) := by
    rw [hbody, List.length_append]
    push_cast
    rfl
  have hfsne : ∀ q, q ≠ cur.path → fs_find (after_flush c io s k cur pw cbs).fs q
      = fs_find s.fs q := by
    intro q hq
    simp only [after_flush]
    split
    · rw [fs_find_fs_write, if_neg hq]
    · rfl
  have hfscur : fs_find (after_flush c io s k cur pw cbs).fs cur.path
      = if io.issue_ok = true then
          some (write_at content (cur.end_offset - cur.start_offset).toNat
            (c.seal_hdr pw.body ++ pw.body))
        else some content := by
    simp only [after_flush]
    split
    · rw [fs_find_fs_write, if_pos rfl, hcontent]
      rfl
    · exact hcontent
  have hmem : ∀ e ∈ (after_flush c io s k cur pw cbs).log_files,
      (e ∈ s.log_files ∧ e.1 ≠ k)
      ∨ (e.1 = k ∧ e.2.path = cur.path ∧ e.2.start_offset = cur.start_offset
          ∧ e.2.end_offset = s.global_end_offset
          ∧ ∀ mu ∈ e.2.mutations, mu ∈ cur.mutations
              ∨ (io.issue_ok = true ∧ mu ∈ s.pending_mutations)) := by
    intro e he
    simp only [after_flush] at he
    rcases mem_set_file he with h1 | ⟨h1, _⟩
    · exact Or.inl h1
    · right
      subst h1
      by_cases hio : io.issue_ok = true
      · simp only [hio, if_true]
        refine ⟨trivial, trivial, trivial, trivial, ?_⟩
        intro mu hmu
        rcases List.mem_append.1 hmu with h2 | h2
        · exact Or.inl h2
        · exact Or.inr ⟨trivial, h2⟩
      · simp only [hio, Bool.false_eq_true, if_false]
        exact ⟨trivial, trivial, trivial, trivial, fun mu hmu => Or.inl hmu⟩
  refine ⟨segments_wf_after_flush c io pw cbs hw hcur, ?_, ?_, ?_⟩
  · intro e he
    rcases hmem e he with ⟨h1, h1k⟩ | ⟨h1, h2, h3, h4, _⟩
    · obtain ⟨a1, a2, a3⟩ := hd e h1
      exact ⟨a1, by rw [hfsne _ (hne e h1 h1k)]; exact a2, a3⟩
    · refine ⟨?_, ?_, ?_⟩
      · rw [h1]
        exact segment_named_congr hcn h2 h3
      · rw [h2, hfscur]
        split <;> simp
      · rw [h3, h4]
        omega
  · simp [pending_layout, after_flush]
  · intro e he mu hmu
    rcases hmem e he with ⟨h1, h1k⟩ | ⟨h1, h2, h3, h4, h5⟩
    · exact placed_of_find (hp e h1 mu hmu) rfl rfl (le_refl _) (hfsne _ (hne e h1 h1k))
    · rcases h5 mu hmu with h6 | ⟨hio, h6⟩
      · obtain ⟨a1, a2, ct, a3, a4⟩ := hp (k, cur) hkm mu h6
        simp only at a1 a2 a3 a4
        rw [hcontent] at a3
        simp only [Option.some.injEq] at a3
        subst a3
        refine ⟨by rw [h3]; exact a1, by rw [h4]; omega, ?_⟩
        rw [h2, hfscur, h3]
        split
        · exact ⟨_, rfl, write_at_keeps _ _ _ _ _ _ a4 rfl (by omega)⟩
        · exact ⟨_, rfl, a4⟩
      · obtain ⟨b1, b2, b3⟩ := laid_out_spec c _ _ hlaid mu h6
        refine ⟨by rw [h3]; omega, by rw [h4]; omega, ?_⟩
        rw [h2, hfscur, h3, if_pos hio]
        refine ⟨_, rfl, ?_⟩
        have hpos : (mu.log_offset - cur.start_offset).toNat
            = (cur.end_offset - cur.start_offset).toNat
              + ((c.seal_hdr pw.body ++ pre).length
                + (mu.log_offset - (s.global_end_offset
                    - ((s.pending_mutations.map c.write_to).flatten.length : Int))).toNat) := by
          rw [List.length_append, c.seal_length]
          omega
        rw [hpos, ← List.drop_drop, write_at_drop, hbody]
        have hcat : c.seal_hdr (pre ++ (s.pending_mutations.map c.write_to).flatten)
              ++ (pre ++ (s.pending_mutations.map c.write_to).flatten)
              ++ List.drop ((cur.end_offset - cur.start_offset).toNat
                  + (c.seal_hdr (pre ++ (s.pending_mutations.map c.write_to).flatten)
                      ++ (pre ++ (s.pending_mutations.map c.write_to).flatten)).length) content
            = (c.seal_hdr (pre ++ (s.pending_mutations.map c.write_to).flatten) ++ pre)
              ++ ((s.pending_mutations.map c.write_to).flatten
                ++ List.drop ((cur.end_offset - cur.start_offset).toNat
                  + (c.seal_hdr (pre ++ (s.pending_mutations.map c.write_to).flatten)
                      ++ (pre ++ (s.pending_mutations.map c.write_to).flatten)).length)
                    content) := by
          simp only [List.append_assoc]
        rw [hcat, ← List.drop_drop, List.drop_left' rfl]
        exact b3 _
theorem disk_inv_with_appended (c : core_codec) {s : mutation_log} (mu : mutation)
    (cb : Nat) {pw : message} (cbs : List Nat) (h : disk_inv c s)
    (hpw : (with_buffer c s mu).pending_write = some pw) :
    disk_inv c (with_appended c s mu cb pw cbs) := by
  obtain ⟨hw, hd, hl, hp⟩ := h
  have hf := with_appended_fields c s mu cb pw cbs
  refine ⟨segments_wf_with_appended c mu cb pw cbs hw, ?_, ?_, ?_⟩
  · intro e he
    rw [hf.2.2.2.2.2.2.1] at he
    rw [hf.2.2.2.2.2.1]
    exact hd e he
  · unfold pending_layout
    rw [hf.2.2.1, hf.2.1, hf.1]
    simp only [List.map_append, List.map_cons, List.map_nil, List.flatten_append,
      List.flatten_cons, List.flatten_nil, List.append_nil, List.length_append]
    unfold pending_layout at hl
    unfold with_buffer at hpw
    have hoff := with_buffer_offset c s mu
    cases hs : s.pending_write with
    | none =>
      rw [hs] at hl hpw hoff
      simp only [Option.isNone_none, if_true, Option.some.injEq] at hpw hoff
      rw [hl]
      refine ⟨[], ?_, ?_⟩
      · rw [← hpw]
        simp [message.create_request]
      · simp only [List.map_nil, List.flatten_nil, List.length_nil, List.nil_append,
          Nat.zero_add, laid_out, and_true]
        ring
    | some pw0 =>
      rw [hs] at hl hpw hoff
      simp only [Option.isNone_some, Bool.false_eq_true, if_false, Option.some.injEq,
        add_zero] at hpw hoff
      obtain ⟨pre, hbody, hlaid⟩ := hl
      refine ⟨pre, ?_, ?_⟩
      · rw [← hpw, hbody, List.append_assoc]
      · have ho : (with_buffer c s mu).global_end_offset
            + ((c.write_to { mu with
                log_offset := (with_buffer c s mu).global_end_offset }).length : Int)
            - (((s.pending_mutations.map c.write_to).flatten.length
                + (c.write_to { mu with
                    log_offset := (with_buffer c s mu).global_end_offset }).length : Nat) : Int)
            = s.global_end_offset
              - ((s.pending_mutations.map c.write_to).flatten.length : Int) := by
          rw [hoff]
          push_cast
          ring
        rw [ho]
        apply laid_out_append c _ _ _ hlaid
        simp only
        rw [hoff]
        ring
  · intro e he x hx
    rw [hf.2.2.2.2.2.2.1] at he
    unfold placed
    rw [hf.2.2.2.2.2.1]
    exact hp e he x hx

theorem disk_inv_create_new_log_file {c : core_codec} {io : io_env} {s s' : mutation_log}
    {e : error_code} (h : disk_inv c s)
    (hc : s.create_new_log_file c io = some (e, s')) : disk_inv c s' := by
  obtain ⟨_, h32, h64, ⟨_, _, hs'⟩ | ⟨_, _, _, hpw, _, _, hs'⟩⟩ := create_new_log_file_some hc
  · rw [hs']
    exact disk_inv_congr rfl rfl rfl rfl rfl rfl (Or.inl rfl) h
  · rw [hs']
    exact disk_inv_with_new_segment c h hpw h32 h64

theorem disk_inv_write_pending_mutations {c : core_codec} {io : io_env}
    {s s' : mutation_log} {e : error_code} {b : Bool} (h : disk_inv c s)
    (hw : s.write_pending_mutations c io b = some (e, s')) : disk_inv c s' := by
  obtain ⟨pw, cbs, k, cur, hpw, _, _, _, hcur, _, hgeo, hcase⟩ :=
    write_pending_mutations_some hw
  have hf := disk_inv_after_flush c io cbs h hcur hpw hgeo
  rcases hcase with ⟨_, _, hs'⟩ | ⟨_, _, _, hs'⟩ | ⟨_, _, _, hs'⟩
  · rw [hs']; exact hf
  · rw [hs']; exact hf
  · exact disk_inv_create_new_log_file hf hs'

theorem disk_inv_clear_timer {c : core_codec} {s : mutation_log} (h : disk_inv c s) :
    disk_inv c s.clear_timer :=
  disk_inv_congr rfl rfl rfl rfl rfl rfl (Or.inl rfl) h

theorem disk_inv_append {c : core_codec} {io : io_env} {s s' : mutation_log}
    {mu mu' : mutation} {cb : Nat} (h : disk_inv c s)
    (ha : s.append c io mu cb = some (mu', s')) : disk_inv c s' := by
  obtain ⟨_, pw, cbs, hpw, _, _, hfl⟩ := append_some ha
  have h3 := disk_inv_with_appended c mu cb cbs h hpw
  obtain ⟨_, ⟨_, e, hw⟩ | ⟨_, _, _, _, e, hw⟩ | ⟨_, hs', _⟩⟩ := flush_after_append_some hfl
  · exact disk_inv_write_pending_mutations h3 hw
  · exact disk_inv_write_pending_mutations (disk_inv_clear_timer h3) hw
  · rw [hs']; exact h3

theorem disk_inv_timer {c : core_codec} {io : io_env} {s s' : mutation_log}
    {e : error_code} (h : disk_inv c s)
    (ht : s.internal_pending_write_timer c io = some (e, s')) : disk_inv c s' := by
  unfold mutation_log.internal_pending_write_timer at ht
  split at ht
  · simp at ht
  · split at ht
    · simp at ht
    · exact disk_inv_write_pending_mutations (disk_inv_clear_timer h) ht

theorem disk_inv_start_write_service {c : core_codec} {io : io_env}
    {s s' : mutation_log} {e : error_code} {init : multi_partition_decrees} {st : Int}
    (h : disk_inv c s) (hs : s.start_write_service c io init st = some (e, s')) :
    disk_inv c s' := by
  unfold mutation_log.start_write_service at hs
  simp only at hs
  split at hs
  · simp at hs
  · refine disk_inv_create_new_log_file ?_ hs
    exact disk_inv_congr (s := s) rfl rfl rfl rfl rfl rfl (Or.inl rfl) h

theorem disk_inv_set_file_same {c : core_codec} {s s' : mutation_log} {k : Int}
    {cur f : log_file} (h : disk_inv c s) (hcur : s.file k = some cur)
    (hf : same_segment cur f) (h1 : s'.log_files = set_file k f s.log_files)
    (h2 : s'.fs = s.fs) (h3 : s'.pending_write = s.pending_write)
    (h4 : s'.pending_mutations = s.pending_mutations)
    (h5 : s'.global_end_offset = s.global_end_offset)
    (h6 : s'.last_file_number = s.last_file_number)
    (h7 : s'.current_log_file = s.current_log_file ∨ s'.current_log_file = none) :
    disk_inv c s' := by
  obtain ⟨hw, hd, hl, hp⟩ := h
  have hkm : (k, cur) ∈ s.log_files := omap_find_mem hcur
  have hmem : ∀ e ∈ s'.log_files, ∃ e0 ∈ s.log_files, e.1 = e0.1 ∧ same_segment e0.2 e.2 := by
    intro e he
    rw [h1] at he
    rcases mem_set_file he with ⟨a1, _⟩ | ⟨a1, _⟩
    · exact ⟨e, a1, rfl, same_segment_refl _⟩
    · exact ⟨(k, cur), hkm, by rw [a1], by rw [a1]; exact hf⟩
  refine ⟨segments_wf_set_file hw hcur (by rw [hf.2.1]) h1 h6 h7, ?_, ?_, ?_⟩
  · intro e he
    obtain ⟨e0, he0, hk, hs⟩ := hmem e he
    obtain ⟨a1, a2, a3⟩ := hd e0 he0
    refine ⟨?_, ?_, ?_⟩
    · rw [hk]
      exact segment_named_congr a1 hs.1 hs.2.2.1
    · rw [h2, hs.1]
      exact a2
    · rw [hs.2.2.1, hs.2.2.2.1]
      exact a3
  · unfold pending_layout at hl ⊢
    rw [h3, h4, h5]
    exact hl
  · intro e he mu hmu
    obtain ⟨e0, he0, hk, hs⟩ := hmem e he
    rw [hs.2.2.2.2.2] at hmu
    exact placed_of_find (hp e0 he0 mu hmu) hs.1 hs.2.2.1 (le_of_eq hs.2.2.2.1.symm)
      (by rw [h2])

theorem disk_inv_close_current {c : core_codec} {s : mutation_log} (h : disk_inv c s) :
    disk_inv c s.close_current := by
  unfold mutation_log.close_current
  split
  · exact h
  · split
    · exact disk_inv_congr (s := s) rfl rfl rfl rfl rfl rfl (Or.inr rfl) h
    · rename_i k _ cur hcur
      exact disk_inv_set_file_same h hcur (f := cur.close) ⟨rfl, rfl, rfl, rfl, rfl, rfl⟩
        rfl rfl rfl rfl rfl rfl (Or.inr rfl)

theorem disk_inv_close {c : core_codec} (ios : List io_env) {s s' : mutation_log}
    (h : disk_inv c s) (hc : s.close c ios = some s') : disk_inv c s' := by
  induction ios generalizing s with
  | nil =>
    unfold mutation_log.close at hc
    split at hc
    · simp at hc
    · simp only [Option.some.injEq] at hc
      rw [← hc]
      exact disk_inv_close_current h
  | cons io rest ih =>
    unfold mutation_log.close at hc
    split at hc
    · split at hc
      · split at hc
        · simp at hc
        · rename_i r hr
          split at hc
          · simp at hc
          · simp only [Option.some.injEq] at hc
            rw [← hc]
            exact disk_inv_close_current
              (disk_inv_write_pending_mutations (disk_inv_clear_timer h) hr)
      · split at hc
        · simp at hc
        · rename_i r hr
          exact ih (disk_inv_timer h hr) hc
    · simp only [Option.some.injEq] at hc
      rw [← hc]
      exact disk_inv_close_current h
theorem initialize_log_files {s s1 : mutation_log} {dir : List Char}
    (h : initialize_log s dir true = some (ERR_OK, s1)) :
    (∀ e ∈ s1.log_files, ∃ p ∈ list_dir s.fs dir,
        log_file.opend_read s.fs p = some e.2 ∧ e.2.index = e.1)
    ∧ (∀ p ∈ list_dir s.fs dir, ∀ log, log_file.opend_read s.fs p = some log →
        (log.index, log) ∈ s1.log_files)
    ∧ s1.fs = s.fs ∧ s1.pending_write = s.pending_write
    ∧ s1.pending_mutations = s.pending_mutations ∧ s1.dir = dir
    ∧ s1.current_log_file = s.current_log_file := by
  obtain ⟨files0, hload, hr⟩ := initialize_log_load h
  rcases load_log_files_spec s.fs (list_dir s.fs dir) [] (by simp [omap_sorted]) with
    ⟨files, h1, _, hmem, _⟩ | ⟨h1, _⟩
  swap
  · rw [h1] at hload; simp at hload
  rw [h1] at hload
  simp only [Option.some.injEq] at hload
  subst hload
  simp only [List.not_mem_nil, false_or] at hmem
  have hseg : ∀ e ∈ files, ∃ p ∈ list_dir s.fs dir,
      log_file.opend_read s.fs p = some e.2 ∧ e.2.index = e.1 := by
    intro e he
    obtain ⟨log, hlog, rfl⟩ := (hmem e).1 he
    obtain ⟨p, hp, hop⟩ := List.mem_filterMap.1 hlog
    exact ⟨p, hp, hop, rfl⟩
  have hall : ∀ p ∈ list_dir s.fs dir, ∀ log, log_file.opend_read s.fs p = some log →
      (log.index, log) ∈ files := by
    intro p hp log hlog
    exact (hmem _).2 ⟨log, List.mem_filterMap.2 ⟨p, hp, hlog⟩, rfl⟩
  cases files with
  | nil =>
    simp only [check_log_files, Prod.mk.injEq, true_and] at hr
    rw [hr]
    exact ⟨by simp, by simpa using hall, rfl, rfl, rfl, rfl, rfl⟩
  | cons e files =>
    obtain ⟨k, f⟩ := e
    simp only at hr
    rcases check_log_files_spec ((k, f) :: files)
        { s with dir := dir, log_files := (k, f) :: files, last_file_number := k - 1,
                 global_start_offset := f.start_offset } with ⟨_, hck⟩ | ⟨_, hck⟩
    · rw [hck] at hr
      simp only [Prod.mk.injEq, true_and] at hr
      rw [hr]
      exact ⟨hseg, hall, rfl, rfl, rfl, rfl, rfl⟩
    · rw [← hr] at hck
      simp at hck

theorem disk_inv_initialize_log {c : core_codec} {s s1 : mutation_log} {dir : List Char}
    (hc : s.current_log_file = none) (hpw : s.pending_write = none)
    (hpm : s.pending_mutations = [])
    (h : initialize_log s dir true = some (ERR_OK, s1)) : disk_inv c s1 := by
  obtain ⟨hfiles, _, hfs, hpw1, hpm1, _, _⟩ := initialize_log_files h
  refine ⟨segments_wf_initialize_log hc h, ?_, ?_, ?_⟩
  · intro e he
    obtain ⟨p, _, hop, hidx⟩ := hfiles e he
    obtain ⟨a1, a2, a3⟩ := opend_read_named hop
    exact ⟨by rw [← hidx]; exact a1, by rw [hfs]; exact a2, a3⟩
  · unfold pending_layout
    rw [hpw1, hpw]
    simp only
    rw [hpm1, hpm]
  · intro e he mu hmu
    obtain ⟨p, _, hop, _⟩ := hfiles e he
    rw [(opend_read_index_path hop).2.2.1] at hmu
    simp at hmu

theorem disk_inv_replay (c : core_codec) {s : mutation_log} (h : disk_inv c s)
    (hpw : s.pending_write = none) : disk_inv c (s.replay c).log := by
  obtain ⟨hw, hd, hl, hp⟩ := h
  have hf := replay_fields c s
  have hsame := (same_segments_mem (replay_files_same c s.fs s.log_files ERR_OK
    s.last_log_file ⟨s.start_offset, [], []⟩)).1
  have hpm : (s.replay c).log.pending_mutations = s.pending_mutations := by
    unfold mutation_log.replay
    simp only
    split
    · rfl
    · rfl
    · split
      · split
        · rfl
        · split <;> rfl
      · split
        · split <;> rfl
        · rfl
  refine ⟨segments_wf_replay c hw, ?_, ?_, ?_⟩
  · intro e he
    rw [hf.2.2.2.1] at he
    obtain ⟨e0, he0, hk, hs⟩ := hsame e he
    obtain ⟨a1, a2, a3⟩ := hd e0 he0
    refine ⟨?_, ?_, ?_⟩
    · rw [hk]
      exact segment_named_congr a1 hs.1 hs.2.2.1
    · rw [hf.2.2.2.2.2.1, hs.1]
      exact a2
    · rw [hs.2.2.1, hs.2.2.2.1]
      exact a3
  · unfold pending_layout at hl ⊢
    rw [hf.2.2.2.2.2.2.2.2.2.2.1, hpw]
    rw [hpw] at hl
    simp only at hl ⊢
    rw [hpm]
    exact hl
  · intro e he mu hmu
    rw [hf.2.2.2.1] at he
    obtain ⟨e0, he0, hk, hs⟩ := hsame e he
    rw [hs.2.2.2.2.2] at hmu
    exact placed_of_find (hp e0 he0 mu hmu) hs.1 hs.2.2.1 (le_of_eq hs.2.2.2.1.symm)
      (by rw [hf.2.2.2.2.2.1])

theorem disk_inv_garbage_collection {c : core_codec} {s : mutation_log}
    (D : multi_partition_decrees) (h : disk_inv c s) :
    disk_inv c (s.garbage_collection D).2 := by
  obtain ⟨hw, hd, hl, hp⟩ := h
  have hsorted := segments_wf_sorted hw
  have hfiles := garbage_collection_log_files s D
  have hfs := garbage_collection_fs s D
  have hrest : (s.garbage_collection D).2.pending_write = s.pending_write
      ∧ (s.garbage_collection D).2.pending_mutations = s.pending_mutations
      ∧ (s.garbage_collection D).2.global_end_offset = s.global_end_offset := by
    simp [mutation_log.garbage_collection, gc_fold_eq]
  have hkept : ∀ e ∈ (s.garbage_collection D).2.log_files,
      e ∈ s.log_files ∧ fs_find (s.garbage_collection D).2.fs e.2.path
        = fs_find s.fs e.2.path := by
    intro e he
    rw [hfiles] at he
    obtain ⟨he1, he2⟩ := List.mem_filter.1 he
    simp only [decide_eq_true_eq] at he2
    refine ⟨he1, ?_⟩
    rw [hfs]
    apply fs_find_fold_remove_ne
    intro v hv hpath
    have hvm := (gc_victims_subset s D hsorted v hv).1
    have := segment_named_inj (hd v hvm).1 (hd e he1).1 hpath
    exact he2 (this ▸ List.mem_map_of_mem Prod.fst hv)
  refine ⟨(segments_wf_garbage_collection D hw).1, ?_, ?_, ?_⟩
  · intro e he
    obtain ⟨he1, hfind⟩ := hkept e he
    obtain ⟨a1, a2, a3⟩ := hd e he1
    exact ⟨a1, by rw [hfind]; exact a2, a3⟩
  · unfold pending_layout at hl ⊢
    rw [hrest.1, hrest.2.1, hrest.2.2]
    exact hl
  · intro e he mu hmu
    obtain ⟨he1, hfind⟩ := hkept e he
    exact placed_of_find (hp e he1 mu hmu) rfl rfl (le_refl _) hfind
theorem disk_inv_ctor (c : core_codec) (a b d : Int) (batch : Bool) (w : Int) (fs : disk) :
    disk_inv c (mutation_log.ctor a b d batch w fs) := by
  refine ⟨segments_wf_ctor a b d batch w fs, ?_, ?_, ?_⟩
  · intro e he
    simp [mutation_log.ctor] at he
  · simp [pending_layout, mutation_log.ctor]
  · intro e he
    simp [mutation_log.ctor] at he

theorem disk_inv_apply_op {c : core_codec} {s s' : mutation_log} {op : log_op}
    (h : disk_inv c s) (hop : op = log_op.replay → s.pending_write = none)
    (ho : apply_op c s op = some s') :
    disk_inv c s'
    ∧ ((op = log_op.replay ∨ ∃ a b d batch w dir, op = log_op.open_log a b d batch w dir) →
        s'.pending_write = none) := by
  cases op with
  | open_log bmb pms fmb batch wt dir =>
    simp only [apply_op] at ho
    split at ho
    · simp at ho
    · split at ho
      · rename_i s1 hinit
        simp only [Option.some.injEq] at ho
        rw [← ho]
        refine ⟨disk_inv_initialize_log (by simp [mutation_log.ctor])
          (by simp [mutation_log.ctor]) (by simp [mutation_log.ctor]) hinit, fun _ => ?_⟩
        rw [(initialize_log_files hinit).2.2.2.1]
        rfl
      · simp at ho
  | replay =>
    simp only [apply_op] at ho
    split at ho
    · simp at ho
    · simp only [Option.some.injEq] at ho
      rw [← ho]
      refine ⟨disk_inv_replay c h (hop rfl), fun _ => ?_⟩
      rw [(replay_fields c s).2.2.2.2.2.2.2.2.2.2.1]
      exact hop rfl
  | start_write_service io init st =>
    simp only [apply_op] at ho
    obtain ⟨r, hr, hs'⟩ := Option.map_eq_some'.1 ho
    rw [← hs']
    exact ⟨disk_inv_start_write_service h (e := r.1) (by rw [hr]), by simp⟩
  | append io mu cb =>
    simp only [apply_op] at ho
    obtain ⟨r, hr, hs'⟩ := Option.map_eq_some'.1 ho
    rw [← hs']
    have hr' : s.append c io mu cb = some (r.1, r.2) := by rw [hr]
    exact ⟨disk_inv_append h hr', by simp⟩
  | timer io =>
    simp only [apply_op] at ho
    obtain ⟨r, hr, hs'⟩ := Option.map_eq_some'.1 ho
    rw [← hs']
    exact ⟨disk_inv_timer h (e := r.1) (by rw [hr]), by simp⟩
  | on_partition_removed g =>
    simp only [apply_op, Option.some.injEq] at ho
    rw [← ho]
    exact ⟨disk_inv_congr (s := s) rfl rfl rfl rfl rfl rfl (Or.inl rfl) h, by simp⟩
  | garbage_collection D =>
    simp only [apply_op, Option.some.injEq] at ho
    rw [← ho]
    exact ⟨disk_inv_garbage_collection D h, by simp⟩
  | close ios =>
    simp only [apply_op] at ho
    exact ⟨disk_inv_close ios h ho, by simp⟩

theorem disk_inv_run_ops {c : core_codec} (ops : List log_op) (ok : Bool)
    {s s' : mutation_log} (hops : replays_follow_open ok ops) (h : disk_inv c s)
    (hok : ok = true → s.pending_write = none) (hr : run_ops c ops s = some s') :
    disk_inv c s' := by
  induction ops generalizing s ok with
  | nil =>
    simp only [run_ops, Option.some.injEq] at hr
    exact hr ▸ h
  | cons op ops ih =>
    simp only [run_ops] at hr
    split at hr
    · simp at hr
    · rename_i s1 hs1
      cases op with
      | replay =>
        obtain ⟨hk, hrest⟩ := hops
        have := disk_inv_apply_op h (fun _ => hok hk) hs1
        exact ih true hrest this.1 (fun _ => this.2 (Or.inl rfl)) hr
      | open_log bmb pms fmb batch wt dir =>
        have := disk_inv_apply_op h (by simp) hs1
        exact ih true hops this.1
          (fun _ => this.2 (Or.inr ⟨bmb, pms, fmb, batch, wt, dir, rfl⟩)) hr
      | start_write_service io init st =>
        exact ih false hops (disk_inv_apply_op h (by simp) hs1).1 (by simp) hr
      | append io mu cb =>
        exact ih false hops (disk_inv_apply_op h (by simp) hs1).1 (by simp) hr
      | timer io =>
        exact ih false hops (disk_inv_apply_op h (by simp) hs1).1 (by simp) hr
      | on_partition_removed g =>
        exact ih false hops (disk_inv_apply_op h (by simp) hs1).1 (by simp) hr
      | garbage_collection D =>
        exact ih false hops (disk_inv_apply_op h (by simp) hs1).1 (by simp) hr
      | close ios =>
        exact ih false hops (disk_inv_apply_op h (by simp) hs1).1 (by simp) hr

/-- C12: in every run (where `replay` is called right after `initialize`), every mutation
that a flush has written to a segment lies in the file of that segment at the position
`log_offset - start_offset`: the bytes from there on are the serialized mutation, and they
end before the end offset of the segment. -/
theorem flush_places_mutation_at_log_offset (c : core_codec) (a b d : Int) (batch : Bool)
    (w : Int) (fs : disk) (ops : List log_op) (s : mutation_log)
    (hops : replays_follow_open false ops)
    (hr : run_ops c ops (mutation_log.ctor a b d batch w fs) = some s) :
    ∀ e ∈ s.log_files, ∀ mu ∈ e.2.mutations,
      e.2.start_offset ≤ mu.log_offset
      ∧ mu.log_offset + (c.write_to mu).length ≤ e.2.end_offset
      ∧ ∃ content, fs_find s.fs e.2.path = some content
          ∧ (content.drop (mu.log_offset - e.2.start_offset).toNat).take
              (c.write_to mu).length = c.write_to mu :=
  (disk_inv_run_ops ops false hops (disk_inv_ctor c a b d batch w fs) (by simp) hr).2.2.2

set_option maxRecDepth 1000000 in
theorem flush_places_mutation_at_log_offset_witness :
    replays_follow_open false gc_example_ops
    ∧ run_ops sample_codec gc_example_ops (mutation_log.ctor 1 100 0 false 2 [])
        = some gc_example_log
    ∧ (gc_example_log.log_files.map fun e =>
        (e.2.start_offset, e.2.mutations.map mutation.log_offset)) = [(0, [56]), (94, [150]), (188, [])]
    ∧ ∀ e ∈ gc_example_log.log_files, ∀ mu ∈ e.2.mutations,
      e.2.start_offset ≤ mu.log_offset
      ∧ mu.log_offset + (sample_codec.write_to mu).length ≤ e.2.end_offset
      ∧ ∃ content, fs_find gc_example_log.fs e.2.path = some content
          ∧ (content.drop (mu.log_offset - e.2.start_offset).toNat).take
              (sample_codec.write_to mu).length = sample_codec.write_to mu :=
  have h1 : replays_follow_open false gc_example_ops := by
    simp [gc_example_ops, replays_follow_open]
  have h2 : run_ops sample_codec gc_example_ops (mutation_log.ctor 1 100 0 false 2 [])
      = some gc_example_log := by decide
  ⟨h1, h2, by decide,
    flush_places_mutation_at_log_offset sample_codec 1 100 0 false 2 [] gc_example_ops
      gc_example_log h1 h2⟩

/-! ## Segments of consecutive indices -/

theorem dir_entry_log_path (d : List Char) (k start : Int) :
    (dir_entry_name d (log_path d k start)).isSome = true := by
  have hp : log_path d k start
      = (d ++ ['/']) ++ ("log.".toList ++ decimal (uint32_cast k).toNat
          ++ '.' :: signed_decimal start) := by
    unfold log_path
    simp
  have hname := log_path_name d k start
  unfold dir_entry_name
  have hpre : (d ++ ['/']).isPrefixOf (log_path d k start) = true := by
    rw [List.isPrefixOf_iff_prefix, hp]
    exact List.prefix_append _ _
  rw [if_pos hpre]
  have hdrop : (log_path d k start).drop (d.length + 1)
      = "log.".toList ++ decimal (uint32_cast k).toNat ++ '.' :: signed_decimal start := by
    rw [hp]
    exact List.drop_left' (by simp)
  simp only [hdrop]
  rw [if_pos]
  · rfl
  · refine ⟨by simp, ?_⟩
    intro hc
    have hmem : '/' ∈ "log.".toList ++ decimal (uint32_cast k).toNat
        ++ '.' :: signed_decimal start := by simpa using hc
    simp only [List.mem_append, List.mem_cons] at hmem
    rcases hmem with (h | h) | h | h
    · revert h; decide
    · obtain ⟨e, he, hd⟩ := decimal_digits _ _ h
      exact (digit_char_spec e he).2.2.2.2.2.2.1 hd.symm
    · revert h; decide
    · rcases signed_decimal_chars start _ h with h | ⟨e, he, hd⟩
      · revert h; decide
      · exact (digit_char_spec e he).2.2.2.2.2.2.1 hd.symm

theorem segment_named_start {k k' : Int} {f f' : log_file} (h : segment_named k f)
    (h' : segment_named k' f') (hp : f.path = f'.path) : f.start_offset = f'.start_offset := by
  obtain ⟨a, b, hn, ha, _, _, hb⟩ := h
  obtain ⟨a', b', hn', ha', _, _, hb'⟩ := h'
  rw [hp, hn'] at hn
  have := append_dot_inj (by simpa [List.append_assoc] using hn) ha' ha
  rw [← hb, ← hb', this.2]

theorem fs_find_mem_paths {fs : disk} {p : List Char} :
    fs_find fs p ≠ none ↔ p ∈ fs.map Prod.fst := by
  unfold fs_find
  rw [Ne, omap_find_none_iff]
  simp

theorem fs_find_fs_write_ne_none (fs : disk) (p q : List Char) (pos : Nat) (data : List Nat) :
    fs_find (fs_write fs p pos data) q ≠ none ↔ fs_find fs q ≠ none := by
  rw [fs_find_fs_write]
  split
  · rename_i h
    subst h
    cases fs_find fs q <;> simp
  · rfl

theorem fs_find_fs_remove (fs : disk) (p q : List Char) :
    fs_find (fs_remove fs p) q = if q = p then none else fs_find fs q := by
  split
  · rename_i h
    subst h
    unfold fs_find fs_remove omap_erase
    rw [omap_find_none_iff]
    simp
  · rename_i h
    exact fs_find_fs_remove_ne fs h

theorem fs_find_fold_remove (V : List (Int × log_file)) (fs : disk) (q : List Char) :
    fs_find (V.foldl (fun fs e => fs_remove fs e.2.path) fs) q
      = if q ∈ V.map fun e => e.2.path then none else fs_find fs q := by
  induction V generalizing fs with
  | nil => simp
  | cons v V ih =>
    rw [List.foldl_cons, ih, fs_find_fs_remove]
    simp only [List.map_cons, List.mem_cons]
    by_cases h1 : q ∈ V.map fun e => e.2.path
    · simp [h1]
    · by_cases h2 : q = v.2.path
      · simp [h2]
      · simp [h1, h2]

theorem set_file_mem_ne {k : Int} {f : log_file} {m : List (Int × log_file)}
    {e : Int × log_file} (h : e ∈ m) (hk : e.1 ≠ k) : e ∈ set_file k f m := by
  unfold set_file
  exact List.mem_map.2 ⟨e, h, by rw [if_neg hk]⟩

theorem set_file_mem_eq {k : Int} {f g : log_file} {m : List (Int × log_file)}
    (h : (k, g) ∈ m) : (k, f) ∈ set_file k f m := by
  unfold set_file
  exact List.mem_map.2 ⟨(k, g), h, by simp⟩

theorem chain_inv_congr {c : core_codec} {d : List Char} {s s' : mutation_log}
    (h1 : s'.log_files = s.log_files) (h2 : s'.fs = s.fs)
    (h3 : s'.pending_write = s.pending_write)
    (h4 : s'.pending_mutations = s.pending_mutations)
    (h5 : s'.global_end_offset = s.global_end_offset)
    (h6 : s'.last_file_number = s.last_file_number)
    (h7 : s'.current_log_file = s.current_log_file ∨ s'.current_log_file = none)
    (h8 : s'.dir = s.dir)
    (h : chain_inv c d s) : chain_inv c d s' := by
  obtain ⟨⟨hdi, hsz, hkn, hdir, hch⟩, htip, hd⟩ := h
  refine ⟨⟨disk_inv_congr h1 h2 h3 h4 h5 h6 h7 hdi, ?_, ?_, ?_, ?_⟩, ?_, by rw [h8, hd]⟩
  · intro e he
    rw [h1] at he
    rw [h2]
    exact hsz e he
  · intro p hp
    rw [h2] at hp
    rw [h1]
    exact hkn p hp
  · intro e he
    rw [h1] at he
    exact hdir e he
  · intro e1 he1 e2 he2
    rw [h1] at he1 he2
    exact hch e1 he1 e2 he2
  · intro hpw e he hk
    rw [h1] at he
    rw [h3] at hpw
    rw [h6] at hk
    rw [h5]
    exact htip hpw e he hk

theorem chain_inv_with_new_segment (c : core_codec) {d : List Char} {s : mutation_log}
    (h : chain_inv c d s) (hpw : s.pending_write = none)
    (h32 : is_int32 (s.last_file_number + 1)) (h64 : is_int64 s.global_end_offset) :
    chain_inv c d (with_new_segment c s) := by
  obtain ⟨⟨hdi, hsz, hkn, hdir, hch⟩, htip, hd⟩ := h
  have hw := hdi.1
  have hod := hdi.2.1
  have hfiles := with_new_segment_log_files c hw
  have hfs : (with_new_segment c s).fs
      = fs_create s.fs (log_path s.dir (s.last_file_number + 1) s.global_end_offset) := rfl
  have hfresh : fs_find s.fs (log_path s.dir (s.last_file_number + 1) s.global_end_offset)
      = none := by
    by_contra hne
    obtain ⟨e, he, hp⟩ := hkn _ hne
    have hn : segment_named (s.last_file_number + 1) (fresh_segment s) :=
      log_path_named s.dir h32 h64 rfl rfl
    have hk := segment_named_inj (hod e he).1 hn hp
    have := segments_wf_key_le hw e he
    omega
  have hkeep : ∀ q, q ≠ log_path s.dir (s.last_file_number + 1) s.global_end_offset →
      fs_find (with_new_segment c s).fs q = fs_find s.fs q := by
    intro q hq
    rw [hfs, fs_find_fs_create, if_neg hq]
  have hnewfind : fs_find (with_new_segment c s).fs
      (log_path s.dir (s.last_file_number + 1) s.global_end_offset) = some [] := by
    rw [hfs, fs_find_fs_create, if_pos rfl, hfresh]
    rfl
  have hold : ∀ e ∈ s.log_files,
      e.2.path ≠ log_path s.dir (s.last_file_number + 1) s.global_end_offset := by
    intro e he hp
    obtain ⟨content, hc, _⟩ := hsz e he
    rw [hp, hfresh] at hc
    simp at hc
  have hnew : ∀ e, e = (s.last_file_number + 1,
      ((fresh_segment s).write_header (message.create_request c) s.init_prepared_decrees
        (int_cast s.log_buffer_size_bytes)).1) →
      e.2.path = log_path s.dir (s.last_file_number + 1) s.global_end_offset
      ∧ e.2.start_offset = s.global_end_offset ∧ e.2.end_offset = s.global_end_offset
      ∧ e.2.index = s.last_file_number + 1 := by
    intro e he
    subst he
    simp [log_file.write_header, fresh_segment, log_file.ctor]
  refine ⟨⟨disk_inv_with_new_segment c hdi hpw h32 h64, ?_, ?_, ?_, ?_⟩, ?_, hd⟩
  · intro e he
    rw [hfiles] at he
    simp only [List.mem_append, List.mem_singleton] at he
    rcases he with he | he
    · rw [hkeep _ (hold e he)]
      exact hsz e he
    · obtain ⟨b1, b2, b3, _⟩ := hnew e he
      exact ⟨[], by rw [b1]; exact hnewfind, by rw [b2, b3]; simp⟩
  · intro p hp
    rw [hfiles]
    by_cases hq : p = log_path s.dir (s.last_file_number + 1) s.global_end_offset
    · exact ⟨_, List.mem_append_right _ (List.mem_singleton.2 rfl),
        by rw [(hnew _ rfl).1, hq]⟩
    · rw [hkeep _ hq] at hp
      obtain ⟨e, he, hpe⟩ := hkn p hp
      exact ⟨e, List.mem_append_left _ he, hpe⟩
  · intro e he
    rw [hfiles] at he
    simp only [List.mem_append, List.mem_singleton] at he
    rcases he with he | he
    · exact hdir e he
    · rw [(hnew e he).1, hd]
      exact dir_entry_log_path d _ _
  · intro e1 he1 e2 he2 hidx
    rw [hfiles] at he1 he2
    simp only [List.mem_append, List.mem_singleton] at he1 he2
    rcases he1 with he1 | he1 <;> rcases he2 with he2 | he2
    · exact hch e1 he1 e2 he2 hidx
    · obtain ⟨_, b2, _, b4⟩ := hnew e2 he2
      rw [b4, hw.2.1 e1 he1] at hidx
      rw [b2]
      exact htip hpw e1 he1 (by omega)
    · obtain ⟨_, _, _, b4⟩ := hnew e1 he1
      rw [b4, hw.2.1 e2 he2] at hidx
      have := segments_wf_key_le hw e2 he2
      omega
    · obtain ⟨_, _, _, b4⟩ := hnew e1 he1
      obtain ⟨_, _, _, b4'⟩ := hnew e2 he2
      rw [b4, b4'] at hidx
      omega
  · intro hnone
    have : (with_new_segment c s).pending_write
        = some ((fresh_segment s).write_header (message.create_request c)
            s.init_prepared_decrees (int_cast s.log_buffer_size_bytes)).2.1 := rfl
    rw [this] at hnone
    simp at hnone

theorem chain_inv_after_flush (c : core_codec) (io : io_env) {d : List Char}
    {s : mutation_log} {k : Int} {cur : log_file} {pw : message} (cbs : List Nat)
    (h : chain_inv c d s) (hio : io.issue_ok = true)
    (hk : s.current_log_file = some k)
    (hcur : s.file k = some cur) (hpw : s.pending_write = some pw)
    (hgeo : cur.end_offset + (c.MSG_HDR_SERIALIZED_SIZE + pw.body.length : Nat)
      = s.global_end_offset) :
    chain_inv c d (after_flush c io s k cur pw cbs) := by
  obtain ⟨⟨hdi, hsz, hkn, hdir, hch⟩, htip, hd⟩ := h
  have hw := hdi.1
  have hod := hdi.2.1
  have hkl : k = s.last_file_number := (hw.2.2 k hk).1
  have hkm : (k, cur) ∈ s.log_files := omap_find_mem hcur
  have hcidx : cur.index = k := hw.2.1 (k, cur) hkm
  have hne : ∀ e ∈ s.log_files, e.1 ≠ k → e.2.path ≠ cur.path := by
    intro e he hek hpath
    exact hek (segment_named_inj (hod e he).1 (hod (k, cur) hkm).1 hpath)
  have hfs : (after_flush c io s k cur pw cbs).fs
      = fs_write s.fs cur.path (cur.end_offset - cur.start_offset).toNat
          (c.seal_hdr pw.body ++ pw.body) := by
    simp [after_flush, hio]
  have hlf : (after_flush c io s k cur pw cbs).log_files
      = set_file k { cur with end_offset := s.global_end_offset
                              mutations := cur.mutations ++ s.pending_mutations }
          s.log_files := by
    simp [after_flush, hio]
  have hmem : ∀ e ∈ (after_flush c io s k cur pw cbs).log_files,
      (e ∈ s.log_files ∧ e.1 ≠ k)
      ∨ (e.1 = k ∧ e.2.path = cur.path ∧ e.2.start_offset = cur.start_offset
          ∧ e.2.end_offset = s.global_end_offset ∧ e.2.index = k) := by
    intro e he
    rw [hlf] at he
    rcases mem_set_file he with h1 | ⟨h1, _⟩
    · exact Or.inl h1
    · right
      subst h1
      exact ⟨rfl, rfl, rfl, rfl, hcidx⟩
  refine ⟨⟨disk_inv_after_flush c io cbs hdi hcur hpw hgeo, ?_, ?_, ?_, ?_⟩, ?_, hd⟩
  · intro e he
    rcases hmem e he with ⟨h1, h1k⟩ | ⟨h1, h2, h3, h4, _⟩
    · rw [hfs, fs_find_fs_write, if_neg (hne e h1 h1k)]
      exact hsz e h1
    · obtain ⟨content, hc, hlen⟩ := hsz (k, cur) hkm
      simp only at hc hlen
      refine ⟨write_at content (cur.end_offset - cur.start_offset).toNat
        (c.seal_hdr pw.body ++ pw.body), ?_, ?_⟩
      · rw [hfs, fs_find_fs_write, h2, if_pos rfl, hc]
        rfl
      · rw [write_at_length _ _ _ (by omega), List.length_append, c.seal_length, h3, h4]
        push_cast
        push_cast at hgeo
        omega
  · intro p hp
    rw [hfs, fs_find_fs_write_ne_none] at hp
    obtain ⟨e, he, hpe⟩ := hkn p hp
    by_cases hek : e.1 = k
    · have : e = (k, cur) := omap_sorted_key_inj (segments_wf_sorted hw) he hkm hek
      subst this
      refine ⟨(k, { cur with end_offset := s.global_end_offset
                             mutations := cur.mutations ++ s.pending_mutations }), ?_, hpe⟩
      rw [hlf]
      exact set_file_mem_eq hkm
    · exact ⟨e, by rw [hlf]; exact set_file_mem_ne he hek, hpe⟩
  · intro e he
    rcases hmem e he with ⟨h1, _⟩ | ⟨_, h2, _⟩
    · exact hdir e h1
    · rw [h2]
      exact hdir (k, cur) hkm
  · intro e1 he1 e2 he2 hidx
    rcases hmem e1 he1 with ⟨a1, a1k⟩ | ⟨a1, _, _, _, a5⟩ <;>
      rcases hmem e2 he2 with ⟨b1, b1k⟩ | ⟨b1, _, b3, _, b5⟩
    · exact hch e1 a1 e2 b1 hidx
    · rw [b3]
      exact hch e1 a1 (k, cur) hkm (by rw [hidx, b5, hcidx])
    · rw [a5, hw.2.1 e2 b1] at hidx
      have := segments_wf_key_le hw e2 b1
      omega
    · rw [a5, b5] at hidx
      omega
  · intro _ e he hek
    have hl : (after_flush c io s k cur pw cbs).last_file_number = s.last_file_number := rfl
    have hg : (after_flush c io s k cur pw cbs).global_end_offset = s.global_end_offset := rfl
    rw [hl] at hek
    rw [hg]
    rcases hmem e he with ⟨_, h1k⟩ | ⟨_, _, _, h4, _⟩
    · exact absurd (hek.trans hkl.symm) h1k
    · exact h4

theorem with_appended_dir (c : core_codec) (s : mutation_log) (mu : mutation) (cb : Nat)
    (pw : message) (cbs : List Nat) : (with_appended c s mu cb pw cbs).dir = s.dir := by
  unfold with_appended with_buffer
  split <;> rfl

theorem chain_inv_with_appended (c : core_codec) {d : List Char} {s : mutation_log}
    (mu : mutation) (cb : Nat) {pw : message} (cbs : List Nat) (h : chain_inv c d s)
    (hpw : (with_buffer c s mu).pending_write = some pw) :
    chain_inv c d (with_appended c s mu cb pw cbs) := by
  obtain ⟨⟨hdi, hsz, hkn, hdir, hch⟩, htip, hd⟩ := h
  have hf := with_appended_fields c s mu cb pw cbs
  have h1 := hf.2.2.2.2.2.2.1
  have h2 := hf.2.2.2.2.2.1
  refine ⟨⟨disk_inv_with_appended c mu cb cbs hdi hpw, ?_, ?_, ?_, ?_⟩, ?_,
    by rw [with_appended_dir, hd]⟩
  · intro e he
    rw [h1] at he
    rw [h2]
    exact hsz e he
  · intro p hp
    rw [h2] at hp
    rw [h1]
    exact hkn p hp
  · intro e he
    rw [h1] at he
    exact hdir e he
  · intro e1 he1 e2 he2
    rw [h1] at he1 he2
    exact hch e1 he1 e2 he2
  · intro hnone
    rw [hf.2.2.1] at hnone
    simp at hnone

theorem chain_inv_create_new_log_file {c : core_codec} {io : io_env} {d : List Char}
    {s s' : mutation_log} {e : error_code} (h : chain_inv c d s)
    (hc : s.create_new_log_file c io = some (e, s')) : chain_inv c d s' := by
  obtain ⟨_, h32, h64, ⟨_, _, hs'⟩ | ⟨_, _, _, hpw, _, _, hs'⟩⟩ := create_new_log_file_some hc
  · rw [hs']
    exact chain_inv_congr rfl rfl rfl rfl rfl rfl (Or.inl rfl) rfl h
  · rw [hs']
    exact chain_inv_with_new_segment c h hpw h32 h64

theorem chain_inv_write_pending_mutations {c : core_codec} {io : io_env} {d : List Char}
    {s s' : mutation_log} {e : error_code} {b : Bool} (h : chain_inv c d s)
    (hio : io.issue_ok = true)
    (hw : s.write_pending_mutations c io b = some (e, s')) : chain_inv c d s' := by
  obtain ⟨pw, cbs, k, cur, hpw, _, _, hk, hcur, _, hgeo, hcase⟩ :=
    write_pending_mutations_some hw
  have hf := chain_inv_after_flush c io cbs h hio hk hcur hpw hgeo
  rcases hcase with ⟨hno, _, _⟩ | ⟨_, _, _, hs'⟩ | ⟨_, _, _, hs'⟩
  · rw [hio] at hno
    simp at hno
  · rw [hs']; exact hf
  · exact chain_inv_create_new_log_file hf hs'

theorem chain_inv_clear_timer {c : core_codec} {d : List Char} {s : mutation_log}
    (h : chain_inv c d s) : chain_inv c d s.clear_timer :=
  chain_inv_congr rfl rfl rfl rfl rfl rfl (Or.inl rfl) rfl h

theorem chain_inv_append {c : core_codec} {io : io_env} {d : List Char}
    {s s' : mutation_log} {mu mu' : mutation} {cb : Nat} (h : chain_inv c d s)
    (hio : io.issue_ok = true)
    (ha : s.append c io mu cb = some (mu', s')) : chain_inv c d s' := by
  obtain ⟨_, pw, cbs, hpw, _, _, hfl⟩ := append_some ha
  have h3 := chain_inv_with_appended c mu cb cbs h hpw
  obtain ⟨_, ⟨_, e, hw⟩ | ⟨_, _, _, _, e, hw⟩ | ⟨_, hs', _⟩⟩ := flush_after_append_some hfl
  · exact chain_inv_write_pending_mutations h3 hio hw
  · exact chain_inv_write_pending_mutations (chain_inv_clear_timer h3) hio hw
  · rw [hs']; exact h3

theorem chain_inv_timer {c : core_codec} {io : io_env} {d : List Char}
    {s s' : mutation_log} {e : error_code} (h : chain_inv c d s)
    (hio : io.issue_ok = true)
    (ht : s.internal_pending_write_timer c io = some (e, s')) : chain_inv c d s' := by
  unfold mutation_log.internal_pending_write_timer at ht
  split at ht
  · simp at ht
  · split at ht
    · simp at ht
    · exact chain_inv_write_pending_mutations (chain_inv_clear_timer h) hio ht

theorem chain_inv_start_write_service {c : core_codec} {io : io_env} {d : List Char}
    {s s' : mutation_log} {e : error_code} {init : multi_partition_decrees} {st : Int}
    (h : chain_inv c d s) (hs : s.start_write_service c io init st = some (e, s')) :
    chain_inv c d s' := by
  unfold mutation_log.start_write_service at hs
  simp only at hs
  split at hs
  · simp at hs
  · refine chain_inv_create_new_log_file ?_ hs
    exact chain_inv_congr (s := s) rfl rfl rfl rfl rfl rfl (Or.inl rfl) rfl h

/-- A step that changes of the segments at most what reading changes, and leaves the disk
and the offsets of the log as they are. -/
theorem chain_inv_same_segments {c : core_codec} {d : List Char} {s s' : mutation_log}
    (h : chain_inv c d s) (hdi : disk_inv c s')
    (hsame : same_segments s.log_files s'.log_files)
    (h2 : s'.fs = s.fs) (h3 : s'.pending_write = s.pending_write)
    (h5 : s'.global_end_offset = s.global_end_offset)
    (h6 : s'.last_file_number = s.last_file_number)
    (h8 : s'.dir = s.dir) : chain_inv c d s' := by
  obtain ⟨⟨_, hsz, hkn, hdir, hch⟩, htip, hd⟩ := h
  obtain ⟨hback, hforth⟩ := same_segments_mem hsame
  refine ⟨⟨hdi, ?_, ?_, ?_, ?_⟩, ?_, by rw [h8, hd]⟩
  · intro e he
    obtain ⟨e0, he0, _, hs⟩ := hback e he
    rw [h2, hs.1, hs.2.2.1, hs.2.2.2.1]
    exact hsz e0 he0
  · intro p hp
    rw [h2] at hp
    obtain ⟨e0, he0, hp0⟩ := hkn p hp
    obtain ⟨e1, he1, _, hs⟩ := hforth e0 he0
    exact ⟨e1, he1, by rw [hs.1, hp0]⟩
  · intro e he
    obtain ⟨e0, he0, _, hs⟩ := hback e he
    rw [hs.1]
    exact hdir e0 he0
  · intro e1 he1 e2 he2 hidx
    obtain ⟨a, ha, _, hsa⟩ := hback e1 he1
    obtain ⟨b, hb, _, hsb⟩ := hback e2 he2
    rw [hsa.2.2.2.1, hsb.2.2.1]
    exact hch a ha b hb (by rw [← hsa.2.1, ← hsb.2.1]; exact hidx)
  · intro hnone e he hk
    obtain ⟨e0, he0, hk0, hs⟩ := hback e he
    rw [h3] at hnone
    rw [hs.2.2.2.1, h5]
    exact htip hnone e0 he0 (by rw [← hk0, hk, h6])

theorem same_segments_set_file {m : List (Int × log_file)} {k : Int} {f : log_file}
    (hf : ∀ g, (k, g) ∈ m → same_segment g f) : same_segments m (set_file k f m) := by
  unfold same_segments set_file
  induction m with
  | nil => exact List.Forall₂.nil
  | cons e m ih =>
    rw [List.map_cons]
    refine List.Forall₂.cons ?_ (ih fun g hg => hf g (List.mem_cons_of_mem _ hg))
    split
    · rename_i hk
      refine ⟨rfl, hf e.2 ?_⟩
      rw [← hk]
      exact List.mem_cons_self _ _
    · exact ⟨rfl, rfl, rfl, rfl, rfl, rfl, rfl⟩

theorem chain_inv_close_current {c : core_codec} {d : List Char} {s : mutation_log}
    (h : chain_inv c d s) : chain_inv c d s.close_current := by
  have hdi := disk_inv_close_current h.1.1
  revert hdi
  unfold mutation_log.close_current
  split
  · exact fun _ => h
  · split
    · exact fun _ => chain_inv_congr (s := s) rfl rfl rfl rfl rfl rfl (Or.inr rfl) rfl h
    · rename_i k _ cur hcur
      intro hdi
      refine chain_inv_same_segments h hdi ?_ rfl rfl rfl rfl rfl
      apply same_segments_set_file
      intro g hg
      have : g = cur := by
        have := omap_sorted_key_inj (segments_wf_sorted h.1.1.1) hg (omap_find_mem hcur) rfl
        exact (Prod.mk.inj this).2
      subst this
      exact ⟨rfl, rfl, rfl, rfl, rfl, rfl⟩

theorem chain_inv_close {c : core_codec} {d : List Char} (ios : List io_env)
    {s s' : mutation_log} (h : chain_inv c d s)
    (hio : ∀ io ∈ ios, io.issue_ok = true)
    (hc : s.close c ios = some s') : chain_inv c d s' := by
  induction ios generalizing s with
  | nil =>
    unfold mutation_log.close at hc
    split at hc
    · simp at hc
    · simp only [Option.some.injEq] at hc
      rw [← hc]
      exact chain_inv_close_current h
  | cons io rest ih =>
    have hio1 := hio io (List.mem_cons_self _ _)
    unfold mutation_log.close at hc
    split at hc
    · split at hc
      · split at hc
        · simp at hc
        · rename_i r hr
          split at hc
          · simp at hc
          · simp only [Option.some.injEq] at hc
            rw [← hc]
            exact chain_inv_close_current
              (chain_inv_write_pending_mutations (chain_inv_clear_timer h) hio1 hr)
      · split at hc
        · simp at hc
        · rename_i r hr
          exact ih (chain_inv_timer h hio1 hr)
            (fun io2 h2 => hio io2 (List.mem_cons_of_mem _ h2)) hc
    · simp only [Option.some.injEq] at hc
      rw [← hc]
      exact chain_inv_close_current h

theorem replay_pending_mutations (c : core_codec) (s : mutation_log) :
    (s.replay c).log.pending_mutations = s.pending_mutations := by
  unfold mutation_log.replay
  simp only
  split
  · rfl
  · rfl
  · split
    · split
      · rfl
      · split <;> rfl
    · split
      · split <;> rfl
      · rfl

theorem disk_inv_replay_steady (c : core_codec) {s : mutation_log} (h : disk_inv c s)
    (hgeo : (s.replay c).log.global_end_offset = s.global_end_offset) :
    disk_inv c (s.replay c).log := by
  obtain ⟨hw, hd, hl, hp⟩ := h
  have hf := replay_fields c s
  have hsame := (same_segments_mem (replay_files_same c s.fs s.log_files ERR_OK
    s.last_log_file ⟨s.start_offset, [], []⟩)).1
  refine ⟨segments_wf_replay c hw, ?_, ?_, ?_⟩
  · intro e he
    rw [hf.2.2.2.1] at he
    obtain ⟨e0, he0, hk, hs⟩ := hsame e he
    obtain ⟨a1, a2, a3⟩ := hd e0 he0
    refine ⟨?_, ?_, ?_⟩
    · rw [hk]
      exact segment_named_congr a1 hs.1 hs.2.2.1
    · rw [hf.2.2.2.2.2.1, hs.1]
      exact a2
    · rw [hs.2.2.1, hs.2.2.2.1]
      exact a3
  · unfold pending_layout at hl ⊢
    rw [hf.2.2.2.2.2.2.2.2.2.2.1, replay_pending_mutations, hgeo]
    exact hl
  · intro e he mu hmu
    rw [hf.2.2.2.1] at he
    obtain ⟨e0, he0, hk, hs⟩ := hsame e he
    rw [hs.2.2.2.2.2] at hmu
    exact placed_of_find (hp e0 he0 mu hmu) hs.1 hs.2.2.1 (le_of_eq hs.2.2.2.1.symm)
      (by rw [hf.2.2.2.2.2.1])

theorem chain_inv_replay (c : core_codec) {d : List Char} {s : mutation_log}
    (h : chain_inv c d s)
    (hgeo : (s.replay c).log.global_end_offset = s.global_end_offset) :
    chain_inv c d (s.replay c).log := by
  have hf := replay_fields c s
  refine chain_inv_same_segments h (disk_inv_replay_steady c h.1.1 hgeo) ?_
    hf.2.2.2.2.2.1 hf.2.2.2.2.2.2.2.2.2.2.1 hgeo hf.2.2.2.2.2.2.2.2.1 hf.2.2.2.2.2.2.1
  rw [hf.2.2.2.1]
  exact replay_files_same c s.fs s.log_files ERR_OK s.last_log_file ⟨s.start_offset, [], []⟩

theorem chain_inv_garbage_collection {c : core_codec} {d : List Char} {s : mutation_log}
    (D : multi_partition_decrees) (h : chain_inv c d s) :
    chain_inv c d (s.garbage_collection D).2 := by
  obtain ⟨⟨hdi, hsz, hkn, hdir, hch⟩, htip, hd⟩ := h
  have hw := hdi.1
  have hod := hdi.2.1
  have hsorted := segments_wf_sorted hw
  have hfiles := garbage_collection_log_files s D
  have hfs := garbage_collection_fs s D
  have hrest : (s.garbage_collection D).2.pending_write = s.pending_write
      ∧ (s.garbage_collection D).2.last_file_number = s.last_file_number
      ∧ (s.garbage_collection D).2.global_end_offset = s.global_end_offset
      ∧ (s.garbage_collection D).2.dir = s.dir := by
    simp [mutation_log.garbage_collection, gc_fold_eq]
  have hkept : ∀ e ∈ (s.garbage_collection D).2.log_files,
      e ∈ s.log_files ∧ fs_find (s.garbage_collection D).2.fs e.2.path
        = fs_find s.fs e.2.path := by
    intro e he
    rw [hfiles] at he
    obtain ⟨he1, he2⟩ := List.mem_filter.1 he
    simp only [decide_eq_true_eq] at he2
    refine ⟨he1, ?_⟩
    rw [hfs]
    apply fs_find_fold_remove_ne
    intro v hv hpath
    have hvm := (gc_victims_subset s D hsorted v hv).1
    have := segment_named_inj (hod v hvm).1 (hod e he1).1 hpath
    exact he2 (this ▸ List.mem_map_of_mem Prod.fst hv)
  refine ⟨⟨disk_inv_garbage_collection D hdi, ?_, ?_, ?_, ?_⟩, ?_, by rw [hrest.2.2.2, hd]⟩
  · intro e he
    obtain ⟨he1, hfind⟩ := hkept e he
    rw [hfind]
    exact hsz e he1
  · intro p hp
    rw [hfs, fs_find_fold_remove] at hp
    split at hp
    · exact absurd rfl hp
    · rename_i hnot
      obtain ⟨e, he, hpe⟩ := hkn p hp
      refine ⟨e, ?_, hpe⟩
      rw [hfiles]
      refine List.mem_filter.2 ⟨he, ?_⟩
      simp only [decide_eq_true_eq]
      intro hin
      obtain ⟨v, hv, hvk⟩ := List.mem_map.1 hin
      have hvm := (gc_victims_subset s D hsorted v hv).1
      have : v = e := omap_sorted_key_inj hsorted hvm he hvk
      subst this
      exact hnot (List.mem_map.2 ⟨v, hv, hpe⟩)
  · intro e he
    exact hdir e (hkept e he).1
  · intro e1 he1 e2 he2
    exact hch e1 (hkept e1 he1).1 e2 (hkept e2 he2).1
  · intro hnone e he hk
    rw [hrest.1] at hnone
    rw [hrest.2.1] at hk
    rw [hrest.2.2.1]
    exact htip hnone e (hkept e he).1 hk

theorem segments_wf_last {s : mutation_log} (hw : segments_wf s) {e : Int × log_file}
    (he : e ∈ s.log_files) (hk : e.1 = s.last_file_number) :
    s.log_files.getLast? = some e := by
  obtain ⟨n, hn⟩ := hw.1
  cases hl : s.log_files.getLast? with
  | none =>
    rw [List.getLast?_eq_none_iff] at hl
    rw [hl] at he
    simp at he
  | some e' =>
    have hm := List.mem_of_getLast?_eq_some hl
    have h1 : (s.log_files.map Prod.fst).getLast? = some e'.1 := by
      rw [List.getLast?_map, hl]
      rfl
    cases n with
    | zero =>
      rw [hn] at h1
      simp [index_range] at h1
    | succ n =>
      rw [hn, index_range_getLast] at h1
      simp only [Option.some.injEq] at h1
      have : e' = e := omap_sorted_key_inj (segments_wf_sorted hw) hm he (by omega)
      rw [this]

theorem own_disk_ctor (c : core_codec) (d : List Char) (a b m : Int) (batch : Bool)
    (w : Int) : own_disk c d (mutation_log.ctor a b m batch w []) := by
  refine ⟨disk_inv_ctor c a b m batch w [], ?_, ?_, ?_, ?_⟩
  · intro e he
    simp [mutation_log.ctor] at he
  · intro p hp
    simp [mutation_log.ctor, fs_find, omap_find] at hp
  · intro e he
    simp [mutation_log.ctor] at he
  · intro e he
    simp [mutation_log.ctor] at he

/-- `initialize` on the directory `d` of a disk that only logs on `d` have written: the
segments it finds are those of the log that wrote last, with their offsets. -/
theorem chain_inv_initialize_log {c : core_codec} {d : List Char} {s s1 : mutation_log}
    (s0 : mutation_log) (h : own_disk c d s) (hfs0 : s0.fs = s.fs) (hc0 : s0.current_log_file = none)
    (hpw0 : s0.pending_write = none) (hpm0 : s0.pending_mutations = [])
    (hinit : initialize_log s0 d true = some (ERR_OK, s1)) : chain_inv c d s1 := by
  obtain ⟨hdi, hsz, hkn, hdir, hch⟩ := h
  have hw := hdi.1
  have hod := hdi.2.1
  obtain ⟨hA, hB, hfs, hpw1, _, hdir1, _⟩ := initialize_log_files hinit
  rw [hfs0] at hA hB hfs
  have hdi1 : disk_inv c s1 := disk_inv_initialize_log hc0 hpw0 hpm0 hinit
  have hlink : ∀ e ∈ s1.log_files, ∃ e0 ∈ s.log_files, e0.2.path = e.2.path
      ∧ e0.2.index = e.2.index ∧ e0.2.start_offset = e.2.start_offset
      ∧ e0.2.end_offset = e.2.end_offset := by
    intro e he
    obtain ⟨p, hp, hop, _⟩ := hA e he
    obtain ⟨hpath, _, _, hend⟩ := opend_read_index_path hop
    have hpm : p ∈ s.fs.map Prod.fst := (List.mem_filter.1 hp).1
    obtain ⟨e0, he0, hp0⟩ := hkn p (fs_find_mem_paths.2 hpm)
    have hn0 := (hod e0 he0).1
    have hn1 := (opend_read_named hop).1
    have hpp : e0.2.path = e.2.path := by rw [hp0, hpath]
    have hk := segment_named_inj hn0 hn1 hpp
    have hst := segment_named_start hn0 hn1 hpp
    obtain ⟨content, hc, hlen⟩ := hsz e0 he0
    refine ⟨e0, he0, hpp, by rw [hw.2.1 e0 he0, hk], hst, ?_⟩
    rw [hend]
    unfold file_size
    rw [← hpp, hc]
    simp only
    omega
  refine ⟨⟨hdi1, ?_, ?_, ?_, ?_⟩, ?_, hdir1⟩
  · intro e he
    obtain ⟨e0, he0, hp, _, hst, hen⟩ := hlink e he
    rw [hfs, ← hp, ← hst, ← hen]
    exact hsz e0 he0
  · intro p hp
    rw [hfs] at hp
    obtain ⟨e0, he0, hp0⟩ := hkn p hp
    obtain ⟨a, b, hname, ha, hrem, _, _⟩ := (hod e0 he0).1
    obtain ⟨content, hc, _⟩ := hsz e0 he0
    rw [hp0] at hname hrem hc
    have hop := opend_read_of_name hname ha hrem hc
    have hl : p ∈ list_dir s.fs d := by
      unfold list_dir
      refine List.mem_filter.2 ⟨fs_find_mem_paths.1 hp, ?_⟩
      rw [← hp0]
      exact hdir e0 he0
    exact ⟨_, hB p hl _ hop, rfl⟩
  · intro e he
    obtain ⟨e0, he0, hp, _⟩ := hlink e he
    rw [← hp]
    exact hdir e0 he0
  · intro e1 he1 e2 he2 hidx
    obtain ⟨a, ha, _, ha2, _, ha4⟩ := hlink e1 he1
    obtain ⟨b, hb, _, hb2, hb3, _⟩ := hlink e2 he2
    rw [← ha4, ← hb3]
    exact hch a ha b hb (by rw [ha2, hb2]; exact hidx)
  · intro _ e he hk
    exact ((initialize_log_segments hinit).2 e (segments_wf_last hdi1.1 he hk)).symm

theorem chain_inv_open_log {c : core_codec} {d : List Char} {s s1 : mutation_log}
    {a b m : Int} {batch : Bool} {w : Int} (h : own_disk c d s)
    (ho : apply_op c s (log_op.open_log a b m batch w d) = some s1) : chain_inv c d s1 := by
  simp only [apply_op] at ho
  split at ho
  · simp at ho
  · split at ho
    · rename_i s2 hinit
      simp only [Option.some.injEq] at ho
      rw [← ho]
      exact chain_inv_initialize_log (mutation_log.ctor a b m batch w s.fs) h rfl rfl rfl
        rfl hinit
    · simp at ho

theorem chain_inv_apply_op {c : core_codec} {d : List Char} {s s' : mutation_log}
    {op : log_op} (h : chain_inv c d s) (hst : steady_op c d s op = true)
    (ho : apply_op c s op = some s') : chain_inv c d s' := by
  cases op with
  | open_log bmb pms fmb batch wt dir =>
    simp only [steady_op, decide_eq_true_eq] at hst
    subst hst
    exact chain_inv_open_log h.1 ho
  | replay =>
    simp only [steady_op, decide_eq_true_eq] at hst
    simp only [apply_op] at ho
    split at ho
    · simp at ho
    · simp only [Option.some.injEq] at ho
      rw [← ho]
      exact chain_inv_replay c h hst
  | start_write_service io init st =>
    simp only [apply_op] at ho
    obtain ⟨r, hr, hs'⟩ := Option.map_eq_some'.1 ho
    rw [← hs']
    exact chain_inv_start_write_service h (e := r.1) (by rw [hr])
  | append io mu cb =>
    simp only [steady_op] at hst
    simp only [apply_op] at ho
    obtain ⟨r, hr, hs'⟩ := Option.map_eq_some'.1 ho
    rw [← hs']
    have hr' : s.append c io mu cb = some (r.1, r.2) := by rw [hr]
    exact chain_inv_append h hst hr'
  | timer io =>
    simp only [steady_op] at hst
    simp only [apply_op] at ho
    obtain ⟨r, hr, hs'⟩ := Option.map_eq_some'.1 ho
    rw [← hs']
    exact chain_inv_timer h hst (e := r.1) (by rw [hr])
  | on_partition_removed g =>
    simp only [apply_op, Option.some.injEq] at ho
    rw [← ho]
    exact chain_inv_congr (s := s) rfl rfl rfl rfl rfl rfl (Or.inl rfl) rfl h
  | garbage_collection D =>
    simp only [apply_op, Option.some.injEq] at ho
    rw [← ho]
    exact chain_inv_garbage_collection D h
  | close ios =>
    simp only [steady_op, List.all_eq_true] at hst
    simp only [apply_op] at ho
    exact chain_inv_close ios h hst ho

theorem chain_inv_run_ops {c : core_codec} {d : List Char} (ops : List log_op)
    {s s' : mutation_log} (h : chain_inv c d s) (hst : steady_run c d ops s = true)
    (hr : run_ops c ops s = some s') : chain_inv c d s' := by
  induction ops generalizing s with
  | nil =>
    simp only [run_ops, Option.some.injEq] at hr
    exact hr ▸ h
  | cons op ops ih =>
    simp only [run_ops] at hr
    simp only [steady_run, Bool.and_eq_true] at hst
    split at hr
    · simp at hr
    · rename_i s1 hs1
      rw [hs1] at hst
      exact ih (chain_inv_apply_op h hst.1 hs1) hst.2 hr

set_option maxRecDepth 1000000 in
/-- C10 (counterexample): segments of consecutive indices that do not meet.  In the first
run `replay` rewinds `_global_end_offset` from 131 to 128 over the stray bytes at the end
of segment 1, which keeps its end offset 131, and `start_write_service` creates segment 2
at 128.  In the second run the only write to segment 1 is not issued, the write service is
started again after `close` and creates segment 2 at 78, and `initialize` then finds
segment 1 with an empty file, ending at 0. -/
theorem consecutive_segments_counterexample :
    run_ops sample_codec
        [log_op.open_log 1 100 1 false 2 "d".toList, log_op.replay,
         log_op.start_write_service sample_io [] 0]
        (mutation_log.ctor 1 100 1 false 2 corrupted_tail_disk) = some rewound_log
    ∧ (corrupted_tail_log.replay sample_codec).ret = some ERR_INVALID_DATA
    ∧ corrupted_tail_log.global_end_offset = 131
    ∧ (corrupted_tail_log.replay sample_codec).log.global_end_offset = 128
    ∧ (rewound_log.log_files.map fun e => (e.2.index, e.2.start_offset, e.2.end_offset))
        = [(1, 0, 131), (2, 128, 128)]
    ∧ run_ops sample_codec failed_write_ops (mutation_log.ctor 1 100 0 false 2 [])
        = some failed_write_log
    ∧ (failed_write_log.log_files.map fun e => (e.2.index, e.2.start_offset, e.2.end_offset))
        = [(1, 0, 0), (2, 78, 78)] := by
  refine ⟨by decide, by decide, by decide, by decide, by decide, by decide, by decide⟩

/-- C10: in a run of a log on the directory `d` of an empty disk (so that every
`initialize` is on a directory this log wrote), in which every write is issued and no
`replay` rewinds `_global_end_offset`, any two segments of the map with
`S1.index + 1 = S2.index` have `S1.end_offset = S2.start_offset`; and a segment that
`create_new_log_file` creates in such a state is entered under the index
`_last_file_number + 1`, becomes the current one, and starts at the `_global_end_offset`
of before its header. -/
theorem consecutive_segments_meet (c : core_codec) (d : List Char) (a0 b0 m0 : Int)
    (batch0 : Bool) (w0 : Int) (a b m : Int) (batch : Bool) (w : Int) (ops : List log_op)
    (s : mutation_log)
    (hst : steady_run c d (log_op.open_log a b m batch w d :: ops)
      (mutation_log.ctor a0 b0 m0 batch0 w0 []) = true)
    (hr : run_ops c (log_op.open_log a b m batch w d :: ops)
      (mutation_log.ctor a0 b0 m0 batch0 w0 []) = some s) :
    (∀ e1 ∈ s.log_files, ∀ e2 ∈ s.log_files, e1.2.index + 1 = e2.2.index →
      e1.2.end_offset = e2.2.start_offset)
    ∧ ∀ io s', s.create_new_log_file c io = some (ERR_OK, s') →
        ∃ f, s'.log_files = s.log_files ++ [(s.last_file_number + 1, f)]
          ∧ s'.current_log_file = some (s.last_file_number + 1)
          ∧ f.index = s.last_file_number + 1
          ∧ f.start_offset = s.global_end_offset := by
  have hinv : chain_inv c d s := by
    simp only [run_ops] at hr
    simp only [steady_run, Bool.and_eq_true] at hst
    split at hr
    · simp at hr
    · rename_i s1 hs1
      rw [hs1] at hst
      exact chain_inv_run_ops ops
        (chain_inv_open_log (own_disk_ctor c d a0 b0 m0 batch0 w0) hs1) hst.2 hr
  refine ⟨hinv.1.2.2.2.2, ?_⟩
  intro io s' hc
  obtain ⟨_, _, _, ⟨_, he, _⟩ | ⟨_, _, _, _, _, _, hs'⟩⟩ := create_new_log_file_some hc
  · simp at he
  · refine ⟨((fresh_segment s).write_header (message.create_request c)
      s.init_prepared_decrees (int_cast s.log_buffer_size_bytes)).1, ?_, ?_, ?_, ?_⟩
    · rw [hs']
      exact with_new_segment_log_files c hinv.1.1.1
    · rw [hs']
      rfl
    · simp [log_file.write_header, fresh_segment, log_file.ctor]
    · simp [log_file.write_header, fresh_segment, log_file.ctor]

set_option maxRecDepth 1000000 in
theorem consecutive_segments_meet_witness :
    steady_run sample_codec "d".toList steady_example_ops
        (mutation_log.ctor 1 100 0 false 2 []) = true
    ∧ run_ops sample_codec steady_example_ops (mutation_log.ctor 1 100 0 false 2 [])
        = some steady_example_log
    ∧ (steady_example_log.log_files.map fun e =>
          (e.2.index, e.2.start_offset, e.2.end_offset))
        = [(1, 0, 94), (2, 94, 188), (3, 188, 188), (4, 188, 188)]
    ∧ (∀ e1 ∈ steady_example_log.log_files, ∀ e2 ∈ steady_example_log.log_files,
        e1.2.index + 1 = e2.2.index → e1.2.end_offset = e2.2.start_offset)
    ∧ ∀ io s', steady_example_log.create_new_log_file sample_codec io = some (ERR_OK, s') →
        ∃ f, s'.log_files
            = steady_example_log.log_files ++ [(steady_example_log.last_file_number + 1, f)]
          ∧ s'.current_log_file = some (steady_example_log.last_file_number + 1)
          ∧ f.index = steady_example_log.last_file_number + 1
          ∧ f.start_offset = steady_example_log.global_end_offset :=
  have h1 : steady_run sample_codec "d".toList steady_example_ops
      (mutation_log.ctor 1 100 0 false 2 []) = true := by decide
  have h2 : run_ops sample_codec steady_example_ops (mutation_log.ctor 1 100 0 false 2 [])
      = some steady_example_log := by decide
  ⟨h1, h2, by decide,
    consecutive_segments_meet sample_codec "d".toList 1 100 0 false 2 1 100 0 false 2
      [log_op.start_write_service sample_io [(⟨1, 0⟩, 1)] 0,
       log_op.append sample_io (sample_mutation 100) 1,
       log_op.append sample_io (sample_mutation 200) 2,
       log_op.close [sample_io],
       log_op.open_log 1 100 0 false 2 "d".toList,
       log_op.replay,
       log_op.start_write_service sample_io [] 0]
      steady_example_log h1 h2⟩

/-! ## Learning: `init_learn`, `on_learn` and `on_learn_reply` -/

theorem omap_find_set_learner (node : end_point) (v l : remote_learner_state)
    (m : List (end_point × remote_learner_state)) (h : omap_find node m = some l) :
    omap_find node (set_learner node v m) = some v := by
  induction m with
  | nil => simp [omap_find] at h
  | cons e m ih =>
    obtain ⟨k, x⟩ := e
    simp only [omap_find] at h
    show omap_find node ((if k = node then (k, v) else (k, x)) :: set_learner node v m) = _
    by_cases hk : k = node
    · rw [if_pos hk, omap_find, if_pos hk]
    · rw [if_neg hk] at h
      rw [if_neg hk, omap_find, if_neg hk]
      exact ih h

theorem omap_find_set_learner_ne (node node' : end_point) (v : remote_learner_state)
    (m : List (end_point × remote_learner_state)) (h : node' ≠ node) :
    omap_find node' (set_learner node v m) = omap_find node' m := by
  induction m with
  | nil => rfl
  | cons e m ih =>
    obtain ⟨k, x⟩ := e
    show omap_find node' ((if k = node then (k, v) else (k, x)) :: set_learner node v m) = _
    by_cases hk : k = node
    · have hk' : ¬ k = node' := fun h2 => h (h2.symm.trans hk)
      rw [if_pos hk, omap_find, if_neg hk', ih]
      conv_rhs => rw [omap_find, if_neg hk']
    · rw [if_neg hk, omap_find, ih]
      conv_rhs => rw [omap_find]

theorem reset_lost_decree_fields (r : replica) (request : learn_request) :
    (reset_lost_decree r request).learner = request.learner
    ∧ (reset_lost_decree r request).signature = request.signature
    ∧ (reset_lost_decree r request).app_specific_learn_request
        = request.app_specific_learn_request
    ∧ (reset_lost_decree r request).gpid = request.gpid
    ∧ (reset_lost_decree r request).last_committed_decree_in_prepare_list
        = request.last_committed_decree_in_prepare_list := by
  unfold reset_lost_decree
  split <;> exact ⟨rfl, rfl, rfl, rfl, rfl⟩

theorem reset_lost_decree_zero (r : replica) (request : learn_request) :
    reset_lost_decree r { request with last_committed_decree_in_app := 0 }
      = { request with last_committed_decree_in_app := 0 } := by
  unfold reset_lost_decree
  split <;> rfl

theorem reset_lost_decree_of_gt (r : replica) (request : learn_request)
    (h : request.last_committed_decree_in_app > r.last_committed_decree) :
    reset_lost_decree r request = { request with last_committed_decree_in_app := 0 } := by
  unfold reset_lost_decree
  rw [if_pos h]

theorem strip_data_dir_some (n : Nat) (files : List (List Char))
    (h : ∀ f ∈ files, n ≤ f.length) :
    strip_data_dir n files = some (files.map fun f => f.drop n) := by
  unfold strip_data_dir
  rw [if_pos]
  simpa using h

theorem attach_prepare_some (env : learn_env) (r : replica) (l : remote_learner_state)
    (d : Int)
    (hsum : is_int64 (d + r.staleness_for_start_prepare_for_potential_secondary))
    (hlcd : r.last_committed_decree + 1 < 9223372036854775808) :
    attach_prepare env r l d
      = some (
        if d + r.staleness_for_start_prepare_for_potential_secondary
            ≥ r.last_committed_decree then
          if l.prepare_start_decree = env.invalid_decree then
            ({ l with prepare_start_decree := r.last_committed_decree + 1 },
              r.last_committed_decree + 1,
              [effect.cleanup_preparing_mutations, effect.replay_prepare_list])
          else (l, l.prepare_start_decree, [])
        else ({ l with prepare_start_decree := env.invalid_decree }, env.invalid_decree,
          [])) := by
  unfold attach_prepare
  unfold is_int64 at hsum
  simp only
  rw [if_neg (not_not.2 hsum)]
  by_cases h1 : d + r.staleness_for_start_prepare_for_potential_secondary
      ≥ r.last_committed_decree
  · by_cases h2 : l.prepare_start_decree = env.invalid_decree
    · rw [if_pos h1, if_pos h2, if_neg (not_not.2 hlcd), if_pos h1, if_pos h2]
    · rw [if_pos h1, if_neg h2, if_pos h1, if_neg h2]
  · rw [if_neg h1, if_neg h1]

/-- What `on_learn` returns on a primary for a registered learner with the signature of
the request, when no sum overflows and every file of the learn state is below the data
directory. -/
theorem on_learn_registered (env : learn_env) (r : replica) (request : learn_request)
    (response : learn_response) (l : remote_learner_state)
    (a : remote_learner_state × Int × List effect)
    (hp : r.status = PS_PRIMARY)
    (hl : omap_find request.learner r.learners = some l)
    (hsig : l.signature = request.signature)
    (ha : attach_prepare env r l (reset_lost_decree r request).last_committed_decree_in_app
      = some a)
    (hd : (reset_lost_decree r request).last_committed_decree_in_app + 1
      < 9223372036854775808)
    (hfiles : ∀ f ∈ (env.get_learn_state r.app
        ((reset_lost_decree r request).last_committed_decree_in_app + 1)
        request.app_specific_learn_request response.state).2.files,
      r.app.data_dir.length ≤ f.length) :
    r.on_learn env request response
      = some (
        { r with
          learners := set_learner request.learner a.1 r.learners
          effects := r.effects ++ a.2.2 },
        reset_lost_decree r request,
        { response with
          config := env.get_replica_config r request.learner
          prepare_start_decree := a.2.1
          commit_decree := r.last_committed_decree
          err := if (env.get_learn_state r.app
              ((reset_lost_decree r request).last_committed_decree_in_app + 1)
              request.app_specific_learn_request response.state).1 = 0 then ERR_OK
            else ERR_GET_LEARN_STATE_FALED
          state :=
            { (env.get_learn_state r.app
                ((reset_lost_decree r request).last_committed_decree_in_app + 1)
                request.app_specific_learn_request response.state).2 with
              files := (env.get_learn_state r.app
                ((reset_lost_decree r request).last_committed_decree_in_app + 1)
                request.app_specific_learn_request response.state).2.files.map
                  fun f => f.drop r.app.data_dir.length }
          base_local_dir := r.app.data_dir },
        some ((reset_lost_decree r request).last_committed_decree_in_app + 1)) := by
  obtain ⟨h1, h2, h3, _, _⟩ := reset_lost_decree_fields r request
  unfold replica.on_learn
  rw [if_neg (by rw [hp]; simp)]
  simp only [h1, h2, h3, hl]
  rw [if_neg (not_not.2 hsig)]
  simp only [ha]
  rw [if_neg (not_not.2 hd)]
  rw [strip_data_dir_some _ _ hfiles]

theorem send_learn_request_fields (env : learn_env) (r : replica) :
    (r.send_learn_request env).effects
      = r.effects ++ [effect.rpc_learn r.config.primary
          { gpid := r.gpid
            learner := r.address
            signature := r.potential_secondary_states.learning_signature
            last_committed_decree_in_app := r.app.last_committed_decree
            last_committed_decree_in_prepare_list := r.prepare_list.last_committed_decree
            app_specific_learn_request := env.prepare_learning_request r.app }]
    ∧ (r.send_learn_request env).potential_secondary_states
      = { r.potential_secondary_states with learning_round_is_running := true }
    ∧ (r.send_learn_request env).prepare_list = r.prepare_list
    ∧ (r.send_learn_request env).config = r.config
    ∧ (r.send_learn_request env).app = r.app :=
  ⟨rfl, rfl, rfl, rfl, rfl⟩

/-- The ways `init_learn` ends on a potential secondary: it returns at once, or it sends a
request from a state with the effects as they were, or it notifies the primary. -/
theorem init_learn_cases (env : learn_env) (r : replica) (signature : Nat)
    (hs : r.status = PS_POTENTIAL_SECONDARY) :
    ((r.potential_secondary_states.learning_round_is_running = true ∨ signature = 0)
        ∧ r.init_learn env signature = some r)
    ∨ (r.potential_secondary_states.learning_round_is_running = false ∧ signature ≠ 0
        ∧ ∃ r1 : replica, r.init_learn env signature = some (r1.send_learn_request env)
          ∧ r1.effects = r.effects)
    ∨ (r.potential_secondary_states.learning_round_is_running = false ∧ signature ≠ 0
        ∧ ∃ r1 : replica, r.init_learn env signature = some r1.notify_learn_completion
          ∧ r1.effects = r.effects) := by
  unfold replica.init_learn
  rw [if_neg (not_not.2 hs)]
  by_cases h1 : r.potential_secondary_states.learning_round_is_running = true ∨ signature = 0
  · left
    exact ⟨h1, by rw [if_pos h1]⟩
  · right
    rw [if_neg h1]
    have hr : r.potential_secondary_states.learning_round_is_running = false := by
      cases h : r.potential_secondary_states.learning_round_is_running
      · rfl
      · exact absurd (Or.inl h) h1
    have h0 : signature ≠ 0 := fun h => h1 (Or.inr h)
    by_cases h2 : signature ≠ r.potential_secondary_states.learning_signature
    · left
      rw [if_pos h2]
      exact ⟨hr, h0, _, rfl, rfl⟩
    · rw [if_neg h2]
      cases r.potential_secondary_states.learning_status with
      | LearningSucceeded => exact Or.inr ⟨hr, h0, r, rfl, rfl⟩
      | LearningFailed => exact Or.inl ⟨hr, h0, r, rfl, rfl⟩
      | LearningWithoutPrepare => exact Or.inl ⟨hr, h0, r, rfl, rfl⟩
      | LearningWithPrepare =>
        simp only
        split
        · exact Or.inr ⟨hr, h0, _, rfl, rfl⟩
        · exact Or.inl ⟨hr, h0, r, rfl, rfl⟩

/-- C16: on a potential secondary, `init_learn(signature)` called while a round is running
or with the signature 0 returns the replica as it is (session, prepare list and effects: no
request is sent); it always returns; and whenever it sends a `LEARN` request, no round was
running before, the signature is not 0, the round is running afterwards, and that request
is all it has sent. -/
theorem init_learn_while_running_or_without_signature (env : learn_env) (r : replica)
    (signature : Nat) (hs : r.status = PS_POTENTIAL_SECONDARY) :
    ((r.potential_secondary_states.learning_round_is_running = true ∨ signature = 0) →
        r.init_learn env signature = some r)
    ∧ (∃ r', r.init_learn env signature = some r')
    ∧ ∀ r', r.init_learn env signature = some r' →
        ∃ added, r'.effects = r.effects ++ added
          ∧ ∀ target request, effect.rpc_learn target request ∈ added →
              r.potential_secondary_states.learning_round_is_running = false
              ∧ signature ≠ 0
              ∧ r'.potential_secondary_states.learning_round_is_running = true
              ∧ added = [effect.rpc_learn target request] := by
  rcases init_learn_cases env r signature hs with ⟨h1, h2⟩ | ⟨h1, h0, r1, h2, he⟩
    | ⟨h1, h0, r1, h2, he⟩
  · refine ⟨fun _ => h2, ⟨r, h2⟩, ?_⟩
    intro r' hr'
    rw [h2] at hr'
    simp only [Option.some.injEq] at hr'
    subst hr'
    exact ⟨[], by simp, by simp⟩
  · refine ⟨?_, ⟨_, h2⟩, ?_⟩
    · rintro (h | h)
      · rw [h1] at h
        simp at h
      · exact absurd h h0
    · intro r' hr'
      rw [h2] at hr'
      simp only [Option.some.injEq] at hr'
      subst hr'
      rw [← he]
      refine ⟨_, (send_learn_request_fields env r1).1, ?_⟩
      intro target request hm
      rw [List.mem_singleton] at hm
      exact ⟨h1, h0, rfl, by rw [hm]⟩
  · refine ⟨?_, ⟨_, h2⟩, ?_⟩
    · rintro (h | h)
      · rw [h1] at h
        simp at h
      · exact absurd h h0
    · intro r' hr'
      rw [h2] at hr'
      simp only [Option.some.injEq] at hr'
      subst hr'
      rw [← he]
      refine ⟨_, rfl, ?_⟩
      intro target request hm
      simp at hm

theorem init_learn_while_running_or_without_signature_witness :
    (sample_learner ⟨7, LearningWithPrepare, true⟩).status = PS_POTENTIAL_SECONDARY
    ∧ (((sample_learner ⟨7, LearningWithPrepare, true⟩).potential_secondary_states.learning_round_is_running
          = true ∨ 8 = 0) →
        (sample_learner ⟨7, LearningWithPrepare, true⟩).init_learn sample_learn_env 8
          = some (sample_learner ⟨7, LearningWithPrepare, true⟩))
    ∧ (∃ r', (sample_learner ⟨7, LearningWithPrepare, true⟩).init_learn sample_learn_env 8
        = some r')
    ∧ ∀ r', (sample_learner ⟨7, LearningWithPrepare, true⟩).init_learn sample_learn_env 8
        = some r' →
        ∃ added, r'.effects = (sample_learner ⟨7, LearningWithPrepare, true⟩).effects ++ added
          ∧ ∀ target request, effect.rpc_learn target request ∈ added →
              (sample_learner ⟨7, LearningWithPrepare, true⟩).potential_secondary_states.learning_round_is_running
                = false
              ∧ 8 ≠ 0
              ∧ r'.potential_secondary_states.learning_round_is_running = true
              ∧ added = [effect.rpc_learn target request] :=
  ⟨rfl, init_learn_while_running_or_without_signature sample_learn_env
    (sample_learner ⟨7, LearningWithPrepare, true⟩) 8 rfl⟩

/-- C17: on a potential secondary with no round running, `init_learn(S2)` with `S2` not 0
and not the stored signature returns, whatever the learning status was, with the signature
`S2`, the status `LearningWithoutPrepare`, the prepare list reset to the committed decree of
the application, the round running, and exactly one effect added: the `LEARN` request to
the primary of the configuration, with the signature `S2` and the committed decree of the
application as decree of the application and of the prepare list. -/
theorem init_learn_new_signature (env : learn_env) (r : replica) (S2 : Nat)
    (hs : r.status = PS_POTENTIAL_SECONDARY)
    (hr : r.potential_secondary_states.learning_round_is_running = false)
    (h0 : S2 ≠ 0) (hne : S2 ≠ r.potential_secondary_states.learning_signature) :
    ∃ r', r.init_learn env S2 = some r'
      ∧ r'.potential_secondary_states.learning_signature = S2
      ∧ r'.potential_secondary_states.learning_status = LearningWithoutPrepare
      ∧ r'.potential_secondary_states.learning_round_is_running = true
      ∧ r'.prepare_list.last_committed_decree = r.app.last_committed_decree
      ∧ r'.prepare_list.mutations = []
      ∧ r'.app = r.app ∧ r'.config = r.config
      ∧ r'.effects = r.effects ++ [effect.rpc_learn r.config.primary
          { gpid := r.gpid
            learner := r.address
            signature := S2
            last_committed_decree_in_app := r.app.last_committed_decree
            last_committed_decree_in_prepare_list := r.app.last_committed_decree
            app_specific_learn_request := env.prepare_learning_request r.app }] := by
  unfold replica.init_learn
  rw [if_neg (not_not.2 hs), if_neg (by rw [hr]; simp [h0]), if_pos hne]
  exact ⟨_, rfl, rfl, rfl, rfl, rfl, rfl, rfl, rfl, rfl⟩

theorem init_learn_new_signature_witness :
    (sample_learner ⟨7, LearningSucceeded, false⟩).status = PS_POTENTIAL_SECONDARY
    ∧ (sample_learner ⟨7, LearningSucceeded, false⟩).potential_secondary_states.learning_round_is_running
        = false
    ∧ 8 ≠ 0
    ∧ 8 ≠ (sample_learner ⟨7, LearningSucceeded, false⟩).potential_secondary_states.learning_signature
    ∧ ∃ r', (sample_learner ⟨7, LearningSucceeded, false⟩).init_learn sample_learn_env 8
        = some r'
      ∧ r'.potential_secondary_states.learning_signature = 8
      ∧ r'.potential_secondary_states.learning_status = LearningWithoutPrepare
      ∧ r'.potential_secondary_states.learning_round_is_running = true
      ∧ r'.prepare_list.last_committed_decree
          = (sample_learner ⟨7, LearningSucceeded, false⟩).app.last_committed_decree
      ∧ r'.prepare_list.mutations = []
      ∧ r'.app = (sample_learner ⟨7, LearningSucceeded, false⟩).app
      ∧ r'.config = (sample_learner ⟨7, LearningSucceeded, false⟩).config
      ∧ r'.effects = (sample_learner ⟨7, LearningSucceeded, false⟩).effects
          ++ [effect.rpc_learn (sample_learner ⟨7, LearningSucceeded, false⟩).config.primary
          { gpid := (sample_learner ⟨7, LearningSucceeded, false⟩).gpid
            learner := (sample_learner ⟨7, LearningSucceeded, false⟩).address
            signature := 8
            last_committed_decree_in_app :=
              (sample_learner ⟨7, LearningSucceeded, false⟩).app.last_committed_decree
            last_committed_decree_in_prepare_list :=
              (sample_learner ⟨7, LearningSucceeded, false⟩).app.last_committed_decree
            app_specific_learn_request := sample_learn_env.prepare_learning_request
              (sample_learner ⟨7, LearningSucceeded, false⟩).app }] :=
  ⟨rfl, rfl, by decide, by decide,
    init_learn_new_signature sample_learn_env (sample_learner ⟨7, LearningSucceeded, false⟩) 8
      rfl rfl (by decide) (by decide)⟩

/-- C18 (counterexample): the learner `node_b` is registered at the primary under the
signature 7 of the request, the primary has committed the decree 500, the staleness is 10
and the request reports the application decree 600.  Then
`request.last_committed_decree_in_app + staleness >= last_committed_decree` holds, but
`on_learn` does not attach the learner: it has set the decree of the request to 0 first,
the record keeps (or, when it held the start decree 400, gets) `invalid_decree`, the
response carries `invalid_decree`, and neither `cleanup_preparing_mutations` nor
`replay_prepare_list` is called. -/
theorem on_learn_attach_beyond_committed_counterexample :
    (sample_primary 500 10 (-1)).status = PS_PRIMARY
    ∧ omap_find (sample_learn_request 7 600).learner (sample_primary 500 10 (-1)).learners
        = some ⟨(sample_learn_request 7 600).signature, sample_learn_env.invalid_decree⟩
    ∧ (sample_learn_request 7 600).last_committed_decree_in_app
        + (sample_primary 500 10 (-1)).staleness_for_start_prepare_for_potential_secondary
        ≥ (sample_primary 500 10 (-1)).last_committed_decree
    ∧ ((sample_primary 500 10 (-1)).on_learn sample_learn_env (sample_learn_request 7 600)
          empty_learn_response).map
        (fun x => (x.1.learners, x.2.2.1.prepare_start_decree, x.1.effects,
          x.2.1.last_committed_decree_in_app))
        = some ([(node_b, ⟨7, sample_learn_env.invalid_decree⟩)],
            sample_learn_env.invalid_decree, [], 0)
    ∧ ((sample_primary 500 10 400).on_learn sample_learn_env (sample_learn_request 7 600)
          empty_learn_response).map
        (fun x => (x.1.learners, x.2.2.1.prepare_start_decree, x.1.effects))
        = some ([(node_b, ⟨7, sample_learn_env.invalid_decree⟩)],
            sample_learn_env.invalid_decree, []) := by
  decide

/-- C18: `on_learn` on a primary, for a registered learner whose record has the signature
of the request, when no sum leaves the range of `decree` and the files of the learn state
are below the data directory.  Let `d` be the application decree of the request when it is
not beyond the committed decree of the primary, and 0 when it is (the function sets the
decree of such a request to 0 before it compares).  If
`d + staleness >= last_committed_decree` the record's `prepare_start_decree` becomes
`last_committed_decree + 1` when it was `invalid_decree` and stays as it was otherwise, and
the response carries that value; if not, the record's `prepare_start_decree` becomes
`invalid_decree` and the response carries `invalid_decree`.  The records of other learners
stay as they were. -/
theorem on_learn_attaches_within_staleness (env : learn_env) (r : replica)
    (request : learn_request) (response : learn_response) (l : remote_learner_state)
    (d : Int)
    (hp : r.status = PS_PRIMARY)
    (hl : omap_find request.learner r.learners = some l)
    (hsig : l.signature = request.signature)
    (hd : d = if request.last_committed_decree_in_app > r.last_committed_decree then 0
      else request.last_committed_decree_in_app)
    (hsum : is_int64 (d + r.staleness_for_start_prepare_for_potential_secondary))
    (hlcd : r.last_committed_decree + 1 < 9223372036854775808)
    (hd1 : d + 1 < 9223372036854775808)
    (hfiles : ∀ f ∈ (env.get_learn_state r.app (d + 1)
        request.app_specific_learn_request response.state).2.files,
      r.app.data_dir.length ≤ f.length) :
    ∃ r' response',
      r.on_learn env request response
        = some (r', reset_lost_decree r request, response', some (d + 1))
      ∧ (reset_lost_decree r request).last_committed_decree_in_app = d
      ∧ (request.last_committed_decree_in_app ≤ r.last_committed_decree →
          d = request.last_committed_decree_in_app)
      ∧ (request.last_committed_decree_in_app > r.last_committed_decree → d = 0)
      ∧ (d + r.staleness_for_start_prepare_for_potential_secondary
            ≥ r.last_committed_decree →
          omap_find request.learner r'.learners
            = some { l with prepare_start_decree :=
                if l.prepare_start_decree = env.invalid_decree then
                  r.last_committed_decree + 1
                else l.prepare_start_decree }
          ∧ response'.prepare_start_decree
            = (if l.prepare_start_decree = env.invalid_decree then
                r.last_committed_decree + 1
              else l.prepare_start_decree)
          ∧ r'.effects = r.effects ++
              (if l.prepare_start_decree = env.invalid_decree then
                [effect.cleanup_preparing_mutations, effect.replay_prepare_list]
              else []))
      ∧ (d + r.staleness_for_start_prepare_for_potential_secondary
            < r.last_committed_decree →
          omap_find request.learner r'.learners
            = some { l with prepare_start_decree := env.invalid_decree }
          ∧ response'.prepare_start_decree = env.invalid_decree
          ∧ r'.effects = r.effects)
      ∧ (∀ node, node ≠ request.learner →
          omap_find node r'.learners = omap_find node r.learners)
      ∧ response'.commit_decree = r.last_committed_decree := by
  have hd0 : d = (reset_lost_decree r request).last_committed_decree_in_app := by
    rw [hd]
    unfold reset_lost_decree
    split <;> rfl
  have hle : request.last_committed_decree_in_app ≤ r.last_committed_decree →
      (reset_lost_decree r request).last_committed_decree_in_app
        = request.last_committed_decree_in_app := by
    intro h
    unfold reset_lost_decree
    rw [if_neg (not_lt.2 h)]
  have hgt : request.last_committed_decree_in_app > r.last_committed_decree →
      (reset_lost_decree r request).last_committed_decree_in_app = 0 := by
    intro h
    unfold reset_lost_decree
    rw [if_pos h]
  clear hd
  subst hd0
  have ha := attach_prepare_some env r l
    (reset_lost_decree r request).last_committed_decree_in_app hsum hlcd
  refine ⟨_, _, on_learn_registered env r request response l _ hp hl hsig ha hd1 hfiles,
    rfl, hle, hgt, ?_, ?_, ?_, rfl⟩
  · intro hge
    simp only [if_pos hge]
    by_cases hi : l.prepare_start_decree = env.invalid_decree
    · simp only [if_pos hi]
      exact ⟨omap_find_set_learner _ _ _ _ hl, trivial, trivial⟩
    · simp only [if_neg hi, List.append_nil]
      exact ⟨omap_find_set_learner _ _ _ _ hl, trivial, trivial⟩
  · intro hlt
    simp only [if_neg (not_le.2 hlt), List.append_nil]
    exact ⟨omap_find_set_learner _ _ _ _ hl, trivial, trivial⟩
  · intro node hnode
    exact omap_find_set_learner_ne _ _ _ _ hnode

theorem on_learn_attaches_within_staleness_witness :
    (sample_primary 500 10 (-1)).status = PS_PRIMARY
    ∧ omap_find (sample_learn_request 7 495).learner (sample_primary 500 10 (-1)).learners
        = some ⟨7, -1⟩
    ∧ (⟨7, -1⟩ : remote_learner_state).signature = (sample_learn_request 7 495).signature
    ∧ (495 : Int)
        = (if (sample_learn_request 7 495).last_committed_decree_in_app
              > (sample_primary 500 10 (-1)).last_committed_decree then 0
          else (sample_learn_request 7 495).last_committed_decree_in_app)
    ∧ ((sample_primary 500 10 (-1)).on_learn sample_learn_env (sample_learn_request 7 495)
          empty_learn_response).map (fun x => (x.1.learners, x.2.2.1.prepare_start_decree))
        = some ([(node_b, ⟨7, 501⟩)], 501)
    ∧ ((sample_primary 500 10 (-1)).on_learn sample_learn_env (sample_learn_request 7 490)
          empty_learn_response).map (fun x => (x.1.learners, x.2.2.1.prepare_start_decree))
        = some ([(node_b, ⟨7, 501⟩)], 501)
    ∧ ((sample_primary 500 10 (-1)).on_learn sample_learn_env (sample_learn_request 7 489)
          empty_learn_response).map (fun x => (x.1.learners, x.2.2.1.prepare_start_decree))
        = some ([(node_b, ⟨7, -1⟩)], -1)
    ∧ ((sample_primary 500 10 400).on_learn sample_learn_env (sample_learn_request 7 495)
          empty_learn_response).map (fun x => (x.1.learners, x.2.2.1.prepare_start_decree))
        = some ([(node_b, ⟨7, 400⟩)], 400)
    ∧ ∃ r' response',
      (sample_primary 500 10 (-1)).on_learn sample_learn_env (sample_learn_request 7 495)
          empty_learn_response
        = some (r', reset_lost_decree (sample_primary 500 10 (-1)) (sample_learn_request 7 495),
            response', some (495 + 1))
      ∧ (reset_lost_decree (sample_primary 500 10 (-1))
            (sample_learn_request 7 495)).last_committed_decree_in_app = 495
      ∧ ((sample_learn_request 7 495).last_committed_decree_in_app
            ≤ (sample_primary 500 10 (-1)).last_committed_decree →
          (495 : Int) = (sample_learn_request 7 495).last_committed_decree_in_app)
      ∧ ((sample_learn_request 7 495).last_committed_decree_in_app
            > (sample_primary 500 10 (-1)).last_committed_decree → (495 : Int) = 0)
      ∧ (495 + (sample_primary 500 10 (-1)).staleness_for_start_prepare_for_potential_secondary
            ≥ (sample_primary 500 10 (-1)).last_committed_decree →
          omap_find (sample_learn_request 7 495).learner r'.learners
            = some { (⟨7, -1⟩ : remote_learner_state) with prepare_start_decree :=
                if (⟨7, -1⟩ : remote_learner_state).prepare_start_decree
                    = sample_learn_env.invalid_decree then
                  (sample_primary 500 10 (-1)).last_committed_decree + 1
                else (⟨7, -1⟩ : remote_learner_state).prepare_start_decree }
          ∧ response'.prepare_start_decree
            = (if (⟨7, -1⟩ : remote_learner_state).prepare_start_decree
                  = sample_learn_env.invalid_decree then
                (sample_primary 500 10 (-1)).last_committed_decree + 1
              else (⟨7, -1⟩ : remote_learner_state).prepare_start_decree)
          ∧ r'.effects = (sample_primary 500 10 (-1)).effects ++
              (if (⟨7, -1⟩ : remote_learner_state).prepare_start_decree
                  = sample_learn_env.invalid_decree then
                [effect.cleanup_preparing_mutations, effect.replay_prepare_list]
              else []))
      ∧ (495 + (sample_primary 500 10 (-1)).staleness_for_start_prepare_for_potential_secondary
            < (sample_primary 500 10 (-1)).last_committed_decree →
          omap_find (sample_learn_request 7 495).learner r'.learners
            = some { (⟨7, -1⟩ : remote_learner_state) with
                prepare_start_decree := sample_learn_env.invalid_decree }
          ∧ response'.prepare_start_decree = sample_learn_env.invalid_decree
          ∧ r'.effects = (sample_primary 500 10 (-1)).effects)
      ∧ (∀ node, node ≠ (sample_learn_request 7 495).learner →
          omap_find node r'.learners = omap_find node (sample_primary 500 10 (-1)).learners)
      ∧ response'.commit_decree = (sample_primary 500 10 (-1)).last_committed_decree :=
  ⟨rfl, by decide, rfl, by decide, by decide, by decide, by decide, by decide,
    on_learn_attaches_within_staleness sample_learn_env (sample_primary 500 10 (-1))
      (sample_learn_request 7 495) empty_learn_response ⟨7, -1⟩ 495 rfl (by decide) rfl
      (by decide) (by unfold is_int64; decide) (by decide) (by decide) (by decide)⟩

/-- C19: on a primary, `on_learn` gives for a request whose application decree is beyond
the committed decree of the primary what it gives for the same request with the
application decree 0: the same replica (with the learner's record), the same request
afterwards, the same response, and the same start decree for `get_learn_state`, which is 1
whenever `get_learn_state` is called; and for a registered learner with the signature of
the request it does return, with the start decree 1, when no sum leaves the range of
`decree` and the files of the learn state are below the data directory. -/
theorem on_learn_lost_state_as_zero (env : learn_env) (r : replica)
    (request : learn_request) (response : learn_response)
    (hp : r.status = PS_PRIMARY)
    (h : request.last_committed_decree_in_app > r.last_committed_decree) :
    r.on_learn env request response
      = r.on_learn env { request with last_committed_decree_in_app := 0 } response
    ∧ (∀ x, r.on_learn env request response = some x →
        x.2.2.2 = none ∨ x.2.2.2 = some 1)
    ∧ (∀ l, omap_find request.learner r.learners = some l →
        l.signature = request.signature →
        is_int64 r.staleness_for_start_prepare_for_potential_secondary →
        r.last_committed_decree + 1 < 9223372036854775808 →
        (∀ f ∈ (env.get_learn_state r.app 1 request.app_specific_learn_request
            response.state).2.files, r.app.data_dir.length ≤ f.length) →
        ∃ r' response', r.on_learn env request response
          = some (r', { request with last_committed_decree_in_app := 0 }, response',
              some 1)) := by
  have hreq := reset_lost_decree_of_gt r request h
  have hzero := reset_lost_decree_zero r request
  have heq : r.on_learn env request response
      = r.on_learn env { request with last_committed_decree_in_app := 0 } response := by
    unfold replica.on_learn
    rw [if_neg (by rw [hp]; simp), if_neg (by rw [hp]; simp)]
    simp only [hreq, hzero]
  refine ⟨heq, ?_, ?_⟩
  · intro x hx
    unfold replica.on_learn at hx
    rw [if_neg (by rw [hp]; simp)] at hx
    simp only [hreq] at hx
    split at hx
    · simp only [Option.some.injEq] at hx
      rw [← hx]
      exact Or.inl rfl
    · split at hx
      · simp only [Option.some.injEq] at hx
        rw [← hx]
        exact Or.inl rfl
      · split at hx
        · simp at hx
        · split at hx
          · simp at hx
          · split at hx
            · simp at hx
            · simp only [Option.some.injEq] at hx
              rw [← hx]
              exact Or.inr (by simp)
  · intro l hl hsig hst hlcd hfiles
    have hsum : is_int64 ((reset_lost_decree r request).last_committed_decree_in_app
        + r.staleness_for_start_prepare_for_potential_secondary) := by
      rw [hreq]
      simpa using hst
    have ha := attach_prepare_some env r l
      (reset_lost_decree r request).last_committed_decree_in_app hsum hlcd
    have h1 : (reset_lost_decree r request).last_committed_decree_in_app + 1 = 1 := by
      rw [hreq]
      simp
    have := on_learn_registered env r request response l _ hp hl hsig ha
      (by rw [h1]; decide) (by rw [h1]; exact hfiles)
    rw [h1, hreq] at this
    exact ⟨_, _, this⟩

theorem on_learn_lost_state_as_zero_witness :
    (sample_primary 500 10 (-1)).status = PS_PRIMARY
    ∧ (sample_learn_request 7 600).last_committed_decree_in_app
        > (sample_primary 500 10 (-1)).last_committed_decree
    ∧ ((sample_primary 500 10 (-1)).on_learn sample_learn_env (sample_learn_request 7 600)
          empty_learn_response).map
        (fun x => (x.1.learners, x.2.2.1.prepare_start_decree, x.2.2.1.state.files, x.2.2.2))
        = some ([(node_b, ⟨7, -1⟩)], -1, ["/1".toList], some 1)
    ∧ (sample_primary 500 10 (-1)).on_learn sample_learn_env (sample_learn_request 7 600)
          empty_learn_response
        = (sample_primary 500 10 (-1)).on_learn sample_learn_env
            { sample_learn_request 7 600 with last_committed_decree_in_app := 0 }
            empty_learn_response
    ∧ (∀ x, (sample_primary 500 10 (-1)).on_learn sample_learn_env (sample_learn_request 7 600)
          empty_learn_response = some x →
        x.2.2.2 = none ∨ x.2.2.2 = some 1)
    ∧ (∀ l, omap_find (sample_learn_request 7 600).learner (sample_primary 500 10 (-1)).learners
          = some l →
        l.signature = (sample_learn_request 7 600).signature →
        is_int64 (sample_primary 500 10 (-1)).staleness_for_start_prepare_for_potential_secondary →
        (sample_primary 500 10 (-1)).last_committed_decree + 1 < 9223372036854775808 →
        (∀ f ∈ (sample_learn_env.get_learn_state (sample_primary 500 10 (-1)).app 1
            (sample_learn_request 7 600).app_specific_learn_request
            empty_learn_response.state).2.files,
          (sample_primary 500 10 (-1)).app.data_dir.length ≤ f.length) →
        ∃ r' response', (sample_primary 500 10 (-1)).on_learn sample_learn_env
            (sample_learn_request 7 600) empty_learn_response
          = some (r', { sample_learn_request 7 600 with last_committed_decree_in_app := 0 },
              response', some 1)) :=
  ⟨rfl, by decide, by decide,
    on_learn_lost_state_as_zero sample_learn_env (sample_primary 500 10 (-1))
      (sample_learn_request 7 600) empty_learn_response rfl (by decide)⟩

/-- C20 (counterexample): a round is in flight under the signature 7 when `on_add_learner`
arrives with the signature 8: `init_learn(8)` returns at once and the session keeps the
signature 7 and the running round.  The reply to the request of signature 7 that arrives
then is not discarded: the status becomes `LearningWithPrepare`, the prepare list is reset
to 500, and the copy of the remote files is started.  And on a session with the signature
8, a reply to a request of signature 7 fails the `dassert` of `on_learn_reply`. -/
theorem stale_learn_reply_counterexample :
    (sample_learner ⟨7, LearningWithoutPrepare, true⟩).on_add_learner sample_learn_env
        ⟨⟨4, node_a, PS_POTENTIAL_SECONDARY⟩, 8⟩ = some readded_learner
    ∧ readded_learner.potential_secondary_states = ⟨7, LearningWithoutPrepare, true⟩
    ∧ readded_learner.prepare_list = ⟨490, [sample_mutation 491]⟩
    ∧ readded_learner.effects = []
    ∧ (readded_learner.on_learn_reply sample_learn_env ERR_OK (sample_learn_request 7 495)
          sample_learn_reply).map
        (fun r => (r.potential_secondary_states, r.prepare_list, r.effects))
        = some (⟨7, LearningWithPrepare, true⟩, ⟨500, []⟩,
            [effect.copy_remote_files node_a "data".toList ["/496".toList] "learn".toList
              sample_learn_reply])
    ∧ (sample_learner ⟨8, LearningWithoutPrepare, true⟩).on_learn_reply sample_learn_env
        ERR_OK (sample_learn_request 7 495) sample_learn_reply = none := by
  refine ⟨by decide, by decide, by decide, by decide, by decide, by decide⟩

/-- C20: `on_learn_reply` asserts that the signature of the request is the learning
signature of the session: with another signature it aborts (`none`), whatever the error and
the response are.  `on_add_learner` that arrives while a round is running leaves the
session as it is (signature, status, running round), when adopting the configuration does.
And a reply with the signature of the session, without error and with no newer ballot, is
processed: the copy of the files (or the completion task, when there is no file) is
started, and a session in `LearningWithoutPrepare` that is given a start decree moves to
`LearningWithPrepare` with the prepare list reset to the decree before. -/
theorem on_learn_reply_checks_signature (env : learn_env) (r : replica) (err : error_code)
    (req : learn_request) (resp : learn_response) :
    (req.signature ≠ r.potential_secondary_states.learning_signature →
      r.on_learn_reply env err req resp = none)
    ∧ (∀ request r', r.potential_secondary_states.learning_round_is_running = true →
        (env.update_local_configuration r request.config true).potential_secondary_states
          = r.potential_secondary_states →
        r.on_add_learner env request = some r' →
        r'.potential_secondary_states = r.potential_secondary_states)
    ∧ (r.status = PS_POTENTIAL_SECONDARY →
        req.signature = r.potential_secondary_states.learning_signature →
        err = ERR_OK → resp.err = ERR_OK → resp.config.ballot ≤ r.get_ballot →
        -9223372036854775808 ≤ resp.prepare_start_decree - 1 →
        ∃ r', r.on_learn_reply env err req resp = some r'
          ∧ r'.effects = r.effects ++
              [if resp.state.files.length > 0 then
                effect.copy_remote_files resp.config.primary resp.base_local_dir
                  resp.state.files r.app.learn_dir resp
              else effect.enqueue_copy_completed resp]
          ∧ r'.potential_secondary_states.learning_signature
              = r.potential_secondary_states.learning_signature
          ∧ r'.potential_secondary_states.learning_round_is_running
              = r.potential_secondary_states.learning_round_is_running
          ∧ (resp.prepare_start_decree ≠ env.invalid_decree →
              r.potential_secondary_states.learning_status = LearningWithoutPrepare →
              r'.potential_secondary_states.learning_status = LearningWithPrepare
              ∧ r'.prepare_list = r.prepare_list.reset (resp.prepare_start_decree - 1))) := by
  refine ⟨?_, ?_, ?_⟩
  · intro hne
    unfold replica.on_learn_reply
    by_cases hst : PS_POTENTIAL_SECONDARY ≠ r.status
    · rw [if_pos hst]
    · rw [if_neg hst, if_pos hne]
  · intro request r' hrun hkeep hadd
    unfold replica.on_add_learner at hadd
    split at hadd
    · simp only [Option.some.injEq] at hadd
      rw [← hadd]
    · split at hadd
      · simp only at hadd
        split at hadd
        · simp at hadd
        · rename_i hst
          unfold replica.init_learn at hadd
          rw [if_neg (by simpa [eq_comm] using hst),
            if_pos (Or.inl (by rw [hkeep]; exact hrun))] at hadd
          simp only [Option.some.injEq] at hadd
          rw [← hadd, hkeep]
      · simp only [Option.some.injEq] at hadd
        rw [← hadd]
  · intro hst hsig he hre hb hmin
    unfold replica.on_learn_reply
    rw [if_neg (by rw [hst]; simp), if_neg (not_not.2 hsig), if_neg (not_not.2 he),
      if_neg (not_not.2 hre)]
    simp only [if_neg (not_lt.2 hb)]
    rw [if_neg (not_not.2 hst)]
    by_cases hat : resp.prepare_start_decree ≠ env.invalid_decree
        ∧ r.potential_secondary_states.learning_status = LearningWithoutPrepare
    · rw [if_neg (by rintro ⟨_, h2⟩; exact h2 hmin)]
      simp only [if_pos hat]
      by_cases hf : resp.state.files.length > 0
      · simp only [if_pos hf]
        exact ⟨_, rfl, rfl, rfl, rfl, fun _ _ => ⟨rfl, rfl⟩⟩
      · simp only [if_neg hf]
        exact ⟨_, rfl, rfl, rfl, rfl, fun _ _ => ⟨rfl, rfl⟩⟩
    · rw [if_neg (by rintro ⟨h1, _⟩; exact hat h1)]
      simp only [if_neg hat]
      by_cases hf : resp.state.files.length > 0
      · simp only [if_pos hf]
        exact ⟨_, rfl, rfl, rfl, rfl, fun h1 h2 => absurd ⟨h1, h2⟩ hat⟩
      · simp only [if_neg hf]
        exact ⟨_, rfl, rfl, rfl, rfl, fun h1 h2 => absurd ⟨h1, h2⟩ hat⟩

/-! ## `write_log_entry` and the end offset -/

/-- C23 (counterexample): `write_log_entry` of three bytes at offset 0 on a write segment
that ends at 0, when the write cannot be issued: no task is returned, the file stays empty,
and the end offset of the segment is 3. -/
theorem write_log_entry_failed_issue_counterexample :
    empty_write_segment.end_offset = 0
    ∧ (empty_write_segment.write_log_entry [("d/log.1.0".toList, [])]
          ⟨true, false, true, ERR_OK, 0⟩ [1, 2, 3] [] 0).map
        (fun r => (r.1, r.2.1.end_offset, r.2.2))
        = some (false, 3, [("d/log.1.0".toList, [])]) := by
  decide

/-- C23: `write_log_entry(bytes, offset)` on a write segment, called with
`offset == end_offset`, returns (a task exactly when the write was issued) and sets the end
offset of the segment to `offset + bytes.len` in both cases; the bytes are in the file at
`offset - start_offset` when the write was issued, and the disk is as it was when not.  On a
read segment, or with another offset, the `dassert`s fail. -/
theorem write_log_entry_end_offset (fs : disk) (io : io_env) (f : log_file) (bb : List Nat)
    (news : List mutation) (offset : Int) :
    (f.is_read = false → offset = f.end_offset →
      ∃ f' fs', f.write_log_entry fs io bb news offset = some (io.issue_ok, f', fs')
        ∧ f'.end_offset = offset + bb.length
        ∧ f'.start_offset = f.start_offset ∧ f'.path = f.path ∧ f'.index = f.index
        ∧ fs' = (if io.issue_ok then fs_write fs f.path (offset - f.start_offset).toNat bb
                 else fs))
    ∧ (f.is_read = true ∨ offset ≠ f.end_offset →
        f.write_log_entry fs io bb news offset = none) := by
  refine ⟨?_, ?_⟩
  · intro hr ho
    unfold log_file.write_log_entry
    rw [if_neg (by rw [hr]; simp), if_neg (not_not.2 ho)]
    cases hio : io.issue_ok
    · exact ⟨_, _, rfl, rfl, rfl, rfl, rfl, rfl⟩
    · exact ⟨_, _, rfl, rfl, rfl, rfl, rfl, rfl⟩
  · intro h
    unfold log_file.write_log_entry
    rcases h with h | h
    · rw [if_pos h]
    · by_cases hr : f.is_read = true
      · rw [if_pos hr]
      · rw [if_neg hr, if_pos h]

/-! ## Garbage collection and the partitions listed -/

theorem delete_older_files_iff (D : multi_partition_decrees) (log : log_file) :
    delete_older_files D log = true
      ↔ ∀ p ∈ D, ∀ d, omap_find p.1 log.init_prepared_decrees = some d → p.2 ≥ d := by
  unfold delete_older_files
  rw [List.all_eq_true]
  constructor
  · intro h p hp d hd
    have := h p hp
    rw [hd] at this
    simpa using this
  · intro h p hp
    cases hd : omap_find p.1 log.init_prepared_decrees with
    | none => rfl
    | some d => simpa using h p hp d hd

theorem gc_scan_empty (r : List (Int × log_file)) : gc_scan [] r = r := by
  cases r with
  | nil => rfl
  | cons e r => simp [gc_scan, delete_older_files]

/-- C25: `garbage_collection` on a log with a sorted segment map.  A segment is removed
exactly when it is not the current one and a segment of higher index, not the current one
either, passes the test of the durable decrees; that test reads, of the segment's
`init_prepared_decrees`, only the entries of the partitions listed in `durable_decrees`.
With an empty `durable_decrees` every segment passes: the segments removed are all the
non-current ones but the one of highest index, and the count returned is their number
minus one (0 when there is none). -/
theorem garbage_collection_only_listed_partitions (s : mutation_log)
    (D : multi_partition_decrees) (hs : omap_sorted int_lt s.log_files) :
    (∀ e ∈ s.log_files,
      (e ∉ (s.garbage_collection D).2.log_files ↔
        (s.current_log_file ≠ some e.1
          ∧ ∃ S ∈ s.log_files, s.current_log_file ≠ some S.1 ∧ e.1 < S.1
              ∧ ∀ p ∈ D, ∀ d, omap_find p.1 S.2.init_prepared_decrees = some d → p.2 ≥ d)))
    ∧ (∀ e ∈ s.log_files,
      (e ∉ (s.garbage_collection []).2.log_files ↔
        (s.current_log_file ≠ some e.1
          ∧ ∃ S ∈ s.log_files, s.current_log_file ≠ some S.1 ∧ e.1 < S.1)))
    ∧ (∀ e ∈ (s.garbage_collection []).2.log_files, e ∈ s.log_files)
    ∧ (∀ k : Nat,
        (s.log_files.filter fun e => decide (s.current_log_file ≠ some e.1)).length = k + 1 →
        (s.garbage_collection []).1 = k)
    ∧ ((s.log_files.filter fun e => decide (s.current_log_file ≠ some e.1)) = [] →
        s.garbage_collection [] = (0, s)) := by
  have hchar : ∀ (D : multi_partition_decrees), ∀ e ∈ s.log_files,
      (e ∉ (s.garbage_collection D).2.log_files ↔
        (s.current_log_file ≠ some e.1
          ∧ ∃ S ∈ s.log_files, s.current_log_file ≠ some S.1 ∧ e.1 < S.1
              ∧ ∀ p ∈ D, ∀ d, omap_find p.1 S.2.init_prepared_decrees = some d →
                  p.2 ≥ d)) := by
    intro D e he
    rw [garbage_collection_removed_iff s D hs e he]
    rcases gc_victims_spec s D hs with ⟨h1, h2⟩ | ⟨S, hS, hSc, hSq, hmax, hv⟩
    · rw [h1]
      simp only [List.not_mem_nil, false_iff, not_and, not_exists]
      intro _ S hS hcur _ hq
      have := h2 S hS hcur
      rw [(delete_older_files_iff D S.2).2 hq] at this
      simp at this
    · rw [hv]
      constructor
      · rintro ⟨_, hc, hlt⟩
        exact ⟨hc, S, hS, hSc, hlt, (delete_older_files_iff D S.2).1 hSq⟩
      · rintro ⟨hc, S', hS', hSc', hlt, hq⟩
        have := hmax S' hS' hSc' ((delete_older_files_iff D S'.2).2 hq)
        exact ⟨he, hc, by omega⟩
  have hvict : gc_victims s []
      = ((s.log_files.filter fun e => decide (s.current_log_file ≠ some e.1)).reverse).tail := by
    unfold gc_victims
    simp only [gc_files_eq, gc_scan_empty]
    cases (s.log_files.filter fun e => decide (s.current_log_file ≠ some e.1)).reverse <;> rfl
  refine ⟨hchar D, ?_, ?_, ?_, ?_⟩
  · intro e he
    rw [hchar [] e he]
    simp
  · intro e he
    rw [garbage_collection_log_files] at he
    exact (List.mem_filter.1 he).1
  · intro k hk
    rw [garbage_collection_count, hvict, List.length_tail, List.length_reverse, hk]
    simp
  · intro hnone
    have hv : gc_victims s [] = [] := by rw [hvict, hnone]; rfl
    simp [mutation_log.garbage_collection, hv]

set_option maxRecDepth 100000 in
theorem garbage_collection_only_listed_partitions_witness :
    omap_sorted int_lt gc_example_log.log_files
    ∧ gc_example_log.current_log_file = some 3
    ∧ (gc_example_log.log_files.map fun e => (e.1, e.2.init_prepared_decrees))
        = [(1, [(⟨1, 0⟩, 1)]), (2, [(⟨1, 0⟩, 100)]), (3, [(⟨1, 0⟩, 200)])]
    ∧ (gc_example_log.garbage_collection []).1 = 1
    ∧ ((gc_example_log.garbage_collection []).2.log_files.map Prod.fst) = [2, 3]
    ∧ (gc_example_log.garbage_collection [(⟨2, 0⟩, 0)]).1 = 1
    ∧ (gc_example_log.log_files.filter
          fun e => decide (gc_example_log.current_log_file ≠ some e.1)).length = 1 + 1
    ∧ (∀ k : Nat,
        (gc_example_log.log_files.filter
          fun e => decide (gc_example_log.current_log_file ≠ some e.1)).length = k + 1 →
        (gc_example_log.garbage_collection []).1 = k) :=
  have h : omap_sorted int_lt gc_example_log.log_files := by
    unfold omap_sorted
    decide
  ⟨h, by decide, by decide, by decide, by decide, by decide, by decide,
    (garbage_collection_only_listed_partitions gc_example_log [] h).2.2.2.1⟩

/-! ## The chunks of a remote copy -/

theorem ceil_div_step (size b : Int) (hb : 0 < b) (hs : b < size) :
    max 1 ((size + b - 1) / b) = max 1 ((size - b + b - 1) / b) + 1
    ∧ 1 ≤ (size - b + b - 1) / b := by
  have h1 : size + b - 1 = (size - 1) + 1 * b := by ring
  have h2 : size - b + b - 1 = size - 1 := by ring
  rw [h1, Int.add_mul_ediv_right _ _ (ne_of_gt hb), h2]
  have h3 : 1 ≤ (size - 1) / b := by
    apply Int.le_ediv_of_mul_le hb
    omega
  exact ⟨by omega, h3⟩

theorem ceil_div_small (size b : Int) (hb : 0 < b) (hs : size ≤ b) :
    max 1 ((size + b - 1) / b) = 1 := by
  have : (size + b - 1) / b ≤ 1 := by
    have h := Int.ediv_le_ediv hb (show size + b - 1 ≤ 1 * b + (b - 1) by omega)
    have h2 : (1 * b + (b - 1)) / b = 1 := by
      rw [Int.add_comm, Int.add_mul_ediv_right _ _ (ne_of_gt hb),
        Int.ediv_eq_zero_of_lt (by omega) (by omega)]
      rfl
    rw [h2] at h
    exact h
  omega

/-- The requests from the `i`-th on. -/
theorem copy_loop_spec (b : Int) (name : List Char) (hb : 0 < b) (hb32 : b < 4294967296)
    (fuel : Nat) :
    ∀ (m : Nat) (size off idx : Int) (acc : List copy_request_ex),
      0 ≤ size → 0 ≤ off → off + size < 18446744073709551616 →
      (m : Int) = max 1 ((size + b - 1) / b) → idx + m < 2147483648 → m ≤ fuel →
      copy_loop b name fuel size off (next_req_size b size) idx acc
        = some (acc ++ (List.range m).map fun (j : Nat) =>
            ({ index := idx + j
               file_name := name
               offset := off + j * b
               size := min b (size - j * b)
               is_last := decide (j + 1 = m) } : copy_request_ex)) := by
  induction fuel with
  | zero =>
    intro m size off idx acc _ _ _ hm _ hf
    have : (1 : Int) ≤ m := by rw [hm]; exact le_max_left _ _
    omega
  | succ fuel ih =>
    intro m size off idx acc h0 hoff hsum hm hidx hf
    have hm1 : (1 : Int) ≤ m := by rw [hm]; exact le_max_left _ _
    have hreq : next_req_size b size = min b size := by
      unfold next_req_size uint32_cast
      by_cases hs : size > b
      · rw [if_pos hs, Int.emod_eq_of_lt (by omega) hb32, min_eq_left (by omega)]
      · rw [if_neg hs, Int.emod_eq_of_lt h0 (by omega), min_eq_right (by omega)]
    rw [hreq]
    unfold copy_loop
    rw [if_neg (by omega)]
    simp only
    have hsz : size_t_cast (size - min b size) = size - min b size := by
      unfold size_t_cast
      exact Int.emod_eq_of_lt (by omega) (by omega)
    have hof : size_t_cast (off + min b size) = off + min b size := by
      unfold size_t_cast
      exact Int.emod_eq_of_lt (by omega) (by omega)
    rw [hsz, hof]
    by_cases hs : size ≤ b
    · have hmin : min b size = size := min_eq_right hs
      have hm' : m = 1 := by
        have := ceil_div_small size b hb hs
        omega
      rw [hmin, if_pos (by omega), if_pos (by omega), hm']
      simp [List.range_succ, hmin]
    · have hs' : b < size := not_le.1 hs
      have hmin : min b size = b := min_eq_left (le_of_lt hs')
      obtain ⟨hstep, hge⟩ := ceil_div_step size b hb hs'
      rw [hmin, if_neg (by omega)]
      obtain ⟨m1, rfl⟩ : ∃ m1, m = m1 + 1 := ⟨m - 1, by omega⟩
      have hm1' : (m1 : Int) = max 1 ((size - b + b - 1) / b) := by
        rw [hstep] at hm
        push_cast at hm
        omega
      rw [ih m1 (size - b) (off + b) (idx + 1) _ (by omega) (by omega) (by omega) hm1'
        (by push_cast at hidx; omega) (by omega)]
      rw [List.range_succ_eq_map, List.map_cons, List.map_map, List.append_assoc]
      have hm0 : m1 ≠ 0 := by
        intro h
        rw [h] at hm1'
        have := le_max_left (1 : Int) ((size - b + b - 1) / b)
        omega
      simp only [List.cons_append, List.nil_append]
      refine congrArg some (congrArg (fun l => acc ++ l) ?_)
      refine congr (congrArg List.cons ?_) ?_
      · simp [hs, hm0, le_of_lt hs']
      · apply List.map_congr_left
        intro j _
        simp only [Function.comp_apply, Nat.succ_eq_add_one, Nat.cast_add, Nat.cast_one,
          copy_request_ex.mk.injEq, true_and]
        refine ⟨by ring, by ring, by ring_nf, ?_⟩
        simp

theorem ceil_div_bounds (n b : Int) (hb : 0 < b) :
    ((n + b - 1) / b - 1) * b < n ∧ n ≤ (n + b - 1) / b * b := by
  have h1 := Int.emod_add_ediv (n + b - 1) b
  have h2 := Int.emod_nonneg (n + b - 1) (ne_of_gt hb)
  have h3 := Int.emod_lt_of_pos (n + b - 1) hb
  have h4 : b * ((n + b - 1) / b) = (n + b - 1) / b * b := Int.mul_comm _ _
  constructor
  · have : ((n + b - 1) / b - 1) * b = (n + b - 1) / b * b - b := by ring
    omega
  · omega

theorem chunks_sizes (n b : Int) (k : Nat) (hb : 0 < b)
    (hk : (k : Int) = max 1 ((n + b - 1) / b)) :
    ∀ i : Nat, i < k →
      (i + 1 < k → min b (n - i * b) = b) ∧ (i + 1 = k → i * b + min b (n - i * b) = n) := by
  obtain ⟨hlo, hhi⟩ := ceil_div_bounds n b hb
  intro i hi
  constructor
  · intro hik
    have hq : (k : Int) = (n + b - 1) / b := by
      rcases max_cases (1 : Int) ((n + b - 1) / b) with ⟨h, _⟩ | ⟨h, _⟩
      · rw [h] at hk
        omega
      · rw [h] at hk
        exact hk
    rw [← hq] at hlo
    have : ((i : Int) + 1) * b ≤ ((k : Int) - 1) * b :=
      Int.mul_le_mul_of_nonneg_right (by omega) (le_of_lt hb)
    apply min_eq_left
    have e : ((i : Int) + 1) * b = i * b + b := by ring
    omega
  · intro hik
    rcases max_cases (1 : Int) ((n + b - 1) / b) with ⟨h, hle⟩ | ⟨h, hlt⟩
    · rw [h] at hk
      have hi0 : i = 0 := by omega
      have hnb : n ≤ b := by
        have : (n + b - 1) / b * b ≤ 1 * b := Int.mul_le_mul_of_nonneg_right hle (le_of_lt hb)
        omega
      subst hi0
      simp [min_eq_right hnb]
    · rw [h] at hk
      rw [← hk] at hlo hhi
      have e1 : ((k : Int) - 1) * b = i * b := by
        have : (k : Int) - 1 = i := by omega
        rw [this]
      have e2 : (k : Int) * b = i * b + b := by
        have : (k : Int) = i + 1 := by omega
        rw [this]
        ring
      rw [min_eq_right (by omega)]
      omega

theorem chunks_sum_prefix (n b : Int) (k : Nat)
    (hb : 0 < b) (hk : (k : Int) = max 1 ((n + b - 1) / b)) :
    ∀ j : Nat, j < k →
      (((List.range j).map fun (i : Nat) => min b (n - i * b)).sum : Int) = j * b := by
  intro j
  induction j with
  | zero => intro _; simp
  | succ j ih =>
    intro hj
    rw [List.range_succ, List.map_append, List.sum_append, ih (by omega)]
    have := (chunks_sizes n b k hb hk j (by omega)).1 hj
    simp only [List.map_cons, List.map_nil, List.sum_cons, List.sum_nil, add_zero]
    rw [this]
    push_cast
    ring

/-- When the index would leave the range of `int` before the file is done, the loop does
not come to an end, whatever the fuel. -/
theorem copy_loop_overflow (b : Int) (name : List Char) (hb : 0 < b) (hb32 : b < 4294967296)
    (fuel : Nat) :
    ∀ (m : Nat) (size off idx : Int) (acc : List copy_request_ex),
      0 ≤ size → 0 ≤ off → off + size < 18446744073709551616 →
      (m : Int) = max 1 ((size + b - 1) / b) → idx + m ≥ 2147483648 →
      copy_loop b name fuel size off (next_req_size b size) idx acc = none := by
  induction fuel with
  | zero =>
    intro m size off idx acc _ _ _ _ _
    rfl
  | succ fuel ih =>
    intro m size off idx acc h0 hoff hsum hm hidx
    have hreq : next_req_size b size = min b size := by
      unfold next_req_size uint32_cast
      by_cases hs : size > b
      · rw [if_pos hs, Int.emod_eq_of_lt (by omega) hb32, min_eq_left (by omega)]
      · rw [if_neg hs, Int.emod_eq_of_lt h0 (by omega), min_eq_right (by omega)]
    rw [hreq]
    unfold copy_loop
    by_cases hi : idx + 1 < 2147483648
    swap
    · rw [if_pos hi]
    rw [if_neg (not_not.2 hi)]
    simp only
    have hsz : size_t_cast (size - min b size) = size - min b size := by
      unfold size_t_cast
      exact Int.emod_eq_of_lt (by omega) (by omega)
    have hof : size_t_cast (off + min b size) = off + min b size := by
      unfold size_t_cast
      exact Int.emod_eq_of_lt (by omega) (by omega)
    rw [hsz, hof]
    by_cases hs : size ≤ b
    · have := ceil_div_small size b hb hs
      omega
    · have hs' : b < size := not_le.1 hs
      have hmin : min b size = b := min_eq_left (le_of_lt hs')
      obtain ⟨hstep, hge⟩ := ceil_div_step size b hb hs'
      rw [hmin, if_neg (by omega)]
      have hm1 : (1 : Int) ≤ m := by rw [hm]; exact le_max_left _ _
      obtain ⟨m1, rfl⟩ : ∃ m1, m = m1 + 1 := ⟨m - 1, by omega⟩
      have hm1' : (m1 : Int) = max 1 ((size - b + b - 1) / b) := by
        rw [hstep] at hm
        push_cast at hm
        omega
      exact ih m1 (size - b) (off + b) (idx + 1) _ (by omega) (by omega) (by omega) hm1'
        (by push_cast at hidx; omega)

/-- C26 (counterexample): with `nfs_copy_block_bytes = 1`, a file of 2^31 bytes and a file
of 2^31 + 1 bytes take 2^31 and 2^31 + 1 requests; the index is an `int`, `idx++` on the
index 2^31 - 1 overflows, and the loop does not come to an end with the requests of the
claim, whatever the fuel. -/
theorem end_get_file_size_index_counterexample :
    (max (1 : Int) ((2147483648 + 1 - 1) / 1) = 2147483648)
    ∧ (∀ fuel, file_copy_requests 1 fuel "f".toList 2147483648 = none)
    ∧ (∀ fuel, file_copy_requests 1 fuel "f".toList 2147483649 = none) := by
  refine ⟨by decide, ?_, ?_⟩
  · intro fuel
    exact copy_loop_overflow 1 _ (by decide) (by decide) fuel 2147483648 2147483648 0 0 []
      (by decide) (by decide) (by decide) (by decide) (by decide)
  · intro fuel
    exact copy_loop_overflow 1 _ (by decide) (by decide) fuel 2147483649 2147483649 0 0 []
      (by decide) (by decide) (by decide) (by decide) (by decide)

/-- C26: for a file of `n` bytes (a `uint64_t`) and `nfs_copy_block_bytes = b` with
`0 < b` (a `uint32_t`), with `k = max(1, ceil(n / b))` below the range of the `int` index,
the loop of `end_get_file_size` ends within `k` rounds and creates the requests of the
indices `0..k-1`, the request `i` with the offset `i * b`, the size `min(b, n - i * b)` and
`is_last` exactly when `i = k - 1`.  Every request but the last has the size `b`, the last
one ends at `n`, and the sizes add up to `n`. -/
theorem end_get_file_size_chunks (b n : Int) (name : List Char) (k fuel : Nat)
    (hn0 : 0 ≤ n) (hn : n < 18446744073709551616) (hb : 0 < b) (hb32 : b < 4294967296)
    (hk : (k : Int) = max 1 ((n + b - 1) / b)) (hidx : (k : Int) < 2147483648)
    (hf : k ≤ fuel) :
    file_copy_requests b fuel name n = some (chunks name n b k)
    ∧ end_get_file_size b fuel [name] [n] = some (chunks name n b k)
    ∧ (chunks name n b k).length = k
    ∧ (∀ i : Nat, i < k →
        (chunks name n b k)[i]?
          = some { index := i, file_name := name, offset := i * b,
                   size := min b (n - i * b), is_last := decide (i + 1 = k) })
    ∧ (∀ i : Nat, i < k →
        (i + 1 < k → min b (n - i * b) = b) ∧ (i + 1 = k → i * b + min b (n - i * b) = n))
    ∧ ((chunks name n b k).map fun r => r.size).sum = n := by
  have hloop : file_copy_requests b fuel name n = some (chunks name n b k) := by
    unfold file_copy_requests
    rw [copy_loop_spec b name hb hb32 fuel k n 0 0 [] hn0 (le_refl _) (by omega) hk
      (by omega) hf]
    simp only [List.nil_append, zero_add, chunks]
  have hk1 : 1 ≤ k := by
    have := le_max_left (1 : Int) ((n + b - 1) / b)
    omega
  refine ⟨hloop, ?_, by simp [chunks], ?_, chunks_sizes n b k hb hk, ?_⟩
  · simp [end_get_file_size, hloop]
  · intro i hi
    simp [chunks, List.getElem?_map, List.getElem?_range hi]
  · obtain ⟨j, rfl⟩ : ∃ j, k = j + 1 := ⟨k - 1, by omega⟩
    have hpre := chunks_sum_prefix n b (j + 1) hb hk j (by omega)
    have hlast := (chunks_sizes n b (j + 1) hb hk j (by omega)).2 rfl
    simp only [chunks, List.map_map]
    rw [List.range_succ, List.map_append, List.sum_append]
    simp only [Function.comp_def, List.map_cons, List.map_nil, List.sum_cons, List.sum_nil,
      add_zero]
    rw [hpre]
    exact hlast

theorem end_get_file_size_chunks_witness :
    (0 : Int) ≤ 10 ∧ (10 : Int) < 18446744073709551616 ∧ (0 : Int) < 4
    ∧ (4 : Int) < 4294967296 ∧ ((3 : Nat) : Int) = max 1 ((10 + 4 - 1) / 4)
    ∧ ((3 : Nat) : Int) < 2147483648 ∧ 3 ≤ 3
    ∧ file_copy_requests 4 3 "f".toList 10
        = some [⟨0, "f".toList, 0, 4, false⟩, ⟨1, "f".toList, 4, 4, false⟩,
            ⟨2, "f".toList, 8, 2, true⟩]
    ∧ file_copy_requests 4 3 "f".toList 8
        = some [⟨0, "f".toList, 0, 4, false⟩, ⟨1, "f".toList, 4, 4, true⟩]
    ∧ file_copy_requests 4 3 "f".toList 0 = some [⟨0, "f".toList, 0, 0, true⟩]
    ∧ (file_copy_requests 4 3 "f".toList 10 = some (chunks "f".toList 10 4 3)
      ∧ end_get_file_size 4 3 ["f".toList] [10] = some (chunks "f".toList 10 4 3)
      ∧ (chunks "f".toList 10 4 3).length = 3
      ∧ (∀ i : Nat, i < 3 →
          (chunks "f".toList 10 4 3)[i]?
            = some { index := i, file_name := "f".toList, offset := i * 4,
                     size := min 4 (10 - i * 4), is_last := decide (i + 1 = 3) })
      ∧ (∀ i : Nat, i < 3 →
          (i + 1 < 3 → min (4 : Int) (10 - i * 4) = 4)
          ∧ (i + 1 = 3 → (i : Int) * 4 + min (4 : Int) (10 - (i : Int) * 4) = 10))
      ∧ ((chunks "f".toList 10 4 3).map fun r => r.size).sum = 10) :=
  ⟨by decide, by decide, by decide, by decide, by decide, by decide, by decide, by decide,
    by decide, by decide,
    end_get_file_size_chunks 4 10 "f".toList 3 3 (by decide) (by decide) (by decide)
      (by decide) (by decide) (by decide) (by decide)⟩


/-! ## The learn state applied after a remote copy -/

theorem local_files_length (dir : List Char) (files out : List (List Char))
    (h : local_files dir files = some out) : out.length = files.length := by
  induction files generalizing out with
  | nil =>
    simp only [local_files, Option.some.injEq] at h
    subst h
    rfl
  | cons f rest ih =>
    simp only [local_files] at h
    cases hf : local_file dir f with
    | none => rw [hf] at h; cases h
    | some g =>
      rw [hf] at h
      cases hr : local_files dir rest with
      | none => rw [hr] at h; cases h
      | some gs =>
        rw [hr] at h
        simp only [Option.map_some', Option.some.injEq] at h
        subst h
        simp [ih gs hr]

/-- C21: after a successful copy `on_copy_remote_state_completed` builds the learn state
of local paths (`localState`: the meta of the response, and for every file of the response,
in order, the directory of the replica joined with it), but the state it hands to
`_app->apply_learn_state` is the state of the response itself, with the relative paths as
the primary sent them; `localState` is not used.  For the replica in `data` and the
response with the files `/496` and `497`, the application is given `/496` and `497`, not
`data/496` and `data/497`. -/
theorem on_copy_remote_state_completed_applies_response_state :
    (∀ (aenv : app_env) (r : replica) (size : Int) (resp : learn_response)
        (r1 : replica) (localState : learn_state),
        r.on_copy_remote_state_completed aenv ERR_OK size resp = some (r1, localState) →
        (∃ rest, r1.effects = r.effects ++ effect.apply_learn_state resp.state :: rest
          ∧ ∀ st, effect.apply_learn_state st ∉ rest)
        ∧ localState.meta = resp.state.meta
        ∧ local_files r.dir resp.state.files = some localState.files
        ∧ localState.files.length = resp.state.files.length)
    ∧ local_files "data".toList ["/496".toList, "497".toList]
        = some ["data/496".toList, "data/497".toList]
    ∧ ((sample_learner ⟨7, LearningWithPrepare, true⟩).on_copy_remote_state_completed
          sample_app_env ERR_OK 8
          { sample_learn_reply with state := ⟨[1], ["/496".toList, "497".toList]⟩ }).map
        (fun p => (p.1.effects, p.2))
        = some ([effect.apply_learn_state ⟨[1], ["/496".toList, "497".toList]⟩,
            effect.app_flush, effect.enqueue_learn_completed ERR_OK],
          ⟨[1], ["data/496".toList, "data/497".toList]⟩)
    ∧ ((sample_learner ⟨7, LearningWithPrepare, true⟩).on_copy_remote_state_completed
          sample_app_env ERR_OK 8
          { sample_learn_reply with state := ⟨[1], ["/496".toList, "497".toList]⟩ }).map
        (fun p => (p.1.app.last_committed_decree, p.1.app.last_durable_decree))
        = some (500, 500) := by
  refine ⟨?_, by decide, by decide, by decide⟩
  intro aenv r size resp r1 localState h
  unfold replica.on_copy_remote_state_completed at h
  rw [if_pos rfl] at h
  cases hl : local_files r.dir resp.state.files with
  | none => rw [hl] at h; cases h
  | some files =>
    rw [hl] at h
    have hlen := local_files_length _ _ _ hl
    simp only at h
    split at h
    · split at h
      · cases h
      · simp only [Option.some.injEq, Prod.mk.injEq] at h
        obtain ⟨h1, h2⟩ := h
        subst h1 h2
        refine ⟨⟨[effect.app_flush, effect.enqueue_learn_completed
          (if (aenv.flush (aenv.apply_learn_state r.app resp.state).2 true).1 ≠ 0
            then ERR_LOCAL_APP_FAILURE else ERR_OK)], by simp, ?_⟩, rfl, rfl, hlen⟩
        intro st hst
        simp at hst
    · simp only [Option.some.injEq, Prod.mk.injEq] at h
      obtain ⟨h1, h2⟩ := h
      subst h1 h2
      refine ⟨⟨[effect.enqueue_learn_completed
        (if (aenv.apply_learn_state r.app resp.state).1 ≠ 0
          then ERR_LOCAL_APP_FAILURE else ERR_OK)], by simp, ?_⟩, rfl, rfl, hlen⟩
      intro st hst
      simp at hst

/-! ## The offsets of the write path -/

theorem create_new_pending_buffer_eq (c : core_codec) (s : mutation_log)
    (h1 : s.pending_write = none) (h2 : s.pending_write_callbacks = none)
    (h3 : s.pending_write_timer = false) :
    s.create_new_pending_buffer c = some { s with
        pending_write := some (message.create_request c)
        pending_write_callbacks := some []
        pending_write_timer := s.batch_write
        global_end_offset := s.global_end_offset + c.MSG_HDR_SERIALIZED_SIZE } := by
  unfold mutation_log.create_new_pending_buffer
  simp [h1, h2, h3, message.total_size, message.create_request]

theorem write_header_count (f : log_file) (writer : message) (m : multi_partition_decrees)
    (b : Int) (hm : 28 + 16 * (m.length : Int) < 2147483648) :
    (f.write_header writer m b).2.2 = 28 + 16 * (m.length : Int)
    ∧ ((f.write_header writer m b).2.1.body.length : Int)
        = writer.body.length + (28 + 16 * (m.length : Int)) := by
  unfold log_file.write_header
  simp only [List.length_append, write_log_header_length, write_decrees_length, write_int32,
    le_encode_length, int_cast, size_t_cast]
  constructor
  · omega
  · push_cast
    omega

theorem create_new_log_file_eq (c : core_codec) (io : io_env) (s : mutation_log)
    (hcur : ∀ k, s.current_log_file = some k →
        ∃ cur, s.file k = some cur ∧ cur.end_offset = s.global_end_offset)
    (hrange : rollover_in_range s = true)
    (hfind : omap_find (s.last_file_number + 1) s.log_files = none)
    (h1 : s.pending_write = none) (h2 : s.pending_write_callbacks = none)
    (h3 : s.pending_write_timer = false) :
    s.create_new_log_file c io
      = some (if io.create_ok then (ERR_OK, with_new_segment c s)
          else (ERR_FILE_OPERATION_FAILED,
            { s with last_log_file := match s.current_log_file with
                            | some k => some k
                            | none => s.last_log_file })) := by
  simp only [rollover_in_range, Bool.and_eq_true, decide_eq_true_eq] at hrange
  obtain ⟨⟨⟨⟨r1, r2⟩, r3⟩, r4⟩, r5⟩ := hrange
  have hchecked : (match s.current_log_file with
      | none => some s
      | some k =>
        match s.file k with
        | none => none
        | some cur =>
          if cur.end_offset = s.global_end_offset then some { s with last_log_file := some k }
          else none) = some { s with last_log_file := match s.current_log_file with
                            | some k => some k
                            | none => s.last_log_file } := by
    cases hc : s.current_log_file with
    | none =>
      cases s
      simp only at hc
      subst hc
      rfl
    | some k =>
      obtain ⟨cur, hf, he⟩ := hcur k hc
      simp only [hf, he, if_true]
  unfold mutation_log.create_new_log_file
  simp only []
  split
  · rename_i heq
    exact absurd (hchecked.symm.trans heq) (by simp)
  rename_i s1 heq
  have hs1 : s1 = _ := Option.some.inj (heq.symm.trans hchecked)
  subst hs1
  simp only []
  rw [if_neg (by simp only [not_not]; exact ⟨r1, r2, r3, r4⟩)]
  unfold log_file.create_write
  cases hio : io.create_ok with
  | false => simp
  | true =>
    simp only [if_true, hfind, Option.isSome_none, Bool.false_eq_true, if_false]
    rw [if_neg (by simp [log_file.ctor]), if_neg (by simp [log_file.ctor])]
    simp only [mutation_log.create_new_pending_buffer, h1, h2, h3, Option.isSome_none,
      Bool.false_eq_true, if_false, message.total_size, message.create_request,
      List.length_nil, Nat.cast_zero, add_zero, ne_eq, not_true_eq_false]
    have hw := write_header_count
      (log_file.ctor (log_path s.dir (s.last_file_number + 1) s.global_end_offset) true
        (s.last_file_number + 1) s.global_end_offset s.max_staleness_for_commit false 0)
      (message.create_request c) s.init_prepared_decrees (int_cast s.log_buffer_size_bytes) r5
    simp only [message.create_request] at hw
    rw [if_neg]
    · rfl
    · simp only [message.total_size, ne_eq, not_not]
      rw [hw.1, hw.2]
      simp only [List.length_nil, Nat.cast_zero, zero_add]
      ring

theorem write_pending_mutations_eq (c : core_codec) (io : io_env) (s : mutation_log)
    (b : Bool) {pw : message} {cbs : List Nat} {k : Int} {cur : log_file}
    (hpw : s.pending_write = some pw) (hcbs : s.pending_write_callbacks = some cbs)
    (htm : s.pending_write_timer = false) (hk : s.current_log_file = some k)
    (hf : s.file k = some cur) (hr : cur.is_read = false)
    (hoff : cur.end_offset + (c.MSG_HDR_SERIALIZED_SIZE + pw.body.length : Nat)
      = s.global_end_offset) :
    s.write_pending_mutations c io b
      = if io.issue_ok = false then
          some (ERR_FILE_OPERATION_FAILED, after_flush c io s k cur pw cbs)
        else if b = true
            ∧ s.global_end_offset - cur.start_offset ≥ s.max_log_file_size_in_bytes then
          (after_flush c io s k cur pw cbs).create_new_log_file c io
        else some (ERR_OK, after_flush c io s k cur pw cbs) := by
  have hlen : ((c.seal_hdr pw.body ++ pw.body).length : Int)
      = (c.MSG_HDR_SERIALIZED_SIZE + pw.body.length : Nat) := by
    simp [c.seal_length]
  have hoff1 : s.end_offset - ((c.seal_hdr pw.body ++ pw.body).length : Int) = cur.end_offset := by
    rw [hlen, mutation_log.end_offset, ← hoff]
    ring
  have hoff2 : cur.end_offset + ((c.seal_hdr pw.body ++ pw.body).length : Int)
      = s.global_end_offset := by rw [hlen]; exact hoff
  unfold mutation_log.write_pending_mutations
  simp only [hpw, hcbs, htm, hk, hf, Bool.false_eq_true, if_false]
  unfold log_file.write_log_entry
  simp only [hr, Bool.false_eq_true, if_false, hoff1, ne_eq, not_true_eq_false, hoff2]
  cases hio : io.issue_ok with
  | false =>
    simp only [Bool.false_eq_true, if_false, not_false_eq_true, if_true]
    simp only [after_flush, hio, Bool.false_eq_true, if_false, hr, hk]
  | true =>
    simp only [if_true, not_true_eq_false, if_false, Bool.true_eq_false]
    simp only [after_flush, hio, if_true, hr, hk, ge_iff_le]

theorem append_eq (c : core_codec) (io : io_env) (s : mutation_log) (mu : mutation)
    (cb : Nat) {k : Int} {pw : message} {cbs : List Nat}
    (hk : s.current_log_file = some k)
    (hnone : s.pending_write = none →
      s.pending_write_callbacks = none ∧ s.pending_write_timer = false)
    (hpw : (with_buffer c s mu).pending_write = some pw)
    (hcbs : (with_buffer c s mu).pending_write_callbacks = some cbs) :
    s.append c io mu cb
      = (with_appended c s mu cb pw cbs).flush_after_append c io
          { mu with log_offset := (with_buffer c s mu).global_end_offset }
          (c.MSG_HDR_SERIALIZED_SIZE + pw.body.length
            + (c.write_to { mu with log_offset := (with_buffer c s mu).global_end_offset }).length
            : Nat) := by
  unfold mutation_log.append
  rw [if_neg (by simp [hk])]
  simp only []
  have hbuf : (if s.pending_write.isNone then
        mutation_log.create_new_pending_buffer c
          { s with init_prepared_decrees := bump_decree s.init_prepared_decrees mu }
      else some { s with init_prepared_decrees := bump_decree s.init_prepared_decrees mu })
      = some (with_buffer c s mu) := by
    by_cases hp : s.pending_write.isNone = true
    · have hp' : s.pending_write = none := by simpa using hp
      obtain ⟨q1, q2⟩ := hnone hp'
      rw [if_pos hp]
      simp only [mutation_log.create_new_pending_buffer, hp', q1, q2, Option.isSome_none,
        Bool.false_eq_true, if_false, message.total_size, message.create_request,
        List.length_nil, Nat.cast_zero, add_zero, ne_eq, not_true_eq_false]
      simp [with_buffer, hp', message.create_request]
    · rw [if_neg hp]
      simp [with_buffer, hp]
  rw [hbuf]
  simp only [hpw, hcbs]
  simp only [with_appended, mutation_log.end_offset, message.total_size, List.length_append]
  congr 2
  all_goals first
    | rfl
    | (push_cast; ring)

theorem omap_find_set_file {k : Int} {cur : log_file} (f : log_file)
    {m : List (Int × log_file)} (h : omap_find k m = some cur) :
    omap_find k (set_file k f m) = some f := by
  induction m with
  | nil => simp [omap_find] at h
  | cons e m ih =>
    obtain ⟨k', v'⟩ := e
    show omap_find k ((if k' = k then (k', f) else (k', v')) :: set_file k f m) = _
    by_cases hk : k' = k
    · rw [if_pos hk, omap_find, if_pos hk]
    · have h' : omap_find k m = some cur := by simpa [omap_find, hk] using h
      rw [if_neg hk, omap_find, if_neg hk]
      exact ih h'

theorem segments_wf_next_free {s : mutation_log} (h : segments_wf s) :
    omap_find (s.last_file_number + 1) s.log_files = none := by
  rw [omap_find_none_iff]
  intro hmem
  obtain ⟨e, he, hk⟩ := List.mem_map.1 hmem
  have := segments_wf_key_le h e he
  omega

theorem write_inv_after_flush (c : core_codec) (io : io_env) {s : mutation_log} {k : Int}
    {cur : log_file} (pw : message) (cbs : List Nat) (hwf : segments_wf s)
    (hk : s.current_log_file = some k) (hf : s.file k = some cur)
    (hr : cur.is_read = false) :
    write_inv c (after_flush c io s k cur pw cbs) := by
  refine ⟨segments_wf_after_flush c io pw cbs hwf hf, ?_, rfl, ?_⟩
  · refine ⟨k, _, hk, omap_find_set_file _ hf, ?_, ?_⟩
    · split
      · exact hr
      · exact hr
    · simp only [pending_size, after_flush]
      split <;> simp
  · simp [after_flush]

theorem write_inv_with_new_segment (c : core_codec) {s : mutation_log} (hwf : segments_wf s)
    (hm : 28 + 16 * (s.init_prepared_decrees.length : Int) < 2147483648) :
    write_inv c (with_new_segment c s)
    ∧ s.global_end_offset ≤ (with_new_segment c s).global_end_offset := by
  have hw := write_header_count (fresh_segment s) (message.create_request c)
    s.init_prepared_decrees (int_cast s.log_buffer_size_bytes) hm
  refine ⟨⟨segments_wf_with_new_segment c hwf, ?_, rfl, ?_⟩, ?_⟩
  · refine ⟨s.last_file_number + 1,
      ((fresh_segment s).write_header (message.create_request c) s.init_prepared_decrees
        (int_cast s.log_buffer_size_bytes)).1, rfl, ?_, ?_, ?_⟩
    · unfold mutation_log.file
      rw [with_new_segment_log_files c hwf, omap_find_append_single,
        segments_wf_next_free hwf]
      simp only [if_true]
    · simp [log_file.write_header, fresh_segment, log_file.ctor]
    · simp only [pending_size, with_new_segment, message.total_size]
      rw [hw.1, hw.2]
      simp [log_file.write_header, fresh_segment, log_file.ctor, message.create_request]
      ring
  · simp [with_new_segment]
  · simp only [with_new_segment]
    rw [hw.1]
    have := c.hdr_size_pos
    omega

theorem write_inv_last_log_file (c : core_codec) {s : mutation_log} (x : Option Int)
    (h : write_inv c s) : write_inv c { s with last_log_file := x } :=
  ⟨segments_wf_congr rfl h.1.2.1 rfl (Or.inl rfl) h.1, h.2.1, h.2.2.1, h.2.2.2⟩

theorem write_inv_with_appended (c : core_codec) {s : mutation_log} (mu : mutation)
    (cb : Nat) {pw : message} (cbs : List Nat) (h : write_inv c s)
    (hpw : (with_buffer c s mu).pending_write = some pw) :
    write_inv c (with_appended c s mu cb pw cbs)
    ∧ s.global_end_offset ≤ (with_appended c s mu cb pw cbs).global_end_offset := by
  obtain ⟨hwf, ⟨k, cur, hk, hf, hr, hoff⟩, hsome, htimer⟩ := h
  have hfields := with_appended_fields c s mu cb pw cbs
  have hbo := with_buffer_offset c s mu
  have hbuf : (with_buffer c s mu).global_end_offset = cur.end_offset + pw.total_size c
      ∧ (with_buffer c s mu).pending_write_timer = s.batch_write := by
    cases hp : s.pending_write with
    | none =>
      simp only [with_buffer, hp, Option.isNone_none, if_true, Option.some.injEq] at hpw ⊢
      subst hpw
      simp only [pending_size, hp] at hoff
      simp [hoff, message.total_size, message.create_request]
    | some pw0 =>
      simp only [with_buffer, hp, Option.isNone_some, Bool.false_eq_true, if_false,
        Option.some.injEq] at hpw ⊢
      subst hpw
      simp only [pending_size, hp] at hoff
      refine ⟨hoff, ?_⟩
      rw [htimer, hp]
      simp
  refine ⟨⟨segments_wf_with_appended c mu cb pw cbs hwf, ?_, rfl, ?_⟩, ?_⟩
  · refine ⟨k, cur, by rw [hfields.2.2.2.2.2.2.2.1]; exact hk, ?_, hr, ?_⟩
    · unfold mutation_log.file
      rw [hfields.2.2.2.2.2.2.1]
      exact hf
    · rw [hfields.1]
      simp only [pending_size, hfields.2.2.1, message.total_size, List.length_append]
      have h1 := hbuf.1
      simp only [message.total_size] at h1
      push_cast
      linarith
  · show (with_buffer c s mu).pending_write_timer = _
    rw [hbuf.2, hfields.2.2.2.2.2.2.2.2.1]
    simp [hfields.2.2.1]
  · rw [hfields.1, hbo]
    have := c.hdr_size_pos
    split <;> omega

theorem write_inv_flush (c : core_codec) (io : io_env) {s : mutation_log} (b : Bool)
    {k : Int} {cur : log_file} {pw : message} {cbs : List Nat}
    (hwf : segments_wf s) (hk : s.current_log_file = some k) (hf : s.file k = some cur)
    (hr : cur.is_read = false)
    (hoff : s.global_end_offset = cur.end_offset + pending_size c s)
    (hpw : s.pending_write = some pw) (hcbs : s.pending_write_callbacks = some cbs)
    (htm : s.pending_write_timer = false) (hrange : rollover_in_range s = true) :
    ∃ e s', s.write_pending_mutations c io b = some (e, s') ∧ write_inv c s'
      ∧ s.global_end_offset ≤ s'.global_end_offset := by
  have hoff' : cur.end_offset + (c.MSG_HDR_SERIALIZED_SIZE + pw.body.length : Nat)
      = s.global_end_offset := by
    rw [hoff]
    simp only [pending_size, hpw, message.total_size]
    push_cast
    ring
  rw [write_pending_mutations_eq c io s b hpw hcbs htm hk hf hr hoff']
  have ht := write_inv_after_flush c io pw cbs hwf hk hf hr
  have hgeo : (after_flush c io s k cur pw cbs).global_end_offset = s.global_end_offset := rfl
  by_cases hio : io.issue_ok = false
  · rw [if_pos hio]
    exact ⟨_, _, rfl, ht, le_of_eq hgeo.symm⟩
  rw [if_neg hio]
  by_cases hroll : b = true
      ∧ s.global_end_offset - cur.start_offset ≥ s.max_log_file_size_in_bytes
  · rw [if_pos hroll]
    have hrange' : rollover_in_range (after_flush c io s k cur pw cbs) = true := hrange
    have hm : 28 + 16 * ((after_flush c io s k cur pw cbs).init_prepared_decrees.length : Int)
        < 2147483648 := by
      simp only [rollover_in_range, Bool.and_eq_true, decide_eq_true_eq] at hrange'
      exact hrange'.2
    rw [create_new_log_file_eq c io _ ?_ hrange' (segments_wf_next_free ht.1) rfl rfl rfl]
    · by_cases hcreate : io.create_ok = true
      · rw [if_pos hcreate]
        obtain ⟨hw, hle⟩ := write_inv_with_new_segment c ht.1 hm
        exact ⟨_, _, rfl, hw, by rw [hgeo] at hle; exact hle⟩
      · rw [if_neg hcreate]
        exact ⟨_, _, rfl, write_inv_last_log_file c _ ht, le_of_eq hgeo.symm⟩
    · intro k' hk'
      obtain ⟨_, ⟨k2, cur2, hk2, hf2, _, hoff2⟩, _, _⟩ := ht
      rw [hk2] at hk'
      simp only [Option.some.injEq] at hk'
      subst hk'
      refine ⟨cur2, hf2, ?_⟩
      rw [hoff2]
      simp [pending_size, after_flush]
  · rw [if_neg hroll]
    exact ⟨_, _, rfl, ht, le_of_eq hgeo.symm⟩

theorem write_inv_timer (c : core_codec) (io : io_env) {s : mutation_log}
    (h : write_inv c s) (htimer : s.pending_write_timer = true)
    (hrange : rollover_in_range s = true) :
    ∃ e s', s.internal_pending_write_timer c io = some (e, s') ∧ write_inv c s'
      ∧ s.global_end_offset ≤ s'.global_end_offset := by
  obtain ⟨hwf, ⟨k, cur, hk, hf, hr, hoff⟩, hsome, htm⟩ := h
  have hp : s.pending_write.isSome = true := by
    rw [htimer] at htm
    have h2 := htm.symm
    simp only [Bool.and_eq_true] at h2
    exact h2.2
  obtain ⟨pw, hpw⟩ := Option.isSome_iff_exists.1 hp
  obtain ⟨cbs, hcbs⟩ := Option.isSome_iff_exists.1 (hsome ▸ hp)
  unfold mutation_log.internal_pending_write_timer
  rw [if_neg (by simp [hpw]), if_neg (by simp [htimer])]
  exact write_inv_flush c io true (s := s.clear_timer) (segments_wf_clear_timer hwf) hk hf hr
    hoff hpw hcbs rfl hrange

theorem write_inv_append (c : core_codec) (io : io_env) {s : mutation_log} (mu : mutation)
    (cb : Nat) (h : write_inv c s)
    (hrange : rollover_in_range (with_appended c s mu cb (message.create_request c) [])
      = true) :
    ∃ mu' s', s.append c io mu cb = some (mu', s') ∧ write_inv c s'
      ∧ s.global_end_offset ≤ s'.global_end_offset := by
  have h0 := h
  obtain ⟨hwf, ⟨k, cur, hk, hf, hr, hoff⟩, hsome, htm⟩ := h
  have hbuf : ∃ pw cbs, (with_buffer c s mu).pending_write = some pw
      ∧ (with_buffer c s mu).pending_write_callbacks = some cbs := by
    cases hp : s.pending_write with
    | none =>
      exact ⟨message.create_request c, [], by simp [with_buffer, hp],
        by simp [with_buffer, hp]⟩
    | some pw0 =>
      have hc : s.pending_write_callbacks.isSome = true := by rw [← hsome, hp]; rfl
      obtain ⟨cbs0, hcbs0⟩ := Option.isSome_iff_exists.1 hc
      exact ⟨pw0, cbs0, by simp [with_buffer, hp], by simp [with_buffer, hp, hcbs0]⟩
  obtain ⟨pw, cbs, hpw, hcbs⟩ := hbuf
  have hnone : s.pending_write = none →
      s.pending_write_callbacks = none ∧ s.pending_write_timer = false := by
    intro hn
    rw [hn] at hsome htm
    refine ⟨?_, by simpa using htm⟩
    cases hc : s.pending_write_callbacks with
    | none => rfl
    | some x => rw [hc] at hsome; simp at hsome
  rw [append_eq c io s mu cb hk hnone hpw hcbs]
  obtain ⟨h3, hle⟩ := write_inv_with_appended c mu cb cbs h0 hpw
  have hrange3 : rollover_in_range (with_appended c s mu cb pw cbs) = true := hrange
  obtain ⟨hwf3, ⟨k3, cur3, hk3, hf3, hr3, hoff3⟩, hsome3, htm3⟩ := h3
  have hpw3 := (with_appended_fields c s mu cb pw cbs).2.2.1
  have hcbs3 : (with_appended c s mu cb pw cbs).pending_write_callbacks
      = some (cbs ++ [cb]) := rfl
  have hbatch := (with_appended_fields c s mu cb pw cbs).2.2.2.2.2.2.2.2.1
  rw [hpw3] at htm3
  simp only [Option.isSome_some, Bool.and_true] at htm3
  unfold mutation_log.flush_after_append
  by_cases hb : (with_appended c s mu cb pw cbs).batch_write = true
  · rw [if_neg (by simp [hb])]
    split
    · rw [if_neg (by simp [htm3, hb])]
      split
      · obtain ⟨e, s', hs', hw', hle'⟩ := write_inv_flush c io true
          (s := (with_appended c s mu cb pw cbs).clear_timer)
          (segments_wf_clear_timer hwf3) hk3 hf3 hr3 hoff3 hpw3 hcbs3 rfl hrange3
        rw [hs']
        exact ⟨_, _, rfl, hw', le_trans hle hle'⟩
      · exact ⟨_, _, rfl, ⟨hwf3, ⟨k3, cur3, hk3, hf3, hr3, hoff3⟩, hsome3,
          by rw [hpw3]; simpa using htm3⟩, hle⟩
    · exact ⟨_, _, rfl, ⟨hwf3, ⟨k3, cur3, hk3, hf3, hr3, hoff3⟩, hsome3,
        by rw [hpw3]; simpa using htm3⟩, hle⟩
  · rw [if_pos hb]
    have hb' : (with_appended c s mu cb pw cbs).batch_write = false := by simpa using hb
    obtain ⟨e, s', hs', hw', hle'⟩ := write_inv_flush c io true
      hwf3 hk3 hf3 hr3 hoff3 hpw3 hcbs3 (by rw [htm3, hb']) hrange3
    rw [hs']
    exact ⟨_, _, rfl, hw', le_trans hle hle'⟩

theorem write_inv_start_write_service (c : core_codec) (io : io_env) {s0 : mutation_log}
    (m : multi_partition_decrees) (st : Int) (hwf : segments_wf s0)
    (hcur : s0.current_log_file = none) (h1 : s0.pending_write = none)
    (h2 : s0.pending_write_callbacks = none) (h3 : s0.pending_write_timer = false)
    (hcreate : io.create_ok = true)
    (hrange : rollover_in_range { s0 with init_prepared_decrees := m } = true) :
    ∃ s, s0.start_write_service c io m st = some (ERR_OK, s) ∧ write_inv c s
      ∧ s0.global_end_offset ≤ s.global_end_offset := by
  have hwf1 : segments_wf { s0 with init_prepared_decrees := m, max_staleness_for_commit := st } :=
    segments_wf_congr (s := s0) rfl hwf.2.1 rfl (Or.inl rfl) hwf
  have hm : 28 + 16 * (m.length : Int) < 2147483648 := by
    simp only [rollover_in_range, Bool.and_eq_true, decide_eq_true_eq] at hrange
    exact hrange.2
  unfold mutation_log.start_write_service
  simp only []
  rw [if_neg (by simp [hcur])]
  rw [create_new_log_file_eq c io
    { s0 with init_prepared_decrees := m, max_staleness_for_commit := st }
    (by intro k hk; rw [show _ = s0.current_log_file from rfl, hcur] at hk; cases hk)
    hrange (segments_wf_next_free hwf1) h1 h2 h3, if_pos hcreate]
  obtain ⟨hw, hle⟩ := write_inv_with_new_segment c hwf1 hm
  exact ⟨_, rfl, hw, hle⟩

theorem write_inv_apply_op (c : core_codec) {s : mutation_log} (op : log_op)
    (h : write_inv c s) (hop : write_op_ok c s op = true) :
    ∃ s1, apply_op c s op = some s1 ∧ write_inv c s1
      ∧ s.global_end_offset ≤ s1.global_end_offset := by
  cases op with
  | append io mu cb =>
    obtain ⟨mu', s', hs', hw, hle⟩ := write_inv_append c io mu cb h hop
    exact ⟨s', by simp [apply_op, hs'], hw, hle⟩
  | timer io =>
    simp only [write_op_ok, Bool.and_eq_true] at hop
    obtain ⟨e, s', hs', hw, hle⟩ := write_inv_timer c io h hop.1 hop.2
    exact ⟨s', by simp [apply_op, hs'], hw, hle⟩
  | _ => simp [write_op_ok] at hop

theorem write_inv_run_ops (c : core_codec) (ops : List log_op) :
    ∀ s : mutation_log, write_inv c s → write_run c ops s = true →
      ∃ s', run_ops c ops s = some s' ∧ write_inv c s'
        ∧ s.global_end_offset ≤ s'.global_end_offset := by
  induction ops with
  | nil =>
    intro s h _
    exact ⟨s, rfl, h, le_refl _⟩
  | cons op ops ih =>
    intro s h hrun
    simp only [write_run, Bool.and_eq_true] at hrun
    obtain ⟨s1, hs1, hw1, hle1⟩ := write_inv_apply_op c op h hrun.1
    rw [hs1] at hrun
    obtain ⟨s', hs', hw', hle'⟩ := ih s1 hw1 hrun.2
    exact ⟨s', by simp [run_ops, hs1, hs'], hw', le_trans hle1 hle'⟩

theorem write_inv_run_split (c : core_codec) (ops1 ops2 : List log_op) :
    ∀ s : mutation_log, write_inv c s → write_run c (ops1 ++ ops2) s = true →
      ∃ s1 s2, run_ops c ops1 s = some s1 ∧ run_ops c ops2 s1 = some s2
        ∧ write_inv c s1 ∧ write_inv c s2
        ∧ s.global_end_offset ≤ s1.global_end_offset
        ∧ s1.global_end_offset ≤ s2.global_end_offset := by
  induction ops1 with
  | nil =>
    intro s h hrun
    obtain ⟨s', hs', hw', hle'⟩ := write_inv_run_ops c ops2 s h hrun
    exact ⟨s, s', rfl, hs', h, hw', le_refl _, hle'⟩
  | cons op ops ih =>
    intro s h hrun
    simp only [List.cons_append, write_run, Bool.and_eq_true] at hrun
    obtain ⟨t, ht, hwt, hlet⟩ := write_inv_apply_op c op h hrun.1
    rw [ht] at hrun
    obtain ⟨s1, s2, e1, e2, w1, w2, l1, l2⟩ := ih t hwt hrun.2
    exact ⟨s1, s2, by simp [run_ops, ht, e1], e2, w1, w2, le_trans hlet l1, l2⟩

/-- C24: the offset bookkeeping of the write path.  On a log with a well-formed segment
map, no current segment and no pending buffer, `start_write_service` that can create its
file returns `ERR_OK`; from then on every run of appends and firings of the armed flush
timer, with batching or without, whether the writes are issued and the files of
rollovers created or not, runs to its end with no assertion failing, as long as file
numbers, offsets and header byte counts stay within their integer types.  After
`start_write_service` and after every operation of the run the invariant `write_inv`
holds: there is a current segment in write mode and `_global_end_offset` is its end
offset plus the total size of the pending buffer (0 when there is none); and
`_global_end_offset` never decreases. -/
theorem offset_bookkeeping_invariant (c : core_codec) (io0 : io_env) (s0 : mutation_log)
    (initMaxDecrees : multi_partition_decrees) (staleness : Int) (ops : List log_op)
    (hwf : segments_wf s0) (hcur : s0.current_log_file = none)
    (hpw : s0.pending_write = none) (hcbs : s0.pending_write_callbacks = none)
    (htm : s0.pending_write_timer = false) (hcreate : io0.create_ok = true)
    (hrange : rollover_in_range { s0 with init_prepared_decrees := initMaxDecrees } = true)
    (hrun : ∀ s, s0.start_write_service c io0 initMaxDecrees staleness = some (ERR_OK, s) →
      write_run c ops s = true) :
    ∃ s, s0.start_write_service c io0 initMaxDecrees staleness = some (ERR_OK, s)
      ∧ write_inv c s
      ∧ s0.global_end_offset ≤ s.global_end_offset
      ∧ ∀ ops1 ops2, ops = ops1 ++ ops2 →
          ∃ s1 s2, run_ops c ops1 s = some s1 ∧ run_ops c ops2 s1 = some s2
            ∧ write_inv c s1 ∧ write_inv c s2
            ∧ (∃ k cur, s1.current_log_file = some k ∧ s1.file k = some cur
                ∧ s1.global_end_offset = cur.end_offset + pending_size c s1)
            ∧ s.global_end_offset ≤ s1.global_end_offset
            ∧ s1.global_end_offset ≤ s2.global_end_offset := by
  obtain ⟨s, hs, hw, hle⟩ := write_inv_start_write_service c io0 initMaxDecrees staleness
    hwf hcur hpw hcbs htm hcreate hrange
  refine ⟨s, hs, hw, hle, ?_⟩
  intro ops1 ops2 hops
  have hr := hrun s hs
  rw [hops] at hr
  obtain ⟨s1, s2, e1, e2, w1, w2, l1, l2⟩ := write_inv_run_split c ops1 ops2 s hw hr
  obtain ⟨k, cur, hk, hf, _, hoff⟩ := w1.2.1
  exact ⟨s1, s2, e1, e2, w1, w2, ⟨k, cur, hk, hf, hoff⟩, l1, l2⟩

set_option maxRecDepth 1000000 in
theorem offset_bookkeeping_invariant_witness :
    write_run sample_codec write_example_ops write_example_log = true
    ∧ offsets_trace sample_codec write_example_ops write_example_log
        = [(40, some 0, 40), (134, some 78, 56), (172, some 78, 94), (210, some 78, 132),
           (210, some 210, 0), (260, some 260, 0), (366, some 310, 56)]
    ∧ ∃ s, write_example_start.start_write_service sample_codec sample_io [] 0
          = some (ERR_OK, s)
      ∧ write_inv sample_codec s
      ∧ write_example_start.global_end_offset ≤ s.global_end_offset
      ∧ ∀ ops1 ops2, write_example_ops = ops1 ++ ops2 →
          ∃ s1 s2, run_ops sample_codec ops1 s = some s1
            ∧ run_ops sample_codec ops2 s1 = some s2
            ∧ write_inv sample_codec s1 ∧ write_inv sample_codec s2
            ∧ (∃ k cur, s1.current_log_file = some k ∧ s1.file k = some cur
                ∧ s1.global_end_offset = cur.end_offset + pending_size sample_codec s1)
            ∧ s.global_end_offset ≤ s1.global_end_offset
            ∧ s1.global_end_offset ≤ s2.global_end_offset :=
  have h1 : write_run sample_codec write_example_ops write_example_log = true := by decide
  have h2 : write_example_start.start_write_service sample_codec sample_io [] 0
      = some (ERR_OK, write_example_log) := by decide
  ⟨h1, by decide,
    offset_bookkeeping_invariant sample_codec sample_io write_example_start [] 0
      write_example_ops (segments_wf_ctor 0 100 0 true 2 []) rfl rfl rfl rfl rfl (by decide)
      (fun s hs => by
        rw [h2] at hs
        cases hs
        exact h1)⟩

/-! ## The callbacks of a flush -/

theorem create_new_log_file_notified {c : core_codec} {io : io_env} {s s' : mutation_log}
    {e : error_code} (h : s.create_new_log_file c io = some (e, s')) :
    s'.notified = s.notified := by
  obtain ⟨_, _, _, ⟨_, _, hs'⟩ | ⟨_, _, _, _, _, _, hs'⟩⟩ := create_new_log_file_some h
  · rw [hs']
  · rw [hs']
    rfl

theorem write_pending_mutations_notified {c : core_codec} {io : io_env}
    {s s' : mutation_log} {e : error_code} {b : Bool} {cbs : List Nat}
    (h : s.write_pending_mutations c io b = some (e, s'))
    (hcbs : s.pending_write_callbacks = some cbs) :
    s'.notified = s.notified ++
      cbs.map fun cb =>
        (cb, (if io.issue_ok then io.aio_err else ERR_FILE_OPERATION_FAILED),
          (if io.issue_ok then io.aio_size else 0)) := by
  obtain ⟨pw, cbs', k, cur, _, hcbs', _, _, _, _, _, hcase⟩ := write_pending_mutations_some h
  rw [hcbs] at hcbs'
  simp only [Option.some.injEq] at hcbs'
  subst hcbs'
  have hflush : (after_flush c io s k cur pw cbs).notified = s.notified ++
      cbs.map fun cb =>
        (cb, (if io.issue_ok then io.aio_err else ERR_FILE_OPERATION_FAILED),
          (if io.issue_ok then io.aio_size else 0)) := by
    simp only [after_flush, internal_write_callback]
    cases io.issue_ok <;> simp
  rcases hcase with ⟨_, _, hs'⟩ | ⟨_, _, _, hs'⟩ | ⟨_, _, _, hs'⟩
  · rw [hs']; exact hflush
  · rw [hs']; exact hflush
  · rw [create_new_log_file_notified hs']; exact hflush

theorem with_appended_notified (c : core_codec) (s : mutation_log) (mu : mutation)
    (cb : Nat) (pw : message) (cbs : List Nat) :
    (with_appended c s mu cb pw cbs).notified = s.notified := by
  simp only [with_appended, with_buffer]
  split <;> rfl

/-- C22: `write_pending_mutations` on a log with a pending buffer, its callback list
`cbs` and the timer cleared.  When the write cannot be issued the call returns
`ERR_FILE_OPERATION_FAILED`, and what it has handed to callbacks is one completion
`(ERR_FILE_OPERATION_FAILED, 0)` for each callback of `cbs`, in the order of the list; no
segment is made (the keys of the segment map, the file number, the current segment and
the disk are the same) and the log has no pending buffer, no callback list and no timer.
When the write is issued, a call that returns has handed each callback of `cbs`, in the
same order, the one result `(aio_err, aio_size)` of the write, and the call does return
on a well-formed log whose numbers are in range.  The list is in the order of the
appends: an append that returns leaves the callbacks registered before it followed by its
own in the list, or has flushed them in this order. -/
theorem write_pending_mutations_notifies_in_order (c : core_codec) (io : io_env)
    (s : mutation_log) (b : Bool) (pw : message) (cbs : List Nat) (k : Int) (cur : log_file)
    (hpw : s.pending_write = some pw) (hcbs : s.pending_write_callbacks = some cbs)
    (htm : s.pending_write_timer = false) (hk : s.current_log_file = some k)
    (hf : s.file k = some cur) (hr : cur.is_read = false)
    (hoff : s.global_end_offset = cur.end_offset + pending_size c s) :
    (io.issue_ok = false →
      ∃ s', s.write_pending_mutations c io b = some (ERR_FILE_OPERATION_FAILED, s')
        ∧ s'.notified
            = s.notified ++ cbs.map (fun cb => (cb, ERR_FILE_OPERATION_FAILED, (0 : Int)))
        ∧ s'.log_files.map Prod.fst = s.log_files.map Prod.fst
        ∧ s'.last_file_number = s.last_file_number
        ∧ s'.current_log_file = s.current_log_file
        ∧ s'.fs = s.fs
        ∧ s'.pending_write = none ∧ s'.pending_write_callbacks = none
        ∧ s'.pending_write_timer = false)
    ∧ (io.issue_ok = true →
        (∀ e s', s.write_pending_mutations c io b = some (e, s') →
          s'.notified = s.notified ++ cbs.map (fun cb => (cb, io.aio_err, io.aio_size)))
        ∧ (segments_wf s → rollover_in_range s = true →
            ∃ e s', s.write_pending_mutations c io b = some (e, s')))
    ∧ (∀ (t t' : mutation_log) (io' : io_env) (mu mu' : mutation) (cb : Nat),
        t.append c io' mu cb = some (mu', t') →
        (t'.notified = t.notified
          ∧ t'.pending_write_callbacks = some (t.pending_write_callbacks.getD [] ++ [cb]))
        ∨ ∃ err size, t'.notified = t.notified ++
            (t.pending_write_callbacks.getD [] ++ [cb]).map fun x => (x, err, size)) := by
  have hoff' : cur.end_offset + (c.MSG_HDR_SERIALIZED_SIZE + pw.body.length : Nat)
      = s.global_end_offset := by
    rw [hoff]
    simp only [pending_size, hpw, message.total_size]
    push_cast
    ring
  have heq := write_pending_mutations_eq c io s b hpw hcbs htm hk hf hr hoff'
  refine ⟨?_, ?_, ?_⟩
  · intro hio
    rw [if_pos hio] at heq
    refine ⟨_, heq, ?_, ?_, rfl, rfl, ?_, rfl, rfl, rfl⟩
    · simp [after_flush, hio, internal_write_callback]
    · simp only [after_flush]
      exact set_file_keys _ _ _
    · simp [after_flush, hio]
  · intro hio
    refine ⟨?_, ?_⟩
    · intro e s' hs'
      rw [write_pending_mutations_notified hs' hcbs]
      simp [hio]
    · intro hwf hrange
      obtain ⟨e, s', hs', _, _⟩ := write_inv_flush c io b hwf hk hf hr hoff hpw hcbs htm hrange
      exact ⟨e, s', hs'⟩
  · intro t t' io' mu mu' cb ha
    obtain ⟨_, pw1, cbs1, hpw1, hcbs1, hnone, hfl⟩ := append_some ha
    have hold : t.pending_write_callbacks.getD [] = cbs1 := by
      cases hp : t.pending_write with
      | none =>
        simp only [with_buffer, hp, Option.isNone_none, if_true, Option.some.injEq] at hcbs1
        rw [(hnone hp).1, ← hcbs1]
        rfl
      | some pw0 =>
        simp only [with_buffer, hp, Option.isNone_some, Bool.false_eq_true, if_false]
          at hcbs1
        rw [hcbs1]
        rfl
    rw [hold]
    have hn3 := with_appended_notified c t mu cb pw1 cbs1
    have hc3 : (with_appended c t mu cb pw1 cbs1).pending_write_callbacks
        = some (cbs1 ++ [cb]) := rfl
    obtain ⟨_, ⟨_, e, hw⟩ | ⟨_, _, _, _, e, hw⟩ | ⟨_, hs', _⟩⟩ := flush_after_append_some hfl
    · right
      exact ⟨_, _, by rw [write_pending_mutations_notified hw hc3, hn3]⟩
    · right
      exact ⟨_, _, by rw [write_pending_mutations_notified hw hc3]; rw [← hn3]; rfl⟩
    · left
      rw [hs']
      exact ⟨hn3, hc3⟩

set_option maxRecDepth 1000000 in
theorem write_pending_mutations_notifies_in_order_witness :
    three_pending_log.pending_write_callbacks = some [7, 8, 9]
    ∧ three_pending_log.notified = []
    ∧ ((three_pending_log.write_pending_mutations sample_codec
          ⟨true, false, true, ERR_OK, 0⟩ true).map
        fun r => (r.1, r.2.notified, r.2.log_files.map Prod.fst))
        = some (ERR_FILE_OPERATION_FAILED,
            [(7, ERR_FILE_OPERATION_FAILED, (0 : Int)), (8, ERR_FILE_OPERATION_FAILED, 0),
             (9, ERR_FILE_OPERATION_FAILED, 0)], [(1 : Int)])
    ∧ ((three_pending_log.write_pending_mutations sample_codec
          ⟨true, true, true, ERR_OK, 126⟩ true).map
        fun r => (r.1, r.2.notified, r.2.log_files.map Prod.fst))
        = some (ERR_OK, [(7, ERR_OK, (126 : Int)), (8, ERR_OK, 126), (9, ERR_OK, 126)],
            [(1 : Int)])
    ∧ ∃ s', three_pending_log.write_pending_mutations sample_codec
          ⟨true, false, true, ERR_OK, 0⟩ true = some (ERR_FILE_OPERATION_FAILED, s')
        ∧ s'.notified = three_pending_log.notified
            ++ [7, 8, 9].map (fun cb => (cb, ERR_FILE_OPERATION_FAILED, (0 : Int)))
        ∧ s'.log_files.map Prod.fst = three_pending_log.log_files.map Prod.fst
        ∧ s'.last_file_number = three_pending_log.last_file_number
        ∧ s'.current_log_file = three_pending_log.current_log_file
        ∧ s'.fs = three_pending_log.fs
        ∧ s'.pending_write = none ∧ s'.pending_write_callbacks = none
        ∧ s'.pending_write_timer = false :=
  ⟨by decide, by decide, by decide, by decide,
    (write_pending_mutations_notifies_in_order sample_codec ⟨true, false, true, ERR_OK, 0⟩
      three_pending_log true (three_pending_log.pending_write.getD ⟨[], [], []⟩) [7, 8, 9] 1
      ((three_pending_log.file 1).getD empty_write_segment)
      (by decide) (by decide) (by decide) (by decide) (by decide) (by decide)
      (by decide)).1 rfl⟩

end rDSN
